import Mathlib

/-!
# JANI next-state generator (`storm/generator/JaniNextStateGenerator.cpp`)

A shallow embedding of the explicit-state JANI next-state generator of storm and
machine-checked statements about it.

Conventions of the embedding

* `ValueType` is instantiated with exact rationals (`storm::RationalNumber`), here `ℚ`.
* `int_fast64_t` values are `Int`; the conversion to `uint64_t` that happens when such
  a value is handed to `BitVector::setFromInt` is `toUInt64` (reduction modulo `2^64`).
* Exceptions raised with `STORM_LOG_THROW` are values of `Exception` carried by `Except`.
  `STORM_LOG_ASSERT` is compiled out (release build) and is a no-op.
* The mutable members `this->evaluator` and the state owned by the interning callback are
  passed explicitly: a function that touches them takes the current value and returns
  the new one.
* Expressions are evaluated by the external `ExpressionEvaluator`; an expression is
  represented by its type and its value under each accessor of the evaluator.
-/

namespace Storm

/-! ## Compressed states -/

/-- Modelled from the spec: `storm::storage::BitVector` (`CompressedState`) is not part of
the sources at hand.  The spec describes it as fixed-width packed bits with the operations
"read/write a single bit, read/write an unsigned integer field at a (offset, width) slot".
A bit vector is the list of its bits. -/
abbrev BitVector := List Bool

/-- The compressed representation of a state is a bit vector. -/
abbrev CompressedState := BitVector

/-- Modelled from the spec: `BitVector(length)`, a vector of `length` zero bits. -/
def BitVector.create (length : Nat) : BitVector := List.replicate length false

/-- Modelled from the spec: `BitVector::get(index)`, read a single bit. -/
def BitVector.get (s : BitVector) (index : Nat) : Bool := s.getD index false

/-- Modelled from the spec: `BitVector::set(index, value)`, write a single bit. -/
def BitVector.set (s : BitVector) (index : Nat) (value : Bool) : BitVector :=
  List.set s index value

/-- Modelled from the spec: `BitVector::getAsInt(bitIndex, numberOfBits)`, read the unsigned
integer stored in the slot; the bit at `bitIndex` is the most significant one. -/
def BitVector.getAsInt (s : BitVector) (bitIndex : Nat) : Nat → Nat
  | 0 => 0
  | w + 1 => 2 * BitVector.getAsInt s bitIndex w + (if BitVector.get s (bitIndex + w) then 1 else 0)

/-- Modelled from the spec: `BitVector::setFromInt(bitIndex, numberOfBits, value)`, write the
low `numberOfBits` bits of `value` into the slot; the bit at `bitIndex` is the most
significant one. -/
def BitVector.setFromInt (s : BitVector) (bitIndex : Nat) : Nat → Nat → BitVector
  | 0, _ => s
  | w + 1, value =>
    BitVector.set (BitVector.setFromInt s bitIndex w (value / 2)) (bitIndex + w) (value % 2 == 1)

/-- Conversion of an `int_fast64_t` to `uint64_t`. -/
def toUInt64 (x : Int) : Nat := (x % 2 ^ 64).toNat

/-- The value of `int_fast64_t` that holds the result of an addition or subtraction of two
values of `int_fast64_t`: the result wraps around at 64 bits (two's complement). -/
def toInt64 (x : Int) : Int := (x + 2 ^ 63) % 2 ^ 64 - 2 ^ 63

/-! ## Expressions and the evaluator -/

/-- The types of expression variables. -/
inductive ExpressionType where
  | boolean
  | integer
  | rational
  deriving DecidableEq, Repr

/-- A `storm::expressions::Variable`: an index into the expression manager and a type. -/
structure Variable where
  index : Nat
  type : ExpressionType
  deriving DecidableEq, Repr

/-- `Variable::hasBooleanType`. -/
def Variable.hasBooleanType (v : Variable) : Bool := v.type == ExpressionType.boolean

/-- `Variable::hasIntegerType`. -/
def Variable.hasIntegerType (v : Variable) : Bool := v.type == ExpressionType.integer

/-- `Variable::hasRationalType`. -/
def Variable.hasRationalType (v : Variable) : Bool := v.type == ExpressionType.rational

/-- The valuation held by `storm::expressions::ExpressionEvaluator` (an external
collaborator): the current value of every variable. -/
structure ExpressionEvaluator where
  booleanValues : Variable → Bool
  integerValues : Variable → Int
  rationalValues : Variable → ℚ

/-- `ExpressionEvaluator::setBooleanValue`. -/
def ExpressionEvaluator.setBooleanValue (ev : ExpressionEvaluator) (v : Variable) (b : Bool) :
    ExpressionEvaluator :=
  { ev with booleanValues := fun w => if w = v then b else ev.booleanValues w }

/-- `ExpressionEvaluator::setIntegerValue`. -/
def ExpressionEvaluator.setIntegerValue (ev : ExpressionEvaluator) (v : Variable) (i : Int) :
    ExpressionEvaluator :=
  { ev with integerValues := fun w => if w = v then i else ev.integerValues w }

/-- `ExpressionEvaluator::setRationalValue`. -/
def ExpressionEvaluator.setRationalValue (ev : ExpressionEvaluator) (v : Variable) (q : ℚ) :
    ExpressionEvaluator :=
  { ev with rationalValues := fun w => if w = v then q else ev.rationalValues w }

/-- A `storm::expressions::Expression` as the evaluator sees it: its type and the value
the evaluator returns for it through `asBool`, `asInt` and `asRational`. -/
structure Expression where
  type : ExpressionType
  asBool : ExpressionEvaluator → Bool
  asInt : ExpressionEvaluator → Int
  asRational : ExpressionEvaluator → ℚ

/-- `Expression::hasBooleanType`. -/
def Expression.hasBooleanType (e : Expression) : Bool := e.type == ExpressionType.boolean

/-- `Expression::hasIntegerType`. -/
def Expression.hasIntegerType (e : Expression) : Bool := e.type == ExpressionType.integer

/-! ## Variable information (the layout) -/

/-- `BooleanVariableInformation`: a boolean variable and the bit that stores it. -/
structure BooleanVariableInformation where
  var : Variable
  bitOffset : Nat

/-- `IntegerVariableInformation`: a bounded integer variable and its slot. -/
structure IntegerVariableInformation where
  var : Variable
  lowerBound : Int
  upperBound : Int
  bitOffset : Nat
  bitWidth : Nat
  forceOutOfBoundsCheck : Bool

/-- `LocationVariableInformation`: the slot that stores the location of one automaton. -/
structure LocationVariableInformation where
  bitOffset : Nat
  bitWidth : Nat

/-- The exceptions the generator raises. -/
inductive Exception where
  | WrongFormatException
  | InvalidArgumentException
  | UnexpectedException
  | InvalidSettingsException
  | NotSupportedException
  /-- Not an exception of storm: the run left the defined behaviour of C++ (an iterator
  was advanced past the end of its container, an index was out of range). -/
  | UndefinedBehavior
  /-- Not an exception of storm: a loop of the embedding reached its iteration bound. -/
  | OutOfFuel
  /-- Not an exception of storm: a rational number was divided by zero, which kills the
  program (the division of `RationalNumber` has no result for the divisor zero). -/
  | DivisionByZero
  deriving DecidableEq, Repr

/-- `VariableInformation`: the layout of a compressed state.  `totalBitOffset` is what
`getTotalBitOffset(true)` returns, the number of bits of a state.  The two array replacement
lookups (`getIntegerArrayVariableReplacement`, `getBooleanArrayVariableReplacement`) are
not part of the sources at hand and are parameters of the layout; they raise when the
index is outside the array. -/
structure VariableInformation where
  locationVariables : List LocationVariableInformation
  booleanVariables : List BooleanVariableInformation
  integerVariables : List IntegerVariableInformation
  totalBitOffset : Nat
  getIntegerArrayVariableReplacement : Variable → Int → Except Exception IntegerVariableInformation
  getBooleanArrayVariableReplacement : Variable → Int → Except Exception BooleanVariableInformation

/-- `JaniNextStateGenerator::getLocation` (lines 146-153). -/
def getLocation (state : CompressedState) (locationVariable : LocationVariableInformation) : Nat :=
  if locationVariable.bitWidth == 0 then 0
  else BitVector.getAsInt state locationVariable.bitOffset locationVariable.bitWidth

/-- `JaniNextStateGenerator::setLocation` (lines 155-160). -/
def setLocation (state : CompressedState) (locationVariable : LocationVariableInformation)
    (locationIndex : Nat) : CompressedState :=
  if locationVariable.bitWidth != 0 then
    BitVector.setFromInt state locationVariable.bitOffset locationVariable.bitWidth locationIndex
  else state

/-- `JaniNextStateGenerator::getLocations` (lines 162-176). -/
def getLocations (vi : VariableInformation) (state : CompressedState) : List Nat :=
  vi.locationVariables.map (fun it =>
    if it.bitWidth == 0 then 0 else BitVector.getAsInt state it.bitOffset it.bitWidth)

/-- The interning callback `StateToIdCallback`: it receives a compressed state and the
state `σ` it owns (its storage), and returns the id together with its new state. -/
abbrev StateToIdCallback (σ : Type) := CompressedState → σ → Nat × σ

/-- An interning callback that records every state it is handed, in call order, and
numbers the calls. -/
def recordingCallback : StateToIdCallback (List CompressedState) :=
  fun s log => (log.length, log ++ [s])

/-! ## Initial states: brute-force enumeration -/

/-- The loop over the boolean variables in the enumeration loop of `getInitialStates`
(lines 257-266); returns the state and `changedBooleanVariable`. -/
def getInitialStates.booleanPass :
    List BooleanVariableInformation → CompressedState → CompressedState × Bool
  | [], s => (s, false)
  | booleanVariable :: rest, s =>
    if BitVector.get s booleanVariable.bitOffset then
      (BitVector.set s booleanVariable.bitOffset true, true)
    else
      getInitialStates.booleanPass rest (BitVector.set s booleanVariable.bitOffset false)

/-- The loop over the integer variables in the enumeration loop of `getInitialStates`
(lines 272-285); takes and returns `currentIntegerValues` and the state, and returns
`changedIntegerVariable`.  The counters and the difference `upperBound - lowerBound`
(line 274) are values of `int_fast64_t`: the difference and the increment wrap around at 64
bits. -/
def getInitialStates.integerPass :
    List IntegerVariableInformation → List Int → CompressedState →
      List Int × CompressedState × Bool
  | integerVariable :: rest, current :: values, s =>
    if current < toInt64 (integerVariable.upperBound - integerVariable.lowerBound) then
      (toInt64 (current + 1) :: values,
        BitVector.setFromInt s integerVariable.bitOffset integerVariable.bitWidth
          (toUInt64 (toInt64 (current + 1))), true)
    else
      let s1 := BitVector.setFromInt s integerVariable.bitOffset integerVariable.bitWidth
        (toUInt64 integerVariable.lowerBound)
      let r := getInitialStates.integerPass rest values s1
      (integerVariable.lowerBound :: r.1, r.2.1, r.2.2)
  | _, values, s => (values, s, false)

/-- The `while (!done)` loop of `getInitialStates` (lines 255-293).  `fuel` bounds the
number of iterations; `none` means the bound was reached before `done`. -/
def getInitialStates.loop {σ : Type} (vi : VariableInformation) (cb : StateToIdCallback σ) :
    Nat → CompressedState → List Int → List Nat → σ → Option (List Nat × σ)
  | 0, _, _, _, _ => none
  | fuel + 1, initialState, currentIntegerValues, initialStateIndices, st =>
    let b := getInitialStates.booleanPass vi.booleanVariables initialState
    if b.2 then
      let r := cb b.1 st
      getInitialStates.loop vi cb fuel b.1 currentIntegerValues (initialStateIndices ++ [r.1]) r.2
    else
      let i := getInitialStates.integerPass vi.integerVariables currentIntegerValues b.1
      if i.2.2 then
        let r := cb i.2.1 st
        getInitialStates.loop vi cb fuel i.2.1 i.1 (initialStateIndices ++ [r.1]) r.2
      else
        some (initialStateIndices, st)

/-- The loop that checks the bounds and zeroes the integer slots (lines 245-251). -/
def getInitialStates.init :
    List IntegerVariableInformation → CompressedState → Except Exception (List Int × CompressedState)
  | [], s => .ok ([], s)
  | v :: rest, s =>
    if v.lowerBound ≤ v.upperBound then
      match getInitialStates.init rest (BitVector.setFromInt s v.bitOffset v.bitWidth 0) with
      | .ok r => .ok (0 :: r.1, r.2)
      | .error e => .error e
    else .error Exception.InvalidArgumentException

/-- `JaniNextStateGenerator::getInitialStates`, the branch for models with trivial initial
states (lines 242-296): brute-force enumeration.  (The other branch enumerates with an SMT
solver, an external collaborator.)  The result is `none` when the enumeration loop did not
finish within `fuel` iterations. -/
def getInitialStates {σ : Type} (vi : VariableInformation) (cb : StateToIdCallback σ) (st : σ)
    (fuel : Nat) : Option (Except Exception (List Nat × σ)) :=
  match getInitialStates.init vi.integerVariables (BitVector.create vi.totalBitOffset) with
  | .error e => some (.error e)
  | .ok (currentIntegerValues, initialState) =>
    let r := cb initialState st
    (getInitialStates.loop vi cb fuel initialState currentIntegerValues [r.1] r.2).map Except.ok

/-! ## The JANI model: assignments, destinations, edges, automata -/

/-- An `LValue`: a variable or an array access `array[arrayIndex]`. -/
inductive LValue where
  | variable (v : Variable)
  | arrayAccess (array : Variable) (arrayIndex : Expression)

/-- A `storm::jani::Assignment`: `lValue := assignedExpression` at an assignment level;
`transient` tells whether the assigned variable is transient. -/
structure Assignment where
  lValue : LValue
  assignedExpression : Expression
  level : Int
  transient : Bool

/-- `Assignment::lValueIsVariable`. -/
def Assignment.lValueIsVariable (a : Assignment) : Bool :=
  match a.lValue with
  | LValue.variable _ => true
  | LValue.arrayAccess _ _ => false

/-- `Assignment::lValueIsArrayAccess`. -/
def Assignment.lValueIsArrayAccess (a : Assignment) : Bool :=
  match a.lValue with
  | LValue.variable _ => false
  | LValue.arrayAccess _ _ => true

/-- `Assignment::getExpressionVariable`: the assigned variable (the array for an array
access). -/
def Assignment.getExpressionVariable (a : Assignment) : Variable :=
  match a.lValue with
  | LValue.variable v => v
  | LValue.arrayAccess array _ => array

/-- Modelled from the spec: `OrderedAssignments` is not part of the sources at hand.  The
spec describes "ordered assignments partitioned into persistent and transient, indexed by
an integer assignment level"; the assignments are the list in its stored order. -/
abbrev OrderedAssignments := List Assignment

/-- Modelled from the spec: `OrderedAssignments::getNonTransientAssignments(level)`, the
persistent assignments of the given level, in stored order. -/
def OrderedAssignments.getNonTransientAssignments (as : OrderedAssignments) (level : Int) :
    List Assignment :=
  as.filter (fun a => !a.transient && a.level == level)

/-- Modelled from the spec: `OrderedAssignments::getTransientAssignments(level)`, the
transient assignments of the given level, in stored order. -/
def OrderedAssignments.getTransientAssignments (as : OrderedAssignments) (level : Int) :
    List Assignment :=
  as.filter (fun a => a.transient && a.level == level)

/-- Modelled from the spec: `OrderedAssignments::getTransientAssignments()`, all transient
assignments, in stored order. -/
def OrderedAssignments.getAllTransientAssignments (as : OrderedAssignments) : List Assignment :=
  as.filter (fun a => a.transient)

/-- Modelled from the spec: `OrderedAssignments::getLowestLevel(true)`, the lowest level
of a transient assignment; `none` when there is none (the source then reads the front of
an empty vector). -/
def OrderedAssignments.getLowestLevel (as : OrderedAssignments) : Option Int :=
  ((as.filter (fun a => a.transient)).map (fun a => a.level)).min?

/-- Modelled from the spec: `OrderedAssignments::getHighestLevel(true)`, the highest level
of a transient assignment; `none` when there is none. -/
def OrderedAssignments.getHighestLevel (as : OrderedAssignments) : Option Int :=
  ((as.filter (fun a => a.transient)).map (fun a => a.level)).max?

/-- A `storm::jani::EdgeDestination`. -/
structure EdgeDestination where
  locationIndex : Nat
  probability : Expression
  orderedAssignments : OrderedAssignments

/-- `EdgeDestination::hasTransientAssignment`. -/
def EdgeDestination.hasTransientAssignment (d : EdgeDestination) : Bool :=
  d.orderedAssignments.any (fun a => a.transient)

/-- A `storm::jani::Edge`.  `lowestAssignmentLevel` and `highestAssignmentLevel` are what
`Edge::getLowestAssignmentLevel` and `Edge::getHighestAssignmentLevel` return (`Edge` is
not part of the sources at hand). -/
structure Edge where
  sourceLocationIndex : Nat
  actionIndex : Nat
  guard : Expression
  rate : Option Expression
  assignments : OrderedAssignments
  destinations : List EdgeDestination
  lowestAssignmentLevel : Int
  highestAssignmentLevel : Int

/-- `Edge::hasRate`. -/
def Edge.hasRate (e : Edge) : Bool := e.rate.isSome

/-- `Edge::getNumberOfDestinations`. -/
def Edge.getNumberOfDestinations (e : Edge) : Nat := e.destinations.length

/-- A `storm::jani::Location` with its (transient) assignments. -/
structure Location where
  assignments : OrderedAssignments

/-- A `storm::jani::Automaton`. -/
structure Automaton where
  name : Nat
  locations : List Location
  edges : List Edge

/-! ## Transient variables -/

/-- Information about a transient boolean variable. -/
structure TransientBooleanVariableData where
  var : Variable
  defaultValue : Bool

/-- Information about a transient integer variable. -/
structure TransientIntegerVariableData where
  var : Variable
  lowerBound : Int
  upperBound : Int
  defaultValue : Int

/-- Information about a transient rational variable. -/
structure TransientRationalVariableData where
  var : Variable
  defaultValue : ℚ

/-- Modelled from the spec: `TransientVariableInformation` is not part of the sources at
hand: the "analogous layout for transient (label / reward) variables", of the boolean,
integer and rational kind, kept outside the compressed state.  The array replacement
lookups are parameters. -/
structure TransientVariableInformation where
  booleanVariableInformation : List TransientBooleanVariableData
  integerVariableInformation : List TransientIntegerVariableData
  rationalVariableInformation : List TransientRationalVariableData
  getIntegerArrayVariableReplacement : Variable → Int → Except Exception TransientIntegerVariableData
  getBooleanArrayVariableReplacement : Variable → Int → Except Exception TransientBooleanVariableData
  getRationalArrayVariableReplacement : Variable → Int → Except Exception TransientRationalVariableData

/-- Modelled from the spec: `TransientVariableInformation::setDefaultValuesInEvaluator`
("restore evaluator defaults for transients"): every transient variable gets its default
value. -/
def TransientVariableInformation.setDefaultValuesInEvaluator (ti : TransientVariableInformation)
    (ev : ExpressionEvaluator) : ExpressionEvaluator :=
  let ev1 := ti.booleanVariableInformation.foldl (fun e i => e.setBooleanValue i.var i.defaultValue) ev
  let ev2 := ti.integerVariableInformation.foldl (fun e i => e.setIntegerValue i.var i.defaultValue) ev1
  ti.rationalVariableInformation.foldl (fun e i => e.setRationalValue i.var i.defaultValue) ev2

/-- Modelled from the spec: `TransientVariableValuation`, the "valuation buffer" into
which transient assignments accumulate. -/
structure TransientVariableValuation where
  booleanValues : List (TransientBooleanVariableData × Bool)
  integerValues : List (TransientIntegerVariableData × Int)
  rationalValues : List (TransientRationalVariableData × ℚ)

/-- `TransientVariableValuation::clear` (also the freshly constructed valuation). -/
def TransientVariableValuation.clear : TransientVariableValuation :=
  { booleanValues := [], integerValues := [], rationalValues := [] }

/-- `TransientVariableValuation::empty`. -/
def TransientVariableValuation.empty (t : TransientVariableValuation) : Bool :=
  t.booleanValues.isEmpty && t.integerValues.isEmpty && t.rationalValues.isEmpty

/-- Modelled from the spec: `TransientVariableValuation::setInEvaluator`, the buffer is
"committed to the evaluator's environment in one batch".  (The source passes the option
`explorationChecks` as a second argument; the spec describes no check at this point, the
bounds of transient integers are checked by `applyTransientUpdate`.) -/
def TransientVariableValuation.setInEvaluator (t : TransientVariableValuation)
    (ev : ExpressionEvaluator) : ExpressionEvaluator :=
  let ev1 := t.booleanValues.foldl (fun e p => e.setBooleanValue p.1.var p.2) ev
  let ev2 := t.integerValues.foldl (fun e p => e.setIntegerValue p.1.var p.2) ev1
  t.rationalValues.foldl (fun e p => e.setRationalValue p.1.var p.2) ev2

/-- Modelled from the spec: `unpackStateIntoEvaluator` is not part of the sources at hand.
It loads a compressed state into the evaluator ("unpack s into the evaluator"): every
boolean variable gets its bit and every integer variable the stored integer plus its lower
bound ("the stored integer v in a BoundedInt slot encodes the semantic value
v + lowerBound"). -/
def unpackStateIntoEvaluator (state : CompressedState) (vi : VariableInformation)
    (ev : ExpressionEvaluator) : ExpressionEvaluator :=
  let ev1 := vi.booleanVariables.foldl
    (fun e b => e.setBooleanValue b.var (BitVector.get state b.bitOffset)) ev
  vi.integerVariables.foldl
    (fun e i => e.setIntegerValue i.var
      ((BitVector.getAsInt state i.bitOffset i.bitWidth : Int) + i.lowerBound)) ev1

/-! ## Options and the generator -/

/-- The options of `NextStateGeneratorOptions` that the generator reads. -/
structure NextStateGeneratorOptions where
  explorationChecks : Bool
  addOutOfBoundsState : Bool
  applyMaximalProgressAssumption : Bool
  buildChoiceOrigins : Bool
  addOverlappingGuardLabel : Bool
  scaleAndLiftTransitionRewards : Bool

/-- The model types the generator supports (`getModelType`, lines 119-129). -/
inductive ModelType where
  | DTMC
  | CTMC
  | MDP
  | MA
  deriving DecidableEq, Repr

/-- The edges of one automaton that take part in a synchronization, with their indices. -/
abbrev EdgeSetWithIndices := List (Nat × Edge)

/-- The edges of one automaton, keyed by source location (`LocationsAndEdges`). -/
abbrev LocationsAndEdges := List (Nat × EdgeSetWithIndices)

/-- The participating automata (by index) with their edges (`AutomataAndEdges`). -/
abbrev AutomataAndEdges := List (Nat × LocationsAndEdges)

/-- A synchronization group: the optional output action index and the automata with their
edges (`OutputAndEdges`). -/
abbrev OutputAndEdges := Option Nat × AutomataAndEdges

/-- The enabled edges per participating automaton (`AutomataEdgeSets`). -/
abbrev AutomataEdgeSets := List (Nat × EdgeSetWithIndices)

/-- The members of `JaniNextStateGenerator` (and of its base class) that the operations
read.  `encodeAutomatonAndEdgeIndices` is `Model::encodeAutomatonAndEdgeIndices`, and
`globalVariables` the expression variables of the global variables of the model; neither
class is part of the sources at hand. -/
structure JaniNextStateGenerator where
  options : NextStateGeneratorOptions
  modelType : ModelType
  variableInformation : VariableInformation
  transientVariableInformation : TransientVariableInformation
  parallelAutomata : List Automaton
  edges : List OutputAndEdges
  rewardExpressions : List Expression
  hasStateActionRewards : Bool
  evaluateRewardExpressionsAtEdges : Bool
  evaluateRewardExpressionsAtDestinations : Bool
  terminalStates : List (Expression × Bool)
  outOfBoundsState : CompressedState
  globalVariables : List Variable
  encodeAutomatonAndEdgeIndices : Nat → Nat → Nat

/-- `JaniNextStateGenerator::isDeterministicModel` (lines 131-134), which asks the model
(`Model::isDeterministicModel` is not part of the sources at hand; the spec: "declared
deterministic (DTMC / CTMC)"). -/
def JaniNextStateGenerator.isDeterministicModel (g : JaniNextStateGenerator) : Bool :=
  g.modelType == ModelType.DTMC || g.modelType == ModelType.CTMC

/-- `JaniNextStateGenerator::isDiscreteTimeModel` (lines 136-139), which asks the model
(`Model::isDiscreteTimeModel` is not part of the sources at hand): the discrete-time model
types are DTMC and MDP. -/
def JaniNextStateGenerator.isDiscreteTimeModel (g : JaniNextStateGenerator) : Bool :=
  g.modelType == ModelType.DTMC || g.modelType == ModelType.MDP

/-! ## Applying updates -/

/-- The bounds check and write of one integer assignment in `applyUpdate` (lines 328-337,
and 346-355 for array elements, where `check` is `explorationChecks` alone). -/
def applyUpdate.writeInteger (g : JaniNextStateGenerator) (state : CompressedState)
    (info : IntegerVariableInformation) (check : Bool) (assignedValue : Int) :
    Except Exception CompressedState :=
  if g.options.addOutOfBoundsState then
    let state1 :=
      if assignedValue < info.lowerBound || assignedValue > info.upperBound then g.outOfBoundsState
      else state
    .ok (BitVector.setFromInt state1 info.bitOffset info.bitWidth
      (toUInt64 (assignedValue - info.lowerBound)))
  else if check then
    if assignedValue < info.lowerBound then .error Exception.WrongFormatException
    else if assignedValue > info.upperBound then .error Exception.WrongFormatException
    else .ok (BitVector.setFromInt state info.bitOffset info.bitWidth
      (toUInt64 (assignedValue - info.lowerBound)))
  else
    .ok (BitVector.setFromInt state info.bitOffset info.bitWidth
      (toUInt64 (assignedValue - info.lowerBound)))

/-- The loop over the boolean assignments in `applyUpdate` (lines 312-319).  `boolIt` is
the rest of `booleanVariables` from the iterator on.  Returns the assignments not yet
consumed and the state. -/
def applyUpdate.booleanLoop (ev : ExpressionEvaluator) :
    List Assignment → List BooleanVariableInformation → CompressedState →
      Except Exception (List Assignment × CompressedState)
  | [], _, state => .ok ([], state)
  | a :: rest, boolIt, state =>
    if a.lValueIsVariable && a.getExpressionVariable.hasBooleanType then
      match boolIt.dropWhile (fun i => i.var != a.getExpressionVariable) with
      | [] => .error Exception.UndefinedBehavior
      | i :: its =>
        applyUpdate.booleanLoop ev rest (i :: its)
          (BitVector.set state i.bitOffset (a.assignedExpression.asBool ev))
    else .ok (a :: rest, state)

/-- The loop over the integer assignments in `applyUpdate` (lines 321-338). -/
def applyUpdate.integerLoop (g : JaniNextStateGenerator) (ev : ExpressionEvaluator) :
    List Assignment → List IntegerVariableInformation → CompressedState →
      Except Exception (List Assignment × CompressedState)
  | [], _, state => .ok ([], state)
  | a :: rest, integerIt, state =>
    if a.lValueIsVariable && a.getExpressionVariable.hasIntegerType then
      match integerIt.dropWhile (fun i => i.var != a.getExpressionVariable) with
      | [] => .error Exception.UndefinedBehavior
      | i :: its =>
        match applyUpdate.writeInteger g state i
            (i.forceOutOfBoundsCheck || g.options.explorationChecks) (a.assignedExpression.asInt ev) with
        | .error e => .error e
        | .ok state1 => applyUpdate.integerLoop g ev rest (i :: its) state1
    else .ok (a :: rest, state)

/-- The loop over the array access assignments in `applyUpdate` (lines 339-362). -/
def applyUpdate.arrayLoop (g : JaniNextStateGenerator) (ev : ExpressionEvaluator) :
    List Assignment → CompressedState → Except Exception (List Assignment × CompressedState)
  | [], state => .ok ([], state)
  | a :: rest, state =>
    match a.lValue with
    | LValue.variable _ => .ok (a :: rest, state)
    | LValue.arrayAccess array index =>
      let arrayIndex := index.asInt ev
      if a.assignedExpression.hasIntegerType then
        match g.variableInformation.getIntegerArrayVariableReplacement array arrayIndex with
        | .error e => .error e
        | .ok intInfo =>
          match applyUpdate.writeInteger g state intInfo g.options.explorationChecks
              (a.assignedExpression.asInt ev) with
          | .error e => .error e
          | .ok state1 => applyUpdate.arrayLoop g ev rest state1
      else if a.assignedExpression.hasBooleanType then
        match g.variableInformation.getBooleanArrayVariableReplacement array arrayIndex with
        | .error e => .error e
        | .ok boolInfo =>
          applyUpdate.arrayLoop g ev rest
            (BitVector.set state boolInfo.bitOffset (a.assignedExpression.asBool ev))
      else .error Exception.UnexpectedException

/-- `JaniNextStateGenerator::applyUpdate` (lines 301-366): write the target location and
apply the persistent assignments of the destination at `assignmentLevel`; all right-hand
sides are evaluated by `expressionEvaluator`, which is not modified.  The assertion that
all assignments were consumed is compiled out. -/
def applyUpdate (g : JaniNextStateGenerator) (state : CompressedState)
    (destination : EdgeDestination) (locationVariable : LocationVariableInformation)
    (assignmentLevel : Int) (expressionEvaluator : ExpressionEvaluator) :
    Except Exception CompressedState :=
  let state0 := setLocation state locationVariable destination.locationIndex
  let assignments := destination.orderedAssignments.getNonTransientAssignments assignmentLevel
  match applyUpdate.booleanLoop expressionEvaluator assignments
      g.variableInformation.booleanVariables state0 with
  | .error e => .error e
  | .ok (assignments1, state1) =>
    match applyUpdate.integerLoop g expressionEvaluator assignments1
        g.variableInformation.integerVariables state1 with
    | .error e => .error e
    | .ok (assignments2, state2) =>
      match applyUpdate.arrayLoop g expressionEvaluator assignments2 state2 with
      | .error e => .error e
      | .ok (_, state3) => .ok state3

/-- The bounds check of a transient integer assignment (lines 389-392 and 411-414). -/
def applyTransientUpdate.checkInteger (g : JaniNextStateGenerator)
    (info : TransientIntegerVariableData) (assignedValue : Int) : Except Exception Unit :=
  if g.options.explorationChecks then
    if assignedValue < info.lowerBound then .error Exception.WrongFormatException
    else if assignedValue > info.upperBound then .error Exception.WrongFormatException
    else .ok ()
  else .ok ()

/-- The loop over the boolean assignments in `applyTransientUpdate` (lines 374-381). -/
def applyTransientUpdate.booleanLoop (ev : ExpressionEvaluator) :
    List Assignment → List TransientBooleanVariableData → TransientVariableValuation →
      Except Exception (List Assignment × TransientVariableValuation)
  | [], _, t => .ok ([], t)
  | a :: rest, boolIt, t =>
    if a.lValueIsVariable && a.getExpressionVariable.hasBooleanType then
      match boolIt.dropWhile (fun i => i.var != a.getExpressionVariable) with
      | [] => .error Exception.UndefinedBehavior
      | i :: its =>
        applyTransientUpdate.booleanLoop ev rest (i :: its)
          { t with booleanValues := t.booleanValues ++ [(i, a.assignedExpression.asBool ev)] }
    else .ok (a :: rest, t)

/-- The loop over the integer assignments in `applyTransientUpdate` (lines 382-394). -/
def applyTransientUpdate.integerLoop (g : JaniNextStateGenerator) (ev : ExpressionEvaluator) :
    List Assignment → List TransientIntegerVariableData → TransientVariableValuation →
      Except Exception (List Assignment × TransientVariableValuation)
  | [], _, t => .ok ([], t)
  | a :: rest, integerIt, t =>
    if a.lValueIsVariable && a.getExpressionVariable.hasIntegerType then
      match integerIt.dropWhile (fun i => i.var != a.getExpressionVariable) with
      | [] => .error Exception.UndefinedBehavior
      | i :: its =>
        match applyTransientUpdate.checkInteger g i (a.assignedExpression.asInt ev) with
        | .error e => .error e
        | .ok _ =>
          applyTransientUpdate.integerLoop g ev rest (i :: its)
            { t with integerValues := t.integerValues ++ [(i, a.assignedExpression.asInt ev)] }
    else .ok (a :: rest, t)

/-- The loop over the rational assignments in `applyTransientUpdate` (lines 395-402). -/
def applyTransientUpdate.rationalLoop (ev : ExpressionEvaluator) :
    List Assignment → List TransientRationalVariableData → TransientVariableValuation →
      Except Exception (List Assignment × TransientVariableValuation)
  | [], _, t => .ok ([], t)
  | a :: rest, rationalIt, t =>
    if a.lValueIsVariable && a.getExpressionVariable.hasRationalType then
      match rationalIt.dropWhile (fun i => i.var != a.getExpressionVariable) with
      | [] => .error Exception.UndefinedBehavior
      | i :: its =>
        applyTransientUpdate.rationalLoop ev rest (i :: its)
          { t with rationalValues := t.rationalValues ++ [(i, a.assignedExpression.asRational ev)] }
    else .ok (a :: rest, t)

/-- The loop over the array access assignments in `applyTransientUpdate` (lines 404-425);
the branch is chosen by the base type of the array variable. -/
def applyTransientUpdate.arrayLoop (g : JaniNextStateGenerator) (ev : ExpressionEvaluator) :
    List Assignment → TransientVariableValuation →
      Except Exception (List Assignment × TransientVariableValuation)
  | [], t => .ok ([], t)
  | a :: rest, t =>
    match a.lValue with
    | LValue.variable _ => .ok (a :: rest, t)
    | LValue.arrayAccess array index =>
      let arrayIndex := index.asInt ev
      if array.hasIntegerType then
        match g.transientVariableInformation.getIntegerArrayVariableReplacement array arrayIndex with
        | .error e => .error e
        | .ok intInfo =>
          match applyTransientUpdate.checkInteger g intInfo (a.assignedExpression.asInt ev) with
          | .error e => .error e
          | .ok _ =>
            applyTransientUpdate.arrayLoop g ev rest
              { t with integerValues := t.integerValues ++ [(intInfo, a.assignedExpression.asInt ev)] }
      else if array.hasBooleanType then
        match g.transientVariableInformation.getBooleanArrayVariableReplacement array arrayIndex with
        | .error e => .error e
        | .ok boolInfo =>
          applyTransientUpdate.arrayLoop g ev rest
            { t with booleanValues := t.booleanValues ++ [(boolInfo, a.assignedExpression.asBool ev)] }
      else if array.hasRationalType then
        match g.transientVariableInformation.getRationalArrayVariableReplacement array arrayIndex with
        | .error e => .error e
        | .ok rationalInfo =>
          applyTransientUpdate.arrayLoop g ev rest
            { t with rationalValues :=
                t.rationalValues ++ [(rationalInfo, a.assignedExpression.asRational ev)] }
      else .error Exception.UnexpectedException

/-- `JaniNextStateGenerator::applyTransientUpdate` (lines 368-429): evaluate the transient
assignments and append the values to the valuation buffer. -/
def applyTransientUpdate (g : JaniNextStateGenerator) (transientValuation : TransientVariableValuation)
    (transientAssignments : List Assignment) (expressionEvaluator : ExpressionEvaluator) :
    Except Exception TransientVariableValuation :=
  match applyTransientUpdate.booleanLoop expressionEvaluator transientAssignments
      g.transientVariableInformation.booleanVariableInformation transientValuation with
  | .error e => .error e
  | .ok (as1, t1) =>
    match applyTransientUpdate.integerLoop g expressionEvaluator as1
        g.transientVariableInformation.integerVariableInformation t1 with
    | .error e => .error e
    | .ok (as2, t2) =>
      match applyTransientUpdate.rationalLoop expressionEvaluator as2
          g.transientVariableInformation.rationalVariableInformation t2 with
      | .error e => .error e
      | .ok (as3, t3) =>
        match applyTransientUpdate.arrayLoop g expressionEvaluator as3 t3 with
        | .error e => .error e
        | .ok (_, t4) => .ok t4

/-! ## Choices and state behaviours -/

/-- Modelled from the spec: `storm::storage::Distribution` is not part of the sources at
hand: the "successor-probability map StateId→ValueType" of a choice, here an association
list with increasing, pairwise different keys. -/
abbrev Distribution := List (Nat × ℚ)

/-- Modelled from the spec: add `(state, value)` to the map, "summing duplicates". -/
def Distribution.add : Distribution → Nat → ℚ → Distribution
  | [], state, value => [(state, value)]
  | (s, v) :: rest, state, value =>
    if state = s then (s, v + value) :: rest
    else if state < s then (state, value) :: (s, v) :: rest
    else (s, v) :: Distribution.add rest state value

/-- The set of (automaton, edge) indices a choice stems from. -/
abbrev EdgeIndexSet := Finset Nat

/-- Modelled from the spec: `storm::generator::Choice` is not part of the sources at hand:
the "tuple (actionIndex, markovian flag, successor-probability map StateId→ValueType,
action-reward vector, origin-data)", together with the total mass of the map, which
`expand` reads through `getTotalMass`. -/
structure Choice where
  actionIndex : Nat
  markovian : Bool
  distribution : Distribution
  totalMass : ℚ
  rewards : List ℚ
  originData : Option EdgeIndexSet

/-- `Choice(actionIndex, markovian)`: a choice without successors. -/
def Choice.create (actionIndex : Nat) (markovian : Bool) : Choice :=
  { actionIndex := actionIndex, markovian := markovian, distribution := [], totalMass := 0,
    rewards := [], originData := none }

/-- Modelled from the spec: `Choice::addProbability`, add the value to the entry of the
state and to the total mass. -/
def Choice.addProbability (c : Choice) (state : Nat) (value : ℚ) : Choice :=
  { c with distribution := Distribution.add c.distribution state value,
           totalMass := c.totalMass + value }

/-- Modelled from the spec: `Choice::addRewards`, attach the action-reward vector. -/
def Choice.addRewards (c : Choice) (values : List ℚ) : Choice := { c with rewards := values }

/-- `Choice::hasOriginData`. -/
def Choice.hasOriginData (c : Choice) : Bool := c.originData.isSome

/-- Modelled from the spec: `Choice::addOriginData`, the origin data are edge-index sets;
adding to a choice that already has origin data unites the sets. -/
def Choice.addOriginData (c : Choice) (data : EdgeIndexSet) : Choice :=
  { c with originData := some (match c.originData with
                               | none => data
                               | some d => d ∪ data) }

/-- `Choice::getTotalMass`. -/
def Choice.getTotalMass (c : Choice) : ℚ := c.totalMass

/-- Modelled from the spec: `StateBehavior`, the "tuple (state-reward vector, expanded
flag, list of Choices)". -/
structure StateBehavior where
  stateRewards : List ℚ
  expanded : Bool
  choices : List Choice

/-- `StateBehavior()`: no rewards, not expanded, no choices. -/
def StateBehavior.create : StateBehavior := { stateRewards := [], expanded := false, choices := [] }

/-! ## Rewards -/

/-- `JaniNextStateGenerator::evaluateRewardExpressions` (lines 969-977). -/
def evaluateRewardExpressions (g : JaniNextStateGenerator) (ev : ExpressionEvaluator) : List ℚ :=
  g.rewardExpressions.map (fun rewardExpression => rewardExpression.asRational ev)

/-- The loop of `addEvaluatedRewardExpressions` (lines 982-986). -/
def addEvaluatedRewardExpressions.loop (ev : ExpressionEvaluator) (factor : ℚ) :
    List ℚ → List Expression → List ℚ
  | rewards, [] => rewards
  | [], _ :: _ => []
  | r :: rewards, e :: es =>
    (r + factor * e.asRational ev) :: addEvaluatedRewardExpressions.loop ev factor rewards es

/-- `JaniNextStateGenerator::addEvaluatedRewardExpressions` (lines 979-987); the source
asserts that both vectors have the same size. -/
def addEvaluatedRewardExpressions (g : JaniNextStateGenerator) (ev : ExpressionEvaluator)
    (rewards : List ℚ) (factor : ℚ) : List ℚ :=
  addEvaluatedRewardExpressions.loop ev factor rewards g.rewardExpressions

/-- A loop `for (level = lowest; level <= highest; ++level)` that applies the transient
assignments of each level and commits them to the evaluator (lines 558-562); `n` is the
number of levels still to do. -/
def applyTransientLevels (g : JaniNextStateGenerator) (assignments : OrderedAssignments) :
    Nat → Int → ExpressionEvaluator → Except Exception ExpressionEvaluator
  | 0, _, ev => .ok ev
  | n + 1, assignmentLevel, ev =>
    match applyTransientUpdate g TransientVariableValuation.clear
        (assignments.getTransientAssignments assignmentLevel) ev with
    | .error e => .error e
    | .ok t => applyTransientLevels g assignments n (assignmentLevel + 1) (t.setInEvaluator ev)

/-! ## Expanding a non-synchronizing edge -/

/-- The transient edge assignments and the state-action rewards of
`expandNonSynchronizingEdge` (lines 553-565); returns the rewards and the evaluator. -/
def expandNonSynchronizingEdge.edgeRewards (g : JaniNextStateGenerator) (edge : Edge)
    (ev : ExpressionEvaluator) : Except Exception (List ℚ × ExpressionEvaluator) :=
  if !g.evaluateRewardExpressionsAtEdges || edge.assignments.isEmpty then
    .ok (List.replicate g.rewardExpressions.length 0, ev)
  else
    match edge.assignments.getLowestLevel, edge.assignments.getHighestLevel with
    | some lowest, some highest =>
      match applyTransientLevels g edge.assignments (highest - lowest + 1).toNat lowest ev with
      | .error e => .error e
      | .ok ev1 =>
        .ok (evaluateRewardExpressions g ev1,
          g.transientVariableInformation.setDefaultValuesInEvaluator ev1)
    | _, _ => .error Exception.UndefinedBehavior

/-- The loop `while (assignmentLevel < highestLevel)` of `expandNonSynchronizingEdge`
(lines 588-601); `n` is the number of levels still to do.  Returns the new state and the
evaluator. -/
def expandNonSynchronizingEdge.levelLoop (g : JaniNextStateGenerator)
    (destination : EdgeDestination) (locationVariable : LocationVariableInformation)
    (hasTransientAssignments : Bool) :
    Nat → Int → CompressedState → ExpressionEvaluator →
      Except Exception (CompressedState × ExpressionEvaluator)
  | 0, _, newState, ev => .ok (newState, ev)
  | n + 1, assignmentLevel, newState, ev =>
    let ev1 := unpackStateIntoEvaluator newState g.variableInformation ev
    match applyUpdate g newState destination locationVariable (assignmentLevel + 1) ev1 with
    | .error e => .error e
    | .ok newState1 =>
      if hasTransientAssignments then
        match applyTransientUpdate g TransientVariableValuation.clear
            (destination.orderedAssignments.getTransientAssignments (assignmentLevel + 1)) ev1 with
        | .error e => .error e
        | .ok t =>
          expandNonSynchronizingEdge.levelLoop g destination locationVariable
            hasTransientAssignments n (assignmentLevel + 1) newState1 (t.setInEvaluator ev1)
      else
        expandNonSynchronizingEdge.levelLoop g destination locationVariable
          hasTransientAssignments n (assignmentLevel + 1) newState1 ev1

/-- The successor state of one destination of a non-synchronizing edge (lines 576-601):
the assignments of the lowest level are applied with the evaluator as it is, those of each
further level after the state built so far has been unpacked into the evaluator.  Returns
the new state and the evaluator. -/
def expandNonSynchronizingEdge.successor (g : JaniNextStateGenerator) (edge : Edge)
    (destination : EdgeDestination) (locationVariable : LocationVariableInformation)
    (state : CompressedState) (ev : ExpressionEvaluator) :
    Except Exception (CompressedState × ExpressionEvaluator) :=
  let assignmentLevel := edge.lowestAssignmentLevel
  let highestLevel := edge.highestAssignmentLevel
  let hasTransientAssignments := destination.hasTransientAssignment
  match applyUpdate g state destination locationVariable assignmentLevel ev with
  | .error e => .error e
  | .ok newState =>
    let first : Except Exception ExpressionEvaluator :=
      if hasTransientAssignments then
        match applyTransientUpdate g TransientVariableValuation.clear
            (destination.orderedAssignments.getTransientAssignments assignmentLevel) ev with
        | .error e => .error e
        | .ok t => .ok (t.setInEvaluator ev)
      else .ok ev
    match first with
    | .error e => .error e
    | .ok ev1 =>
      expandNonSynchronizingEdge.levelLoop g destination locationVariable hasTransientAssignments
        (highestLevel - assignmentLevel).toNat assignmentLevel newState ev1

/-- The variables of the destination loop of `expandNonSynchronizingEdge`. -/
structure ExpandEdgeState (σ : Type) where
  choice : Choice
  stateActionRewards : List ℚ
  probabilitySum : ℚ
  evaluator : ExpressionEvaluator
  callbackState : σ

/-- The body of the loop over the destinations of `expandNonSynchronizingEdge`
(lines 569-626). -/
def expandNonSynchronizingEdge.destinationStep {σ : Type} (g : JaniNextStateGenerator)
    (edge : Edge) (automatonIndex : Nat) (state : CompressedState) (cb : StateToIdCallback σ)
    (exitRate : Option ℚ) (acc : ExpandEdgeState σ) (destination : EdgeDestination) :
    Except Exception (ExpandEdgeState σ) :=
  let probability := destination.probability.asRational acc.evaluator
  if probability = 0 then .ok acc
  else
    match g.variableInformation.locationVariables[automatonIndex]? with
    | none => .error Exception.UndefinedBehavior
    | some locationVariable =>
      let hasTransientAssignments := destination.hasTransientAssignment
      match expandNonSynchronizingEdge.successor g edge destination locationVariable state
          acc.evaluator with
      | .error e => .error e
      | .ok (newState, ev1) =>
        let evaluatorChanged := hasTransientAssignments
          || decide (edge.lowestAssignmentLevel < edge.highestAssignmentLevel)
          || g.evaluateRewardExpressionsAtDestinations
        let ev2 :=
          if g.evaluateRewardExpressionsAtDestinations then
            unpackStateIntoEvaluator newState g.variableInformation ev1
          else ev1
        let rewards :=
          if g.evaluateRewardExpressionsAtDestinations then
            addEvaluatedRewardExpressions g ev2 acc.stateActionRewards probability
          else acc.stateActionRewards
        let ev3 :=
          if evaluatorChanged then
            let restored := unpackStateIntoEvaluator state g.variableInformation ev2
            if hasTransientAssignments then
              g.transientVariableInformation.setDefaultValuesInEvaluator restored
            else restored
          else ev2
        let r := cb newState acc.callbackState
        let probability1 :=
          match exitRate with
          | some rate => rate * probability
          | none => probability
        .ok { choice := acc.choice.addProbability r.1 probability1,
              stateActionRewards := rewards,
              probabilitySum :=
                if g.options.explorationChecks then acc.probabilitySum + probability1
                else acc.probabilitySum,
              evaluator := ev3,
              callbackState := r.2 }

/-- The loop over the destinations of `expandNonSynchronizingEdge` (lines 569-626). -/
def expandNonSynchronizingEdge.destinationLoop {σ : Type} (g : JaniNextStateGenerator)
    (edge : Edge) (automatonIndex : Nat) (state : CompressedState) (cb : StateToIdCallback σ)
    (exitRate : Option ℚ) :
    List EdgeDestination → ExpandEdgeState σ → Except Exception (ExpandEdgeState σ)
  | [], acc => .ok acc
  | destination :: rest, acc =>
    match expandNonSynchronizingEdge.destinationStep g edge automatonIndex state cb exitRate
        acc destination with
    | .error e => .error e
    | .ok acc1 =>
      expandNonSynchronizingEdge.destinationLoop g edge automatonIndex state cb exitRate rest acc1

/-- `JaniNextStateGenerator::expandNonSynchronizingEdge` (lines 542-637).  Takes the
evaluator and the state of the callback and returns them with the choice.  The comparator
is exact for rationals: `isOne` is equality with one. -/
def expandNonSynchronizingEdge {σ : Type} (g : JaniNextStateGenerator) (edge : Edge)
    (outputActionIndex : Nat) (automatonIndex : Nat) (state : CompressedState)
    (cb : StateToIdCallback σ) (ev : ExpressionEvaluator) (st : σ) :
    Except Exception (Choice × ExpressionEvaluator × σ) :=
  let _unused := outputActionIndex
  let exitRate : Option ℚ := edge.rate.map (fun rate => rate.asRational ev)
  let choice := Choice.create edge.actionIndex exitRate.isSome
  match expandNonSynchronizingEdge.edgeRewards g edge ev with
  | .error e => .error e
  | .ok (stateActionRewards, ev1) =>
    match expandNonSynchronizingEdge.destinationLoop g edge automatonIndex state cb exitRate
        edge.destinations
        { choice := choice, stateActionRewards := stateActionRewards, probabilitySum := 0,
          evaluator := ev1, callbackState := st } with
    | .error e => .error e
    | .ok acc =>
      let choice1 := acc.choice.addRewards acc.stateActionRewards
      if g.options.explorationChecks
          && !(!g.isDiscreteTimeModel || decide (acc.probabilitySum = 1)) then
        .error Exception.WrongFormatException
      else .ok (choice1, acc.evaluator, acc.callbackState)

/-! ## Expanding a synchronizing edge combination -/

/-- The largest `int64_t`. -/
def int64Max : Int := 2 ^ 63 - 1

/-- The smallest `int64_t`. -/
def int64Min : Int := -(2 ^ 63)

/-- Modelled from the spec: `storm::builder::jit::Distribution` is not part of the sources
at hand: the "Distribution builder" scratch buffer, the list of the entries added so far. -/
abbrev JitDistribution := List (Nat × ℚ)

/-- Modelled from the spec: `jit::Distribution::compress`, order the entries by state and
sum the values of equal states. -/
def JitDistribution.compress (d : JitDistribution) : Distribution :=
  d.foldl (fun acc p => Distribution.add acc p.1 p.2) []

/-- The levels and the number of destination tuples that `generateSynchronizedDistribution`
collects from the edges (lines 642-660). -/
structure SynchronizedEdgeInformation where
  lowestDestinationAssignmentLevel : Int
  highestDestinationAssignmentLevel : Int
  lowestEdgeAssignmentLevel : Int
  highestEdgeAssignmentLevel : Int
  numDestinations : Nat
  edgeIndices : EdgeIndexSet

/-- The body of the loop that collects information of the edges (lines 648-660).  An
element of the list is `(edgeCombination[i].first, *iteratorList[i])`. -/
def generateSynchronizedDistribution.collectStep (g : JaniNextStateGenerator)
    (info : SynchronizedEdgeInformation) (x : Nat × Nat × Edge) :
    Except Exception SynchronizedEdgeInformation :=
  let edge := x.2.2
  let edgeIndices :=
    if g.options.buildChoiceOrigins then
      insert (g.encodeAutomatonAndEdgeIndices x.1 x.2.1) info.edgeIndices
    else info.edgeIndices
  let lowestDestination := min info.lowestDestinationAssignmentLevel edge.lowestAssignmentLevel
  let highestDestination := max info.highestDestinationAssignmentLevel edge.highestAssignmentLevel
  if !edge.assignments.isEmpty then
    match edge.assignments.getLowestLevel, edge.assignments.getHighestLevel with
    | some lowest, some highest =>
      .ok { lowestDestinationAssignmentLevel := lowestDestination,
            highestDestinationAssignmentLevel := highestDestination,
            lowestEdgeAssignmentLevel := min info.lowestEdgeAssignmentLevel lowest,
            highestEdgeAssignmentLevel := max info.highestEdgeAssignmentLevel highest,
            numDestinations := info.numDestinations * edge.getNumberOfDestinations,
            edgeIndices := edgeIndices }
    | _, _ => .error Exception.UndefinedBehavior
  else
    .ok { lowestDestinationAssignmentLevel := lowestDestination,
          highestDestinationAssignmentLevel := highestDestination,
          lowestEdgeAssignmentLevel := info.lowestEdgeAssignmentLevel,
          highestEdgeAssignmentLevel := info.highestEdgeAssignmentLevel,
          numDestinations := info.numDestinations * edge.getNumberOfDestinations,
          edgeIndices := edgeIndices }

/-- The loop that collects information of the edges (lines 648-660). -/
def generateSynchronizedDistribution.collect (g : JaniNextStateGenerator) :
    List (Nat × Nat × Edge) → SynchronizedEdgeInformation →
      Except Exception SynchronizedEdgeInformation
  | [], info => .ok info
  | x :: rest, info =>
    match generateSynchronizedDistribution.collectStep g info x with
    | .error e => .error e
    | .ok info1 => generateSynchronizedDistribution.collect g rest info1

/-- The transient assignments of all edges at one level (lines 667-670). -/
def generateSynchronizedDistribution.edgeAssignmentsAtLevel (g : JaniNextStateGenerator)
    (assignmentLevel : Int) (ev : ExpressionEvaluator) :
    List (Nat × Nat × Edge) → TransientVariableValuation →
      Except Exception TransientVariableValuation
  | [], t => .ok t
  | x :: rest, t =>
    match applyTransientUpdate g t (x.2.2.assignments.getTransientAssignments assignmentLevel) ev with
    | .error e => .error e
    | .ok t1 => generateSynchronizedDistribution.edgeAssignmentsAtLevel g assignmentLevel ev rest t1

/-- The loop over the levels of the edge assignments (lines 665-672); `n` is the number of
levels still to do. -/
def generateSynchronizedDistribution.edgeAssignments (g : JaniNextStateGenerator)
    (edges : List (Nat × Nat × Edge)) :
    Nat → Int → ExpressionEvaluator → Except Exception ExpressionEvaluator
  | 0, _, ev => .ok ev
  | n + 1, assignmentLevel, ev =>
    match generateSynchronizedDistribution.edgeAssignmentsAtLevel g assignmentLevel ev edges
        TransientVariableValuation.clear with
    | .error e => .error e
    | .ok t =>
      generateSynchronizedDistribution.edgeAssignments g edges n (assignmentLevel + 1)
        (t.setInEvaluator ev)

/-- The variables of the loop over the edges for one destination tuple (lines 684-710). -/
structure DestinationTupleState where
  destinations : List EdgeDestination
  locationVars : List LocationVariableInformation
  transientVariableValuation : TransientVariableValuation
  successorState : CompressedState
  successorProbability : ℚ
  destinationIndex : Nat

/-- The loop over the edges for one destination tuple (lines 691-710): decode the local
destination index, multiply the probability, and apply the assignments of the lowest
level.  The loop is left when the probability becomes zero. -/
def generateSynchronizedDistribution.firstLevel (g : JaniNextStateGenerator)
    (lowestDestinationAssignmentLevel : Int) (ev : ExpressionEvaluator) :
    List (Nat × Nat × Edge) → DestinationTupleState → Except Exception DestinationTupleState
  | [], acc => .ok acc
  | x :: rest, acc =>
    let edge := x.2.2
    if edge.getNumberOfDestinations = 0 then .error Exception.UndefinedBehavior
    else
      let localDestinationIndex := acc.destinationIndex % edge.getNumberOfDestinations
      match edge.destinations[localDestinationIndex]?,
          g.variableInformation.locationVariables[x.1]? with
      | some destination, some locationVariable =>
        let probability := destination.probability.asRational ev
        let successorProbability :=
          match edge.rate with
          | some rate => acc.successorProbability * (probability * rate.asRational ev)
          | none => acc.successorProbability * probability
        let acc1 : DestinationTupleState :=
          { acc with destinations := acc.destinations ++ [destination],
                     locationVars := acc.locationVars ++ [locationVariable],
                     destinationIndex := acc.destinationIndex / edge.getNumberOfDestinations,
                     successorProbability := successorProbability }
        if successorProbability = 0 then .ok acc1
        else
          match applyUpdate g acc1.successorState destination locationVariable
              lowestDestinationAssignmentLevel ev with
          | .error e => .error e
          | .ok successorState =>
            match applyTransientUpdate g acc1.transientVariableValuation
                (destination.orderedAssignments.getTransientAssignments
                  lowestDestinationAssignmentLevel) ev with
            | .error e => .error e
            | .ok t =>
              generateSynchronizedDistribution.firstLevel g lowestDestinationAssignmentLevel ev rest
                { acc1 with successorState := successorState, transientVariableValuation := t }
      | _, _ => .error Exception.UndefinedBehavior

/-- The loop over the destinations at one of the remaining levels (lines 721-726).  The
transient assignments are taken from `destinations.back()`, as in the source. -/
def generateSynchronizedDistribution.applyLevel (g : JaniNextStateGenerator)
    (assignmentLevel : Int) (ev : ExpressionEvaluator) (back : Option EdgeDestination) :
    List EdgeDestination → List LocationVariableInformation → CompressedState →
      TransientVariableValuation → Except Exception (CompressedState × TransientVariableValuation)
  | destination :: rest, locationVariable :: locationVars, successorState, t =>
    match applyUpdate g successorState destination locationVariable assignmentLevel ev with
    | .error e => .error e
    | .ok successorState1 =>
      match back with
      | none => .error Exception.UndefinedBehavior
      | some last =>
        match applyTransientUpdate g t
            (last.orderedAssignments.getTransientAssignments assignmentLevel) ev with
        | .error e => .error e
        | .ok t1 =>
          generateSynchronizedDistribution.applyLevel g assignmentLevel ev back rest locationVars
            successorState1 t1
  | [], _, successorState, t => .ok (successorState, t)
  | _ :: _, [], _, _ => .error Exception.UndefinedBehavior

/-- The loop over the remaining assignment levels (lines 716-727); `n` is the number of
levels still to do, `assignmentLevel` the level done last. -/
def generateSynchronizedDistribution.remainingLevels (g : JaniNextStateGenerator)
    (destinations : List EdgeDestination) (locationVars : List LocationVariableInformation) :
    Nat → Int → CompressedState → TransientVariableValuation → ExpressionEvaluator →
      Except Exception (CompressedState × TransientVariableValuation × ExpressionEvaluator)
  | 0, _, successorState, t, ev => .ok (successorState, t, ev)
  | n + 1, assignmentLevel, successorState, t, ev =>
    let ev1 := unpackStateIntoEvaluator successorState g.variableInformation ev
    let ev2 := t.setInEvaluator ev1
    match generateSynchronizedDistribution.applyLevel g (assignmentLevel + 1) ev2
        destinations.getLast? destinations locationVars successorState
        TransientVariableValuation.clear with
    | .error e => .error e
    | .ok (successorState1, t1) =>
      generateSynchronizedDistribution.remainingLevels g destinations locationVars n
        (assignmentLevel + 1) successorState1 t1 ev2

/-- The variables that `generateSynchronizedDistribution` updates for every destination
tuple. -/
structure SynchronizedDistributionState (σ : Type) where
  distribution : JitDistribution
  stateActionRewards : List ℚ
  evaluator : ExpressionEvaluator
  callbackState : σ

/-- The body of the loop over the destination tuples (lines 682-746). -/
def generateSynchronizedDistribution.destinationStep {σ : Type} (g : JaniNextStateGenerator)
    (state : CompressedState) (edges : List (Nat × Nat × Edge)) (info : SynchronizedEdgeInformation)
    (cb : StateToIdCallback σ) (acc : SynchronizedDistributionState σ) (destinationId : Nat) :
    Except Exception (SynchronizedDistributionState σ) :=
  match generateSynchronizedDistribution.firstLevel g info.lowestDestinationAssignmentLevel
      acc.evaluator edges
      { destinations := [], locationVars := [],
        transientVariableValuation := TransientVariableValuation.clear,
        successorState := state, successorProbability := 1, destinationIndex := destinationId } with
  | .error e => .error e
  | .ok first =>
    if first.successorProbability = 0 then .ok acc
    else
      let levels :=
        (info.highestDestinationAssignmentLevel - info.lowestDestinationAssignmentLevel).toNat
      match generateSynchronizedDistribution.remainingLevels g first.destinations first.locationVars
          levels info.lowestDestinationAssignmentLevel first.successorState
          first.transientVariableValuation acc.evaluator with
      | .error e => .error e
      | .ok (successorState, t, ev1) =>
        let ev2 := if !t.empty then t.setInEvaluator ev1 else ev1
        let ev3 :=
          if g.evaluateRewardExpressionsAtDestinations then
            unpackStateIntoEvaluator successorState g.variableInformation ev2
          else ev2
        let rewards :=
          if g.evaluateRewardExpressionsAtDestinations then
            addEvaluatedRewardExpressions g ev3 acc.stateActionRewards first.successorProbability
          else acc.stateActionRewards
        let evaluatorChanged := decide (0 < levels) || !t.empty
          || g.evaluateRewardExpressionsAtDestinations
        let ev4 :=
          if evaluatorChanged then
            g.transientVariableInformation.setDefaultValuesInEvaluator
              (unpackStateIntoEvaluator state g.variableInformation ev3)
          else ev3
        let r := cb successorState acc.callbackState
        .ok { distribution := acc.distribution ++ [(r.1, first.successorProbability)],
              stateActionRewards := rewards,
              evaluator := ev4,
              callbackState := r.2 }

/-- The loop over the destination tuples (lines 682-746). -/
def generateSynchronizedDistribution.destinationLoop {σ : Type} (g : JaniNextStateGenerator)
    (state : CompressedState) (edges : List (Nat × Nat × Edge)) (info : SynchronizedEdgeInformation)
    (cb : StateToIdCallback σ) :
    List Nat → SynchronizedDistributionState σ → Except Exception (SynchronizedDistributionState σ)
  | [], acc => .ok acc
  | destinationId :: rest, acc =>
    match generateSynchronizedDistribution.destinationStep g state edges info cb acc
        destinationId with
    | .error e => .error e
    | .ok acc1 => generateSynchronizedDistribution.destinationLoop g state edges info cb rest acc1

/-- `JaniNextStateGenerator::generateSynchronizedDistribution` (lines 639-747).  `edges`
lists, for every position `i` of the combination, the automaton index
`edgeCombination[i].first` and the indexed edge `*iteratorList[i]`.  Returns the
distribution, the state-action rewards, the edge indices, the evaluator and the state of
the callback. -/
def generateSynchronizedDistribution {σ : Type} (g : JaniNextStateGenerator)
    (state : CompressedState) (edges : List (Nat × Nat × Edge))
    (distribution : JitDistribution) (stateActionRewards : List ℚ) (edgeIndices : EdgeIndexSet)
    (cb : StateToIdCallback σ) (ev : ExpressionEvaluator) (st : σ) :
    Except Exception (JitDistribution × List ℚ × EdgeIndexSet × ExpressionEvaluator × σ) :=
  match generateSynchronizedDistribution.collect g edges
      { lowestDestinationAssignmentLevel := int64Max,
        highestDestinationAssignmentLevel := int64Min,
        lowestEdgeAssignmentLevel := int64Max,
        highestEdgeAssignmentLevel := int64Min,
        numDestinations := 1,
        edgeIndices := edgeIndices } with
  | .error e => .error e
  | .ok info =>
    let atEdges : Except Exception (List ℚ × ExpressionEvaluator) :=
      if g.evaluateRewardExpressionsAtEdges
          && decide (info.lowestEdgeAssignmentLevel ≤ info.highestEdgeAssignmentLevel) then
        match generateSynchronizedDistribution.edgeAssignments g edges
            (info.highestEdgeAssignmentLevel - info.lowestEdgeAssignmentLevel + 1).toNat
            info.lowestEdgeAssignmentLevel ev with
        | .error e => .error e
        | .ok ev1 =>
          .ok (addEvaluatedRewardExpressions g ev1 stateActionRewards 1,
            g.transientVariableInformation.setDefaultValuesInEvaluator ev1)
      else .ok (stateActionRewards, ev)
    match atEdges with
    | .error e => .error e
    | .ok (rewards, ev1) =>
      match generateSynchronizedDistribution.destinationLoop g state edges info cb
          (List.range info.numDestinations)
          { distribution := distribution, stateActionRewards := rewards, evaluator := ev1,
            callbackState := st } with
      | .error e => .error e
      | .ok acc =>
        .ok (acc.distribution, acc.stateActionRewards, info.edgeIndices, acc.evaluator,
          acc.callbackState)

/-- Modelled from the spec: `Edge::getWrittenGlobalVariables` is not part of the sources at
hand: the global variables that a persistent assignment of some destination of the edge
writes, whatever the level of the assignment and, for an array access, whatever the
element (see the remarks at the head of `checkGlobalVariableWritesValid`). -/
def Edge.getWrittenGlobalVariables (globalVariables : List Variable) (e : Edge) : List Variable :=
  ((e.destinations.flatMap (fun d =>
      (d.orderedAssignments.filter (fun a => !a.transient)).map
        (fun a => a.getExpressionVariable))).filter
    (fun v => decide (v ∈ globalVariables))).dedup

/-- The loop over the written global variables of one edge in
`checkGlobalVariableWritesValid` (lines 920-929); `index` is the position of the edge set. -/
def checkGlobalVariableWritesValid.variables (index : Nat) :
    List Variable → List (Variable × Nat) → Except Exception (List (Variable × Nat))
  | [], writtenGlobalVariables => .ok writtenGlobalVariables
  | globalVariable :: rest, writtenGlobalVariables =>
    match writtenGlobalVariables.find? (fun p => decide (p.1 = globalVariable)) with
    | some it =>
      if it.2 = index then
        checkGlobalVariableWritesValid.variables index rest writtenGlobalVariables
      else .error Exception.WrongFormatException
    | none =>
      checkGlobalVariableWritesValid.variables index rest
        (writtenGlobalVariables ++ [(globalVariable, index)])

/-- The loop over the edges of one edge set in `checkGlobalVariableWritesValid`
(lines 919-930). -/
def checkGlobalVariableWritesValid.edges (globalVariables : List Variable) (index : Nat) :
    EdgeSetWithIndices → List (Variable × Nat) → Except Exception (List (Variable × Nat))
  | [], writtenGlobalVariables => .ok writtenGlobalVariables
  | indexAndEdge :: rest, writtenGlobalVariables =>
    match checkGlobalVariableWritesValid.variables index
        (indexAndEdge.2.getWrittenGlobalVariables globalVariables) writtenGlobalVariables with
    | .error e => .error e
    | .ok w => checkGlobalVariableWritesValid.edges globalVariables index rest w

/-- The loop over the edge sets in `checkGlobalVariableWritesValid` (lines 918-931). -/
def checkGlobalVariableWritesValid.edgeSets (globalVariables : List Variable) :
    Nat → AutomataEdgeSets → List (Variable × Nat) → Except Exception Unit
  | _, [], _ => .ok ()
  | index, edgeSet :: rest, writtenGlobalVariables =>
    match checkGlobalVariableWritesValid.edges globalVariables index edgeSet.2
        writtenGlobalVariables with
    | .error e => .error e
    | .ok w => checkGlobalVariableWritesValid.edgeSets globalVariables (index + 1) rest w

/-- `JaniNextStateGenerator::checkGlobalVariableWritesValid` (lines 913-932). -/
def checkGlobalVariableWritesValid (g : JaniNextStateGenerator) (enabledEdges : AutomataEdgeSets) :
    Except Exception Unit :=
  checkGlobalVariableWritesValid.edgeSets g.globalVariables 0 enabledEdges []

/-- The iterators of `expandSynchronizingEdgeCombination` dereferenced: for every position
the automaton index and the indexed edge the iterator points to; `none` when an iterator
is not dereferenceable. -/
def expandSynchronizingEdgeCombination.dereference :
    AutomataEdgeSets → List Nat → Option (List (Nat × Nat × Edge))
  | [], _ => some []
  | _ :: _, [] => none
  | edgeSet :: rest, position :: positions =>
    match edgeSet.2[position]?, expandSynchronizingEdgeCombination.dereference rest positions with
    | some indexAndEdge, some tail => some ((edgeSet.1, indexAndEdge.1, indexAndEdge.2) :: tail)
    | _, _ => none

/-- The loop that moves the iterators to the next edge combination (lines 810-819);
returns the iterators and `movedIterator`. -/
def expandSynchronizingEdgeCombination.advance :
    AutomataEdgeSets → List Nat → List Nat × Bool
  | edgeSet :: rest, position :: positions =>
    if position + 1 ≠ edgeSet.2.length then ((position + 1) :: positions, true)
    else
      let r := expandSynchronizingEdgeCombination.advance rest positions
      (0 :: r.1, r.2)
  | _, positions => (positions, false)

/-- One pass of the loop body of `expandSynchronizingEdgeCombination` up to the check of
the distribution (lines 770-807): the choice of the current edge combination. -/
def expandSynchronizingEdgeCombination.choice {σ : Type} (g : JaniNextStateGenerator)
    (edges : List (Nat × Nat × Edge)) (outputActionIndex : Nat) (state : CompressedState)
    (cb : StateToIdCallback σ) (ev : ExpressionEvaluator) (st : σ) :
    Except Exception (Choice × ExpressionEvaluator × σ) :=
  match generateSynchronizedDistribution g state edges [] 
      (List.replicate g.rewardExpressions.length 0) ∅ cb ev st with
  | .error e => .error e
  | .ok (distribution, stateActionRewards, edgeIndices, ev1, st1) =>
    let compressed := JitDistribution.compress distribution
    let choice0 := Choice.create outputActionIndex false
    let choice1 := if g.options.buildChoiceOrigins then choice0.addOriginData edgeIndices else choice0
    let choice2 := choice1.addRewards stateActionRewards
    let choice3 := compressed.foldl (fun c p => c.addProbability p.1 p.2) choice2
    let probabilitySum : ℚ :=
      if g.options.explorationChecks then (compressed.map (fun p => p.2)).foldl (fun a b => a + b) 0
      else 0
    if g.options.explorationChecks
        && !(!g.isDiscreteTimeModel || decide (probabilitySum = 1)) then
      .error Exception.WrongFormatException
    else .ok (choice3, ev1, st1)

/-- The loop `while (!done)` of `expandSynchronizingEdgeCombination` (lines 768-822);
`fuel` bounds the number of iterations. -/
def expandSynchronizingEdgeCombination.loop {σ : Type} (g : JaniNextStateGenerator)
    (edgeCombination : AutomataEdgeSets) (outputActionIndex : Nat) (state : CompressedState)
    (cb : StateToIdCallback σ) :
    Nat → List Nat → List Choice → ExpressionEvaluator → σ →
      Except Exception (List Choice × ExpressionEvaluator × σ)
  | 0, _, _, _, _ => .error Exception.OutOfFuel
  | fuel + 1, iteratorList, result, ev, st =>
    match expandSynchronizingEdgeCombination.dereference edgeCombination iteratorList with
    | none => .error Exception.UndefinedBehavior
    | some edges =>
      match expandSynchronizingEdgeCombination.choice g edges outputActionIndex state cb ev st with
      | .error e => .error e
      | .ok (choice, ev1, st1) =>
        let moved := expandSynchronizingEdgeCombination.advance edgeCombination iteratorList
        if moved.2 then
          expandSynchronizingEdgeCombination.loop g edgeCombination outputActionIndex state cb
            fuel moved.1 (result ++ [choice]) ev1 st1
        else .ok (result ++ [choice], ev1, st1)

/-- `JaniNextStateGenerator::expandSynchronizingEdgeCombination` (lines 749-825).  The
loop is given as many iterations as there are edge combinations.  The comparator is exact
for rationals: every value is constant and `isOne` is equality with one. -/
def expandSynchronizingEdgeCombination {σ : Type} (g : JaniNextStateGenerator)
    (edgeCombination : AutomataEdgeSets) (outputActionIndex : Nat) (state : CompressedState)
    (cb : StateToIdCallback σ) (ev : ExpressionEvaluator) (st : σ) :
    Except Exception (List Choice × ExpressionEvaluator × σ) :=
  let checked : Except Exception Unit :=
    if g.options.explorationChecks then checkGlobalVariableWritesValid g edgeCombination
    else .ok ()
  match checked with
  | .error e => .error e
  | .ok _ =>
    expandSynchronizingEdgeCombination.loop g edgeCombination outputActionIndex state cb
      ((edgeCombination.map (fun s => s.2.length)).prod) (edgeCombination.map (fun _ => 0)) [] ev st

/-! ## Collecting the choices of a state -/

/-- The filter for edges (`EdgeFilter`). -/
inductive EdgeFilter where
  | All
  | WithRate
  | WithoutRate
  deriving DecidableEq, Repr

/-- The test that lets an edge pass the filter (lines 841-846 and 876-881): `false` means
`continue`. -/
def getActionChoices.passesFilter (edgeFilter : EdgeFilter) (edge : Edge) : Bool :=
  if edgeFilter != EdgeFilter.All then
    !((edgeFilter == EdgeFilter.WithRate) != edge.hasRate)
  else true

/-- The lookup `find(locations[automatonIndex])` in a `LocationsAndEdges` map. -/
def getActionChoices.find (locationsAndEdges : LocationsAndEdges) (location : Nat) :
    Option EdgeSetWithIndices :=
  (locationsAndEdges.find? (fun p => p.1 == location)).map (fun p => p.2)

/-- The loop over the edges of a non-synchronizing group at the current location
(lines 840-858). -/
def getActionChoices.nonSynchronizing {σ : Type} (g : JaniNextStateGenerator)
    (output : Option Nat) (automatonIndex : Nat) (state : CompressedState)
    (cb : StateToIdCallback σ) (edgeFilter : EdgeFilter) :
    EdgeSetWithIndices → List Choice → ExpressionEvaluator → σ →
      Except Exception (List Choice × ExpressionEvaluator × σ)
  | [], result, ev, st => .ok (result, ev, st)
  | indexAndEdge :: rest, result, ev, st =>
    if !getActionChoices.passesFilter edgeFilter indexAndEdge.2 then
      getActionChoices.nonSynchronizing g output automatonIndex state cb edgeFilter rest result ev st
    else if !indexAndEdge.2.guard.asBool ev then
      getActionChoices.nonSynchronizing g output automatonIndex state cb edgeFilter rest result ev st
    else
      match expandNonSynchronizingEdge g indexAndEdge.2
          (match output with
           | some o => o
           | none => indexAndEdge.2.actionIndex)
          automatonIndex state cb ev st with
      | .error e => .error e
      | .ok (choice, ev1, st1) =>
        let choice1 :=
          if g.options.buildChoiceOrigins then
            choice.addOriginData {g.encodeAutomatonAndEdgeIndices automatonIndex indexAndEdge.1}
          else choice
        getActionChoices.nonSynchronizing g output automatonIndex state cb edgeFilter rest
          (result ++ [choice1]) ev1 st1

/-- The enabled edges of one automaton of a synchronizing group (lines 870-889): the edges
at the current location that pass the filter and whose guard holds. -/
def getActionChoices.enabledEdgesOfAutomaton (edgeFilter : EdgeFilter) (ev : ExpressionEvaluator)
    (locationsAndEdges : LocationsAndEdges) (location : Nat) : EdgeSetWithIndices :=
  match getActionChoices.find locationsAndEdges location with
  | none => []
  | some edges =>
    edges.filter (fun indexAndEdge =>
      getActionChoices.passesFilter edgeFilter indexAndEdge.2 && indexAndEdge.2.guard.asBool ev)

/-- The loop over the automata of a synchronizing group (lines 867-898): the enabled edge
sets, or `none` when some automaton has no enabled edge (the combination is not
productive). -/
def getActionChoices.automataEdgeSets (locations : List Nat) (edgeFilter : EdgeFilter)
    (ev : ExpressionEvaluator) :
    AutomataAndEdges → Except Exception (Option AutomataEdgeSets)
  | [] => .ok (some [])
  | automatonAndEdges :: rest =>
    match locations[automatonAndEdges.1]? with
    | none => .error Exception.UndefinedBehavior
    | some location =>
      let enabledEdgesOfAutomaton :=
        getActionChoices.enabledEdgesOfAutomaton edgeFilter ev automatonAndEdges.2 location
      if enabledEdgesOfAutomaton.isEmpty then .ok none
      else
        match getActionChoices.automataEdgeSets locations edgeFilter ev rest with
        | .error e => .error e
        | .ok none => .ok none
        | .ok (some sets) => .ok (some ((automatonAndEdges.1, enabledEdgesOfAutomaton) :: sets))

/-- The body of the loop over the synchronization groups of `getActionChoices`
(lines 831-908). -/
def getActionChoices.group {σ : Type} (g : JaniNextStateGenerator) (locations : List Nat)
    (state : CompressedState) (cb : StateToIdCallback σ) (edgeFilter : EdgeFilter)
    (outputAndEdges : OutputAndEdges) (result : List Choice) (ev : ExpressionEvaluator) (st : σ) :
    Except Exception (List Choice × ExpressionEvaluator × σ) :=
  match outputAndEdges.2 with
  | [nonsychingEdges] =>
    match locations[nonsychingEdges.1]? with
    | none => .error Exception.UndefinedBehavior
    | some location =>
      match getActionChoices.find nonsychingEdges.2 location with
      | none => .ok (result, ev, st)
      | some edges =>
        getActionChoices.nonSynchronizing g outputAndEdges.1 nonsychingEdges.1 state cb edgeFilter
          edges result ev st
  | automataAndEdges =>
    match outputAndEdges.1 with
    | none => .error Exception.UndefinedBehavior
    | some outputActionIndex =>
      match getActionChoices.automataEdgeSets locations edgeFilter ev automataAndEdges with
      | .error e => .error e
      | .ok none => .ok (result, ev, st)
      | .ok (some automataEdgeSets) =>
        match expandSynchronizingEdgeCombination g automataEdgeSets outputActionIndex state cb
            ev st with
        | .error e => .error e
        | .ok (choices, ev1, st1) => .ok (result ++ choices, ev1, st1)

/-- The loop over the synchronization groups of `getActionChoices` (lines 831-908). -/
def getActionChoices.groups {σ : Type} (g : JaniNextStateGenerator) (locations : List Nat)
    (state : CompressedState) (cb : StateToIdCallback σ) (edgeFilter : EdgeFilter) :
    List OutputAndEdges → List Choice → ExpressionEvaluator → σ →
      Except Exception (List Choice × ExpressionEvaluator × σ)
  | [], result, ev, st => .ok (result, ev, st)
  | outputAndEdges :: rest, result, ev, st =>
    match getActionChoices.group g locations state cb edgeFilter outputAndEdges result ev st with
    | .error e => .error e
    | .ok (result1, ev1, st1) =>
      getActionChoices.groups g locations state cb edgeFilter rest result1 ev1 st1

/-- `JaniNextStateGenerator::getActionChoices` (lines 827-911). -/
def getActionChoices {σ : Type} (g : JaniNextStateGenerator) (locations : List Nat)
    (state : CompressedState) (cb : StateToIdCallback σ) (edgeFilter : EdgeFilter)
    (ev : ExpressionEvaluator) (st : σ) :
    Except Exception (List Choice × ExpressionEvaluator × σ) :=
  getActionChoices.groups g locations state cb edgeFilter g.edges [] ev st

/-! ## Expanding a state -/

/-- The loop over the automata that applies the transient assignments of the current
locations (lines 441-450). -/
def expand.locationAssignments (g : JaniNextStateGenerator) (ev : ExpressionEvaluator) :
    List Automaton → List Nat → TransientVariableValuation →
      Except Exception TransientVariableValuation
  | [], _, t => .ok t
  | _ :: _, [], _ => .error Exception.UndefinedBehavior
  | automaton :: rest, currentLocationIndex :: locations, t =>
    match automaton.locations[currentLocationIndex]? with
    | none => .error Exception.UndefinedBehavior
    | some location =>
      match applyTransientUpdate g t location.assignments.getAllTransientAssignments ev with
      | .error e => .error e
      | .ok t1 => expand.locationAssignments g ev rest locations t1

/-- The state rewards of `expand` (lines 436-453): returns the reward vector and the
evaluator, in which the transient variables have their default values again. -/
def expand.stateRewards (g : JaniNextStateGenerator) (state : CompressedState)
    (ev : ExpressionEvaluator) : Except Exception (List ℚ × ExpressionEvaluator) :=
  match expand.locationAssignments g ev g.parallelAutomata
      (getLocations g.variableInformation state) TransientVariableValuation.clear with
  | .error e => .error e
  | .ok t =>
    let ev1 := t.setInEvaluator ev
    .ok (evaluateRewardExpressions g ev1,
      g.transientVariableInformation.setDefaultValuesInEvaluator ev1)

/-- The terminal-state check of `expand` (lines 456-463): some terminal expression
evaluates to the value it is paired with. -/
def expand.isTerminal (g : JaniNextStateGenerator) (ev : ExpressionEvaluator) : Bool :=
  g.terminalStates.any (fun expressionBool => expressionBool.1.asBool ev == expressionBool.2)

/-- The choices of the state before fusion (lines 467-477). -/
def expand.allChoices {σ : Type} (g : JaniNextStateGenerator) (locations : List Nat)
    (state : CompressedState) (cb : StateToIdCallback σ) (ev : ExpressionEvaluator) (st : σ) :
    Except Exception (List Choice × ExpressionEvaluator × σ) :=
  if g.options.applyMaximalProgressAssumption then
    match getActionChoices g locations state cb EdgeFilter.WithoutRate ev st with
    | .error e => .error e
    | .ok (allChoices, ev1, st1) =>
      if allChoices.isEmpty then
        getActionChoices g locations state cb EdgeFilter.WithRate ev1 st1
      else .ok (allChoices, ev1, st1)
  else getActionChoices g locations state cb EdgeFilter.All ev st

/-- The total exit rate by which `expand` scales the action rewards of the fused choice
(lines 494-511). -/
def expand.totalExitRate (g : JaniNextStateGenerator) (allChoices : List Choice) : ℚ :=
  allChoices.foldl
    (fun totalExitRate choice =>
      if g.hasStateActionRewards && !g.isDiscreteTimeModel then totalExitRate + choice.getTotalMass
      else totalExitRate)
    (if g.isDiscreteTimeModel then (allChoices.length : ℚ) else 0)

/-- The first loop of the fusion (lines 498-511), the part that builds the distribution of
the fused choice.  The division by the number of choices (line 501) is made inside the loop
over the choices, where this number is not zero. -/
def expand.fuseProbabilities (g : JaniNextStateGenerator) (allChoices : List Choice)
    (globalChoice : Choice) : Choice :=
  allChoices.foldl
    (fun global choice =>
      choice.distribution.foldl
        (fun gl stateProbabilityPair =>
          if g.isDiscreteTimeModel then
            gl.addProbability stateProbabilityPair.1 (stateProbabilityPair.2 / (allChoices.length : ℚ))
          else gl.addProbability stateProbabilityPair.1 stateProbabilityPair.2)
        global)
    globalChoice

/-- The update of the reward vector for one choice in the second loop of the fusion
(lines 516-518).  The division by `totalExitRate` (line 517) has no guard: when the divisor
is zero the division is made all the same, and the program is killed. -/
def expand.fuseRewardsStep (totalExitRate : ℚ) (choice : Choice) :
    Nat → List ℚ → Except Exception (List ℚ)
  | _, [] => .ok []
  | rewardVariableIndex, r :: rest =>
    if totalExitRate = 0 then .error Exception.DivisionByZero
    else
      match expand.fuseRewardsStep totalExitRate choice (rewardVariableIndex + 1) rest with
      | .error e => .error e
      | .ok rest1 =>
        .ok ((r + choice.rewards.getD rewardVariableIndex 0 * choice.getTotalMass / totalExitRate)
          :: rest1)

/-- The second loop of the fusion (lines 514-519), the part that builds the state-action
rewards of the fused choice, from the vector of zeros of line 513. -/
def expand.fuseRewards (g : JaniNextStateGenerator) (totalExitRate : ℚ) :
    List Choice → List ℚ → Except Exception (List ℚ)
  | [], stateActionRewards => .ok stateActionRewards
  | choice :: rest, stateActionRewards =>
    if g.hasStateActionRewards then
      match expand.fuseRewardsStep totalExitRate choice 0 stateActionRewards with
      | .error e => .error e
      | .ok stateActionRewards1 => expand.fuseRewards g totalExitRate rest stateActionRewards1
    else expand.fuseRewards g totalExitRate rest stateActionRewards

/-- The origin data of the fused choice (lines 521-523). -/
def expand.fuseOrigins (g : JaniNextStateGenerator) (allChoices : List Choice)
    (globalChoice : Choice) : Choice :=
  allChoices.foldl
    (fun global choice =>
      match choice.originData with
      | some data => if g.options.buildChoiceOrigins then global.addOriginData data else global
      | none => global)
    globalChoice

/-- The fused choice of a deterministic model (lines 488-525, without the call of the
callback for the overlapping-guard label).  `Choice()` is the choice with action index 0
that is not Markovian.  There is no fused choice when the second loop divides by a total
exit rate that is zero (line 517). -/
def expand.fuse (g : JaniNextStateGenerator) (allChoices : List Choice) :
    Except Exception Choice :=
  let globalChoice := expand.fuseProbabilities g allChoices (Choice.create 0 false)
  let totalExitRate := expand.totalExitRate g allChoices
  match expand.fuseRewards g totalExitRate allChoices
      (List.replicate g.rewardExpressions.length 0) with
  | .error e => .error e
  | .ok stateActionRewards =>
    .ok ((expand.fuseOrigins g allChoices globalChoice).addRewards stateActionRewards)

/-- Modelled from the spec: `NextStateGenerator::postprocess` is not part of the sources
at hand.  The spec has no such step: `expand` returns the state rewards, the expanded flag
and the choices as they are after the fusion. -/
def postprocess (result : StateBehavior) : StateBehavior := result

/-- `JaniNextStateGenerator::expand` (lines 431-540).  `state` is `*this->state`, `ev` the
evaluator on entry.  Returns the behaviour, the evaluator and the state of the callback.
(The list `overlappingGuardStates` is not returned; the call of the callback that feeds
it is made.) -/
def expand {σ : Type} (g : JaniNextStateGenerator) (state : CompressedState)
    (cb : StateToIdCallback σ) (ev : ExpressionEvaluator) (st : σ) :
    Except Exception (StateBehavior × ExpressionEvaluator × σ) :=
  let locations := getLocations g.variableInformation state
  match expand.stateRewards g state ev with
  | .error e => .error e
  | .ok (stateRewards, ev1) =>
    let result : StateBehavior := { StateBehavior.create with stateRewards := stateRewards }
    if expand.isTerminal g ev1 then .ok (result, ev1, st)
    else
      let result1 : StateBehavior := { result with expanded := true }
      match expand.allChoices g locations state cb ev1 st with
      | .error e => .error e
      | .ok (allChoices, ev2, st1) =>
        if allChoices.length = 0 then .ok (result1, ev2, st1)
        else if g.isDeterministicModel && decide (allChoices.length > 1) then
          let st2 := if g.options.addOverlappingGuardLabel then (cb state st1).2 else st1
          match expand.fuse g allChoices with
          | .error e => .error e
          | .ok globalChoice =>
            .ok (postprocess { result1 with choices := result1.choices ++ [globalChoice] },
              ev2, st2)
        else .ok (postprocess { result1 with choices := result1.choices ++ allChoices }, ev2, st1)

/-! ## The synchronization information -/

/-- A `storm::jani::SynchronizationVector`: for every subcomposition the action it
contributes (`none` for "no action input") and the output action.  Actions are given by
their index (`Model::getActionIndex` is not part of the sources at hand). -/
structure SynchronizationVector where
  input : List (Option Nat)
  output : Nat

/-- A `storm::jani::Composition`: a single automaton (by name) or a parallel composition
of subcompositions with synchronization vectors. -/
inductive Composition where
  | automaton (automatonName : Nat)
  | parallel (subcompositions : List Composition)
      (synchronizationVectors : List SynchronizationVector)

/-- The members of `storm::jani::Model` that `createSynchronizationInformation` reads.
`getAutomaton` is `Model::getAutomaton(name)`, which is not part of the sources at hand. -/
structure Model where
  systemComposition : Composition
  getAutomaton : Nat → Except Exception Automaton

/-- The index of the silent action, `storm::jani::Model::SILENT_ACTION_INDEX` (the
constant is not part of the sources at hand). -/
def SILENT_ACTION_INDEX : Nat := 0

/-- The insertion `locationsAndEdges[location].emplace_back(entry)` into the map from
source locations to indexed edges, whose keys are kept in increasing order. -/
def LocationsAndEdges.emplaceBack :
    LocationsAndEdges → Nat → Nat × Edge → LocationsAndEdges
  | [], location, entry => [(location, [entry])]
  | (l, edges) :: rest, location, entry =>
    if location = l then (l, edges ++ [entry]) :: rest
    else if location < l then (location, [entry]) :: (l, edges) :: rest
    else (l, edges) :: LocationsAndEdges.emplaceBack rest location entry

/-- The loops that collect the edges of an automaton that satisfy `p`, keyed by source
location and paired with their index (lines 1019-1022, 1040-1045, 1066-1071). -/
def createSynchronizationInformation.collectEdges (p : Edge → Bool) :
    List Edge → Nat → LocationsAndEdges → LocationsAndEdges
  | [], _, locationsAndEdges => locationsAndEdges
  | edge :: rest, edgeIndex, locationsAndEdges =>
    createSynchronizationInformation.collectEdges p rest (edgeIndex + 1)
      (if p edge then
        LocationsAndEdges.emplaceBack locationsAndEdges edge.sourceLocationIndex (edgeIndex, edge)
       else locationsAndEdges)

/-- The loop over the subcompositions of a parallel composition (lines 1032-1053):
the automata put in parallel and their silent groups. -/
def createSynchronizationInformation.subcompositions (model : Model) :
    List Composition → Nat → List Automaton → List OutputAndEdges →
      Except Exception (List Automaton × List OutputAndEdges)
  | [], _, parallelAutomata, edges => .ok (parallelAutomata, edges)
  | composition :: rest, automatonIndex, parallelAutomata, edges =>
    match composition with
    | Composition.parallel _ _ => .error Exception.WrongFormatException
    | Composition.automaton automatonName =>
      match model.getAutomaton automatonName with
      | .error e => .error e
      | .ok automaton =>
        let locationsAndEdges :=
          createSynchronizationInformation.collectEdges
            (fun edge => edge.actionIndex == SILENT_ACTION_INDEX) automaton.edges 0 []
        createSynchronizationInformation.subcompositions model rest (automatonIndex + 1)
          (parallelAutomata ++ [automaton])
          (if !locationsAndEdges.isEmpty then
            edges ++ [(none, [(automatonIndex, locationsAndEdges)])]
           else edges)

/-- The loop over the input of one synchronization vector (lines 1061-1079): the
participating automata with their edges, or `none` when some participating automaton has
no edge with the required action. -/
def createSynchronizationInformation.vectorInput (parallelAutomata : List Automaton) :
    List (Option Nat) → Nat → AutomataAndEdges → Except Exception (Option AutomataAndEdges)
  | [], _, automataAndEdges => .ok (some automataAndEdges)
  | element :: rest, automatonIndex, automataAndEdges =>
    match element with
    | none =>
      createSynchronizationInformation.vectorInput parallelAutomata rest (automatonIndex + 1)
        automataAndEdges
    | some actionIndex =>
      match parallelAutomata[automatonIndex]? with
      | none => .error Exception.UndefinedBehavior
      | some automaton =>
        let locationsAndEdges :=
          createSynchronizationInformation.collectEdges
            (fun edge => edge.actionIndex == actionIndex) automaton.edges 0 []
        if locationsAndEdges.isEmpty then .ok none
        else
          createSynchronizationInformation.vectorInput parallelAutomata rest (automatonIndex + 1)
            (automataAndEdges ++ [(automatonIndex, locationsAndEdges)])

/-- The loop over the synchronization vectors (lines 1055-1084). -/
def createSynchronizationInformation.vectors (parallelAutomata : List Automaton) :
    List SynchronizationVector → List OutputAndEdges → Except Exception (List OutputAndEdges)
  | [], edges => .ok edges
  | vector :: rest, edges =>
    match createSynchronizationInformation.vectorInput parallelAutomata vector.input 0 [] with
    | .error e => .error e
    | .ok none => createSynchronizationInformation.vectors parallelAutomata rest edges
    | .ok (some automataAndEdges) =>
      createSynchronizationInformation.vectors parallelAutomata rest
        (edges ++ [(some vector.output, automataAndEdges)])

/-- `JaniNextStateGenerator::createSynchronizationInformation` (lines 1009-1088): returns
`parallelAutomata` and `edges`. -/
def createSynchronizationInformation (model : Model) :
    Except Exception (List Automaton × List OutputAndEdges) :=
  match model.systemComposition with
  | Composition.automaton automatonName =>
    match model.getAutomaton automatonName with
    | .error e => .error e
    | .ok automaton =>
      let locationsAndEdges :=
        createSynchronizationInformation.collectEdges (fun _ => true) automaton.edges 0 []
      .ok ([automaton], [(none, [(0, locationsAndEdges)])])
  | Composition.parallel subcompositions synchronizationVectors =>
    match createSynchronizationInformation.subcompositions model subcompositions 0 [] [] with
    | .error e => .error e
    | .ok (parallelAutomata, edges) =>
      match createSynchronizationInformation.vectors parallelAutomata synchronizationVectors
          edges with
      | .error e => .error e
      | .ok edges1 => .ok (parallelAutomata, edges1)

/-! ## Literal and variable expressions -/

/-- A boolean literal. -/
def Expression.booleanLiteral (b : Bool) : Expression :=
  { type := ExpressionType.boolean, asBool := fun _ => b, asInt := fun _ => 0,
    asRational := fun _ => 0 }

/-- An integer literal. -/
def Expression.integerLiteral (n : Int) : Expression :=
  { type := ExpressionType.integer, asBool := fun _ => false, asInt := fun _ => n,
    asRational := fun _ => (n : ℚ) }

/-- A rational literal. -/
def Expression.rationalLiteral (q : ℚ) : Expression :=
  { type := ExpressionType.rational, asBool := fun _ => false, asInt := fun _ => 0,
    asRational := fun _ => q }

/-- The expression that is an integer variable. -/
def Expression.integerVariable (v : Variable) : Expression :=
  { type := ExpressionType.integer, asBool := fun _ => false,
    asInt := fun ev => ev.integerValues v,
    asRational := fun ev => (ev.integerValues v : ℚ) }

/-- The persistent assignment `v := e` of an integer variable at a level. -/
def Assignment.integer (v : Variable) (e : Expression) (level : Int) : Assignment :=
  { lValue := LValue.variable v, assignedExpression := e, level := level, transient := false }

/-! ## Concrete layouts, models and states used in the statements -/

namespace Examples

/-- Array replacement lookup of a layout without arrays. -/
def noIntegerArrays : Variable → Int → Except Exception IntegerVariableInformation :=
  fun _ _ => .error Exception.WrongFormatException

/-- Array replacement lookup of a layout without arrays. -/
def noBooleanArrays : Variable → Int → Except Exception BooleanVariableInformation :=
  fun _ _ => .error Exception.WrongFormatException

/-- A layout with one boolean variable `b` and nothing else. -/
def oneBooleanLayout : VariableInformation :=
  { locationVariables := [],
    booleanVariables := [{ var := { index := 0, type := ExpressionType.boolean }, bitOffset := 0 }],
    integerVariables := [],
    totalBitOffset := 1,
    getIntegerArrayVariableReplacement := noIntegerArrays,
    getBooleanArrayVariableReplacement := noBooleanArrays }

/-- A layout with two integer variables `x` and `y`, both with range `[1, 2]`, one bit
each. -/
def twoIntegerLayout : VariableInformation :=
  { locationVariables := [],
    booleanVariables := [],
    integerVariables :=
      [{ var := { index := 0, type := ExpressionType.integer }, lowerBound := 1, upperBound := 2,
         bitOffset := 0, bitWidth := 1, forceOutOfBoundsCheck := false },
       { var := { index := 1, type := ExpressionType.integer }, lowerBound := 1, upperBound := 2,
         bitOffset := 1, bitWidth := 1, forceOutOfBoundsCheck := false }],
    totalBitOffset := 2,
    getIntegerArrayVariableReplacement := noIntegerArrays,
    getBooleanArrayVariableReplacement := noBooleanArrays }

/-- An evaluator in which every variable is false or zero. -/
def zeroEvaluator : ExpressionEvaluator :=
  { booleanValues := fun _ => false, integerValues := fun _ => 0, rationalValues := fun _ => 0 }

/-- Transient variable information of a model without transient variables. -/
def noTransientVariables : TransientVariableInformation :=
  { booleanVariableInformation := [],
    integerVariableInformation := [],
    rationalVariableInformation := [],
    getIntegerArrayVariableReplacement := fun _ _ => .error Exception.WrongFormatException,
    getBooleanArrayVariableReplacement := fun _ _ => .error Exception.WrongFormatException,
    getRationalArrayVariableReplacement := fun _ _ => .error Exception.WrongFormatException }

/-- All options off. -/
def noOptions : NextStateGeneratorOptions :=
  { explorationChecks := false, addOutOfBoundsState := false,
    applyMaximalProgressAssumption := false, buildChoiceOrigins := false,
    addOverlappingGuardLabel := false, scaleAndLiftTransitionRewards := false }

/-- A generator for the given layout with no automata, no rewards and all options off. -/
def generatorFor (vi : VariableInformation) : JaniNextStateGenerator :=
  { options := noOptions,
    modelType := ModelType.MDP,
    variableInformation := vi,
    transientVariableInformation := noTransientVariables,
    parallelAutomata := [],
    edges := [],
    rewardExpressions := [],
    hasStateActionRewards := false,
    evaluateRewardExpressionsAtEdges := false,
    evaluateRewardExpressionsAtDestinations := false,
    terminalStates := [],
    outOfBoundsState := [],
    globalVariables := [],
    encodeAutomatonAndEdgeIndices := fun automatonIndex edgeIndex => automatonIndex * 2 ^ 32 + edgeIndex }

/-- The integer variable `x`. -/
def x : Variable := { index := 0, type := ExpressionType.integer }

/-- The integer variable `y`. -/
def y : Variable := { index := 1, type := ExpressionType.integer }

/-- A layout with one integer variable `x` with range `[0, 2]` in bits 0 and 1, followed
by the out-of-bounds bit (bit 2). -/
def outOfBoundsLayout : VariableInformation :=
  { locationVariables := [{ bitOffset := 0, bitWidth := 0 }],
    booleanVariables := [],
    integerVariables :=
      [{ var := x, lowerBound := 0, upperBound := 2, bitOffset := 0, bitWidth := 2,
         forceOutOfBoundsCheck := false }],
    totalBitOffset := 3,
    getIntegerArrayVariableReplacement := noIntegerArrays,
    getBooleanArrayVariableReplacement := noBooleanArrays }

/-- A generator for `outOfBoundsLayout` with `addOutOfBoundsState` on; its out-of-bounds
state is the zero state with the out-of-bounds bit set. -/
def outOfBoundsGenerator : JaniNextStateGenerator :=
  { generatorFor outOfBoundsLayout with
    options := { noOptions with addOutOfBoundsState := true },
    outOfBoundsState := [false, false, true] }

/-- A destination with the single assignment `x := 3` at level 0. -/
def assignThree : EdgeDestination :=
  { locationIndex := 0, probability := Expression.rationalLiteral 1,
    orderedAssignments := [Assignment.integer x (Expression.integerLiteral 3) 0] }

end Examples

/-- An edge has a persistent assignment to the global variable `v` at the level `level`
in one of its destinations. -/
def Edge.writesGlobalVariableAtLevel (globalVariables : List Variable) (e : Edge) (v : Variable)
    (level : Int) : Bool :=
  decide (v ∈ globalVariables)
    && e.destinations.any (fun d =>
        d.orderedAssignments.any (fun a =>
          !a.transient && decide (a.getExpressionVariable = v) && decide (a.level = level)))

namespace Examples

/-- The global integer variable `c`. -/
def c : Variable := { index := 2, type := ExpressionType.integer }

/-- An edge with action 1 whose single destination assigns `c := value` at `level`. -/
def writer (value : Int) (level : Int) : Edge :=
  { sourceLocationIndex := 0, actionIndex := 1,
    guard := Expression.booleanLiteral true, rate := none, assignments := [],
    destinations :=
      [{ locationIndex := 0, probability := Expression.rationalLiteral 1,
         orderedAssignments := [Assignment.integer c (Expression.integerLiteral value) level] }],
    lowestAssignmentLevel := level, highestAssignmentLevel := level }

/-- The enabled edges of a synchronization of two automata: the edge of automaton 0 writes
`c` at level 0, the edge of automaton 1 writes `c` at level 1. -/
def writersAtDifferentLevels : AutomataEdgeSets :=
  [(0, [(0, writer 1 0)]), (1, [(0, writer 2 1)])]

/-- A layout with two automata with one location each and the global variable `c` with
range `[0, 3]`. -/
def globalLayout : VariableInformation :=
  { locationVariables := [{ bitOffset := 0, bitWidth := 0 }, { bitOffset := 0, bitWidth := 0 }],
    booleanVariables := [],
    integerVariables :=
      [{ var := c, lowerBound := 0, upperBound := 3, bitOffset := 0, bitWidth := 2,
         forceOutOfBoundsCheck := false }],
    totalBitOffset := 2,
    getIntegerArrayVariableReplacement := noIntegerArrays,
    getBooleanArrayVariableReplacement := noBooleanArrays }

/-- A generator for `globalLayout` with `explorationChecks` on. -/
def checkingGenerator : JaniNextStateGenerator :=
  { generatorFor globalLayout with
    options := { noOptions with explorationChecks := true },
    globalVariables := [c] }

end Examples

namespace Examples

end Examples

namespace Examples

/-- A layout with one automaton with a single location and the integer variable `x` with
range `[0, 3]` in bits 0 and 1. -/
def counterLayout : VariableInformation :=
  { locationVariables := [{ bitOffset := 0, bitWidth := 0 }],
    booleanVariables := [],
    integerVariables :=
      [{ var := x, lowerBound := 0, upperBound := 3, bitOffset := 0, bitWidth := 2,
         forceOutOfBoundsCheck := false }],
    totalBitOffset := 2,
    getIntegerArrayVariableReplacement := noIntegerArrays,
    getBooleanArrayVariableReplacement := noBooleanArrays }

end Examples

namespace Examples

end Examples

namespace Examples

/-- An edge without assignments with a single destination of probability one that leads
to location 0. -/
def plainEdge (sourceLocationIndex actionIndex : Nat) (rate : Option Expression) : Edge :=
  { sourceLocationIndex := sourceLocationIndex, actionIndex := actionIndex,
    guard := Expression.booleanLiteral true, rate := rate, assignments := [],
    destinations :=
      [{ locationIndex := 0, probability := Expression.rationalLiteral 1,
         orderedAssignments := [] }],
    lowestAssignmentLevel := int64Max, highestAssignmentLevel := int64Min }

/-- Automaton 0 of the blocked-synchronization model: one location with a probabilistic
edge with action 1. -/
def senderAutomaton : Automaton :=
  { name := 0, locations := [{ assignments := [] }], edges := [plainEdge 0 1 none] }

/-- Automaton 1 of the blocked-synchronization model: two locations; in location 0 a
Markovian edge with the silent action and rate 2, in location 1 a probabilistic edge with
action 1. -/
def receiverAutomaton : Automaton :=
  { name := 1, locations := [{ assignments := [] }, { assignments := [] }],
    edges := [plainEdge 0 0 (some (Expression.rationalLiteral 2)), plainEdge 1 1 none] }

/-- The blocked-synchronization model: the two automata in parallel, synchronizing on
action 1. -/
def blockedModel : Model :=
  { systemComposition :=
      Composition.parallel [Composition.automaton 0, Composition.automaton 1]
        [{ input := [some 1, some 1], output := 1 }],
    getAutomaton := fun automatonName =>
      if automatonName = 0 then .ok senderAutomaton
      else if automatonName = 1 then .ok receiverAutomaton
      else .error Exception.InvalidArgumentException }

/-- The layout of the blocked-synchronization model: no variables, a location slot of
width 0 for automaton 0 and of width 1 for automaton 1. -/
def blockedLayout : VariableInformation :=
  { locationVariables := [{ bitOffset := 0, bitWidth := 0 }, { bitOffset := 0, bitWidth := 1 }],
    booleanVariables := [],
    integerVariables := [],
    totalBitOffset := 1,
    getIntegerArrayVariableReplacement := noIntegerArrays,
    getBooleanArrayVariableReplacement := noBooleanArrays }

/-- The generator of the blocked-synchronization model, a Markov automaton, with the
maximal-progress assumption and choice origins on. -/
def blockedGenerator : JaniNextStateGenerator :=
  { generatorFor blockedLayout with
    options := { noOptions with applyMaximalProgressAssumption := true,
                                buildChoiceOrigins := true },
    modelType := ModelType.MA,
    parallelAutomata := [senderAutomaton, receiverAutomaton],
    edges :=
      [(none, [(1, [(0, [(0, plainEdge 0 0 (some (Expression.rationalLiteral 2)))])])]),
       (some 1, [(0, [(0, [(0, plainEdge 0 1 none)])]), (1, [(1, [(1, plainEdge 1 1 none)])])])] }

end Examples

/-- A layout is well formed for states of `n` bits: every slot lies inside the state, an
integer slot is at most 64 bits wide and wide enough for `upperBound - lowerBound`, the
variables are pairwise different, and no two slots overlap. -/
def VariableInformation.WellFormed (vi : VariableInformation) (n : Nat) : Prop :=
  (∀ i ∈ vi.integerVariables, i.bitOffset + i.bitWidth ≤ n ∧ i.bitWidth ≤ 64
      ∧ i.upperBound - i.lowerBound < 2 ^ i.bitWidth)
    ∧ (∀ b ∈ vi.booleanVariables, b.bitOffset < n)
    ∧ (∀ l ∈ vi.locationVariables, l.bitOffset + l.bitWidth ≤ n)
    ∧ (vi.integerVariables.map (fun i => i.var)).Nodup
    ∧ (vi.booleanVariables.map (fun b => b.var)).Nodup
    ∧ (vi.booleanVariables.map (fun b => b.bitOffset)).Nodup
    ∧ (∀ i ∈ vi.integerVariables, ∀ j ∈ vi.integerVariables, i.var ≠ j.var →
        i.bitOffset + i.bitWidth ≤ j.bitOffset ∨ j.bitOffset + j.bitWidth ≤ i.bitOffset)
    ∧ (∀ l ∈ vi.locationVariables, ∀ i ∈ vi.integerVariables,
        l.bitOffset + l.bitWidth ≤ i.bitOffset ∨ i.bitOffset + i.bitWidth ≤ l.bitOffset)
    ∧ (∀ b ∈ vi.booleanVariables, ∀ i ∈ vi.integerVariables,
        b.bitOffset < i.bitOffset ∨ i.bitOffset + i.bitWidth ≤ b.bitOffset)
    ∧ (∀ l ∈ vi.locationVariables, ∀ b ∈ vi.booleanVariables,
        b.bitOffset < l.bitOffset ∨ l.bitOffset + l.bitWidth ≤ b.bitOffset)

namespace Examples

/-- A layout with one automaton with a single location and two integer variables: `x`
with range `[0, 3]` in bits 0-1 and `y` with range `[0, 7]` in bits 2-4. -/
def twoCounterLayout : VariableInformation :=
  { locationVariables := [{ bitOffset := 0, bitWidth := 0 }],
    booleanVariables := [],
    integerVariables :=
      [{ var := x, lowerBound := 0, upperBound := 3, bitOffset := 0, bitWidth := 2,
         forceOutOfBoundsCheck := false },
       { var := y, lowerBound := 0, upperBound := 7, bitOffset := 2, bitWidth := 3,
         forceOutOfBoundsCheck := false }],
    totalBitOffset := 5,
    getIntegerArrayVariableReplacement := noIntegerArrays,
    getBooleanArrayVariableReplacement := noBooleanArrays }

/-- The expression `x + 1`. -/
def xPlusOne : Expression :=
  { type := ExpressionType.integer, asBool := fun _ => false,
    asInt := fun ev => ev.integerValues x + 1,
    asRational := fun ev => (ev.integerValues x : ℚ) + 1 }

/-- The expression `2 * x`. -/
def twiceX : Expression :=
  { type := ExpressionType.integer, asBool := fun _ => false,
    asInt := fun ev => 2 * ev.integerValues x,
    asRational := fun ev => 2 * (ev.integerValues x : ℚ) }

/-- A destination with the assignments `x := x + 1` at level 0 and `y := 2 * x` at
level 1. -/
def incrementThenDouble : EdgeDestination :=
  { locationIndex := 0, probability := Expression.rationalLiteral 1,
    orderedAssignments := [Assignment.integer x xPlusOne 0, Assignment.integer y twiceX 1] }

/-- An edge with the single destination `incrementThenDouble`. -/
def incrementThenDoubleEdge : Edge :=
  { sourceLocationIndex := 0, actionIndex := 0, guard := Expression.booleanLiteral true,
    rate := none, assignments := [], destinations := [incrementThenDouble],
    lowestAssignmentLevel := 0, highestAssignmentLevel := 1 }

/-- The state of `twoCounterLayout` in which `x = 1` and `y = 0`. -/
def xIsOne : CompressedState := [false, true, false, false, false]

/-- The variables of the destination loop on entry, for the evaluator loaded with a
state. -/
def entryState (g : JaniNextStateGenerator) (state : CompressedState) :
    ExpandEdgeState (List CompressedState) :=
  { choice := Choice.create 0 false, stateActionRewards := [], probabilitySum := 0,
    evaluator := unpackStateIntoEvaluator state g.variableInformation zeroEvaluator,
    callbackState := [] }

end Examples

namespace Examples

/-- A layout with two automata with one location each and two integer variables: `x`
with range `[0, 3]` in bits 0-1 and `y` with range `[0, 7]` in bits 2-4. -/
def pairLayout : VariableInformation :=
  { twoCounterLayout with
    locationVariables := [{ bitOffset := 0, bitWidth := 0 }, { bitOffset := 0, bitWidth := 0 }] }

/-- The state of `pairLayout` in which `x = 1` and `y = 2`. -/
def xIsOneYIsTwo : CompressedState := [false, true, false, true, false]

/-- A destination with probability one and the given assignments. -/
def destinationWith (assignments : OrderedAssignments) : EdgeDestination :=
  { locationIndex := 0, probability := Expression.rationalLiteral 1,
    orderedAssignments := assignments }

/-- An edge without rate with the single destination `destinationWith assignments`, all of
whose assignments have the level `level`. -/
def edgeWith (assignments : OrderedAssignments) (level : Int) : Edge :=
  { sourceLocationIndex := 0, actionIndex := 1, guard := Expression.booleanLiteral true,
    rate := none, assignments := [], destinations := [destinationWith assignments],
    lowestAssignmentLevel := level, highestAssignmentLevel := level }

/-- The assignments `x := y` and `y := x` at one level. -/
def swapAssignments (level : Int) : OrderedAssignments :=
  [Assignment.integer x (Expression.integerVariable y) level,
   Assignment.integer y (Expression.integerVariable x) level]

/-- The variables of the loop over the destination tuples on entry, for the evaluator
loaded with a state. -/
def entryTupleState (g : JaniNextStateGenerator) (state : CompressedState) :
    SynchronizedDistributionState (List CompressedState) :=
  { distribution := [], stateActionRewards := [],
    evaluator := unpackStateIntoEvaluator state g.variableInformation zeroEvaluator,
    callbackState := [] }

/-- The levels of a synchronized pair of edges with one destination each. -/
def pairInformation (lowest highest : Int) : SynchronizedEdgeInformation :=
  { lowestDestinationAssignmentLevel := lowest, highestDestinationAssignmentLevel := highest,
    lowestEdgeAssignmentLevel := int64Max, highestEdgeAssignmentLevel := int64Min,
    numDestinations := 1, edgeIndices := ∅ }

/-- A layout with one automaton and two integer variables of different ranges: `x` with
range `[0, 1]` in bit 0 and `y` with range `[0, 3]` in bits 1-2. -/
def narrowLayout : VariableInformation :=
  { locationVariables := [{ bitOffset := 0, bitWidth := 0 }],
    booleanVariables := [],
    integerVariables :=
      [{ var := x, lowerBound := 0, upperBound := 1, bitOffset := 0, bitWidth := 1,
         forceOutOfBoundsCheck := false },
       { var := y, lowerBound := 0, upperBound := 3, bitOffset := 1, bitWidth := 2,
         forceOutOfBoundsCheck := false }],
    totalBitOffset := 3,
    getIntegerArrayVariableReplacement := noIntegerArrays,
    getBooleanArrayVariableReplacement := noBooleanArrays }

/-- The state of `narrowLayout` in which `x = 0` and `y = 2`. -/
def yIsTwo : CompressedState := [false, true, false]

end Examples

/-- The condition under which the integer loop of `applyUpdate` raises: the out-of-bounds
state is not requested and some assignment has a value outside the bounds of its variable
whose check is switched on. -/
def applyUpdate.RaisesOutOfBounds (g : JaniNextStateGenerator) (ev : ExpressionEvaluator)
    (as : List Assignment) (it : List IntegerVariableInformation) : Prop :=
  g.options.addOutOfBoundsState = false
    ∧ ∃ a ∈ as, ∃ i ∈ it, i.var = a.getExpressionVariable
        ∧ (a.assignedExpression.asInt ev < i.lowerBound ∨ i.upperBound < a.assignedExpression.asInt ev)
        ∧ (i.forceOutOfBoundsCheck = true ∨ g.options.explorationChecks = true)

namespace Examples

/-- A generator for `outOfBoundsLayout` (`x` with range `[0, 2]`) with `explorationChecks`
on and `addOutOfBoundsState` off. -/
def checkedBoundsGenerator : JaniNextStateGenerator :=
  { generatorFor outOfBoundsLayout with
    options := { noOptions with explorationChecks := true } }

end Examples

/-- `Composition::isAutomatonComposition`. -/
def Composition.isAutomatonComposition : Composition → Bool
  | Composition.automaton _ => true
  | Composition.parallel _ _ => false

/-- `Composition::isParallelComposition`. -/
def Composition.isParallelComposition : Composition → Bool
  | Composition.automaton _ => false
  | Composition.parallel _ _ => true

/-- The compositions the generator accepts: a single automaton composition, or a parallel
composition all of whose subcompositions are automaton compositions. -/
def Composition.isFlat : Composition → Bool
  | Composition.automaton _ => true
  | Composition.parallel subcompositions _ =>
    subcompositions.all (fun composition => composition.isAutomatonComposition)

/-- The names of the automata that the automaton compositions directly below the top-level
composition (or the top-level composition itself) refer to. -/
def Composition.automatonNames : Composition → List Nat
  | Composition.automaton automatonName => [automatonName]
  | Composition.parallel subcompositions _ =>
    subcompositions.filterMap (fun composition =>
      match composition with
      | Composition.automaton automatonName => some automatonName
      | Composition.parallel _ _ => none)

/-- The constructor of `JaniNextStateGenerator` (lines 42-117) from the call of
`createSynchronizationInformation` (line 80) on: an exception of that call leaves the
constructor, and no generator exists; otherwise the members `parallelAutomata` and `edges`
are what the call computed.  The other members (`rest`) are computed by steps that are not
part of the sources at hand; the steps before the call do not touch the system
composition. -/
def JaniNextStateGenerator.create (model : Model) (rest : JaniNextStateGenerator) :
    Except Exception JaniNextStateGenerator :=
  match createSynchronizationInformation model with
  | .error e => .error e
  | .ok (parallelAutomata, edges) =>
    .ok { rest with parallelAutomata := parallelAutomata, edges := edges }

namespace Examples

/-- A model whose system composition is nested: automaton 0 in parallel with a parallel
composition of automaton 1. -/
def nestedModel : Model :=
  { blockedModel with
    systemComposition :=
      Composition.parallel
        [Composition.automaton 0, Composition.parallel [Composition.automaton 1] []] [] }

end Examples

/-- Two evaluators agree on every variable outside the given sets of boolean, integer and
rational variables. -/
def ExpressionEvaluator.AgreeOutside (B I R : Variable → Prop) (e ev : ExpressionEvaluator) :
    Prop :=
  (∀ w, ¬ B w → e.booleanValues w = ev.booleanValues w)
    ∧ (∀ w, ¬ I w → e.integerValues w = ev.integerValues w)
    ∧ (∀ w, ¬ R w → e.rationalValues w = ev.rationalValues w)

/-- The boolean variables of the layout. -/
def VariableInformation.isBooleanVariable (vi : VariableInformation) (w : Variable) : Prop :=
  ∃ b ∈ vi.booleanVariables, b.var = w

/-- The integer variables of the layout. -/
def VariableInformation.isIntegerVariable (vi : VariableInformation) (w : Variable) : Prop :=
  ∃ i ∈ vi.integerVariables, i.var = w

/-- The transient boolean variables. -/
def TransientVariableInformation.isBooleanVariable (ti : TransientVariableInformation)
    (w : Variable) : Prop :=
  ∃ b ∈ ti.booleanVariableInformation, b.var = w

/-- The transient integer variables. -/
def TransientVariableInformation.isIntegerVariable (ti : TransientVariableInformation)
    (w : Variable) : Prop :=
  ∃ i ∈ ti.integerVariableInformation, i.var = w

/-- The transient rational variables. -/
def TransientVariableInformation.isRationalVariable (ti : TransientVariableInformation)
    (w : Variable) : Prop :=
  ∃ r ∈ ti.rationalVariableInformation, r.var = w

/-- The array replacement lookups of the transient variables return variables that are
listed in the transient variable information (array elements are replaced by variables of
the model). -/
def TransientVariableInformation.Closed (ti : TransientVariableInformation) : Prop :=
  (∀ v i info, ti.getBooleanArrayVariableReplacement v i = .ok info →
      info ∈ ti.booleanVariableInformation)
    ∧ (∀ v i info, ti.getIntegerArrayVariableReplacement v i = .ok info →
      info ∈ ti.integerVariableInformation)
    ∧ (∀ v i info, ti.getRationalArrayVariableReplacement v i = .ok info →
      info ∈ ti.rationalVariableInformation)

/-- Every variable of the valuation buffer is listed in the transient variable
information. -/
def TransientVariableValuation.Within (t : TransientVariableValuation)
    (ti : TransientVariableInformation) : Prop :=
  (∀ p ∈ t.booleanValues, p.1 ∈ ti.booleanVariableInformation)
    ∧ (∀ p ∈ t.integerValues, p.1 ∈ ti.integerVariableInformation)
    ∧ (∀ p ∈ t.rationalValues, p.1 ∈ ti.rationalVariableInformation)

/-- The evaluator is loaded with the state (`load(state)` unpacks the state into the
evaluator) and the transient variables have their default values (the constructor sets
them, line 91): unpacking the state again, or setting the defaults again, changes
nothing. -/
def Loaded (g : JaniNextStateGenerator) (state : CompressedState) (ev : ExpressionEvaluator) :
    Prop :=
  unpackStateIntoEvaluator state g.variableInformation ev = ev
    ∧ g.transientVariableInformation.setDefaultValuesInEvaluator ev = ev

/-- A function on evaluators is determined on the given sets of variables: the values it
gives to these variables do not depend on the evaluator it is applied to. -/
def ExpressionEvaluator.DeterminedOn (B I R : Variable → Prop)
    (T : ExpressionEvaluator → ExpressionEvaluator) : Prop :=
  ∀ e e', (∀ w, B w → (T e).booleanValues w = (T e').booleanValues w)
    ∧ (∀ w, I w → (T e).integerValues w = (T e').integerValues w)
    ∧ (∀ w, R w → (T e).rationalValues w = (T e').rationalValues w)

/-- The evaluator `e` differs from `ev` at most in the variables of the layout. -/
def JaniNextStateGenerator.AgreeOffState (g : JaniNextStateGenerator)
    (e ev : ExpressionEvaluator) : Prop :=
  ExpressionEvaluator.AgreeOutside g.variableInformation.isBooleanVariable
    g.variableInformation.isIntegerVariable (fun _ => False) e ev

/-- The evaluator `e` differs from `ev` at most in the transient variables. -/
def JaniNextStateGenerator.AgreeOffTransients (g : JaniNextStateGenerator)
    (e ev : ExpressionEvaluator) : Prop :=
  ExpressionEvaluator.AgreeOutside g.transientVariableInformation.isBooleanVariable
    g.transientVariableInformation.isIntegerVariable
    g.transientVariableInformation.isRationalVariable e ev

/-- The evaluator `e` differs from `ev` at most in the variables of the layout and the
transient variables. -/
def JaniNextStateGenerator.AgreeOffVariables (g : JaniNextStateGenerator)
    (e ev : ExpressionEvaluator) : Prop :=
  ExpressionEvaluator.AgreeOutside
    (fun w => g.variableInformation.isBooleanVariable w
      ∨ g.transientVariableInformation.isBooleanVariable w)
    (fun w => g.variableInformation.isIntegerVariable w
      ∨ g.transientVariableInformation.isIntegerVariable w)
    g.transientVariableInformation.isRationalVariable e ev

/-- The value that `expandNonSynchronizingEdge` adds to the choice for a destination
(line 619): the probability of the destination, multiplied by the exit rate when the edge
has a rate. -/
def expandNonSynchronizingEdge.value (exitRate : Option ℚ) (ev : ExpressionEvaluator)
    (destination : EdgeDestination) : ℚ :=
  match exitRate with
  | some rate => rate * destination.probability.asRational ev
  | none => destination.probability.asRational ev

/-- Hand the states to the interning callback, one call per state, in the order of the
list, and pair every id the callback returns with the value that goes with the state.
Returns the entries and the state of the callback after the last call. -/
def internAll {σ : Type} (cb : StateToIdCallback σ) :
    List (CompressedState × ℚ) → σ → List (Nat × ℚ) × σ
  | [], st => ([], st)
  | (s, v) :: rest, st =>
    let r := cb s st
    let tail := internAll cb rest r.2
    ((r.1, v) :: tail.1, tail.2)

/-- The destinations of a list whose probability is not zero under the evaluator, in the
order of the list. -/
def nonZeroDestinations (ev : ExpressionEvaluator) (destinations : List EdgeDestination) :
    List EdgeDestination :=
  destinations.filter (fun destination => decide (destination.probability.asRational ev ≠ 0))

/-- Every destination of the edge whose probability is not zero has a successor state: the
location variable of the automaton exists and applying the assignments of the destination,
level by level, raises no exception. -/
def expandNonSynchronizingEdge.DestinationsExpand (g : JaniNextStateGenerator) (edge : Edge)
    (automatonIndex : Nat) (state : CompressedState) (ev : ExpressionEvaluator) : Prop :=
  ∀ destination ∈ edge.destinations, destination.probability.asRational ev ≠ 0 →
    ∃ lv newState e1, g.variableInformation.locationVariables[automatonIndex]? = some lv
      ∧ expandNonSynchronizingEdge.successor g edge destination lv state ev
          = .ok (newState, e1)

/-- The exit rate of an edge (lines 545-548). -/
def expandNonSynchronizingEdge.exitRate (edge : Edge) (ev : ExpressionEvaluator) : Option ℚ :=
  edge.rate.map (fun rate => rate.asRational ev)

namespace Examples

/-- A layout without variables for one automaton with two locations: the location is
stored in bit 0. -/
def coinLayout : VariableInformation :=
  { locationVariables := [{ bitOffset := 0, bitWidth := 1 }],
    booleanVariables := [],
    integerVariables := [],
    totalBitOffset := 1,
    getIntegerArrayVariableReplacement := noIntegerArrays,
    getBooleanArrayVariableReplacement := noBooleanArrays }

/-- A generator for `coinLayout` with the given model type and `explorationChecks` on. -/
def coinGenerator (modelType : ModelType) : JaniNextStateGenerator :=
  { generatorFor coinLayout with
    options := { noOptions with explorationChecks := true },
    modelType := modelType }

/-- An edge from location 0 without assignments and with two destinations: location 0 with
probability `p` and location 1 with probability `q`. -/
def coin (p q : ℚ) (rate : Option Expression) : Edge :=
  { sourceLocationIndex := 0, actionIndex := 0, guard := Expression.booleanLiteral true,
    rate := rate, assignments := [],
    destinations :=
      [{ locationIndex := 0, probability := Expression.rationalLiteral p, orderedAssignments := [] },
       { locationIndex := 1, probability := Expression.rationalLiteral q, orderedAssignments := [] }],
    lowestAssignmentLevel := int64Max, highestAssignmentLevel := int64Min }

end Examples

/-- The factor that one edge of a synchronized tuple contributes to the probability of the
tuple (lines 698-703): the probability of the destination, multiplied by the rate when the
edge has a rate. -/
def generateSynchronizedDistribution.factor (ev : ExpressionEvaluator) (edge : Edge)
    (destination : EdgeDestination) : ℚ :=
  match edge.rate with
  | some rate => destination.probability.asRational ev * rate.asRational ev
  | none => destination.probability.asRational ev

/-- The value of the destination tuple with the number `destinationIndex`: the product over
the edges of the factor of the destination that the number selects for the edge, by
successive remainder and division by the number of destinations (lines 690-703). -/
def generateSynchronizedDistribution.tupleValue (ev : ExpressionEvaluator) :
    List (Nat × Nat × Edge) → Nat → ℚ
  | [], _ => 1
  | x :: rest, destinationIndex =>
    ((x.2.2.destinations[destinationIndex % x.2.2.getNumberOfDestinations]?).map
        (generateSynchronizedDistribution.factor ev x.2.2)).getD 0
      * generateSynchronizedDistribution.tupleValue ev rest
          (destinationIndex / x.2.2.getNumberOfDestinations)

/-- The successor state of a destination tuple (lines 684-727): the assignments of the
lowest level applied for every edge in turn, then those of the remaining levels. -/
def generateSynchronizedDistribution.successor (g : JaniNextStateGenerator)
    (state : CompressedState) (edges : List (Nat × Nat × Edge))
    (info : SynchronizedEdgeInformation) (ev : ExpressionEvaluator) (destinationId : Nat) :
    Except Exception CompressedState :=
  match generateSynchronizedDistribution.firstLevel g info.lowestDestinationAssignmentLevel
      ev edges
      { destinations := [], locationVars := [],
        transientVariableValuation := TransientVariableValuation.clear,
        successorState := state, successorProbability := 1, destinationIndex := destinationId } with
  | .error e => .error e
  | .ok first =>
    match generateSynchronizedDistribution.remainingLevels g first.destinations first.locationVars
        (info.highestDestinationAssignmentLevel - info.lowestDestinationAssignmentLevel).toNat
        info.lowestDestinationAssignmentLevel first.successorState
        first.transientVariableValuation ev with
    | .error e => .error e
    | .ok (successorState, _, _) => .ok successorState

/-- The numbers of the destination tuples whose value is not zero, in increasing order. -/
def generateSynchronizedDistribution.nonZeroTuples (ev : ExpressionEvaluator)
    (edges : List (Nat × Nat × Edge)) (destinationIds : List Nat) : List Nat :=
  destinationIds.filter (fun destinationId =>
    decide (generateSynchronizedDistribution.tupleValue ev edges destinationId ≠ 0))

/-- The mass of an edge of a synchronized tuple: the sum of the factors of its
destinations. -/
def generateSynchronizedDistribution.edgeMass (ev : ExpressionEvaluator) (edge : Edge) : ℚ :=
  (edge.destinations.map (generateSynchronizedDistribution.factor ev edge)).sum

/-- The values with which `generateSynchronizedDistribution` starts the collection of the
levels and the number of destination tuples (lines 643-647). -/
def generateSynchronizedDistribution.initialInformation (edgeIndices : EdgeIndexSet) :
    SynchronizedEdgeInformation :=
  { lowestDestinationAssignmentLevel := int64Max,
    highestDestinationAssignmentLevel := int64Min,
    lowestEdgeAssignmentLevel := int64Max,
    highestEdgeAssignmentLevel := int64Min,
    numDestinations := 1,
    edgeIndices := edgeIndices }

namespace Examples

/-- A layout without variables for two automata with two locations each: the locations are
stored in bit 0 and bit 1. -/
def twoCoinLayout : VariableInformation :=
  { locationVariables := [{ bitOffset := 0, bitWidth := 1 }, { bitOffset := 1, bitWidth := 1 }],
    booleanVariables := [],
    integerVariables := [],
    totalBitOffset := 2,
    getIntegerArrayVariableReplacement := noIntegerArrays,
    getBooleanArrayVariableReplacement := noBooleanArrays }

/-- A generator for `twoCoinLayout` with the given model type and `explorationChecks`
on. -/
def twoCoinGenerator (modelType : ModelType) : JaniNextStateGenerator :=
  { generatorFor twoCoinLayout with
    options := { noOptions with explorationChecks := true },
    modelType := modelType }

/-- A synchronized pair of edges: automaton 0 moves to location 0 or 1 with probability
1/2 each, automaton 1 with probability 1/3 and 2/3. -/
def coinPair : List (Nat × Nat × Edge) :=
  [(0, 0, coin (1 / 2) (1 / 2) none), (1, 0, coin (1 / 3) (2 / 3) none)]

end Examples

/-- The digits of a number in the mixed radix system with the given radices, least
significant digit first: successive remainder and division. -/
def mixedRadixDigits : List Nat → Nat → List Nat
  | [], _ => []
  | n :: radices, k => (k % n) :: mixedRadixDigits radices (k / n)

/-- The number with the given digits in the mixed radix system with the given radices,
least significant digit first. -/
def mixedRadixNumber : List Nat → List Nat → Nat
  | n :: radices, digit :: digits => digit + n * mixedRadixNumber radices digits
  | _, _ => 0

/-- The odometer order on the edge combinations: the positions of the iterators in pass
number `k` of the loop of `expandSynchronizingEdgeCombination`, the position in the edge
list of the first automaton advancing fastest. -/
def odometerPositions (edgeCombination : AutomataEdgeSets) (k : Nat) : List Nat :=
  mixedRadixDigits (edgeCombination.map (fun s => s.2.length)) k

/-- The tuple of edges number `k` in odometer order (empty when some position is outside its
edge list). -/
def odometerTuple (edgeCombination : AutomataEdgeSets) (k : Nat) : List (Nat × Nat × Edge) :=
  (expandSynchronizingEdgeCombination.dereference edgeCombination
    (odometerPositions edgeCombination k)).getD []

/-- The choices of a list of edge tuples, built one after the other by the loop body of
`expandSynchronizingEdgeCombination` (lines 770-807) and appended to `result`. -/
def expandSynchronizingEdgeCombination.choices {σ : Type} (g : JaniNextStateGenerator)
    (outputActionIndex : Nat) (state : CompressedState) (cb : StateToIdCallback σ) :
    List (List (Nat × Nat × Edge)) → List Choice → ExpressionEvaluator → σ →
      Except Exception (List Choice × ExpressionEvaluator × σ)
  | [], result, ev, st => .ok (result, ev, st)
  | edges :: rest, result, ev, st =>
    match expandSynchronizingEdgeCombination.choice g edges outputActionIndex state cb ev st with
    | .error e => .error e
    | .ok (choice, ev1, st1) =>
      expandSynchronizingEdgeCombination.choices g outputActionIndex state cb rest
        (result ++ [choice]) ev1 st1

namespace Examples

/-- An edge combination: two enabled edges of automaton 0 and one enabled edge of
automaton 1. -/
def coinCombination : AutomataEdgeSets :=
  [(0, [(0, coin (1 / 2) (1 / 2) none), (1, coin 1 0 none)]),
   (1, [(0, coin (1 / 3) (2 / 3) none)])]

end Examples

/-- The enabled edges of a participating automaton of a synchronization group at a state
(lines 869-889): the edges that the group lists under the current location of the
automaton, that pass the edge filter and whose guard evaluates to true. -/
def getActionChoices.enabledAt (locations : List Nat) (edgeFilter : EdgeFilter)
    (ev : ExpressionEvaluator) (automatonAndEdges : Nat × LocationsAndEdges) :
    EdgeSetWithIndices :=
  match locations[automatonAndEdges.1]? with
  | some location =>
    getActionChoices.enabledEdgesOfAutomaton edgeFilter ev automatonAndEdges.2 location
  | none => []

/-- The states of the callback that are reached from `st` by calls of the callback. -/
def StateToIdCallback.Reaches {σ : Type} (cb : StateToIdCallback σ) (st later : σ) : Prop :=
  ∃ states : List CompressedState, later = states.foldl (fun u s => (cb s u).2) st

/-- An interning callback: a state that has been given an id is given the same id by every
later call. -/
def StateToIdCallback.Interning {σ : Type} (cb : StateToIdCallback σ) : Prop :=
  ∀ (s : CompressedState) (st later : σ),
    StateToIdCallback.Reaches cb (cb s st).2 later → (cb s later).1 = (cb s st).1

namespace Examples

/-- The position of the first occurrence of a state in a table (the length of the table when
the state does not occur). -/
def position (s : CompressedState) : List CompressedState → Nat
  | [] => 0
  | t :: rest => if s = t then 0 else position s rest + 1

/-- An interning callback with a table of the states it has been handed: the id of a state
is its position in the table; a state that is not in the table is appended to it. -/
def tableCallback : StateToIdCallback (List CompressedState) :=
  fun s table => (position s table, if s ∈ table then table else table ++ [s])

end Examples

namespace Examples

/-- An edge combination with rates: one enabled edge of automaton 0 with rate 3 and the
probabilities 1/2 and 1/2, and one enabled edge of automaton 1 without rate. -/
def ratedCombination : AutomataEdgeSets :=
  [(0, [(0, coin (1 / 2) (1 / 2) (some (Expression.rationalLiteral 3)))]),
   (1, [(0, coin 1 0 none)])]

end Examples

namespace Examples

/-- A CTMC with state-action rewards and one automaton whose two edges are enabled in every
state; both edges have rate 3 and two destinations of probability zero. -/
def zeroMassGenerator : JaniNextStateGenerator :=
  { coinGenerator ModelType.CTMC with
    parallelAutomata :=
      [{ name := 0, locations := [{ assignments := [] }, { assignments := [] }],
         edges := [coin 0 0 (some (Expression.rationalLiteral 3)),
                   coin 0 0 (some (Expression.rationalLiteral 3))] }],
    edges := [(none, [(0, [(0, [(0, coin 0 0 (some (Expression.rationalLiteral 3))),
                                 (1, coin 0 0 (some (Expression.rationalLiteral 3)))])])])],
    rewardExpressions := [Expression.rationalLiteral 1],
    hasStateActionRewards := true,
    evaluateRewardExpressionsAtEdges := true }

end Examples

namespace Examples

/-- The slot of `x` with range `[0, 2]` in bits 0 and 1, with `forceOutOfBoundsCheck`
set. -/
def forcedSlot : IntegerVariableInformation :=
  { var := x, lowerBound := 0, upperBound := 2, bitOffset := 0, bitWidth := 2,
    forceOutOfBoundsCheck := true }

/-- A layout with the integer variable `x` in `forcedSlot`, which is also the replacement
of element 0 of the array `y`. -/
def forcedLayout : VariableInformation :=
  { locationVariables := [{ bitOffset := 0, bitWidth := 0 }],
    booleanVariables := [],
    integerVariables := [forcedSlot],
    totalBitOffset := 2,
    getIntegerArrayVariableReplacement := fun array arrayIndex =>
      if array = y ∧ arrayIndex = 0 then .ok forcedSlot
      else .error Exception.WrongFormatException,
    getBooleanArrayVariableReplacement := noBooleanArrays }

/-- A destination with the single assignment `y[0] := 3` at level 0. -/
def assignThreeToElement : EdgeDestination :=
  { locationIndex := 0, probability := Expression.rationalLiteral 1,
    orderedAssignments :=
      [{ lValue := LValue.arrayAccess y (Expression.integerLiteral 0),
         assignedExpression := Expression.integerLiteral 3, level := 0, transient := false }] }

end Examples

namespace Examples

/-- The transient integer variable `r`. -/
def r : Variable := { index := 5, type := ExpressionType.integer }

/-- The transient integer variable `s`. -/
def s : Variable := { index := 6, type := ExpressionType.integer }

/-- Information about the transient variable `r`: range `[0, 10]`, default 0. -/
def rData : TransientIntegerVariableData :=
  { var := r, lowerBound := 0, upperBound := 10, defaultValue := 0 }

/-- Information about the transient variable `s`: range `[0, 10]`, default 0. -/
def sData : TransientIntegerVariableData :=
  { var := s, lowerBound := 0, upperBound := 10, defaultValue := 0 }

/-- The transient variables `r` and `s`. -/
def twoTransientVariables : TransientVariableInformation :=
  { noTransientVariables with integerVariableInformation := [rData, sData] }

/-- A destination that leads to location 0 with probability one and has the single
transient assignment `v := value` at level 1. -/
def transientDestination (v : Variable) (value : Int) : EdgeDestination :=
  { locationIndex := 0, probability := Expression.rationalLiteral 1,
    orderedAssignments :=
      [{ lValue := LValue.variable v, assignedExpression := Expression.integerLiteral value,
         level := 1, transient := true }] }

/-- An edge with action 1 whose single destination is `transientDestination v value`; its
assignment levels range from 0 to 1. -/
def transientEdge (v : Variable) (value : Int) : Edge :=
  { sourceLocationIndex := 0, actionIndex := 1, guard := Expression.booleanLiteral true,
    rate := none, assignments := [], destinations := [transientDestination v value],
    lowestAssignmentLevel := 0, highestAssignmentLevel := 1 }

/-- A generator for two automata with the transient variables `r` and `s` and the two
reward expressions `r` and `s`, evaluated at the destinations. -/
def transientGenerator : JaniNextStateGenerator :=
  { generatorFor twoCoinLayout with
    transientVariableInformation := twoTransientVariables,
    rewardExpressions := [Expression.integerVariable r, Expression.integerVariable s],
    hasStateActionRewards := true,
    evaluateRewardExpressionsAtDestinations := true }

/-- A synchronized pair of edges: the destination of automaton 0 assigns `r := 5`, the
destination of automaton 1 assigns `s := 7`, both at level 1. -/
def transientPair : List (Nat × Nat × Edge) :=
  [(0, 0, transientEdge r 5), (1, 0, transientEdge s 7)]

end Examples

/-- The destination tuple with the number `destinationId`: for every edge the destination
whose index is the digit of the number in the mixed radix system of the numbers of
destinations of the edges (lines 690-696); `none` where the index is beyond the
destinations of the edge. -/
def generateSynchronizedDistribution.destinationTuple (edges : List (Nat × Nat × Edge))
    (destinationId : Nat) : List (Option EdgeDestination) :=
  List.zipWith (fun x digit => x.2.2.destinations[digit]?) edges
    (mixedRadixDigits (edges.map (fun x => x.2.2.getNumberOfDestinations)) destinationId)

/-! ## Choice origins -/

/-- The map `edgeIndexSetToIdentifierMap` of `generateChoiceOrigins` (a `std::map` from
edge-index sets to identifiers), kept as the list of its entries in the order of their
insertion. -/
abbrev EdgeIndexSetToIdentifierMap := List (EdgeIndexSet × Nat)

/-- `std::map::emplace`: when the key is present the map is left as it is and the entry
found is returned with `false`; otherwise the new entry is inserted and returned with
`true`. -/
def EdgeIndexSetToIdentifierMap.emplace (map : EdgeIndexSetToIdentifierMap)
    (key : EdgeIndexSet) (value : Nat) :
    (EdgeIndexSet × Nat) × Bool × EdgeIndexSetToIdentifierMap :=
  match map.find? (fun p => decide (p.1 = key)) with
  | some p => (p, false, map)
  | none => ((key, value), true, map ++ [(key, value)])

/-- The loop over the origin data of `generateChoiceOrigins` (lines 1104-1113); an element
`none` is an empty `boost::any`.  Takes and returns `identifiers`, the map and
`currentIdentifier`. -/
def generateChoiceOrigins.loop :
    List (Option EdgeIndexSet) → List Nat → EdgeIndexSetToIdentifierMap → Nat →
      List Nat × EdgeIndexSetToIdentifierMap × Nat
  | [], identifiers, map, currentIdentifier => (identifiers, map, currentIdentifier)
  | originData :: rest, identifiers, map, currentIdentifier =>
    let currentEdgeIndexSet : EdgeIndexSet := originData.getD ∅
    let insertionRes := map.emplace currentEdgeIndexSet currentIdentifier
    generateChoiceOrigins.loop rest (identifiers ++ [insertionRes.1.2]) insertionRes.2.2
      (if insertionRes.2.1 then currentIdentifier + 1 else currentIdentifier)

/-- The loop that fills `identifierToEdgeIndexSetMapping` from the entries of the map
(lines 1116-1118), in the order in which the entries are given. -/
def generateChoiceOrigins.fill (entries : List (EdgeIndexSet × Nat))
    (identifierToEdgeIndexSetMapping : List EdgeIndexSet) : List EdgeIndexSet :=
  entries.foldl (fun mapping setIdPair => mapping.set setIdPair.2 setIdPair.1)
    identifierToEdgeIndexSetMapping

/-- What `generateChoiceOrigins` hands to the constructor of
`storm::storage::sparse::JaniChoiceOrigins` (the class is not part of the sources at hand):
the identifier of every choice and the edge-index set of every identifier. -/
structure JaniChoiceOrigins where
  identifiers : List Nat
  identifierToEdgeIndexSetMapping : List EdgeIndexSet
  deriving DecidableEq

/-- `JaniNextStateGenerator::generateChoiceOrigins` (lines 1091-1121); `none` is the null
pointer.  The `std::map` is visited in the order of its keys by the loop of lines
1116-1118; here the entries are visited in the order of their insertion. -/
def generateChoiceOrigins (g : JaniNextStateGenerator)
    (dataForChoiceOrigins : List (Option EdgeIndexSet)) : Option JaniChoiceOrigins :=
  if !g.options.buildChoiceOrigins then none
  else
    let r := generateChoiceOrigins.loop dataForChoiceOrigins [] [(∅, 0)] 1
    some { identifiers := r.1,
           identifierToEdgeIndexSetMapping :=
             generateChoiceOrigins.fill r.2.1 (List.replicate r.2.2 ∅) }

/-- The invariant of the loop over the origin data: the identifiers of the entries are
`0, ..., currentIdentifier - 1` in the order of insertion, and no set has two entries. -/
def generateChoiceOrigins.Invariant (map : EdgeIndexSetToIdentifierMap)
    (currentIdentifier : Nat) : Prop :=
  map.map Prod.snd = List.range currentIdentifier ∧ (map.map Prod.fst).Nodup

/-- The number of passes of the enumeration loop of `getInitialStates` that still change an
integer variable, counted from the counters `currentIntegerValues`: the first variable
counts up to `upperBound - lowerBound` (as a value of `int_fast64_t`); after every change
of one of the other variables it is reset to `lowerBound` and counts up again. -/
def getInitialStates.remaining : List IntegerVariableInformation → List Int → Nat
  | v :: rest, current :: values =>
    (toInt64 (v.upperBound - v.lowerBound) - current).toNat
      + getInitialStates.remaining rest values
        * (1 + (toInt64 (v.upperBound - v.lowerBound) - v.lowerBound).toNat)
  | _, _ => 0

namespace Examples

/-- A layout with one integer variable `x` with range `[-5, -3]` in bits 0 and 1. -/
def negativeLayout : VariableInformation :=
  { locationVariables := [],
    booleanVariables := [],
    integerVariables :=
      [{ var := x, lowerBound := -5, upperBound := -3, bitOffset := 0, bitWidth := 2,
         forceOutOfBoundsCheck := false }],
    totalBitOffset := 2,
    getIntegerArrayVariableReplacement := noIntegerArrays,
    getBooleanArrayVariableReplacement := noBooleanArrays }

/-- A layout with one integer variable `x` with range `[-2^63, 0]` in a slot of 64 bits: the
difference `upperBound - lowerBound` is beyond the largest `int_fast64_t`. -/
def wideLayout : VariableInformation :=
  { locationVariables := [],
    booleanVariables := [],
    integerVariables :=
      [{ var := x, lowerBound := -(2 ^ 63), upperBound := 0, bitOffset := 0, bitWidth := 64,
         forceOutOfBoundsCheck := false }],
    totalBitOffset := 64,
    getIntegerArrayVariableReplacement := noIntegerArrays,
    getBooleanArrayVariableReplacement := noBooleanArrays }

end Examples

/-- The edges of an automaton with the given action and source location, paired with their
positions in the edge list of the automaton, in the order of the edge list. -/
def Automaton.edgesWithAction (automaton : Automaton) (actionIndex location : Nat) :
    EdgeSetWithIndices :=
  automaton.edges.enum.filter
    (fun indexAndEdge => indexAndEdge.2.actionIndex == actionIndex
      && indexAndEdge.2.sourceLocationIndex == location)

/-- The participants of a synchronization vector from position `automatonIndex` on: the
positions of the input slots that are not empty, with the action of the slot, in
increasing order of the positions. -/
def createSynchronizationInformation.participants :
    List (Option Nat) → Nat → List (Nat × Nat)
  | [], _ => []
  | none :: rest, automatonIndex =>
    createSynchronizationInformation.participants rest (automatonIndex + 1)
  | some actionIndex :: rest, automatonIndex =>
    (automatonIndex, actionIndex)
      :: createSynchronizationInformation.participants rest (automatonIndex + 1)

/-- The automaton of a participant has an edge with the action of the participant. -/
def createSynchronizationInformation.hasEdge (parallelAutomata : List Automaton)
    (participant : Nat × Nat) : Bool :=
  (parallelAutomata[participant.1]?).any
    (fun automaton => automaton.edges.any (fun edge => edge.actionIndex == participant.2))

/-- The entries of a group for a list of participants: for every participant the index of
its automaton and the edges of the automaton with the action of the participant, keyed by
source location. -/
def createSynchronizationInformation.groupOf (parallelAutomata : List Automaton)
    (participants : List (Nat × Nat)) : AutomataAndEdges :=
  participants.filterMap (fun participant =>
    (parallelAutomata[participant.1]?).map (fun automaton =>
      (participant.1,
        createSynchronizationInformation.collectEdges
          (fun edge => edge.actionIndex == participant.2) automaton.edges 0 [])))

/-- The group that a synchronization vector gives rise to, if it is kept: every
participant has an edge with its action. -/
def createSynchronizationInformation.keptGroup (parallelAutomata : List Automaton)
    (vector : SynchronizationVector) : Option OutputAndEdges :=
  if (createSynchronizationInformation.participants vector.input 0).all
      (createSynchronizationInformation.hasEdge parallelAutomata) then
    some (some vector.output,
      createSynchronizationInformation.groupOf parallelAutomata
        (createSynchronizationInformation.participants vector.input 0))
  else none

/-- The raw value of a bounded integer slot fits the declared range:
`0 ≤ v ≤ upperBound - lowerBound`. -/
def IntegerVariableInformation.InRange (i : IntegerVariableInformation)
    (s : CompressedState) : Prop :=
  0 ≤ (BitVector.getAsInt s i.bitOffset i.bitWidth : Int)
    ∧ (BitVector.getAsInt s i.bitOffset i.bitWidth : Int) ≤ i.upperBound - i.lowerBound

/-- The slot-range invariant of a state of `n` bits: every bounded integer slot of the
layout holds a raw value that fits the declared range. -/
def VariableInformation.SlotsInRange (vi : VariableInformation) (n : Nat)
    (s : CompressedState) : Prop :=
  s.length = n ∧ ∀ i ∈ vi.integerVariables, i.InRange s

/-- The array replacement lookups of the layout return variables of the layout. -/
def VariableInformation.ReplacementsListed (vi : VariableInformation) : Prop :=
  (∀ array index info, vi.getIntegerArrayVariableReplacement array index = .ok info →
      info ∈ vi.integerVariables)
    ∧ (∀ array index info, vi.getBooleanArrayVariableReplacement array index = .ok info →
      info ∈ vi.booleanVariables)

/-- The test of the loop over the boolean assignments in `applyUpdate` (line 314). -/
def applyUpdate.isBooleanAssignment (a : Assignment) : Bool :=
  a.lValueIsVariable && a.getExpressionVariable.hasBooleanType

/-- The test of the loop over the integer assignments in `applyUpdate` (line 323). -/
def applyUpdate.isIntegerAssignment (a : Assignment) : Bool :=
  a.lValueIsVariable && a.getExpressionVariable.hasIntegerType

/-- `applyUpdate` writes the bounded integer slot `j`: one of the assignments that the loop
over the integer assignments consumes assigns the variable of the slot, or one of the
assignments that the loop over the array accesses consumes assigns an integer to an array
element that is stored in the slot. -/
def applyUpdate.Writes (g : JaniNextStateGenerator) (destination : EdgeDestination)
    (assignmentLevel : Int) (ev : ExpressionEvaluator) (j : IntegerVariableInformation) :
    Prop :=
  let assignments := destination.orderedAssignments.getNonTransientAssignments assignmentLevel
  let assignments1 := assignments.dropWhile applyUpdate.isBooleanAssignment
  let assignments2 := assignments1.dropWhile applyUpdate.isIntegerAssignment
  (∃ a ∈ assignments1.takeWhile applyUpdate.isIntegerAssignment,
      a.getExpressionVariable = j.var)
    ∨ (∃ a ∈ assignments2.takeWhile (fun a => a.lValueIsArrayAccess),
        ∃ array index, a.lValue = LValue.arrayAccess array index
          ∧ a.assignedExpression.hasIntegerType = true
          ∧ g.variableInformation.getIntegerArrayVariableReplacement array (index.asInt ev)
            = .ok j)

/-- The generator checks the bounds of every write into a bounded integer slot of states of
`n` bits: the layout is well formed, the array replacement lookups return variables of the
layout, `explorationChecks` is on and `addOutOfBoundsState` is off. -/
def JaniNextStateGenerator.ChecksSlots (g : JaniNextStateGenerator) (n : Nat) : Prop :=
  g.variableInformation.WellFormed n ∧ g.variableInformation.ReplacementsListed
    ∧ g.options.explorationChecks = true ∧ g.options.addOutOfBoundsState = false

/-- Every call of the callback on a state that satisfies `Q` keeps the property `P` of the
state of the callback. -/
def StateToIdCallback.Keeps {σ : Type} (cb : StateToIdCallback σ)
    (Q : CompressedState → Prop) (P : σ → Prop) : Prop :=
  ∀ s st, Q s → P st → P (cb s st).2

namespace Examples

/-- An edge from location 0 whose single destination assigns `x := 2` at level 0. -/
def assignTwoEdge : Edge :=
  { sourceLocationIndex := 0, actionIndex := 0, guard := Expression.booleanLiteral true,
    rate := none, assignments := [],
    destinations :=
      [{ locationIndex := 0, probability := Expression.rationalLiteral 1,
         orderedAssignments := [Assignment.integer x (Expression.integerLiteral 2) 0] }],
    lowestAssignmentLevel := 0, highestAssignmentLevel := 0 }

/-- A generator for `outOfBoundsLayout` (`x` with range `[0, 2]`) with `explorationChecks`
on and `addOutOfBoundsState` off, for one automaton with the edge `assignTwoEdge`. -/
def assignTwoGenerator : JaniNextStateGenerator :=
  { checkedBoundsGenerator with
    parallelAutomata :=
      [{ name := 0, locations := [{ assignments := [] }], edges := [assignTwoEdge] }],
    edges := [(none, [(0, [(0, [(0, assignTwoEdge)])])])] }

end Examples

theorem BitVector.length_set (s : BitVector) (i : Nat) (b : Bool) :
    (BitVector.set s i b).length = s.length := by
  simp [BitVector.set]

theorem BitVector.length_setFromInt (s : BitVector) (o w v : Nat) :
    (BitVector.setFromInt s o w v).length = s.length := by
  induction w generalizing v with
  | zero => rfl
  | succ w ih => simp [BitVector.setFromInt, BitVector.length_set, ih]

theorem BitVector.get_set_eq (s : BitVector) (i : Nat) (b : Bool) (h : i < s.length) :
    BitVector.get (BitVector.set s i b) i = b := by
  simp [BitVector.get, BitVector.set, List.getD_eq_getElem?_getD, List.getElem?_set, h]

theorem BitVector.get_set_ne (s : BitVector) (i j : Nat) (b : Bool) (h : i ≠ j) :
    BitVector.get (BitVector.set s i b) j = BitVector.get s j := by
  simp [BitVector.get, BitVector.set, List.getD_eq_getElem?_getD, List.getElem?_set, h]

theorem BitVector.get_setFromInt_outside (s : BitVector) (o w v j : Nat)
    (h : j < o ∨ o + w ≤ j) :
    BitVector.get (BitVector.setFromInt s o w v) j = BitVector.get s j := by
  induction w generalizing v with
  | zero => rfl
  | succ w ih =>
    simp only [BitVector.setFromInt]
    rw [BitVector.get_set_ne _ _ _ _ (by omega)]
    exact ih _ (by omega)

theorem BitVector.getAsInt_congr (s t : BitVector) (o w : Nat)
    (h : ∀ j, o ≤ j → j < o + w → BitVector.get s j = BitVector.get t j) :
    BitVector.getAsInt s o w = BitVector.getAsInt t o w := by
  induction w with
  | zero => rfl
  | succ w ih =>
    simp only [BitVector.getAsInt]
    rw [ih (fun j h1 h2 => h j h1 (by omega)), h (o + w) (by omega) (by omega)]

theorem BitVector.getAsInt_setFromInt (s : BitVector) (o w v : Nat) (h : o + w ≤ s.length) :
    BitVector.getAsInt (BitVector.setFromInt s o w v) o w = v % 2 ^ w := by
  induction w generalizing v with
  | zero => simp [BitVector.getAsInt, Nat.mod_one]
  | succ w ih =>
    simp only [BitVector.getAsInt, BitVector.setFromInt]
    have hlen : o + w < (BitVector.setFromInt s o w (v / 2)).length := by
      rw [BitVector.length_setFromInt]; omega
    have hcongr := BitVector.getAsInt_congr
      (BitVector.set (BitVector.setFromInt s o w (v / 2)) (o + w) (v % 2 == 1))
      (BitVector.setFromInt s o w (v / 2)) o w
      (fun j _ h2 => BitVector.get_set_ne _ _ _ _ (by omega))
    simp only [BitVector.get_set_eq _ _ _ hlen, hcongr, ih (v / 2) (by omega)]
    have h2 : v % 2 ^ (w + 1) = 2 * (v / 2 % 2 ^ w) + v % 2 := by
      rw [pow_succ', Nat.mod_mul]
      omega
    rw [h2]
    rcases Nat.mod_two_eq_zero_or_one v with h0 | h1
    · simp [h0]
    · simp [h1]

theorem BitVector.getAsInt_setFromInt_disjoint (s : BitVector) (o w v o' w' : Nat)
    (h : o' + w' ≤ o ∨ o + w ≤ o') :
    BitVector.getAsInt (BitVector.setFromInt s o w v) o' w' = BitVector.getAsInt s o' w' :=
  BitVector.getAsInt_congr _ _ _ _
    (fun j h1 h2 => BitVector.get_setFromInt_outside _ _ _ _ _ (by omega))

theorem BitVector.getAsInt_set_outside (s : BitVector) (i : Nat) (b : Bool) (o w : Nat)
    (h : i < o ∨ o + w ≤ i) :
    BitVector.getAsInt (BitVector.set s i b) o w = BitVector.getAsInt s o w :=
  BitVector.getAsInt_congr _ _ _ _
    (fun j h1 h2 => BitVector.get_set_ne _ _ _ _ (by omega))

theorem BitVector.getAsInt_lt (s : BitVector) (o w : Nat) : BitVector.getAsInt s o w < 2 ^ w := by
  induction w with
  | zero => simp [BitVector.getAsInt]
  | succ w ih =>
    simp only [BitVector.getAsInt, pow_succ]
    split <;> omega

/-! ## Initial states -/

/-- C1 (the code departs from the claim): the brute-force enumeration of `getInitialStates`
does not intern the cartesian product of the declared ranges.  For a layout with a single
boolean variable the enumeration finishes after interning the state in which it is false
only; the state in which it is true is never handed to the callback.  For a layout with
two integer variables of range `[1, 2]` (raw values 0 and 1) it interns three of the four
combinations: the combination with raw values 0 and 1 is never handed to the callback. -/
theorem getInitialStates_misses_states :
    getInitialStates Examples.oneBooleanLayout recordingCallback [] 5
        = some (.ok ([0], [[false]]))
      ∧ getInitialStates Examples.twoIntegerLayout recordingCallback [] 5
        = some (.ok ([0, 1, 2], [[false, false], [true, false], [true, true]])) :=
  ⟨rfl, rfl⟩

/-! ## Encoding -/

/-- An assigned value inside the bounds of the slot is written as it is: no exception, no
redirection to the out-of-bounds state. -/
theorem applyUpdate.writeInteger_in_range (g : JaniNextStateGenerator) (state : CompressedState)
    (info : IntegerVariableInformation) (check : Bool) (v : Int)
    (hlo : info.lowerBound ≤ v) (hhi : v ≤ info.upperBound) :
    applyUpdate.writeInteger g state info check v
      = .ok (BitVector.setFromInt state info.bitOffset info.bitWidth
          (toUInt64 (v - info.lowerBound))) := by
  unfold applyUpdate.writeInteger
  have h1 : ¬ v < info.lowerBound := by omega
  have h2 : ¬ v > info.upperBound := by omega
  by_cases ho : g.options.addOutOfBoundsState = true
  · simp [ho, h1, h2]
  · by_cases hc : check = true
    · simp [ho, hc, h1, h2]
    · simp [ho, hc]

/-- The value read back from a slot after a value in range was written. -/
theorem BitVector.getAsInt_setFromInt_toUInt64 (s : BitVector) (o w : Nat) (r : Int)
    (hw : w ≤ 64) (h0 : 0 ≤ r) (hr : r < 2 ^ w) (h : o + w ≤ s.length) :
    (BitVector.getAsInt (BitVector.setFromInt s o w (toUInt64 r)) o w : Int) = r := by
  rw [BitVector.getAsInt_setFromInt _ _ _ _ h]
  have hpow : (2 : Int) ^ w ≤ 2 ^ 64 := pow_le_pow_right₀ (by norm_num) hw
  have hr64 : r % 2 ^ 64 = r := Int.emod_eq_of_lt h0 (by omega)
  unfold toUInt64
  rw [hr64]
  have hnat : r.toNat < 2 ^ w := by
    have : (r.toNat : Int) < ((2 ^ w : Nat) : Int) := by
      rw [Int.toNat_of_nonneg h0]; push_cast; exact hr
    exact_mod_cast this
  rw [Nat.mod_eq_of_lt hnat, Int.toNat_of_nonneg h0]

/-- C10 (the code departs from the claim): with `addOutOfBoundsState` on, an assignment
whose value is outside the bounds replaces the state by the out-of-bounds state and then
still writes the raw value into the slot of that state.  Here `x` has range `[0, 2]` in a
two-bit slot and `x := 3` is applied: the state left behind has the out-of-bounds bit and
both bits of the slot set, it is not the out-of-bounds state. -/
theorem applyUpdate_out_of_bounds_overwrites_sink :
    applyUpdate Examples.outOfBoundsGenerator [false, false, false] Examples.assignThree
        { bitOffset := 0, bitWidth := 0 } 0 Examples.zeroEvaluator = .ok [true, true, true]
      ∧ Examples.outOfBoundsGenerator.outOfBoundsState = [false, false, true]
      ∧ Examples.outOfBoundsGenerator.options.addOutOfBoundsState = true :=
  ⟨rfl, rfl, rfl⟩

/-! ## Writes to global variables -/

/-- C6 (the code departs from the claim): `checkGlobalVariableWritesValid` does not look
at assignment levels.  The edge of automaton 0 writes the global variable `c` at level 0
and the edge of automaton 1 writes it at level 1, so no level has two writers; the check
raises `WrongFormatException` all the same, and with `explorationChecks` on so does
`expandSynchronizingEdgeCombination`. -/
theorem checkGlobalVariableWritesValid_ignores_levels :
    checkGlobalVariableWritesValid Examples.checkingGenerator Examples.writersAtDifferentLevels
        = .error Exception.WrongFormatException
      ∧ expandSynchronizingEdgeCombination Examples.checkingGenerator
          Examples.writersAtDifferentLevels 1 [false, false] recordingCallback
          Examples.zeroEvaluator [] = .error Exception.WrongFormatException
      ∧ ∀ (v : Variable) (level : Int),
          ¬ ((Examples.writer 1 0).writesGlobalVariableAtLevel
                Examples.checkingGenerator.globalVariables v level = true
              ∧ (Examples.writer 2 1).writesGlobalVariableAtLevel
                Examples.checkingGenerator.globalVariables v level = true) := by
  refine ⟨rfl, rfl, ?_⟩
  intro v level h
  simp [Edge.writesGlobalVariableAtLevel, Examples.writer, Assignment.integer,
    Assignment.getExpressionVariable] at h
  omega

/-! ## Terminal states -/

/-- The update of the reward vector for one choice divides by zero when the divisor is zero
and there is a reward model. -/
theorem expand.fuseRewardsStep_zero (c : Choice) (k : Nat) (rs : List ℚ) (hrs : rs ≠ []) :
    expand.fuseRewardsStep 0 c k rs = .error Exception.DivisionByZero := by
  cases rs with
  | nil => exact absurd rfl hrs
  | cons r rest =>
    unfold expand.fuseRewardsStep
    rw [if_pos rfl]

/-- The second loop of the fusion divides by zero when the model has state-action rewards,
there is a reward model and a choice, and the divisor is zero. -/
theorem expand.fuseRewards_zero (g : JaniNextStateGenerator) (cs : List Choice)
    (rs : List ℚ) (hs : g.hasStateActionRewards = true) (hrs : rs ≠ []) (hcs : cs ≠ []) :
    expand.fuseRewards g 0 cs rs = .error Exception.DivisionByZero := by
  cases cs with
  | nil => exact absurd rfl hcs
  | cons c rest =>
    unfold expand.fuseRewards
    rw [if_pos hs, expand.fuseRewardsStep_zero c 0 rs hrs]

/-- The fusion divides by zero when the model has state-action rewards, there is a reward
model and a choice, and the divisor is zero. -/
theorem expand.fuse_zero (g : JaniNextStateGenerator) (cs : List Choice)
    (hs : g.hasStateActionRewards = true) (hre : g.rewardExpressions ≠ []) (hcs : cs ≠ [])
    (hzero : expand.totalExitRate g cs = 0) :
    expand.fuse g cs = .error Exception.DivisionByZero := by
  unfold expand.fuse
  simp only [hzero]
  rw [expand.fuseRewards_zero g cs _ hs (by
    intro hnil
    have := congrArg List.length hnil
    simp only [List.length_replicate, List.length_nil] at this
    exact hre (List.length_eq_zero.1 this)) hcs]

/-- The scan `while (assignment variable != integerIt->variable) ++integerIt` stops at the
information of the variable when the assigned variables follow the order of the layout. -/
theorem dropWhile_of_sublist (v : Variable) (vs : List Variable)
    (it : List IntegerVariableInformation)
    (hsub : (v :: vs).Sublist (it.map (fun i => i.var))) :
    ∃ i its, it.dropWhile (fun i => i.var != v) = i :: its ∧ i.var = v
      ∧ vs.Sublist ((i :: its).map (fun i => i.var)) ∧ (i :: its) <:+ it := by
  induction it with
  | nil => simp at hsub
  | cons j jt ih =>
    by_cases hj : j.var = v
    · refine ⟨j, jt, ?_, hj, ?_, List.suffix_refl _⟩
      · simp [List.dropWhile_cons, hj]
      · simp only [List.map_cons] at hsub ⊢
        rw [hj] at hsub ⊢
        have := List.Sublist.of_cons_cons hsub
        exact List.Sublist.cons _ this
    · simp only [List.map_cons] at hsub
      have hsub' : (v :: vs).Sublist (jt.map (fun i => i.var)) := by
        cases hsub with
        | cons _ h => exact h
        | cons₂ _ h => exact absurd rfl hj
      obtain ⟨i, its, h1, h2, h3, h4⟩ := ih hsub'
      refine ⟨i, its, ?_, h2, h3, ?_⟩
      · simp [List.dropWhile_cons, hj, h1]
      · exact List.suffix_cons_iff.2 (Or.inr h4)

/-- The result of the loop over the integer assignments of `applyUpdate`: when the assigned
variables follow the order of the layout and every assigned value is inside the bounds of
its variable, the loop consumes all assignments, every assigned slot holds the value of
its right-hand side under the evaluator that was passed in, and no other bit changes. -/
theorem applyUpdate.integerLoop_spec (g : JaniNextStateGenerator) (ev : ExpressionEvaluator)
    (n : Nat) (as : List Assignment) (it : List IntegerVariableInformation)
    (state : CompressedState)
    (hlen : state.length = n)
    (hvar : ∀ a ∈ as, a.lValueIsVariable = true ∧ a.getExpressionVariable.hasIntegerType = true)
    (hsub : (as.map (fun a => a.getExpressionVariable)).Sublist (it.map (fun i => i.var)))
    (hnodup : (it.map (fun i => i.var)).Nodup)
    (hslot : ∀ i ∈ it, i.bitOffset + i.bitWidth ≤ n ∧ i.bitWidth ≤ 64
      ∧ i.upperBound - i.lowerBound < 2 ^ i.bitWidth)
    (hdisj : ∀ i ∈ it, ∀ j ∈ it, i.var ≠ j.var →
      i.bitOffset + i.bitWidth ≤ j.bitOffset ∨ j.bitOffset + j.bitWidth ≤ i.bitOffset)
    (hrange : ∀ a ∈ as, ∀ i ∈ it, i.var = a.getExpressionVariable →
      i.lowerBound ≤ a.assignedExpression.asInt ev ∧ a.assignedExpression.asInt ev ≤ i.upperBound) :
    ∃ state1, applyUpdate.integerLoop g ev as it state = .ok ([], state1)
      ∧ state1.length = n
      ∧ (∀ a ∈ as, ∀ i ∈ it, i.var = a.getExpressionVariable →
          (BitVector.getAsInt state1 i.bitOffset i.bitWidth : Int) + i.lowerBound
            = a.assignedExpression.asInt ev)
      ∧ (∀ k, (∀ a ∈ as, ∀ i ∈ it, i.var = a.getExpressionVariable →
            k < i.bitOffset ∨ i.bitOffset + i.bitWidth ≤ k) →
          BitVector.get state1 k = BitVector.get state k) := by
  induction as generalizing it state with
  | nil =>
    refine ⟨state, rfl, hlen, ?_, ?_⟩
    · intro a ha; exact absurd ha (List.not_mem_nil a)
    · intro k _; rfl
  | cons a rest ih =>
    have hinj := List.inj_on_of_nodup_map hnodup
    obtain ⟨hav, hat⟩ := hvar a (List.mem_cons_self _ _)
    simp only [List.map_cons] at hsub
    obtain ⟨i, its, hdrop, hiv, hsub', hsuffix⟩ :=
      dropWhile_of_sublist a.getExpressionVariable _ it hsub
    have hmem : ∀ j ∈ i :: its, j ∈ it := fun j hj => hsuffix.subset hj
    have hi : i ∈ it := hmem i (List.mem_cons_self _ _)
    obtain ⟨hlo, hhi⟩ := hrange a (List.mem_cons_self _ _) i hi hiv
    obtain ⟨hs1, hs2, hs3⟩ := hslot i hi
    -- the variables of the remaining assignments differ from the variable of `a`
    have hnd : (a.getExpressionVariable :: rest.map (fun a => a.getExpressionVariable)).Nodup :=
      List.Nodup.sublist hsub hnodup
    have hne : ∀ a' ∈ rest, a'.getExpressionVariable ≠ a.getExpressionVariable := by
      intro a' ha' heq
      have := (List.nodup_cons.1 hnd).1
      exact this (heq ▸ List.mem_map_of_mem _ ha')
    obtain ⟨state2, hloop, hlen2, hval2, hframe2⟩ :=
      ih (i :: its)
        (BitVector.setFromInt state i.bitOffset i.bitWidth
          (toUInt64 (a.assignedExpression.asInt ev - i.lowerBound)))
        (by rw [BitVector.length_setFromInt]; exact hlen)
        (fun a' ha' => hvar a' (List.mem_cons_of_mem _ ha'))
        hsub'
        (List.Nodup.sublist (List.Sublist.map _ hsuffix.sublist) hnodup)
        (fun j hj => hslot j (hmem j hj))
        (fun j hj j' hj' => hdisj j (hmem j hj) j' (hmem j' hj'))
        (fun a' ha' j hj => hrange a' (List.mem_cons_of_mem _ ha') j (hmem j hj))
    refine ⟨state2, ?_, hlen2, ?_, ?_⟩
    · simp only [applyUpdate.integerLoop, hav, hat, Bool.and_self, if_true, hdrop]
      rw [applyUpdate.writeInteger_in_range g state i _ _ hlo hhi]
      exact hloop
    · intro a' ha' j hj hjv
      rcases List.mem_cons.1 ha' with h | h
      · subst h
        have hji : j = i := hinj hj hi (by rw [hjv, hiv])
        subst hji
        have hcongr := BitVector.getAsInt_congr state2
          (BitVector.setFromInt state j.bitOffset j.bitWidth
            (toUInt64 (a'.assignedExpression.asInt ev - j.lowerBound))) j.bitOffset j.bitWidth
          (fun k hk1 hk2 => hframe2 k (fun a'' ha'' j' hj' hj'v => by
            have hvne : j'.var ≠ j.var := by rw [hj'v, hiv]; exact hne a'' ha''
            have := hdisj j' (hmem j' hj') j hi hvne
            omega))
        rw [hcongr, BitVector.getAsInt_setFromInt_toUInt64 _ _ _ _ hs2 (by omega) (by omega)
          (by omega)]
        omega
      · -- `j` is among the informations from the iterator on
        have hjm : j ∈ i :: its := by
          have hv : a'.getExpressionVariable ∈ (i :: its).map (fun i => i.var) :=
            hsub'.subset (List.mem_map_of_mem _ h)
          obtain ⟨j', hj', hj'v⟩ := List.mem_map.1 hv
          have : j = j' := hinj hj (hmem j' hj') (by rw [hjv, hj'v])
          rw [this]; exact hj'
        exact hval2 a' h j hjm hjv
    · intro k hk
      rw [hframe2 k (fun a' ha' j hj hjv => hk a' (List.mem_cons_of_mem _ ha') j (hmem j hj) hjv)]
      exact BitVector.get_setFromInt_outside _ _ _ _ _
        (hk a (List.mem_cons_self _ _) i hi hiv)
theorem setLocation_length (state : CompressedState) (lv : LocationVariableInformation)
    (locationIndex : Nat) : (setLocation state lv locationIndex).length = state.length := by
  unfold setLocation
  split
  · exact BitVector.length_setFromInt _ _ _ _
  · rfl

theorem get_setLocation_outside (state : CompressedState) (lv : LocationVariableInformation)
    (locationIndex k : Nat) (h : k < lv.bitOffset ∨ lv.bitOffset + lv.bitWidth ≤ k) :
    BitVector.get (setLocation state lv locationIndex) k = BitVector.get state k := by
  unfold setLocation
  split
  · exact BitVector.get_setFromInt_outside _ _ _ _ _ h
  · rfl

theorem applyUpdate.booleanLoop_of_integers (ev : ExpressionEvaluator) (as : List Assignment)
    (boolIt : List BooleanVariableInformation) (state : CompressedState)
    (hvar : ∀ a ∈ as, a.getExpressionVariable.hasIntegerType = true) :
    applyUpdate.booleanLoop ev as boolIt state = .ok (as, state) := by
  cases as with
  | nil => rfl
  | cons a rest =>
    have h := hvar a (List.mem_cons_self _ _)
    have hb : a.getExpressionVariable.hasBooleanType = false := by
      unfold Variable.hasIntegerType at h
      unfold Variable.hasBooleanType
      cases ht : a.getExpressionVariable.type <;> simp_all
    simp [applyUpdate.booleanLoop, hb]

/-- The result of `applyUpdate` for a destination whose persistent assignments at the level
are assignments to integer variables, in the order of the layout and with values inside
the bounds: `applyUpdate` returns a state in which every assigned slot holds the value of
its right-hand side under the evaluator that was passed in; the slots of the other integer
variables and the bits of the boolean variables are as before. -/
theorem applyUpdate_integers (g : JaniNextStateGenerator) (state : CompressedState)
    (destination : EdgeDestination) (lv : LocationVariableInformation) (level : Int)
    (ev : ExpressionEvaluator)
    (hwf : g.variableInformation.WellFormed state.length)
    (hlv : lv ∈ g.variableInformation.locationVariables)
    (hvar : ∀ a ∈ destination.orderedAssignments.getNonTransientAssignments level,
      a.lValueIsVariable = true ∧ a.getExpressionVariable.hasIntegerType = true)
    (hsub : ((destination.orderedAssignments.getNonTransientAssignments level).map
        (fun a => a.getExpressionVariable)).Sublist
      (g.variableInformation.integerVariables.map (fun i => i.var)))
    (hrange : ∀ a ∈ destination.orderedAssignments.getNonTransientAssignments level,
      ∀ i ∈ g.variableInformation.integerVariables, i.var = a.getExpressionVariable →
        i.lowerBound ≤ a.assignedExpression.asInt ev
          ∧ a.assignedExpression.asInt ev ≤ i.upperBound) :
    ∃ state1, applyUpdate g state destination lv level ev = .ok state1
      ∧ state1.length = state.length
      ∧ (∀ a ∈ destination.orderedAssignments.getNonTransientAssignments level,
          ∀ i ∈ g.variableInformation.integerVariables, i.var = a.getExpressionVariable →
            (BitVector.getAsInt state1 i.bitOffset i.bitWidth : Int) + i.lowerBound
              = a.assignedExpression.asInt ev)
      ∧ (∀ i ∈ g.variableInformation.integerVariables,
          (∀ a ∈ destination.orderedAssignments.getNonTransientAssignments level,
            a.getExpressionVariable ≠ i.var) →
          BitVector.getAsInt state1 i.bitOffset i.bitWidth
            = BitVector.getAsInt state i.bitOffset i.bitWidth)
      ∧ (∀ b ∈ g.variableInformation.booleanVariables,
          BitVector.get state1 b.bitOffset = BitVector.get state b.bitOffset) := by
  obtain ⟨hslot, _, _, hnodup, _, _, hdisj, hlocint, hboolint, hlocbool⟩ := hwf
  obtain ⟨state1, hloop, hlen1, hval1, hframe1⟩ :=
    applyUpdate.integerLoop_spec g ev state.length
      (destination.orderedAssignments.getNonTransientAssignments level)
      g.variableInformation.integerVariables
      (setLocation state lv destination.locationIndex)
      (setLocation_length _ _ _) hvar hsub hnodup hslot hdisj hrange
  refine ⟨state1, ?_, hlen1, hval1, ?_, ?_⟩
  · unfold applyUpdate
    simp only
    rw [applyUpdate.booleanLoop_of_integers ev _ _ _ (fun a ha => (hvar a ha).2)]
    simp only [hloop, applyUpdate.arrayLoop]
  · intro i hi hnot
    apply BitVector.getAsInt_congr
    intro k hk1 hk2
    rw [hframe1 k (fun a ha j hj hjv => by
      have hne : j.var ≠ i.var := by rw [hjv]; exact hnot a ha
      have := hdisj j hj i hi hne
      omega)]
    exact get_setLocation_outside _ _ _ _ (by have := hlocint lv hlv i hi; omega)
  · intro b hb
    rw [hframe1 b.bitOffset (fun a ha j hj hjv => by
      have := hboolint b hb j hj
      omega)]
    exact get_setLocation_outside _ _ _ _ (by have := hlocbool lv hlv b hb; omega)

/-! ## Unpacking a state into the evaluator -/

theorem foldl_setIntegerValue_booleanValues {α : Type} (l : List α) (var : α → Variable)
    (val : α → Int) (ev : ExpressionEvaluator) :
    (l.foldl (fun e i => e.setIntegerValue (var i) (val i)) ev).booleanValues = ev.booleanValues
      ∧ (l.foldl (fun e i => e.setIntegerValue (var i) (val i)) ev).rationalValues
          = ev.rationalValues := by
  induction l generalizing ev with
  | nil => exact ⟨rfl, rfl⟩
  | cons a rest ih =>
    simp only [List.foldl_cons]
    obtain ⟨h1, h2⟩ := ih (ev.setIntegerValue (var a) (val a))
    exact ⟨h1, h2⟩

theorem foldl_setBooleanValue_integerValues {α : Type} (l : List α) (var : α → Variable)
    (val : α → Bool) (ev : ExpressionEvaluator) :
    (l.foldl (fun e i => e.setBooleanValue (var i) (val i)) ev).integerValues = ev.integerValues
      ∧ (l.foldl (fun e i => e.setBooleanValue (var i) (val i)) ev).rationalValues
          = ev.rationalValues := by
  induction l generalizing ev with
  | nil => exact ⟨rfl, rfl⟩
  | cons a rest ih =>
    simp only [List.foldl_cons]
    obtain ⟨h1, h2⟩ := ih (ev.setBooleanValue (var a) (val a))
    exact ⟨h1, h2⟩

theorem foldl_setIntegerValue_of_not_mem {α : Type} (l : List α) (var : α → Variable)
    (val : α → Int) (ev : ExpressionEvaluator) (w : Variable) (h : ∀ a ∈ l, var a ≠ w) :
    (l.foldl (fun e i => e.setIntegerValue (var i) (val i)) ev).integerValues w
      = ev.integerValues w := by
  induction l generalizing ev with
  | nil => rfl
  | cons a rest ih =>
    simp only [List.foldl_cons]
    rw [ih _ (fun b hb => h b (List.mem_cons_of_mem _ hb))]
    have : w ≠ var a := fun e => h a (List.mem_cons_self _ _) e.symm
    simp [ExpressionEvaluator.setIntegerValue, this]

theorem foldl_setIntegerValue_of_mem {α : Type} (l : List α) (var : α → Variable)
    (val : α → Int) (ev : ExpressionEvaluator) (a : α) (ha : a ∈ l)
    (hnodup : (l.map var).Nodup) :
    (l.foldl (fun e i => e.setIntegerValue (var i) (val i)) ev).integerValues (var a) = val a := by
  induction l generalizing ev with
  | nil => exact absurd ha (List.not_mem_nil a)
  | cons b rest ih =>
    simp only [List.map_cons, List.nodup_cons] at hnodup
    simp only [List.foldl_cons]
    rcases List.mem_cons.1 ha with h | h
    · subst h
      rw [foldl_setIntegerValue_of_not_mem rest var val _ (var a)
        (fun c hc heq => hnodup.1 (heq ▸ List.mem_map_of_mem _ hc))]
      simp [ExpressionEvaluator.setIntegerValue]
    · exact ih _ h hnodup.2

theorem foldl_setBooleanValue_congr {α : Type} (l : List α) (var : α → Variable)
    (val val' : α → Bool) (ev : ExpressionEvaluator) (h : ∀ a ∈ l, val a = val' a) :
    l.foldl (fun e i => e.setBooleanValue (var i) (val i)) ev
      = l.foldl (fun e i => e.setBooleanValue (var i) (val' i)) ev := by
  induction l generalizing ev with
  | nil => rfl
  | cons a rest ih =>
    simp only [List.foldl_cons]
    rw [h a (List.mem_cons_self _ _)]
    exact ih _ (fun b hb => h b (List.mem_cons_of_mem _ hb))

/-- The value of an integer variable of the layout after a state was unpacked. -/
theorem unpackStateIntoEvaluator_integerValues (state : CompressedState)
    (vi : VariableInformation) (ev : ExpressionEvaluator) (i : IntegerVariableInformation)
    (hi : i ∈ vi.integerVariables) (hnodup : (vi.integerVariables.map (fun i => i.var)).Nodup) :
    (unpackStateIntoEvaluator state vi ev).integerValues i.var
      = (BitVector.getAsInt state i.bitOffset i.bitWidth : Int) + i.lowerBound := by
  unfold unpackStateIntoEvaluator
  exact foldl_setIntegerValue_of_mem vi.integerVariables (fun i => i.var)
    (fun i => (BitVector.getAsInt state i.bitOffset i.bitWidth : Int) + i.lowerBound) _ i hi hnodup

/-- Unpacking a state that differs from another one only in the slot of one integer
variable gives the evaluator of the other state with that variable set to the value of
the slot. -/
theorem unpackStateIntoEvaluator_update (state state1 : CompressedState)
    (vi : VariableInformation) (ev : ExpressionEvaluator) (ix : IntegerVariableInformation)
    (value : Int) (hix : ix ∈ vi.integerVariables)
    (hnodup : (vi.integerVariables.map (fun i => i.var)).Nodup)
    (hx : (BitVector.getAsInt state1 ix.bitOffset ix.bitWidth : Int) + ix.lowerBound = value)
    (hother : ∀ i ∈ vi.integerVariables, i.var ≠ ix.var →
      BitVector.getAsInt state1 i.bitOffset i.bitWidth
        = BitVector.getAsInt state i.bitOffset i.bitWidth)
    (hbool : ∀ b ∈ vi.booleanVariables,
      BitVector.get state1 b.bitOffset = BitVector.get state b.bitOffset) :
    unpackStateIntoEvaluator state1 vi ev
      = (unpackStateIntoEvaluator state vi ev).setIntegerValue ix.var value := by
  have hinj := List.inj_on_of_nodup_map hnodup
  have hb : vi.booleanVariables.foldl
        (fun e b => e.setBooleanValue b.var (BitVector.get state1 b.bitOffset)) ev
      = vi.booleanVariables.foldl
        (fun e b => e.setBooleanValue b.var (BitVector.get state b.bitOffset)) ev :=
    foldl_setBooleanValue_congr _ _ _ _ _ hbool
  unfold unpackStateIntoEvaluator
  simp only [hb]
  generalize vi.booleanVariables.foldl
    (fun e b => e.setBooleanValue b.var (BitVector.get state b.bitOffset)) ev = ev0
  have h1 := foldl_setIntegerValue_booleanValues vi.integerVariables (fun i => i.var)
    (fun i => (BitVector.getAsInt state1 i.bitOffset i.bitWidth : Int) + i.lowerBound) ev0
  have h2 := foldl_setIntegerValue_booleanValues vi.integerVariables (fun i => i.var)
    (fun i => (BitVector.getAsInt state i.bitOffset i.bitWidth : Int) + i.lowerBound) ev0
  have hint : ∀ w,
      (vi.integerVariables.foldl (fun e i => e.setIntegerValue i.var
          ((BitVector.getAsInt state1 i.bitOffset i.bitWidth : Int) + i.lowerBound)) ev0).integerValues w
        = if w = ix.var then value
          else (vi.integerVariables.foldl (fun e i => e.setIntegerValue i.var
            ((BitVector.getAsInt state i.bitOffset i.bitWidth : Int) + i.lowerBound)) ev0).integerValues w := by
    intro w
    by_cases hw : ∃ i ∈ vi.integerVariables, i.var = w
    · obtain ⟨i, hi, hiw⟩ := hw
      subst hiw
      rw [foldl_setIntegerValue_of_mem vi.integerVariables (fun i => i.var) _ ev0 i hi hnodup]
      by_cases hx2 : i.var = ix.var
      · have : i = ix := hinj hi hix hx2
        subst this
        simp [hx]
      · rw [if_neg hx2,
          foldl_setIntegerValue_of_mem vi.integerVariables (fun i => i.var) _ ev0 i hi hnodup,
          hother i hi hx2]
    · have hnot : ∀ i ∈ vi.integerVariables, i.var ≠ w := fun i hi heq => hw ⟨i, hi, heq⟩
      have hwx : w ≠ ix.var := fun e => hnot ix hix e.symm
      rw [foldl_setIntegerValue_of_not_mem _ _ _ _ w hnot, if_neg hwx,
        foldl_setIntegerValue_of_not_mem _ _ _ _ w hnot]
  cases hA : vi.integerVariables.foldl (fun e i => e.setIntegerValue i.var
      ((BitVector.getAsInt state1 i.bitOffset i.bitWidth : Int) + i.lowerBound)) ev0 with
  | mk bA iA rA =>
    cases hB : vi.integerVariables.foldl (fun e i => e.setIntegerValue i.var
        ((BitVector.getAsInt state i.bitOffset i.bitWidth : Int) + i.lowerBound)) ev0 with
    | mk bB iB rB =>
      rw [hA] at h1 hint
      rw [hB] at h2 hint
      simp only [ExpressionEvaluator.setIntegerValue]
      simp only at h1 h2 hint
      congr 1
      · rw [h1.1, h2.1]
      · funext w; exact hint w
      · rw [h1.2, h2.2]
/-! ## Assignment levels -/

/-- `applyUpdate` for a destination with a single persistent assignment `x := e` to an
integer variable at the level. -/
theorem applyUpdate_single (g : JaniNextStateGenerator) (state : CompressedState)
    (destination : EdgeDestination) (lv : LocationVariableInformation) (level : Int)
    (ev : ExpressionEvaluator) (x : Variable) (e : Expression) (ix : IntegerVariableInformation)
    (hwf : g.variableInformation.WellFormed state.length)
    (hlv : lv ∈ g.variableInformation.locationVariables)
    (hix : ix ∈ g.variableInformation.integerVariables) (hxv : ix.var = x)
    (hxt : x.hasIntegerType = true)
    (hassign : destination.orderedAssignments.getNonTransientAssignments level
      = [Assignment.integer x e level])
    (hrange : ix.lowerBound ≤ e.asInt ev ∧ e.asInt ev ≤ ix.upperBound) :
    ∃ state1, applyUpdate g state destination lv level ev = .ok state1
      ∧ state1.length = state.length
      ∧ (BitVector.getAsInt state1 ix.bitOffset ix.bitWidth : Int) + ix.lowerBound = e.asInt ev
      ∧ (∀ i ∈ g.variableInformation.integerVariables, i.var ≠ x →
          BitVector.getAsInt state1 i.bitOffset i.bitWidth
            = BitVector.getAsInt state i.bitOffset i.bitWidth)
      ∧ (∀ b ∈ g.variableInformation.booleanVariables,
          BitVector.get state1 b.bitOffset = BitVector.get state b.bitOffset) := by
  have hinj := List.inj_on_of_nodup_map hwf.2.2.2.1
  obtain ⟨state1, h1, h2, h3, h4, h5⟩ := applyUpdate_integers g state destination lv level ev
    hwf hlv
    (by
      rw [hassign]
      intro a ha
      rw [List.mem_singleton.1 ha]
      exact ⟨rfl, hxt⟩)
    (by
      rw [hassign]
      simp only [List.map_cons, List.map_nil, List.singleton_sublist]
      exact List.mem_map.2 ⟨ix, hix, hxv⟩)
    (by
      rw [hassign]
      intro a ha i hi hiv
      rw [List.mem_singleton.1 ha] at hiv ⊢
      have : i = ix := hinj hi hix (by rw [hiv, hxv]; rfl)
      rw [this]
      exact hrange)
  refine ⟨state1, h1, h2, ?_, ?_, h5⟩
  · have := h3 (Assignment.integer x e level) (by rw [hassign]; exact List.mem_singleton.2 rfl)
      ix hix hxv
    exact this
  · intro i hi hne
    apply h4 i hi
    rw [hassign]
    intro a ha
    rw [List.mem_singleton.1 ha]
    exact fun h => hne h.symm

/-- C7: visibility of a lower assignment level.  Let a destination of a non-synchronizing
edge have the persistent assignments `x := e0` at level 0 and `y := f` at level 1 (integer
variables of a well-formed layout).  For every source state and evaluator for which the
destination has non-zero probability and both assigned values are inside the bounds,
`expandNonSynchronizingEdge` hands a successor state `newState` to the interning callback
in which the slot of `y` holds the value of `f` under the valuation of the source state
with `x` already set to the value of `e0`: the write of level 0 is visible to the read of
level 1. -/
theorem level_zero_write_visible_at_level_one {σ : Type} (g : JaniNextStateGenerator)
    (edge : Edge) (destination : EdgeDestination) (automatonIndex : Nat)
    (state : CompressedState) (cb : StateToIdCallback σ) (exitRate : Option ℚ)
    (acc : ExpandEdgeState σ) (lv : LocationVariableInformation) (x y : Variable)
    (e0 f : Expression) (ix iy : IntegerVariableInformation)
    (hwf : g.variableInformation.WellFormed state.length)
    (hlv : g.variableInformation.locationVariables[automatonIndex]? = some lv)
    (hix : ix ∈ g.variableInformation.integerVariables) (hxv : ix.var = x)
    (hiy : iy ∈ g.variableInformation.integerVariables) (hyv : iy.var = y)
    (hxt : x.hasIntegerType = true) (hyt : y.hasIntegerType = true)
    (hassign : destination.orderedAssignments
      = [Assignment.integer x e0 0, Assignment.integer y f 1])
    (hlow : edge.lowestAssignmentLevel = 0) (hhigh : edge.highestAssignmentLevel = 1)
    (hprob : destination.probability.asRational acc.evaluator ≠ 0)
    (hx : ix.lowerBound ≤ e0.asInt acc.evaluator ∧ e0.asInt acc.evaluator ≤ ix.upperBound)
    (hy : iy.lowerBound
        ≤ f.asInt ((unpackStateIntoEvaluator state g.variableInformation acc.evaluator).setIntegerValue
            x (e0.asInt acc.evaluator))
      ∧ f.asInt ((unpackStateIntoEvaluator state g.variableInformation acc.evaluator).setIntegerValue
            x (e0.asInt acc.evaluator)) ≤ iy.upperBound) :
    ∃ newState acc1,
      expandNonSynchronizingEdge.destinationStep g edge automatonIndex state cb exitRate acc
          destination = .ok acc1
        ∧ acc1.callbackState = (cb newState acc.callbackState).2
        ∧ (BitVector.getAsInt newState iy.bitOffset iy.bitWidth : Int) + iy.lowerBound
            = f.asInt ((unpackStateIntoEvaluator state g.variableInformation
                acc.evaluator).setIntegerValue x (e0.asInt acc.evaluator)) := by
  have hlvmem : lv ∈ g.variableInformation.locationVariables := List.getElem?_mem hlv
  have hnodup := hwf.2.2.2.1
  have hnt : destination.hasTransientAssignment = false := by
    simp [EdgeDestination.hasTransientAssignment, hassign, Assignment.integer]
  have hl0 : destination.orderedAssignments.getNonTransientAssignments 0
      = [Assignment.integer x e0 0] := by
    simp [OrderedAssignments.getNonTransientAssignments, hassign, Assignment.integer]
  have hl1 : destination.orderedAssignments.getNonTransientAssignments (0 + 1)
      = [Assignment.integer y f (0 + 1)] := by
    simp [OrderedAssignments.getNonTransientAssignments, hassign, Assignment.integer]
  obtain ⟨s0, hs0, hlen0, hval0, hother0, hbool0⟩ :=
    applyUpdate_single g state destination lv 0 acc.evaluator x e0 ix hwf hlvmem hix hxv hxt hl0 hx
  have hunpack : unpackStateIntoEvaluator s0 g.variableInformation acc.evaluator
      = (unpackStateIntoEvaluator state g.variableInformation acc.evaluator).setIntegerValue
          x (e0.asInt acc.evaluator) := by
    rw [← hxv]
    exact unpackStateIntoEvaluator_update state s0 g.variableInformation acc.evaluator ix _ hix
      hnodup hval0 (fun i hi hne => hother0 i hi (by rw [← hxv]; exact hne)) hbool0
  obtain ⟨s1, hs1, _, hval1, _, _⟩ :=
    applyUpdate_single g s0 destination lv (0 + 1)
      (unpackStateIntoEvaluator s0 g.variableInformation acc.evaluator) y f iy
      (by rw [hlen0]; exact hwf) hlvmem hiy hyv hyt hl1 (by rw [hunpack]; exact hy)
  have hsucc : expandNonSynchronizingEdge.successor g edge destination lv state acc.evaluator
      = .ok (s1, unpackStateIntoEvaluator s0 g.variableInformation acc.evaluator) := by
    unfold expandNonSynchronizingEdge.successor
    simp only [hlow, hhigh, hs0, hnt, Bool.false_eq_true, if_false]
    have h10 : ((1 : Int) - 0).toNat = 1 := by decide
    rw [h10]
    simp only [expandNonSynchronizingEdge.levelLoop, hs1, hnt, Bool.false_eq_true, if_false]
  have hstep : ∃ acc1,
      expandNonSynchronizingEdge.destinationStep g edge automatonIndex state cb exitRate acc
          destination = .ok acc1
        ∧ acc1.callbackState = (cb s1 acc.callbackState).2 := by
    unfold expandNonSynchronizingEdge.destinationStep
    rw [if_neg hprob]
    simp only [hlv, hsucc]
    exact ⟨_, rfl, rfl⟩
  obtain ⟨acc1, hacc1, hcb⟩ := hstep
  refine ⟨s1, acc1, hacc1, hcb, ?_⟩
  rw [hval1, hunpack]
/-- Witness for C7: `x := x + 1` at level 0 and `y := 2 * x` at level 1 from the state
with `x = 1`: the successor stores `2 * (1 + 1) = 4` in `y`. -/
theorem level_zero_write_visible_at_level_one_witness :
    ∃ newState acc1,
      expandNonSynchronizingEdge.destinationStep (Examples.generatorFor Examples.twoCounterLayout)
          Examples.incrementThenDoubleEdge 0 Examples.xIsOne recordingCallback none
          (Examples.entryState (Examples.generatorFor Examples.twoCounterLayout) Examples.xIsOne)
          Examples.incrementThenDouble = .ok acc1
        ∧ acc1.callbackState = (recordingCallback newState []).2
        ∧ (BitVector.getAsInt newState 2 3 : Int) + 0
            = Examples.twiceX.asInt ((unpackStateIntoEvaluator Examples.xIsOne
                Examples.twoCounterLayout
                (unpackStateIntoEvaluator Examples.xIsOne Examples.twoCounterLayout
                  Examples.zeroEvaluator)).setIntegerValue Examples.x 2) :=
  level_zero_write_visible_at_level_one (Examples.generatorFor Examples.twoCounterLayout)
    Examples.incrementThenDoubleEdge Examples.incrementThenDouble 0 Examples.xIsOne
    recordingCallback none
    (Examples.entryState (Examples.generatorFor Examples.twoCounterLayout) Examples.xIsOne)
    { bitOffset := 0, bitWidth := 0 } Examples.x Examples.y Examples.xPlusOne Examples.twiceX
    { var := Examples.x, lowerBound := 0, upperBound := 3, bitOffset := 0, bitWidth := 2,
      forceOutOfBoundsCheck := false }
    { var := Examples.y, lowerBound := 0, upperBound := 7, bitOffset := 2, bitWidth := 3,
      forceOutOfBoundsCheck := false }
    (by unfold VariableInformation.WellFormed; decide) rfl
    (List.mem_cons_self _ _) rfl (List.mem_cons_of_mem _ (List.mem_cons_self _ _)) rfl
    rfl rfl rfl rfl rfl (by decide) (by decide) (by decide)

/-! ## Simultaneous assignments -/

/-- `applyTransientUpdate` with no assignment leaves the valuation buffer as it is. -/
theorem applyTransientUpdate_nil (g : JaniNextStateGenerator) (t : TransientVariableValuation)
    (ev : ExpressionEvaluator) : applyTransientUpdate g t [] ev = .ok t := by
  simp [applyTransientUpdate, applyTransientUpdate.booleanLoop, applyTransientUpdate.integerLoop,
    applyTransientUpdate.rationalLoop, applyTransientUpdate.arrayLoop]

/-- Two updates with the same evaluator, `x := y` from one destination and `y := x` from
another one: the values of `x` and `y` under the evaluator end up swapped. -/
theorem applyUpdate_swap_two (g : JaniNextStateGenerator) (state : CompressedState)
    (d1 d2 : EdgeDestination) (lv1 lv2 : LocationVariableInformation) (level : Int)
    (ev : ExpressionEvaluator) (x y : Variable) (ix iy : IntegerVariableInformation)
    (hwf : g.variableInformation.WellFormed state.length)
    (hlv1 : lv1 ∈ g.variableInformation.locationVariables)
    (hlv2 : lv2 ∈ g.variableInformation.locationVariables)
    (hix : ix ∈ g.variableInformation.integerVariables) (hxv : ix.var = x)
    (hiy : iy ∈ g.variableInformation.integerVariables) (hyv : iy.var = y)
    (hxt : x.hasIntegerType = true) (hyt : y.hasIntegerType = true) (hxy : x ≠ y)
    (h1 : d1.orderedAssignments.getNonTransientAssignments level
      = [Assignment.integer x (Expression.integerVariable y) level])
    (h2 : d2.orderedAssignments.getNonTransientAssignments level
      = [Assignment.integer y (Expression.integerVariable x) level])
    (hrx : ix.lowerBound ≤ ev.integerValues y ∧ ev.integerValues y ≤ ix.upperBound)
    (hry : iy.lowerBound ≤ ev.integerValues x ∧ ev.integerValues x ≤ iy.upperBound) :
    ∃ s1 s2, applyUpdate g state d1 lv1 level ev = .ok s1
      ∧ applyUpdate g s1 d2 lv2 level ev = .ok s2
      ∧ s2.length = state.length
      ∧ (BitVector.getAsInt s2 ix.bitOffset ix.bitWidth : Int) + ix.lowerBound
          = ev.integerValues y
      ∧ (BitVector.getAsInt s2 iy.bitOffset iy.bitWidth : Int) + iy.lowerBound
          = ev.integerValues x := by
  obtain ⟨s1, hs1, hlen1, hval1, _, _⟩ :=
    applyUpdate_single g state d1 lv1 level ev x (Expression.integerVariable y) ix hwf hlv1 hix hxv
      hxt h1 hrx
  obtain ⟨s2, hs2, hlen2, hval2, hother2, _⟩ :=
    applyUpdate_single g s1 d2 lv2 level ev y (Expression.integerVariable x) iy
      (by rw [hlen1]; exact hwf) hlv2 hiy hyv hyt h2 hry
  refine ⟨s1, s2, hs1, hs2, by rw [hlen2, hlen1], ?_, hval2⟩
  rw [hother2 ix hix (by rw [hxv]; exact hxy)]
  exact hval1
/-- `applyUpdate` for a destination without persistent assignments at the level writes the
location only. -/
theorem applyUpdate_nil (g : JaniNextStateGenerator) (state : CompressedState)
    (destination : EdgeDestination) (lv : LocationVariableInformation) (level : Int)
    (ev : ExpressionEvaluator)
    (h : destination.orderedAssignments.getNonTransientAssignments level = []) :
    applyUpdate g state destination lv level ev
      = .ok (setLocation state lv destination.locationIndex) := by
  simp [applyUpdate, h, applyUpdate.booleanLoop, applyUpdate.integerLoop, applyUpdate.arrayLoop]

theorem getAsInt_setLocation (state : CompressedState) (lv : LocationVariableInformation)
    (locationIndex o w : Nat) (h : lv.bitOffset + lv.bitWidth ≤ o ∨ o + w ≤ lv.bitOffset) :
    BitVector.getAsInt (setLocation state lv locationIndex) o w = BitVector.getAsInt state o w :=
  BitVector.getAsInt_congr _ _ _ _
    (fun k _ _ => get_setLocation_outside _ _ _ _ (by omega))

theorem TransientVariableValuation.clear_setInEvaluator (ev : ExpressionEvaluator) :
    TransientVariableValuation.clear.setInEvaluator ev = ev := rfl

/-- C8 (amended): assignments of one level are simultaneous.

(1) Within one destination: when the persistent assignments of the level are assignments
to integer variables of a well-formed layout (in the order of the layout) whose values are
inside the bounds, `applyUpdate` returns a state in which every assigned slot holds the
value of its right-hand side under the evaluator that was passed in, that is, under the
valuation that held before any assignment of the level was written.

(2) A destination of a non-synchronizing edge with `x := y` and `y := x` at the same level,
expanded with the evaluator loaded from the source state: the state handed to the interning
callback holds the source value of `y` in `x` and the source value of `x` in `y`, provided
each source value lies inside the bounds of the other variable.

(3) A synchronized pair of edges (without rates) whose chosen destinations assign `x := y`
(first automaton) and `y := x` (second automaton) at the lowest level: the state handed to
the interning callback holds the swapped source values, under the same proviso.

(4) The same as (3) with both assignments at the level above the lowest one. -/
theorem same_level_assignments_simultaneous :
    (∀ (g : JaniNextStateGenerator) (state : CompressedState)
        (destination : EdgeDestination) (lv : LocationVariableInformation) (level : Int)
        (ev : ExpressionEvaluator),
        g.variableInformation.WellFormed state.length →
        lv ∈ g.variableInformation.locationVariables →
        (∀ a ∈ destination.orderedAssignments.getNonTransientAssignments level,
          a.lValueIsVariable = true ∧ a.getExpressionVariable.hasIntegerType = true) →
        ((destination.orderedAssignments.getNonTransientAssignments level).map
            (fun a => a.getExpressionVariable)).Sublist
          (g.variableInformation.integerVariables.map (fun i => i.var)) →
        (∀ a ∈ destination.orderedAssignments.getNonTransientAssignments level,
          ∀ i ∈ g.variableInformation.integerVariables, i.var = a.getExpressionVariable →
            i.lowerBound ≤ a.assignedExpression.asInt ev
              ∧ a.assignedExpression.asInt ev ≤ i.upperBound) →
        ∃ state1, applyUpdate g state destination lv level ev = .ok state1
          ∧ ∀ a ∈ destination.orderedAssignments.getNonTransientAssignments level,
              ∀ i ∈ g.variableInformation.integerVariables, i.var = a.getExpressionVariable →
                (BitVector.getAsInt state1 i.bitOffset i.bitWidth : Int) + i.lowerBound
                  = a.assignedExpression.asInt ev)
      ∧ (∀ (σ : Type) (g : JaniNextStateGenerator) (edge : Edge)
        (destination : EdgeDestination) (automatonIndex : Nat) (state : CompressedState)
        (cb : StateToIdCallback σ) (exitRate : Option ℚ) (acc : ExpandEdgeState σ)
        (lv : LocationVariableInformation) (level : Int) (x y : Variable)
        (ix iy : IntegerVariableInformation) (ev0 : ExpressionEvaluator)
        (_ : g.variableInformation.WellFormed state.length)
        (_ : g.variableInformation.locationVariables[automatonIndex]? = some lv)
        (_ : ix ∈ g.variableInformation.integerVariables) (_ : ix.var = x)
        (_ : iy ∈ g.variableInformation.integerVariables) (_ : iy.var = y)
        (_ : x.hasIntegerType = true) (_ : y.hasIntegerType = true)
        (_ : [x, y].Sublist (g.variableInformation.integerVariables.map (fun i => i.var)))
        (_ : destination.orderedAssignments
          = [Assignment.integer x (Expression.integerVariable y) level,
             Assignment.integer y (Expression.integerVariable x) level])
        (_ : edge.lowestAssignmentLevel = level) (_ : edge.highestAssignmentLevel = level)
        (_ : acc.evaluator = unpackStateIntoEvaluator state g.variableInformation ev0)
        (_ : destination.probability.asRational acc.evaluator ≠ 0)
        (_ : ix.lowerBound ≤ (BitVector.getAsInt state iy.bitOffset iy.bitWidth : Int) + iy.lowerBound
          ∧ (BitVector.getAsInt state iy.bitOffset iy.bitWidth : Int) + iy.lowerBound ≤ ix.upperBound)
        (_ : iy.lowerBound ≤ (BitVector.getAsInt state ix.bitOffset ix.bitWidth : Int) + ix.lowerBound
          ∧ (BitVector.getAsInt state ix.bitOffset ix.bitWidth : Int) + ix.lowerBound ≤ iy.upperBound),
        ∃ newState acc1,
          expandNonSynchronizingEdge.destinationStep g edge automatonIndex state cb exitRate acc
              destination = .ok acc1
            ∧ acc1.callbackState = (cb newState acc.callbackState).2
            ∧ (BitVector.getAsInt newState ix.bitOffset ix.bitWidth : Int) + ix.lowerBound
                = (BitVector.getAsInt state iy.bitOffset iy.bitWidth : Int) + iy.lowerBound
            ∧ (BitVector.getAsInt newState iy.bitOffset iy.bitWidth : Int) + iy.lowerBound
                = (BitVector.getAsInt state ix.bitOffset ix.bitWidth : Int) + ix.lowerBound)
      ∧ (∀ (σ : Type) (g : JaniNextStateGenerator) (state : CompressedState)
        (edge1 edge2 : Edge) (a1 a2 i1 i2 : Nat) (d1 d2 : EdgeDestination)
        (lv1 lv2 : LocationVariableInformation) (info : SynchronizedEdgeInformation)
        (cb : StateToIdCallback σ) (acc : SynchronizedDistributionState σ) (destinationId : Nat)
        (level : Int) (x y : Variable) (ix iy : IntegerVariableInformation)
        (ev0 : ExpressionEvaluator)
        (_ : g.variableInformation.WellFormed state.length)
        (_ : edge1.destinations[destinationId % edge1.getNumberOfDestinations]? = some d1)
        (_ : edge2.destinations[destinationId / edge1.getNumberOfDestinations
          % edge2.getNumberOfDestinations]? = some d2)
        (_ : g.variableInformation.locationVariables[a1]? = some lv1)
        (_ : g.variableInformation.locationVariables[a2]? = some lv2)
        (_ : ix ∈ g.variableInformation.integerVariables) (_ : ix.var = x)
        (_ : iy ∈ g.variableInformation.integerVariables) (_ : iy.var = y)
        (_ : x.hasIntegerType = true) (_ : y.hasIntegerType = true) (_ : x ≠ y)
        (_ : d1.orderedAssignments
          = [Assignment.integer x (Expression.integerVariable y) level])
        (_ : d2.orderedAssignments
          = [Assignment.integer y (Expression.integerVariable x) level])
        (_ : info.lowestDestinationAssignmentLevel = level)
        (_ : info.highestDestinationAssignmentLevel = level)
        (_ : acc.evaluator = unpackStateIntoEvaluator state g.variableInformation ev0)
        (_ : edge1.rate = none) (_ : edge2.rate = none)
        (_ : d1.probability.asRational acc.evaluator ≠ 0)
        (_ : d2.probability.asRational acc.evaluator ≠ 0)
        (_ : ix.lowerBound ≤ (BitVector.getAsInt state iy.bitOffset iy.bitWidth : Int) + iy.lowerBound
          ∧ (BitVector.getAsInt state iy.bitOffset iy.bitWidth : Int) + iy.lowerBound ≤ ix.upperBound)
        (_ : iy.lowerBound ≤ (BitVector.getAsInt state ix.bitOffset ix.bitWidth : Int) + ix.lowerBound
          ∧ (BitVector.getAsInt state ix.bitOffset ix.bitWidth : Int) + ix.lowerBound ≤ iy.upperBound),
        ∃ newState acc1,
          generateSynchronizedDistribution.destinationStep g state
              [(a1, i1, edge1), (a2, i2, edge2)] info cb acc destinationId = .ok acc1
            ∧ acc1.callbackState = (cb newState acc.callbackState).2
            ∧ (BitVector.getAsInt newState ix.bitOffset ix.bitWidth : Int) + ix.lowerBound
                = (BitVector.getAsInt state iy.bitOffset iy.bitWidth : Int) + iy.lowerBound
            ∧ (BitVector.getAsInt newState iy.bitOffset iy.bitWidth : Int) + iy.lowerBound
                = (BitVector.getAsInt state ix.bitOffset ix.bitWidth : Int) + ix.lowerBound)
      ∧ (∀ (σ : Type) (g : JaniNextStateGenerator) (state : CompressedState)
        (edge1 edge2 : Edge) (a1 a2 i1 i2 : Nat) (d1 d2 : EdgeDestination)
        (lv1 lv2 : LocationVariableInformation) (info : SynchronizedEdgeInformation)
        (cb : StateToIdCallback σ) (acc : SynchronizedDistributionState σ) (destinationId : Nat)
        (level : Int) (x y : Variable) (ix iy : IntegerVariableInformation)
        (_ : g.variableInformation.WellFormed state.length)
        (_ : edge1.destinations[destinationId % edge1.getNumberOfDestinations]? = some d1)
        (_ : edge2.destinations[destinationId / edge1.getNumberOfDestinations
          % edge2.getNumberOfDestinations]? = some d2)
        (_ : g.variableInformation.locationVariables[a1]? = some lv1)
        (_ : g.variableInformation.locationVariables[a2]? = some lv2)
        (_ : ix ∈ g.variableInformation.integerVariables) (_ : ix.var = x)
        (_ : iy ∈ g.variableInformation.integerVariables) (_ : iy.var = y)
        (_ : x.hasIntegerType = true) (_ : y.hasIntegerType = true) (_ : x ≠ y)
        (_ : d1.orderedAssignments
          = [Assignment.integer x (Expression.integerVariable y) (level + 1)])
        (_ : d2.orderedAssignments
          = [Assignment.integer y (Expression.integerVariable x) (level + 1)])
        (_ : info.lowestDestinationAssignmentLevel = level)
        (_ : info.highestDestinationAssignmentLevel = level + 1)
        (_ : edge1.rate = none) (_ : edge2.rate = none)
        (_ : d1.probability.asRational acc.evaluator ≠ 0)
        (_ : d2.probability.asRational acc.evaluator ≠ 0)
        (_ : ix.lowerBound ≤ (BitVector.getAsInt state iy.bitOffset iy.bitWidth : Int) + iy.lowerBound
          ∧ (BitVector.getAsInt state iy.bitOffset iy.bitWidth : Int) + iy.lowerBound ≤ ix.upperBound)
        (_ : iy.lowerBound ≤ (BitVector.getAsInt state ix.bitOffset ix.bitWidth : Int) + ix.lowerBound
          ∧ (BitVector.getAsInt state ix.bitOffset ix.bitWidth : Int) + ix.lowerBound ≤ iy.upperBound),
        ∃ newState acc1,
          generateSynchronizedDistribution.destinationStep g state
              [(a1, i1, edge1), (a2, i2, edge2)] info cb acc destinationId = .ok acc1
            ∧ acc1.callbackState = (cb newState acc.callbackState).2
            ∧ (BitVector.getAsInt newState ix.bitOffset ix.bitWidth : Int) + ix.lowerBound
                = (BitVector.getAsInt state iy.bitOffset iy.bitWidth : Int) + iy.lowerBound
            ∧ (BitVector.getAsInt newState iy.bitOffset iy.bitWidth : Int) + iy.lowerBound
                = (BitVector.getAsInt state ix.bitOffset ix.bitWidth : Int) + ix.lowerBound) := by
  refine ⟨?_, ?_, ?_, ?_⟩
  · intro g state destination lv level ev hwf hlv hvar hsub hrange
    obtain ⟨state1, h1, _, h3, _, _⟩ :=
      applyUpdate_integers g state destination lv level ev hwf hlv hvar hsub hrange
    exact ⟨state1, h1, h3⟩
  · intro σ g edge destination automatonIndex state cb exitRate acc lv level x y ix iy ev0 hwf hlv hix hxv hiy hyv hxt hyt horder hassign hlow hhigh hev hprob hrx hry
    have hlvmem : lv ∈ g.variableInformation.locationVariables := List.getElem?_mem hlv
    have hnodup := hwf.2.2.2.1
    have hinj := List.inj_on_of_nodup_map hnodup
    have hevx : acc.evaluator.integerValues x
        = (BitVector.getAsInt state ix.bitOffset ix.bitWidth : Int) + ix.lowerBound := by
      rw [hev, ← hxv]
      exact unpackStateIntoEvaluator_integerValues state _ ev0 ix hix hnodup
    have hevy : acc.evaluator.integerValues y
        = (BitVector.getAsInt state iy.bitOffset iy.bitWidth : Int) + iy.lowerBound := by
      rw [hev, ← hyv]
      exact unpackStateIntoEvaluator_integerValues state _ ev0 iy hiy hnodup
    have hnt : destination.hasTransientAssignment = false := by
      simp [EdgeDestination.hasTransientAssignment, hassign, Assignment.integer]
    have hl : destination.orderedAssignments.getNonTransientAssignments level
        = [Assignment.integer x (Expression.integerVariable y) level,
           Assignment.integer y (Expression.integerVariable x) level] := by
      simp [OrderedAssignments.getNonTransientAssignments, hassign, Assignment.integer]
    obtain ⟨s1, hs1, _, hval1, _, _⟩ :=
      applyUpdate_integers g state destination lv level acc.evaluator hwf hlvmem
        (by
          rw [hl]
          intro a ha
          rcases List.mem_cons.1 ha with h | h
          · rw [h]; exact ⟨rfl, hxt⟩
          · rw [List.mem_singleton.1 h]; exact ⟨rfl, hyt⟩)
        (by rw [hl]; exact horder)
        (by
          rw [hl]
          intro a ha i hi hiv
          rcases List.mem_cons.1 ha with h | h
          · rw [h] at hiv ⊢
            have : i = ix := hinj hi hix (by rw [hiv, hxv]; rfl)
            rw [this]
            show ix.lowerBound ≤ acc.evaluator.integerValues y
              ∧ acc.evaluator.integerValues y ≤ ix.upperBound
            rw [hevy]; exact hrx
          · rw [List.mem_singleton.1 h] at hiv ⊢
            have : i = iy := hinj hi hiy (by rw [hiv, hyv]; rfl)
            rw [this]
            show iy.lowerBound ≤ acc.evaluator.integerValues x
              ∧ acc.evaluator.integerValues x ≤ iy.upperBound
            rw [hevx]; exact hry)
    have hsucc : expandNonSynchronizingEdge.successor g edge destination lv state acc.evaluator
        = .ok (s1, acc.evaluator) := by
      unfold expandNonSynchronizingEdge.successor
      simp only [hlow, hhigh, hs1, hnt, Bool.false_eq_true, if_false, sub_self, Int.toNat_zero,
        expandNonSynchronizingEdge.levelLoop]
    have hstep : ∃ acc1,
        expandNonSynchronizingEdge.destinationStep g edge automatonIndex state cb exitRate acc
            destination = .ok acc1
          ∧ acc1.callbackState = (cb s1 acc.callbackState).2 := by
      unfold expandNonSynchronizingEdge.destinationStep
      rw [if_neg hprob]
      simp only [hlv, hsucc]
      exact ⟨_, rfl, rfl⟩
    obtain ⟨acc1, hacc1, hcb⟩ := hstep
    refine ⟨s1, acc1, hacc1, hcb, ?_, ?_⟩
    · have := hval1 (Assignment.integer x (Expression.integerVariable y) level)
        (by rw [hl]; exact List.mem_cons_self _ _) ix hix hxv
      rw [this]
      exact hevy
    · have := hval1 (Assignment.integer y (Expression.integerVariable x) level)
        (by rw [hl]; exact List.mem_cons_of_mem _ (List.mem_singleton.2 rfl)) iy hiy hyv
      rw [this]
      exact hevx
  · intro σ g state edge1 edge2 a1 a2 i1 i2 d1 d2 lv1 lv2 info cb acc destinationId level x y ix iy ev0 hwf hd1 hd2 hlv1 hlv2 hix hxv hiy hyv hxt hyt hxy hassign1 hassign2 hlow hhigh hev hrate1 hrate2 hprob1 hprob2 hrx hry
    have hnodup := hwf.2.2.2.1
    have hevx : acc.evaluator.integerValues x
        = (BitVector.getAsInt state ix.bitOffset ix.bitWidth : Int) + ix.lowerBound := by
      rw [hev, ← hxv]
      exact unpackStateIntoEvaluator_integerValues state _ ev0 ix hix hnodup
    have hevy : acc.evaluator.integerValues y
        = (BitVector.getAsInt state iy.bitOffset iy.bitWidth : Int) + iy.lowerBound := by
      rw [hev, ← hyv]
      exact unpackStateIntoEvaluator_integerValues state _ ev0 iy hiy hnodup
    have hn1 : ¬ edge1.getNumberOfDestinations = 0 := by
      intro h
      have : edge1.destinations = [] := List.length_eq_zero.1 h
      rw [this] at hd1
      simp at hd1
    have hn2 : ¬ edge2.getNumberOfDestinations = 0 := by
      intro h
      have : edge2.destinations = [] := List.length_eq_zero.1 h
      rw [this] at hd2
      simp at hd2
    have hl1 : d1.orderedAssignments.getNonTransientAssignments level
        = [Assignment.integer x (Expression.integerVariable y) level] := by
      simp [OrderedAssignments.getNonTransientAssignments, hassign1, Assignment.integer]
    have hl2 : d2.orderedAssignments.getNonTransientAssignments level
        = [Assignment.integer y (Expression.integerVariable x) level] := by
      simp [OrderedAssignments.getNonTransientAssignments, hassign2, Assignment.integer]
    have ht1 : d1.orderedAssignments.getTransientAssignments level = [] := by
      simp [OrderedAssignments.getTransientAssignments, hassign1, Assignment.integer]
    have ht2 : d2.orderedAssignments.getTransientAssignments level = [] := by
      simp [OrderedAssignments.getTransientAssignments, hassign2, Assignment.integer]
    obtain ⟨s1, s2, hs1, hs2, _, hvx, hvy⟩ :=
      applyUpdate_swap_two g state d1 d2 lv1 lv2 level acc.evaluator x y ix iy hwf
        (List.getElem?_mem hlv1) (List.getElem?_mem hlv2) hix hxv hiy hyv hxt hyt hxy hl1 hl2
        (by rw [hevy]; exact hrx) (by rw [hevx]; exact hry)
    have hp12 : ¬ (1 * d1.probability.asRational acc.evaluator
        * d2.probability.asRational acc.evaluator = 0) := by
      rw [one_mul]
      exact mul_ne_zero hprob1 hprob2
    have hp1 : ¬ (1 * d1.probability.asRational acc.evaluator = 0) := by
      rw [one_mul]; exact hprob1
    have hfirst : generateSynchronizedDistribution.firstLevel g level acc.evaluator
        [(a1, i1, edge1), (a2, i2, edge2)]
        { destinations := [], locationVars := [],
          transientVariableValuation := TransientVariableValuation.clear,
          successorState := state, successorProbability := 1, destinationIndex := destinationId }
        = .ok { destinations := [d1, d2], locationVars := [lv1, lv2],
                transientVariableValuation := TransientVariableValuation.clear,
                successorState := s2,
                successorProbability := 1 * d1.probability.asRational acc.evaluator
                  * d2.probability.asRational acc.evaluator,
                destinationIndex := destinationId / edge1.getNumberOfDestinations
                  / edge2.getNumberOfDestinations } := by
      simp only [generateSynchronizedDistribution.firstLevel, hn1, hn2, if_false, hd1, hd2, hlv1,
        hlv2, hrate1, hrate2, hp1, hp12, hs1, hs2, ht1, ht2, applyTransientUpdate_nil,
        List.nil_append, List.cons_append]
    have hstep : ∃ acc1,
        generateSynchronizedDistribution.destinationStep g state
            [(a1, i1, edge1), (a2, i2, edge2)] info cb acc destinationId = .ok acc1
          ∧ acc1.callbackState = (cb s2 acc.callbackState).2 := by
      unfold generateSynchronizedDistribution.destinationStep
      simp only [hlow, hhigh, hfirst, hp12, if_false, sub_self, Int.toNat_zero,
        generateSynchronizedDistribution.remainingLevels]
      exact ⟨_, rfl, rfl⟩
    obtain ⟨acc1, hacc1, hcb⟩ := hstep
    exact ⟨s2, acc1, hacc1, hcb, by rw [hvx, hevy], by rw [hvy, hevx]⟩
  · intro σ g state edge1 edge2 a1 a2 i1 i2 d1 d2 lv1 lv2 info cb acc destinationId level x y ix iy hwf hd1 hd2 hlv1 hlv2 hix hxv hiy hyv hxt hyt hxy hassign1 hassign2 hlow hhigh hrate1 hrate2 hprob1 hprob2 hrx hry
    have hnodup := hwf.2.2.2.1
    have hlocint := hwf.2.2.2.2.2.2.2.1
    have hm1 := List.getElem?_mem hlv1
    have hm2 := List.getElem?_mem hlv2
    have hn1 : ¬ edge1.getNumberOfDestinations = 0 := by
      intro h
      have : edge1.destinations = [] := List.length_eq_zero.1 h
      rw [this] at hd1
      simp at hd1
    have hn2 : ¬ edge2.getNumberOfDestinations = 0 := by
      intro h
      have : edge2.destinations = [] := List.length_eq_zero.1 h
      rw [this] at hd2
      simp at hd2
    have hne : ¬ level + 1 = level := by omega
    have hl1 : d1.orderedAssignments.getNonTransientAssignments level = [] := by
      simp [OrderedAssignments.getNonTransientAssignments, hassign1, Assignment.integer, hne]
    have hl2 : d2.orderedAssignments.getNonTransientAssignments level = [] := by
      simp [OrderedAssignments.getNonTransientAssignments, hassign2, Assignment.integer, hne]
    have hh1 : d1.orderedAssignments.getNonTransientAssignments (level + 1)
        = [Assignment.integer x (Expression.integerVariable y) (level + 1)] := by
      simp [OrderedAssignments.getNonTransientAssignments, hassign1, Assignment.integer]
    have hh2 : d2.orderedAssignments.getNonTransientAssignments (level + 1)
        = [Assignment.integer y (Expression.integerVariable x) (level + 1)] := by
      simp [OrderedAssignments.getNonTransientAssignments, hassign2, Assignment.integer]
    have ht1 : ∀ l, d1.orderedAssignments.getTransientAssignments l = [] := by
      intro l
      simp [OrderedAssignments.getTransientAssignments, hassign1, Assignment.integer]
    have ht2 : ∀ l, d2.orderedAssignments.getTransientAssignments l = [] := by
      intro l
      simp [OrderedAssignments.getTransientAssignments, hassign2, Assignment.integer]
    -- the state after the lowest level: only the locations are written
    generalize hs0 : setLocation (setLocation state lv1 d1.locationIndex) lv2 d2.locationIndex = s0
    have hlen0 : s0.length = state.length := by
      rw [← hs0, setLocation_length, setLocation_length]
    have hslot0 : ∀ i ∈ g.variableInformation.integerVariables,
        BitVector.getAsInt s0 i.bitOffset i.bitWidth
          = BitVector.getAsInt state i.bitOffset i.bitWidth := by
      intro i hi
      rw [← hs0, getAsInt_setLocation _ _ _ _ _ (hlocint lv2 hm2 i hi),
        getAsInt_setLocation _ _ _ _ _ (hlocint lv1 hm1 i hi)]
    generalize hev2 : unpackStateIntoEvaluator s0 g.variableInformation acc.evaluator = ev2
    have hevx : ev2.integerValues x
        = (BitVector.getAsInt state ix.bitOffset ix.bitWidth : Int) + ix.lowerBound := by
      rw [← hev2, ← hxv, unpackStateIntoEvaluator_integerValues s0 _ _ ix hix hnodup,
        hslot0 ix hix]
    have hevy : ev2.integerValues y
        = (BitVector.getAsInt state iy.bitOffset iy.bitWidth : Int) + iy.lowerBound := by
      rw [← hev2, ← hyv, unpackStateIntoEvaluator_integerValues s0 _ _ iy hiy hnodup,
        hslot0 iy hiy]
    obtain ⟨s1, s2, hs1, hs2, _, hvx, hvy⟩ :=
      applyUpdate_swap_two g s0 d1 d2 lv1 lv2 (level + 1) ev2 x y ix iy
        (by rw [hlen0]; exact hwf) hm1 hm2 hix hxv hiy hyv hxt hyt hxy hh1 hh2
        (by rw [hevy]; exact hrx) (by rw [hevx]; exact hry)
    have hp12 : ¬ (1 * d1.probability.asRational acc.evaluator
        * d2.probability.asRational acc.evaluator = 0) := by
      rw [one_mul]
      exact mul_ne_zero hprob1 hprob2
    have hp1 : ¬ (1 * d1.probability.asRational acc.evaluator = 0) := by
      rw [one_mul]; exact hprob1
    have hfirst : generateSynchronizedDistribution.firstLevel g level acc.evaluator
        [(a1, i1, edge1), (a2, i2, edge2)]
        { destinations := [], locationVars := [],
          transientVariableValuation := TransientVariableValuation.clear,
          successorState := state, successorProbability := 1, destinationIndex := destinationId }
        = .ok { destinations := [d1, d2], locationVars := [lv1, lv2],
                transientVariableValuation := TransientVariableValuation.clear,
                successorState := s0,
                successorProbability := 1 * d1.probability.asRational acc.evaluator
                  * d2.probability.asRational acc.evaluator,
                destinationIndex := destinationId / edge1.getNumberOfDestinations
                  / edge2.getNumberOfDestinations } := by
      simp only [generateSynchronizedDistribution.firstLevel, hn1, hn2, if_false, hd1, hd2, hlv1,
        hlv2, hrate1, hrate2, hp1, hp12, applyUpdate_nil g _ d1 lv1 level _ hl1,
        applyUpdate_nil g _ d2 lv2 level _ hl2, ht1, ht2, applyTransientUpdate_nil,
        List.nil_append, List.cons_append, hs0]
    have hlevels : (level + 1 - level).toNat = 1 := by
      have : level + 1 - level = 1 := by omega
      rw [this]; rfl
    have hrem : generateSynchronizedDistribution.remainingLevels g [d1, d2] [lv1, lv2] 1 level s0
        TransientVariableValuation.clear acc.evaluator
        = .ok (s2, TransientVariableValuation.clear, ev2) := by
      simp only [generateSynchronizedDistribution.remainingLevels,
        TransientVariableValuation.clear_setInEvaluator, hev2, List.getLast?_cons_cons,
        List.getLast?_singleton, generateSynchronizedDistribution.applyLevel, hs1, hs2, ht2,
        applyTransientUpdate_nil]
    have hstep : ∃ acc1,
        generateSynchronizedDistribution.destinationStep g state
            [(a1, i1, edge1), (a2, i2, edge2)] info cb acc destinationId = .ok acc1
          ∧ acc1.callbackState = (cb s2 acc.callbackState).2 := by
      unfold generateSynchronizedDistribution.destinationStep
      simp only [hlow, hhigh, hfirst, hp12, if_false, hlevels, hrem]
      exact ⟨_, rfl, rfl⟩
    obtain ⟨acc1, hacc1, hcb⟩ := hstep
    exact ⟨s2, acc1, hacc1, hcb, by rw [hvx, hevy], by rw [hvy, hevx]⟩

/-- C8 (counterexample): `x` has range `[0, 1]` (one bit) and `y` has range `[0, 3]`; the
source state has `x = 0` and `y = 2`; the destination assigns `x := y` and `y := x` at
level 0.  Without exploration checks the successor handed to the callback has `x = 0` and
`y = 0`: the source value 2 of `y` is not stored in `x`.  With exploration checks the
expansion raises `WrongFormatException` and there is no successor. -/
theorem swap_out_of_range_not_swapped :
    (∃ choice ev,
        expandNonSynchronizingEdge (Examples.generatorFor Examples.narrowLayout)
            (Examples.edgeWith (Examples.swapAssignments 0) 0) 0 0 Examples.yIsTwo
            recordingCallback
            (unpackStateIntoEvaluator Examples.yIsTwo Examples.narrowLayout Examples.zeroEvaluator)
            []
          = .ok (choice, ev, [[false, false, false]]))
      ∧ BitVector.getAsInt Examples.yIsTwo 1 2 = 2
      ∧ BitVector.getAsInt [false, false, false] 0 1 = 0
      ∧ expandNonSynchronizingEdge
          { Examples.generatorFor Examples.narrowLayout with
            options := { Examples.noOptions with explorationChecks := true } }
          (Examples.edgeWith (Examples.swapAssignments 0) 0) 0 0 Examples.yIsTwo
          recordingCallback
          (unpackStateIntoEvaluator Examples.yIsTwo Examples.narrowLayout Examples.zeroEvaluator)
          []
        = .error Exception.WrongFormatException :=
  ⟨⟨_, _, by with_unfolding_all rfl⟩, rfl, rfl, rfl⟩

/-- Witness for C8 (amended): `x` with range `[0, 3]` and `y` with range `[0, 7]`, source
state with `x = 1` and `y = 2`, and the assignments `x := y` and `y := x`: in one
destination, and split over the destinations of a synchronized pair of edges, at the
lowest level and at the level above. -/
theorem same_level_assignments_simultaneous_witness :
    (∃ state1,
        applyUpdate (Examples.generatorFor Examples.pairLayout) Examples.xIsOneYIsTwo
            (Examples.destinationWith (Examples.swapAssignments 0)) { bitOffset := 0, bitWidth := 0 }
            0 (unpackStateIntoEvaluator Examples.xIsOneYIsTwo Examples.pairLayout
              Examples.zeroEvaluator) = .ok state1
          ∧ ∀ a ∈ (Examples.destinationWith
                (Examples.swapAssignments 0)).orderedAssignments.getNonTransientAssignments 0,
              ∀ i ∈ (Examples.generatorFor Examples.pairLayout).variableInformation.integerVariables,
                i.var = a.getExpressionVariable →
                (BitVector.getAsInt state1 i.bitOffset i.bitWidth : Int) + i.lowerBound
                  = a.assignedExpression.asInt
                      (unpackStateIntoEvaluator Examples.xIsOneYIsTwo Examples.pairLayout
                        Examples.zeroEvaluator))
      ∧ (∃ newState acc1,
          expandNonSynchronizingEdge.destinationStep (Examples.generatorFor Examples.pairLayout)
              (Examples.edgeWith (Examples.swapAssignments 0) 0) 0 Examples.xIsOneYIsTwo
              recordingCallback none
              (Examples.entryState (Examples.generatorFor Examples.pairLayout) Examples.xIsOneYIsTwo)
              (Examples.destinationWith (Examples.swapAssignments 0)) = .ok acc1
            ∧ acc1.callbackState = (recordingCallback newState []).2
            ∧ (BitVector.getAsInt newState 0 2 : Int) + 0
                = (BitVector.getAsInt Examples.xIsOneYIsTwo 2 3 : Int) + 0
            ∧ (BitVector.getAsInt newState 2 3 : Int) + 0
                = (BitVector.getAsInt Examples.xIsOneYIsTwo 0 2 : Int) + 0)
      ∧ (∃ newState acc1,
          generateSynchronizedDistribution.destinationStep
              (Examples.generatorFor Examples.pairLayout) Examples.xIsOneYIsTwo
              [(0, 0, Examples.edgeWith
                  [Assignment.integer Examples.x (Expression.integerVariable Examples.y) 0] 0),
               (1, 0, Examples.edgeWith
                  [Assignment.integer Examples.y (Expression.integerVariable Examples.x) 0] 0)]
              (Examples.pairInformation 0 0) recordingCallback
              (Examples.entryTupleState (Examples.generatorFor Examples.pairLayout)
                Examples.xIsOneYIsTwo) 0 = .ok acc1
            ∧ acc1.callbackState = (recordingCallback newState []).2
            ∧ (BitVector.getAsInt newState 0 2 : Int) + 0
                = (BitVector.getAsInt Examples.xIsOneYIsTwo 2 3 : Int) + 0
            ∧ (BitVector.getAsInt newState 2 3 : Int) + 0
                = (BitVector.getAsInt Examples.xIsOneYIsTwo 0 2 : Int) + 0)
      ∧ (∃ newState acc1,
          generateSynchronizedDistribution.destinationStep
              (Examples.generatorFor Examples.pairLayout) Examples.xIsOneYIsTwo
              [(0, 0, Examples.edgeWith
                  [Assignment.integer Examples.x (Expression.integerVariable Examples.y) (0 + 1)] 1),
               (1, 0, Examples.edgeWith
                  [Assignment.integer Examples.y (Expression.integerVariable Examples.x) (0 + 1)] 1)]
              (Examples.pairInformation 0 (0 + 1)) recordingCallback
              (Examples.entryTupleState (Examples.generatorFor Examples.pairLayout)
                Examples.xIsOneYIsTwo) 0 = .ok acc1
            ∧ acc1.callbackState = (recordingCallback newState []).2
            ∧ (BitVector.getAsInt newState 0 2 : Int) + 0
                = (BitVector.getAsInt Examples.xIsOneYIsTwo 2 3 : Int) + 0
            ∧ (BitVector.getAsInt newState 2 3 : Int) + 0
                = (BitVector.getAsInt Examples.xIsOneYIsTwo 0 2 : Int) + 0) :=
  ⟨same_level_assignments_simultaneous.1 (Examples.generatorFor Examples.pairLayout)
      Examples.xIsOneYIsTwo (Examples.destinationWith (Examples.swapAssignments 0))
      { bitOffset := 0, bitWidth := 0 } 0
      (unpackStateIntoEvaluator Examples.xIsOneYIsTwo Examples.pairLayout Examples.zeroEvaluator)
      (by unfold VariableInformation.WellFormed; decide) (List.mem_cons_self _ _)
      (by decide) (by decide) (by decide),
    same_level_assignments_simultaneous.2.1 (List CompressedState)
      (Examples.generatorFor Examples.pairLayout)
      (Examples.edgeWith (Examples.swapAssignments 0) 0)
      (Examples.destinationWith (Examples.swapAssignments 0)) 0 Examples.xIsOneYIsTwo
      recordingCallback none
      (Examples.entryState (Examples.generatorFor Examples.pairLayout) Examples.xIsOneYIsTwo)
      { bitOffset := 0, bitWidth := 0 } 0 Examples.x Examples.y
      { var := Examples.x, lowerBound := 0, upperBound := 3, bitOffset := 0, bitWidth := 2,
        forceOutOfBoundsCheck := false }
      { var := Examples.y, lowerBound := 0, upperBound := 7, bitOffset := 2, bitWidth := 3,
        forceOutOfBoundsCheck := false }
      Examples.zeroEvaluator
      (by unfold VariableInformation.WellFormed; decide) rfl
      (List.mem_cons_self _ _) rfl (List.mem_cons_of_mem _ (List.mem_cons_self _ _)) rfl
      rfl rfl (by decide) rfl rfl rfl rfl (by decide) (by decide) (by decide),
    same_level_assignments_simultaneous.2.2.1 (List CompressedState)
      (Examples.generatorFor Examples.pairLayout) Examples.xIsOneYIsTwo
      (Examples.edgeWith
        [Assignment.integer Examples.x (Expression.integerVariable Examples.y) 0] 0)
      (Examples.edgeWith
        [Assignment.integer Examples.y (Expression.integerVariable Examples.x) 0] 0)
      0 1 0 0
      (Examples.destinationWith
        [Assignment.integer Examples.x (Expression.integerVariable Examples.y) 0])
      (Examples.destinationWith
        [Assignment.integer Examples.y (Expression.integerVariable Examples.x) 0])
      { bitOffset := 0, bitWidth := 0 } { bitOffset := 0, bitWidth := 0 }
      (Examples.pairInformation 0 0) recordingCallback
      (Examples.entryTupleState (Examples.generatorFor Examples.pairLayout) Examples.xIsOneYIsTwo)
      0 0 Examples.x Examples.y
      { var := Examples.x, lowerBound := 0, upperBound := 3, bitOffset := 0, bitWidth := 2,
        forceOutOfBoundsCheck := false }
      { var := Examples.y, lowerBound := 0, upperBound := 7, bitOffset := 2, bitWidth := 3,
        forceOutOfBoundsCheck := false }
      Examples.zeroEvaluator
      (by unfold VariableInformation.WellFormed; decide) rfl rfl rfl rfl
      (List.mem_cons_self _ _) rfl (List.mem_cons_of_mem _ (List.mem_cons_self _ _)) rfl
      rfl rfl (by decide) rfl rfl rfl rfl rfl rfl rfl (by decide) (by decide) (by decide)
      (by decide),
    same_level_assignments_simultaneous.2.2.2 (List CompressedState)
      (Examples.generatorFor Examples.pairLayout) Examples.xIsOneYIsTwo
      (Examples.edgeWith
        [Assignment.integer Examples.x (Expression.integerVariable Examples.y) (0 + 1)] 1)
      (Examples.edgeWith
        [Assignment.integer Examples.y (Expression.integerVariable Examples.x) (0 + 1)] 1)
      0 1 0 0
      (Examples.destinationWith
        [Assignment.integer Examples.x (Expression.integerVariable Examples.y) (0 + 1)])
      (Examples.destinationWith
        [Assignment.integer Examples.y (Expression.integerVariable Examples.x) (0 + 1)])
      { bitOffset := 0, bitWidth := 0 } { bitOffset := 0, bitWidth := 0 }
      (Examples.pairInformation 0 (0 + 1)) recordingCallback
      (Examples.entryTupleState (Examples.generatorFor Examples.pairLayout) Examples.xIsOneYIsTwo)
      0 0 Examples.x Examples.y
      { var := Examples.x, lowerBound := 0, upperBound := 3, bitOffset := 0, bitWidth := 2,
        forceOutOfBoundsCheck := false }
      { var := Examples.y, lowerBound := 0, upperBound := 7, bitOffset := 2, bitWidth := 3,
        forceOutOfBoundsCheck := false }
      (by unfold VariableInformation.WellFormed; decide) rfl rfl rfl rfl
      (List.mem_cons_self _ _) rfl (List.mem_cons_of_mem _ (List.mem_cons_self _ _)) rfl
      rfl rfl (by decide) rfl rfl rfl rfl rfl rfl (by decide) (by decide) (by decide)
      (by decide)⟩

/-! ## Encoding round trip -/

/-- C9: encoding round trip.

(1) For every bounded-integer slot that lies inside the state, is at most 64 bits wide
(the width of the integers that `getAsInt` returns) and wide enough for
`upperBound - lowerBound`, and every value `v` with `lowerBound ≤ v ≤ upperBound`: the
write of `applyUpdate` (whatever the options) succeeds, and reading the slot with
`getAsInt` and adding `lowerBound` yields `v`, which is the assertion that follows the
write.

(2) The same through `applyUpdate` as a whole: for a well-formed layout and a destination
whose only persistent assignment at the level is `x := e` with a value inside the bounds
of `x`, the state that `applyUpdate` returns holds the value of `e` in the slot of `x`.

(3) For a location slot of non-zero width inside the state and a location index that fits
the width, `getLocation` after `setLocation` returns the index. -/
theorem encoding_round_trip :
    (∀ (g : JaniNextStateGenerator) (state : CompressedState)
        (info : IntegerVariableInformation) (check : Bool) (v : Int),
        info.bitOffset + info.bitWidth ≤ state.length → info.bitWidth ≤ 64 →
        info.upperBound - info.lowerBound < 2 ^ info.bitWidth →
        info.lowerBound ≤ v → v ≤ info.upperBound →
        ∃ state1, applyUpdate.writeInteger g state info check v = .ok state1
          ∧ (BitVector.getAsInt state1 info.bitOffset info.bitWidth : Int) + info.lowerBound = v)
    ∧ (∀ (g : JaniNextStateGenerator) (state : CompressedState)
        (destination : EdgeDestination) (lv : LocationVariableInformation) (level : Int)
        (ev : ExpressionEvaluator) (x : Variable) (e : Expression)
        (ix : IntegerVariableInformation),
        g.variableInformation.WellFormed state.length →
        lv ∈ g.variableInformation.locationVariables →
        ix ∈ g.variableInformation.integerVariables → ix.var = x →
        x.hasIntegerType = true →
        destination.orderedAssignments.getNonTransientAssignments level
          = [Assignment.integer x e level] →
        ix.lowerBound ≤ e.asInt ev → e.asInt ev ≤ ix.upperBound →
        ∃ state1, applyUpdate g state destination lv level ev = .ok state1
          ∧ (BitVector.getAsInt state1 ix.bitOffset ix.bitWidth : Int) + ix.lowerBound
              = e.asInt ev)
    ∧ (∀ (state : CompressedState) (locationVariable : LocationVariableInformation) (i : Nat),
        locationVariable.bitWidth ≠ 0 →
        locationVariable.bitOffset + locationVariable.bitWidth ≤ state.length →
        i < 2 ^ locationVariable.bitWidth →
        getLocation (setLocation state locationVariable i) locationVariable = i) := by
  refine ⟨?_, ?_, ?_⟩
  · intro g state info check v hslot hw hfit hlo hhi
    refine ⟨_, applyUpdate.writeInteger_in_range g state info check v hlo hhi, ?_⟩
    rw [BitVector.getAsInt_setFromInt_toUInt64 _ _ _ _ hw (by omega) (by omega) hslot]
    omega
  · intro g state destination lv level ev x e ix hwf hlv hix hxv hxt hassign hlo hhi
    obtain ⟨state1, h1, _, h3, _, _⟩ :=
      applyUpdate_single g state destination lv level ev x e ix hwf hlv hix hxv hxt hassign
        ⟨hlo, hhi⟩
    exact ⟨state1, h1, h3⟩
  · intro state lv i hw hslot hi
    have hw1 : (lv.bitWidth == 0) = false := by simpa using hw
    have hw2 : (lv.bitWidth != 0) = true := by simpa using hw
    simp only [getLocation, setLocation, hw1, hw2, if_true, Bool.false_eq_true, if_false]
    rw [BitVector.getAsInt_setFromInt _ _ _ _ hslot, Nat.mod_eq_of_lt hi]

/-- Witness for C9: the slot of `x` (bits 0 and 1, range `[0, 3]`) written with 2, the
assignment `x := 3` applied to the state with `x = 0`, and a one-bit location slot written
with 1. -/
theorem encoding_round_trip_witness :
    (∃ state1, applyUpdate.writeInteger (Examples.generatorFor Examples.counterLayout)
          [false, false]
          { var := Examples.x, lowerBound := 0, upperBound := 3, bitOffset := 0, bitWidth := 2,
            forceOutOfBoundsCheck := false } true 2 = .ok state1
        ∧ (BitVector.getAsInt state1 0 2 : Int) + 0 = 2)
      ∧ (∃ state1, applyUpdate (Examples.generatorFor Examples.counterLayout) [false, false]
            Examples.assignThree { bitOffset := 0, bitWidth := 0 } 0 Examples.zeroEvaluator
            = .ok state1
          ∧ (BitVector.getAsInt state1 0 2 : Int) + 0 = 3)
      ∧ getLocation (setLocation [false, false, false] { bitOffset := 2, bitWidth := 1 } 1)
          { bitOffset := 2, bitWidth := 1 } = 1 :=
  ⟨encoding_round_trip.1 (Examples.generatorFor Examples.counterLayout) [false, false]
      { var := Examples.x, lowerBound := 0, upperBound := 3, bitOffset := 0, bitWidth := 2,
        forceOutOfBoundsCheck := false } true 2
      (by decide) (by decide) (by decide) (by decide) (by decide),
    encoding_round_trip.2.1 (Examples.generatorFor Examples.counterLayout) [false, false]
      Examples.assignThree { bitOffset := 0, bitWidth := 0 } 0 Examples.zeroEvaluator
      Examples.x (Expression.integerLiteral 3)
      { var := Examples.x, lowerBound := 0, upperBound := 3, bitOffset := 0, bitWidth := 2,
        forceOutOfBoundsCheck := false }
      (by unfold VariableInformation.WellFormed; decide) (List.mem_cons_self _ _)
      (List.mem_cons_self _ _) rfl rfl rfl (by decide) (by decide),
    encoding_round_trip.2.2 [false, false, false] { bitOffset := 2, bitWidth := 1 } 1
      (by decide) (by decide) (by decide)⟩

/-! ## Out-of-bounds assignments -/

theorem applyUpdate.writeInteger_cases (g : JaniNextStateGenerator) (state : CompressedState)
    (info : IntegerVariableInformation) (check : Bool) (v : Int) :
    (applyUpdate.writeInteger g state info check v = .error Exception.WrongFormatException
        ∧ g.options.addOutOfBoundsState = false ∧ check = true
        ∧ (v < info.lowerBound ∨ info.upperBound < v))
      ∨ ((∃ state1, applyUpdate.writeInteger g state info check v = .ok state1)
        ∧ ¬ (g.options.addOutOfBoundsState = false ∧ check = true
              ∧ (v < info.lowerBound ∨ info.upperBound < v))) := by
  unfold applyUpdate.writeInteger
  by_cases hoob : g.options.addOutOfBoundsState = true
  · right
    rw [if_pos hoob]
    exact ⟨⟨_, rfl⟩, fun h => by simp [hoob] at h⟩
  · rw [if_neg hoob]
    have hoob' : g.options.addOutOfBoundsState = false := by simpa using hoob
    by_cases hc : check = true
    · rw [if_pos hc]
      by_cases hlo : v < info.lowerBound
      · left; rw [if_pos hlo]; exact ⟨rfl, hoob', hc, Or.inl hlo⟩
      · rw [if_neg hlo]
        by_cases hhi : v > info.upperBound
        · left; rw [if_pos hhi]; exact ⟨rfl, hoob', hc, Or.inr hhi⟩
        · right; rw [if_neg hhi]
          exact ⟨⟨_, rfl⟩, fun h => by rcases h.2.2 with h | h <;> omega⟩
    · right; rw [if_neg hc]
      exact ⟨⟨_, rfl⟩, fun h => hc h.2.1⟩

theorem applyUpdate.integerLoop_cases (g : JaniNextStateGenerator) (ev : ExpressionEvaluator)
    (as : List Assignment) (it : List IntegerVariableInformation) (state : CompressedState)
    (hvar : ∀ a ∈ as, a.lValueIsVariable = true ∧ a.getExpressionVariable.hasIntegerType = true)
    (hsub : (as.map (fun a => a.getExpressionVariable)).Sublist (it.map (fun i => i.var)))
    (hnodup : (it.map (fun i => i.var)).Nodup) :
    (applyUpdate.integerLoop g ev as it state = .error Exception.WrongFormatException
        ∧ applyUpdate.RaisesOutOfBounds g ev as it)
      ∨ ((∃ state1, applyUpdate.integerLoop g ev as it state = .ok ([], state1))
        ∧ ¬ applyUpdate.RaisesOutOfBounds g ev as it) := by
  induction as generalizing it state with
  | nil =>
    right
    refine ⟨⟨state, rfl⟩, ?_⟩
    rintro ⟨_, a, ha, _⟩
    exact absurd ha (List.not_mem_nil a)
  | cons a rest ih =>
    have hinj := List.inj_on_of_nodup_map hnodup
    obtain ⟨hav, hat⟩ := hvar a (List.mem_cons_self _ _)
    simp only [List.map_cons] at hsub
    obtain ⟨i, its, hdrop, hiv, hsub', hsuffix⟩ :=
      dropWhile_of_sublist a.getExpressionVariable _ it hsub
    have hmem : ∀ j ∈ i :: its, j ∈ it := fun j hj => hsuffix.subset hj
    have hi : i ∈ it := hmem i (List.mem_cons_self _ _)
    have hcheck : ((i.forceOutOfBoundsCheck || g.options.explorationChecks) = true)
        ↔ (i.forceOutOfBoundsCheck = true ∨ g.options.explorationChecks = true) := by simp
    simp only [applyUpdate.integerLoop, hav, hat, Bool.and_self, if_true, hdrop]
    rcases applyUpdate.writeInteger_cases g state i
        (i.forceOutOfBoundsCheck || g.options.explorationChecks)
        (a.assignedExpression.asInt ev) with ⟨hw, hoob, hc, hout⟩ | ⟨⟨state1, hw⟩, hnot⟩
    · left
      rw [hw]
      exact ⟨rfl, hoob, a, List.mem_cons_self _ _, i, hi, hiv, hout, hcheck.1 hc⟩
    · rw [hw]
      have key : applyUpdate.RaisesOutOfBounds g ev (a :: rest) it
          ↔ applyUpdate.RaisesOutOfBounds g ev rest (i :: its) := by
        constructor
        · rintro ⟨hoob, a', ha', j, hj, hjv, hout, hc⟩
          rcases List.mem_cons.1 ha' with h | h
          · subst h
            have hji : j = i := hinj hj hi (by rw [hjv, hiv])
            subst hji
            exact absurd ⟨hoob, hcheck.2 hc, hout⟩ hnot
          · have hjm : j ∈ i :: its := by
              have hv : a'.getExpressionVariable ∈ (i :: its).map (fun i => i.var) :=
                hsub'.subset (List.mem_map_of_mem _ h)
              obtain ⟨j', hj', hj'v⟩ := List.mem_map.1 hv
              have : j = j' := hinj hj (hmem j' hj') (by rw [hjv, hj'v])
              rw [this]; exact hj'
            exact ⟨hoob, a', h, j, hjm, hjv, hout, hc⟩
        · rintro ⟨hoob, a', ha', j, hj, hjv, hout, hc⟩
          exact ⟨hoob, a', List.mem_cons_of_mem _ ha', j, hmem j hj, hjv, hout, hc⟩
      rw [key]
      exact ih (i :: its) state1 (fun a' ha' => hvar a' (List.mem_cons_of_mem _ ha')) hsub'
        (List.Nodup.sublist (List.Sublist.map _ hsuffix.sublist) hnodup)

/-- C11: out-of-bounds assignments to plain integer variables.

For a destination whose persistent assignments at the level are assignments to plain
integer variables, in the order of the layout (whose variables are pairwise different):
`applyUpdate` raises `WrongFormatException` if and only if `addOutOfBoundsState` is off and
some assignment has a value outside `[lowerBound, upperBound]` of its variable while the
`forceOutOfBoundsCheck` flag of the slot is set or `explorationChecks` is on.  With
`addOutOfBoundsState` on it returns a state, whatever the values; and it raises no other
exception. -/
theorem applyUpdate_raises_iff_out_of_bounds (g : JaniNextStateGenerator)
    (state : CompressedState) (destination : EdgeDestination)
    (lv : LocationVariableInformation) (level : Int) (ev : ExpressionEvaluator)
    (hnodup : (g.variableInformation.integerVariables.map (fun i => i.var)).Nodup)
    (hvar : ∀ a ∈ destination.orderedAssignments.getNonTransientAssignments level,
      a.lValueIsVariable = true ∧ a.getExpressionVariable.hasIntegerType = true)
    (hsub : ((destination.orderedAssignments.getNonTransientAssignments level).map
        (fun a => a.getExpressionVariable)).Sublist
      (g.variableInformation.integerVariables.map (fun i => i.var))) :
    (applyUpdate g state destination lv level ev = .error Exception.WrongFormatException
        ↔ (g.options.addOutOfBoundsState = false
            ∧ ∃ a ∈ destination.orderedAssignments.getNonTransientAssignments level,
              ∃ i ∈ g.variableInformation.integerVariables, i.var = a.getExpressionVariable
                ∧ (a.assignedExpression.asInt ev < i.lowerBound
                    ∨ i.upperBound < a.assignedExpression.asInt ev)
                ∧ (i.forceOutOfBoundsCheck = true ∨ g.options.explorationChecks = true)))
      ∧ (g.options.addOutOfBoundsState = true →
          ∃ state1, applyUpdate g state destination lv level ev = .ok state1)
      ∧ (∀ e, applyUpdate g state destination lv level ev = .error e →
          e = Exception.WrongFormatException) := by
  have herr : ∀ e, applyUpdate.integerLoop g ev
        (destination.orderedAssignments.getNonTransientAssignments level)
        g.variableInformation.integerVariables
        (setLocation state lv destination.locationIndex) = .error e →
      applyUpdate g state destination lv level ev = .error e := by
    intro e h
    unfold applyUpdate
    simp only
    rw [applyUpdate.booleanLoop_of_integers ev _ _ _ (fun a ha => (hvar a ha).2)]
    simp only [h]
  have hok : ∀ state1, applyUpdate.integerLoop g ev
        (destination.orderedAssignments.getNonTransientAssignments level)
        g.variableInformation.integerVariables
        (setLocation state lv destination.locationIndex) = .ok ([], state1) →
      applyUpdate g state destination lv level ev = .ok state1 := by
    intro state1 h
    unfold applyUpdate
    simp only
    rw [applyUpdate.booleanLoop_of_integers ev _ _ _ (fun a ha => (hvar a ha).2)]
    simp only [h, applyUpdate.arrayLoop]
  rcases applyUpdate.integerLoop_cases g ev _ _ (setLocation state lv destination.locationIndex)
      hvar hsub hnodup with ⟨hloop, hraise⟩ | ⟨⟨state1, hloop⟩, hnot⟩
  · rw [herr _ hloop]
    refine ⟨⟨fun _ => hraise, fun _ => rfl⟩, ?_, ?_⟩
    · intro hoob
      rw [hraise.1] at hoob
      exact absurd hoob (by decide)
    · intro e he
      cases he
      rfl
  · rw [hok _ hloop]
    refine ⟨⟨fun h => ?_, fun h => absurd h hnot⟩, fun _ => ⟨state1, rfl⟩, ?_⟩
    · cases h
    · intro e he
      cases he

/-- Witness for C11: `x := 3` for `x` with range `[0, 2]` and `explorationChecks` on. -/
theorem applyUpdate_raises_iff_out_of_bounds_witness :
    applyUpdate Examples.checkedBoundsGenerator [false, false, false] Examples.assignThree
        { bitOffset := 0, bitWidth := 0 } 0 Examples.zeroEvaluator
      = .error Exception.WrongFormatException :=
  (applyUpdate_raises_iff_out_of_bounds Examples.checkedBoundsGenerator [false, false, false]
      Examples.assignThree { bitOffset := 0, bitWidth := 0 } 0 Examples.zeroEvaluator
      (by decide) (by decide) (by decide)).1.2
    ⟨rfl, _, List.mem_cons_self _ _, _, List.mem_cons_self _ _, rfl, Or.inr (by decide),
      Or.inr rfl⟩

/-! ## Compositions that are not flat -/

/-- The loop over the subcompositions fails when one of them is not an automaton
composition; the exception is `WrongFormatException` when the automata named before it
exist. -/
theorem createSynchronizationInformation.subcompositions_not_flat (model : Model)
    (subcompositions : List Composition) (automatonIndex : Nat)
    (parallelAutomata : List Automaton) (edges : List OutputAndEdges)
    (h : subcompositions.all (fun composition => composition.isAutomatonComposition) = false) :
    (∀ r, createSynchronizationInformation.subcompositions model subcompositions automatonIndex
        parallelAutomata edges ≠ .ok r)
      ∧ ((∀ automatonName ∈ (Composition.parallel subcompositions []).automatonNames,
            ∃ automaton, model.getAutomaton automatonName = .ok automaton) →
          createSynchronizationInformation.subcompositions model subcompositions automatonIndex
            parallelAutomata edges = .error Exception.WrongFormatException) := by
  induction subcompositions generalizing automatonIndex parallelAutomata edges with
  | nil => simp at h
  | cons composition rest ih =>
    cases composition with
    | parallel subs vectors =>
      refine ⟨fun r hr => ?_, fun _ => rfl⟩
      simp [createSynchronizationInformation.subcompositions] at hr
    | automaton automatonName =>
      have hrest : rest.all (fun composition => composition.isAutomatonComposition) = false := by
        simpa [Composition.isAutomatonComposition] using h
      cases hget : model.getAutomaton automatonName with
      | error e =>
        refine ⟨fun r hr => ?_, fun hall => ?_⟩
        · simp [createSynchronizationInformation.subcompositions, hget] at hr
        · obtain ⟨automaton, ha⟩ := hall automatonName (by simp [Composition.automatonNames])
          rw [hget] at ha
          cases ha
      | ok automaton =>
        have hstep : ∀ acc1 acc2, createSynchronizationInformation.subcompositions model
              (Composition.automaton automatonName :: rest) automatonIndex acc1 acc2
            = createSynchronizationInformation.subcompositions model rest (automatonIndex + 1)
                (acc1 ++ [automaton])
                (if !(createSynchronizationInformation.collectEdges
                        (fun edge => edge.actionIndex == SILENT_ACTION_INDEX)
                        automaton.edges 0 []).isEmpty then
                    acc2 ++ [(none, [(automatonIndex,
                      createSynchronizationInformation.collectEdges
                        (fun edge => edge.actionIndex == SILENT_ACTION_INDEX)
                        automaton.edges 0 [])])]
                 else acc2) := by
          intro acc1 acc2
          simp only [createSynchronizationInformation.subcompositions, hget]
        rw [hstep]
        obtain ⟨h1, h2⟩ := ih (automatonIndex + 1) (parallelAutomata ++ [automaton]) _ hrest
        refine ⟨h1, fun hall => h2 (fun name hname => hall name ?_)⟩
        simp only [Composition.automatonNames, List.filterMap_cons] at hname ⊢
        exact List.mem_cons_of_mem _ hname

/-- C19: compositions that are not flat.

When the system composition of the model is neither a single automaton composition nor a
parallel composition all of whose subcompositions are automaton compositions,
`createSynchronizationInformation` does not return: it raises, and the exception is
`WrongFormatException` when the automata that the automaton subcompositions name exist in
the model.  The constructor then fails and there is no generator whose `expand` could be
called. -/
theorem createSynchronizationInformation_rejects_nested (model : Model)
    (h : model.systemComposition.isFlat = false) :
    (∀ r, createSynchronizationInformation model ≠ .ok r)
      ∧ ((∀ automatonName ∈ model.systemComposition.automatonNames,
            ∃ automaton, model.getAutomaton automatonName = .ok automaton) →
          createSynchronizationInformation model = .error Exception.WrongFormatException)
      ∧ (∀ rest g, JaniNextStateGenerator.create model rest ≠ .ok g) := by
  cases hc : model.systemComposition with
  | automaton automatonName => rw [hc] at h; cases h
  | parallel subcompositions vectors =>
    rw [hc] at h
    obtain ⟨h1, h2⟩ := createSynchronizationInformation.subcompositions_not_flat model
      subcompositions 0 [] [] h
    have hnot : ∀ r, createSynchronizationInformation model ≠ .ok r := by
      intro r hr
      unfold createSynchronizationInformation at hr
      rw [hc] at hr
      cases hsub : createSynchronizationInformation.subcompositions model subcompositions 0 [] []
        with
      | error e => simp [hsub] at hr
      | ok p => exact h1 p hsub
    refine ⟨hnot, fun hall => ?_, fun rest g hg => ?_⟩
    · have h3 := h2 (fun name hname => hall name (by
        simpa [Composition.automatonNames] using hname))
      unfold createSynchronizationInformation
      rw [hc]
      simp only [h3]
    · unfold JaniNextStateGenerator.create at hg
      cases hcreate : createSynchronizationInformation model with
      | error e => simp [hcreate] at hg
      | ok p => exact hnot p hcreate

/-- Witness for C19: automaton 0 in parallel with a parallel composition. -/
theorem createSynchronizationInformation_rejects_nested_witness :
    createSynchronizationInformation Examples.nestedModel
      = .error Exception.WrongFormatException :=
  (createSynchronizationInformation_rejects_nested Examples.nestedModel rfl).2.1
    (fun automatonName hname => by
      have h0 : automatonName = 0 := by
        simpa [Examples.nestedModel, Composition.automatonNames] using hname
      subst h0
      exact ⟨Examples.senderAutomaton, rfl⟩)

/-! ## The valuation of the evaluator is restored -/

theorem ExpressionEvaluator.ext_values (e ev : ExpressionEvaluator)
    (hb : ∀ w, e.booleanValues w = ev.booleanValues w)
    (hi : ∀ w, e.integerValues w = ev.integerValues w)
    (hr : ∀ w, e.rationalValues w = ev.rationalValues w) : e = ev := by
  cases e
  cases ev
  simp only [ExpressionEvaluator.mk.injEq]
  exact ⟨funext hb, funext hi, funext hr⟩

theorem ExpressionEvaluator.AgreeOutside.refl (B I R : Variable → Prop)
    (ev : ExpressionEvaluator) : ExpressionEvaluator.AgreeOutside B I R ev ev :=
  ⟨fun _ _ => rfl, fun _ _ => rfl, fun _ _ => rfl⟩

theorem ExpressionEvaluator.AgreeOutside.trans {B I R : Variable → Prop}
    {e1 e2 e3 : ExpressionEvaluator} (h12 : ExpressionEvaluator.AgreeOutside B I R e1 e2)
    (h23 : ExpressionEvaluator.AgreeOutside B I R e2 e3) :
    ExpressionEvaluator.AgreeOutside B I R e1 e3 :=
  ⟨fun w hw => (h12.1 w hw).trans (h23.1 w hw),
    fun w hw => (h12.2.1 w hw).trans (h23.2.1 w hw),
    fun w hw => (h12.2.2 w hw).trans (h23.2.2 w hw)⟩

theorem ExpressionEvaluator.AgreeOutside.mono {B I R B' I' R' : Variable → Prop}
    {e ev : ExpressionEvaluator} (h : ExpressionEvaluator.AgreeOutside B I R e ev)
    (hB : ∀ w, B w → B' w) (hI : ∀ w, I w → I' w) (hR : ∀ w, R w → R' w) :
    ExpressionEvaluator.AgreeOutside B' I' R' e ev :=
  ⟨fun w hw => h.1 w (fun hb => hw (hB w hb)),
    fun w hw => h.2.1 w (fun hb => hw (hI w hb)),
    fun w hw => h.2.2 w (fun hb => hw (hR w hb))⟩

/-- A fold of `setBooleanValue` touches the boolean values of the listed variables only, and
on those the result does not depend on the evaluator it started from. -/
theorem foldl_setBooleanValue_values {α : Type} (l : List α) (var : α → Variable)
    (val : α → Bool) (e : ExpressionEvaluator) :
    (∀ w, (∀ a ∈ l, var a ≠ w) →
        (l.foldl (fun e i => e.setBooleanValue (var i) (val i)) e).booleanValues w
          = e.booleanValues w)
      ∧ (∀ (e' : ExpressionEvaluator) (w : Variable), (∃ a ∈ l, var a = w) →
        (l.foldl (fun e i => e.setBooleanValue (var i) (val i)) e).booleanValues w
          = (l.foldl (fun e i => e.setBooleanValue (var i) (val i)) e').booleanValues w) := by
  induction l generalizing e with
  | nil =>
    refine ⟨fun _ _ => rfl, fun _ w h => ?_⟩
    obtain ⟨a, ha, _⟩ := h
    exact absurd ha (List.not_mem_nil a)
  | cons a rest ih =>
    simp only [List.foldl_cons]
    refine ⟨fun w hw => ?_, fun e' w _ => ?_⟩
    · rw [(ih _).1 w (fun b hb => hw b (List.mem_cons_of_mem _ hb))]
      have : w ≠ var a := fun h => hw a (List.mem_cons_self _ _) h.symm
      simp [ExpressionEvaluator.setBooleanValue, this]
    · by_cases hrest : ∃ b ∈ rest, var b = w
      · exact (ih _).2 _ w hrest
      · have hnot : ∀ b ∈ rest, var b ≠ w := fun b hb h => hrest ⟨b, hb, h⟩
        rw [(ih _).1 w hnot, (ih _).1 w hnot]
        by_cases hw : w = var a
        · simp [ExpressionEvaluator.setBooleanValue, hw]
        · simp only [ExpressionEvaluator.setBooleanValue, if_neg hw]
          -- `w` is not the variable of `a` either: it is not listed at all
          rename_i hex
          obtain ⟨b, hb, hbw⟩ := hex
          rcases List.mem_cons.1 hb with h | h
          · exact absurd (h ▸ hbw).symm hw
          · exact absurd hbw (hnot b h)

theorem foldl_setIntegerValue_values {α : Type} (l : List α) (var : α → Variable)
    (val : α → Int) (e : ExpressionEvaluator) :
    (∀ w, (∀ a ∈ l, var a ≠ w) →
        (l.foldl (fun e i => e.setIntegerValue (var i) (val i)) e).integerValues w
          = e.integerValues w)
      ∧ (∀ (e' : ExpressionEvaluator) (w : Variable), (∃ a ∈ l, var a = w) →
        (l.foldl (fun e i => e.setIntegerValue (var i) (val i)) e).integerValues w
          = (l.foldl (fun e i => e.setIntegerValue (var i) (val i)) e').integerValues w) := by
  induction l generalizing e with
  | nil =>
    refine ⟨fun _ _ => rfl, fun _ w h => ?_⟩
    obtain ⟨a, ha, _⟩ := h
    exact absurd ha (List.not_mem_nil a)
  | cons a rest ih =>
    simp only [List.foldl_cons]
    refine ⟨fun w hw => ?_, fun e' w hex => ?_⟩
    · rw [(ih _).1 w (fun b hb => hw b (List.mem_cons_of_mem _ hb))]
      have : w ≠ var a := fun h => hw a (List.mem_cons_self _ _) h.symm
      simp [ExpressionEvaluator.setIntegerValue, this]
    · by_cases hrest : ∃ b ∈ rest, var b = w
      · exact (ih _).2 _ w hrest
      · have hnot : ∀ b ∈ rest, var b ≠ w := fun b hb h => hrest ⟨b, hb, h⟩
        rw [(ih _).1 w hnot, (ih _).1 w hnot]
        by_cases hw : w = var a
        · simp [ExpressionEvaluator.setIntegerValue, hw]
        · obtain ⟨b, hb, hbw⟩ := hex
          rcases List.mem_cons.1 hb with h | h
          · exact absurd (h ▸ hbw).symm hw
          · exact absurd hbw (hnot b h)

theorem foldl_setRationalValue_values {α : Type} (l : List α) (var : α → Variable)
    (val : α → ℚ) (e : ExpressionEvaluator) :
    (∀ w, (∀ a ∈ l, var a ≠ w) →
        (l.foldl (fun e i => e.setRationalValue (var i) (val i)) e).rationalValues w
          = e.rationalValues w)
      ∧ (∀ (e' : ExpressionEvaluator) (w : Variable), (∃ a ∈ l, var a = w) →
        (l.foldl (fun e i => e.setRationalValue (var i) (val i)) e).rationalValues w
          = (l.foldl (fun e i => e.setRationalValue (var i) (val i)) e').rationalValues w) := by
  induction l generalizing e with
  | nil =>
    refine ⟨fun _ _ => rfl, fun _ w h => ?_⟩
    obtain ⟨a, ha, _⟩ := h
    exact absurd ha (List.not_mem_nil a)
  | cons a rest ih =>
    simp only [List.foldl_cons]
    refine ⟨fun w hw => ?_, fun e' w hex => ?_⟩
    · rw [(ih _).1 w (fun b hb => hw b (List.mem_cons_of_mem _ hb))]
      have : w ≠ var a := fun h => hw a (List.mem_cons_self _ _) h.symm
      simp [ExpressionEvaluator.setRationalValue, this]
    · by_cases hrest : ∃ b ∈ rest, var b = w
      · exact (ih _).2 _ w hrest
      · have hnot : ∀ b ∈ rest, var b ≠ w := fun b hb h => hrest ⟨b, hb, h⟩
        rw [(ih _).1 w hnot, (ih _).1 w hnot]
        by_cases hw : w = var a
        · simp [ExpressionEvaluator.setRationalValue, hw]
        · obtain ⟨b, hb, hbw⟩ := hex
          rcases List.mem_cons.1 hb with h | h
          · exact absurd (h ▸ hbw).symm hw
          · exact absurd hbw (hnot b h)

/-- A fold of `setBooleanValue` leaves the integer and rational values as they are. -/
theorem foldl_setBooleanValue_others {α : Type} (l : List α) (var : α → Variable)
    (val : α → Bool) (e : ExpressionEvaluator) :
    (l.foldl (fun e i => e.setBooleanValue (var i) (val i)) e).integerValues = e.integerValues
      ∧ (l.foldl (fun e i => e.setBooleanValue (var i) (val i)) e).rationalValues
          = e.rationalValues :=
  foldl_setBooleanValue_integerValues l var val e

/-- A fold of `setIntegerValue` leaves the boolean and rational values as they are. -/
theorem foldl_setIntegerValue_others {α : Type} (l : List α) (var : α → Variable)
    (val : α → Int) (e : ExpressionEvaluator) :
    (l.foldl (fun e i => e.setIntegerValue (var i) (val i)) e).booleanValues = e.booleanValues
      ∧ (l.foldl (fun e i => e.setIntegerValue (var i) (val i)) e).rationalValues
          = e.rationalValues :=
  foldl_setIntegerValue_booleanValues l var val e

/-- A fold of `setRationalValue` leaves the boolean and integer values as they are. -/
theorem foldl_setRationalValue_others {α : Type} (l : List α) (var : α → Variable)
    (val : α → ℚ) (e : ExpressionEvaluator) :
    (l.foldl (fun e i => e.setRationalValue (var i) (val i)) e).booleanValues = e.booleanValues
      ∧ (l.foldl (fun e i => e.setRationalValue (var i) (val i)) e).integerValues
          = e.integerValues := by
  induction l generalizing e with
  | nil => exact ⟨rfl, rfl⟩
  | cons a rest ih =>
    simp only [List.foldl_cons]
    obtain ⟨h1, h2⟩ := ih (e.setRationalValue (var a) (val a))
    exact ⟨h1, h2⟩

/-- Setting boolean, integer and rational variables from three lists changes the listed
variables only, and gives them values that do not depend on the evaluator. -/
theorem foldl_set_values {α β γ : Type} (lb : List α) (vb : α → Variable) (xb : α → Bool)
    (li : List β) (vi : β → Variable) (xi : β → Int)
    (lr : List γ) (vr : γ → Variable) (xr : γ → ℚ) :
    (∀ e, ExpressionEvaluator.AgreeOutside (fun w => ∃ a ∈ lb, vb a = w)
        (fun w => ∃ a ∈ li, vi a = w) (fun w => ∃ a ∈ lr, vr a = w)
        (lr.foldl (fun e i => e.setRationalValue (vr i) (xr i))
          (li.foldl (fun e i => e.setIntegerValue (vi i) (xi i))
            (lb.foldl (fun e i => e.setBooleanValue (vb i) (xb i)) e))) e)
      ∧ ExpressionEvaluator.DeterminedOn (fun w => ∃ a ∈ lb, vb a = w)
          (fun w => ∃ a ∈ li, vi a = w) (fun w => ∃ a ∈ lr, vr a = w)
          (fun e => lr.foldl (fun e i => e.setRationalValue (vr i) (xr i))
            (li.foldl (fun e i => e.setIntegerValue (vi i) (xi i))
              (lb.foldl (fun e i => e.setBooleanValue (vb i) (xb i)) e))) := by
  refine ⟨fun e => ⟨fun w hw => ?_, fun w hw => ?_, fun w hw => ?_⟩,
    fun e e' => ⟨fun w hw => ?_, fun w hw => ?_, fun w hw => ?_⟩⟩
  · rw [(foldl_setRationalValue_others lr vr xr _).1, (foldl_setIntegerValue_others li vi xi _).1]
    exact (foldl_setBooleanValue_values lb vb xb e).1 w (fun a ha h => hw ⟨a, ha, h⟩)
  · rw [(foldl_setRationalValue_others lr vr xr _).2,
      (foldl_setIntegerValue_values li vi xi _).1 w (fun a ha h => hw ⟨a, ha, h⟩),
      (foldl_setBooleanValue_others lb vb xb e).1]
  · rw [(foldl_setRationalValue_values lr vr xr _).1 w (fun a ha h => hw ⟨a, ha, h⟩),
      (foldl_setIntegerValue_others li vi xi _).2, (foldl_setBooleanValue_others lb vb xb e).2]
  · dsimp only
    rw [(foldl_setRationalValue_others lr vr xr _).1, (foldl_setIntegerValue_others li vi xi _).1,
      (foldl_setRationalValue_others lr vr xr _).1, (foldl_setIntegerValue_others li vi xi _).1]
    exact (foldl_setBooleanValue_values lb vb xb e).2 e' w hw
  · dsimp only
    rw [(foldl_setRationalValue_others lr vr xr _).2, (foldl_setRationalValue_others lr vr xr _).2]
    exact (foldl_setIntegerValue_values li vi xi _).2 _ w hw
  · exact (foldl_setRationalValue_values lr vr xr _).2 _ w hw

/-- A function on evaluators that changes the given variables only and is determined on
them maps every evaluator that agrees with a fixed point outside the variables to the
fixed point. -/
theorem ExpressionEvaluator.restore {B I R : Variable → Prop}
    {T : ExpressionEvaluator → ExpressionEvaluator}
    (hagree : ∀ e, ExpressionEvaluator.AgreeOutside B I R (T e) e)
    (hdet : ExpressionEvaluator.DeterminedOn B I R T)
    {e ev : ExpressionEvaluator} (hfix : T ev = ev)
    (h : ExpressionEvaluator.AgreeOutside B I R e ev) : T e = ev := by
  apply ExpressionEvaluator.ext_values
  · intro w
    by_cases hw : B w
    · rw [(hdet e ev).1 w hw, hfix]
    · rw [(hagree e).1 w hw, h.1 w hw]
  · intro w
    by_cases hw : I w
    · rw [(hdet e ev).2.1 w hw, hfix]
    · rw [(hagree e).2.1 w hw, h.2.1 w hw]
  · intro w
    by_cases hw : R w
    · rw [(hdet e ev).2.2 w hw, hfix]
    · rw [(hagree e).2.2 w hw, h.2.2 w hw]

/-- Unpacking a state changes the variables of the layout only. -/
theorem unpackStateIntoEvaluator_agree (state : CompressedState) (vi : VariableInformation)
    (e : ExpressionEvaluator) :
    ExpressionEvaluator.AgreeOutside vi.isBooleanVariable vi.isIntegerVariable (fun _ => False)
      (unpackStateIntoEvaluator state vi e) e :=
  ((foldl_set_values vi.booleanVariables (fun b => b.var)
      (fun b => BitVector.get state b.bitOffset) vi.integerVariables (fun i => i.var)
      (fun i => (BitVector.getAsInt state i.bitOffset i.bitWidth : Int) + i.lowerBound)
      ([] : List Unit) (fun _ => ⟨0, ExpressionType.rational⟩) (fun _ => 0)).1 e).mono
    (fun _ h => h) (fun _ h => h) (fun _ h => by obtain ⟨a, ha, _⟩ := h; cases ha)

/-- The values that unpacking a state gives to the variables of the layout depend on the
state only. -/
theorem unpackStateIntoEvaluator_determined (state : CompressedState)
    (vi : VariableInformation) :
    ExpressionEvaluator.DeterminedOn vi.isBooleanVariable vi.isIntegerVariable (fun _ => False)
      (unpackStateIntoEvaluator state vi) := by
  intro e e'
  have h := (foldl_set_values vi.booleanVariables (fun b => b.var)
      (fun b => BitVector.get state b.bitOffset) vi.integerVariables (fun i => i.var)
      (fun i => (BitVector.getAsInt state i.bitOffset i.bitWidth : Int) + i.lowerBound)
      ([] : List Unit) (fun _ => ⟨0, ExpressionType.rational⟩) (fun _ => 0)).2 e e'
  exact ⟨h.1, h.2.1, fun _ hw => absurd hw (fun h => h)⟩

/-- Setting the default values changes the transient variables only. -/
theorem setDefaultValuesInEvaluator_agree (ti : TransientVariableInformation)
    (e : ExpressionEvaluator) :
    ExpressionEvaluator.AgreeOutside ti.isBooleanVariable ti.isIntegerVariable
      ti.isRationalVariable (ti.setDefaultValuesInEvaluator e) e :=
  (foldl_set_values ti.booleanVariableInformation (fun b => b.var) (fun b => b.defaultValue)
    ti.integerVariableInformation (fun i => i.var) (fun i => i.defaultValue)
    ti.rationalVariableInformation (fun r => r.var) (fun r => r.defaultValue)).1 e

/-- The values that the transient variables get from their defaults do not depend on the
evaluator. -/
theorem setDefaultValuesInEvaluator_determined (ti : TransientVariableInformation) :
    ExpressionEvaluator.DeterminedOn ti.isBooleanVariable ti.isIntegerVariable
      ti.isRationalVariable ti.setDefaultValuesInEvaluator :=
  (foldl_set_values ti.booleanVariableInformation (fun b => b.var) (fun b => b.defaultValue)
    ti.integerVariableInformation (fun i => i.var) (fun i => i.defaultValue)
    ti.rationalVariableInformation (fun r => r.var) (fun r => r.defaultValue)).2

/-- Committing a valuation buffer changes transient variables only. -/
theorem TransientVariableValuation.setInEvaluator_agree (t : TransientVariableValuation)
    (ti : TransientVariableInformation) (ht : t.Within ti) (e : ExpressionEvaluator) :
    ExpressionEvaluator.AgreeOutside ti.isBooleanVariable ti.isIntegerVariable
      ti.isRationalVariable (t.setInEvaluator e) e :=
  ((foldl_set_values t.booleanValues (fun p => p.1.var) (fun p => p.2)
    t.integerValues (fun p => p.1.var) (fun p => p.2)
    t.rationalValues (fun p => p.1.var) (fun p => p.2)).1 e).mono
    (fun _ h => by obtain ⟨p, hp, hw⟩ := h; exact ⟨p.1, ht.1 p hp, hw⟩)
    (fun _ h => by obtain ⟨p, hp, hw⟩ := h; exact ⟨p.1, ht.2.1 p hp, hw⟩)
    (fun _ h => by obtain ⟨p, hp, hw⟩ := h; exact ⟨p.1, ht.2.2 p hp, hw⟩)

theorem JaniNextStateGenerator.AgreeOffState.toVariables {g : JaniNextStateGenerator}
    {e ev : ExpressionEvaluator} (h : g.AgreeOffState e ev) : g.AgreeOffVariables e ev :=
  ExpressionEvaluator.AgreeOutside.mono h (fun _ hw => Or.inl hw) (fun _ hw => Or.inl hw)
    (fun _ hw => absurd hw (fun h => h))

theorem JaniNextStateGenerator.AgreeOffTransients.transients_toVariables {g : JaniNextStateGenerator}
    {e ev : ExpressionEvaluator} (h : g.AgreeOffTransients e ev) : g.AgreeOffVariables e ev :=
  ExpressionEvaluator.AgreeOutside.mono h (fun _ hw => Or.inr hw) (fun _ hw => Or.inr hw)
    (fun _ hw => hw)

theorem JaniNextStateGenerator.AgreeOffState.unpack {g : JaniNextStateGenerator}
    {e ev : ExpressionEvaluator} (h : g.AgreeOffState e ev) (state : CompressedState) :
    g.AgreeOffState (unpackStateIntoEvaluator state g.variableInformation e) ev :=
  ExpressionEvaluator.AgreeOutside.trans (unpackStateIntoEvaluator_agree state _ e) h

theorem JaniNextStateGenerator.AgreeOffVariables.unpack_variables {g : JaniNextStateGenerator}
    {e ev : ExpressionEvaluator} (h : g.AgreeOffVariables e ev) (state : CompressedState) :
    g.AgreeOffVariables (unpackStateIntoEvaluator state g.variableInformation e) ev :=
  ExpressionEvaluator.AgreeOutside.trans
    (JaniNextStateGenerator.AgreeOffState.toVariables
      (unpackStateIntoEvaluator_agree state _ e)) h

theorem JaniNextStateGenerator.AgreeOffTransients.setInEvaluator {g : JaniNextStateGenerator}
    {e ev : ExpressionEvaluator} (h : g.AgreeOffTransients e ev)
    (t : TransientVariableValuation) (ht : t.Within g.transientVariableInformation) :
    g.AgreeOffTransients (t.setInEvaluator e) ev :=
  ExpressionEvaluator.AgreeOutside.trans (t.setInEvaluator_agree _ ht e) h

theorem JaniNextStateGenerator.AgreeOffVariables.setInEvaluator_variables {g : JaniNextStateGenerator}
    {e ev : ExpressionEvaluator} (h : g.AgreeOffVariables e ev)
    (t : TransientVariableValuation) (ht : t.Within g.transientVariableInformation) :
    g.AgreeOffVariables (t.setInEvaluator e) ev :=
  ExpressionEvaluator.AgreeOutside.trans
    (JaniNextStateGenerator.AgreeOffTransients.transients_toVariables (t.setInEvaluator_agree _ ht e)) h

/-- Unpacking the loaded state restores an evaluator that differs from the loaded one in
variables of the layout only. -/
theorem Loaded.restore_state {g : JaniNextStateGenerator} {state : CompressedState}
    {ev : ExpressionEvaluator} (hl : Loaded g state ev) {e : ExpressionEvaluator}
    (h : g.AgreeOffState e ev) :
    unpackStateIntoEvaluator state g.variableInformation e = ev :=
  ExpressionEvaluator.restore (unpackStateIntoEvaluator_agree state _)
    (unpackStateIntoEvaluator_determined state _) hl.1 h

/-- Setting the defaults restores an evaluator that differs from the loaded one in
transient variables only. -/
theorem Loaded.restore_transients {g : JaniNextStateGenerator} {state : CompressedState}
    {ev : ExpressionEvaluator} (hl : Loaded g state ev) {e : ExpressionEvaluator}
    (h : g.AgreeOffTransients e ev) :
    g.transientVariableInformation.setDefaultValuesInEvaluator e = ev :=
  ExpressionEvaluator.restore (setDefaultValuesInEvaluator_agree _)
    (setDefaultValuesInEvaluator_determined _) hl.2 h

/-- Unpacking the loaded state and setting the defaults restores an evaluator that differs
from the loaded one in variables of the layout and transient variables. -/
theorem Loaded.restore_variables {g : JaniNextStateGenerator} {state : CompressedState}
    {ev : ExpressionEvaluator} (hl : Loaded g state ev) {e : ExpressionEvaluator}
    (h : g.AgreeOffVariables e ev) :
    g.transientVariableInformation.setDefaultValuesInEvaluator
      (unpackStateIntoEvaluator state g.variableInformation e) = ev := by
  apply hl.restore_transients
  have hagree := unpackStateIntoEvaluator_agree state g.variableInformation e
  have hdet := unpackStateIntoEvaluator_determined state g.variableInformation e ev
  rw [hl.1] at hdet
  refine ⟨fun w hw => ?_, fun w hw => ?_, fun w hw => ?_⟩
  · by_cases hs : g.variableInformation.isBooleanVariable w
    · exact hdet.1 w hs
    · rw [hagree.1 w hs]
      exact h.1 w (fun hor => hor.elim hs hw)
  · by_cases hs : g.variableInformation.isIntegerVariable w
    · exact hdet.2.1 w hs
    · rw [hagree.2.1 w hs]
      exact h.2.1 w (fun hor => hor.elim hs hw)
  · rw [hagree.2.2 w (fun h => h)]
    exact h.2.2 w hw

theorem TransientVariableValuation.clear_within (ti : TransientVariableInformation) :
    TransientVariableValuation.clear.Within ti :=
  ⟨fun p hp => absurd hp (List.not_mem_nil p), fun p hp => absurd hp (List.not_mem_nil p),
    fun p hp => absurd hp (List.not_mem_nil p)⟩

theorem applyTransientUpdate.booleanLoop_within (ti : TransientVariableInformation)
    (ev : ExpressionEvaluator) (as : List Assignment)
    (boolIt : List TransientBooleanVariableData) (t : TransientVariableValuation)
    (as1 : List Assignment) (t1 : TransientVariableValuation)
    (h : applyTransientUpdate.booleanLoop ev as boolIt t = .ok (as1, t1))
    (hit : ∀ x ∈ boolIt, x ∈ ti.booleanVariableInformation) (ht : t.Within ti) :
    t1.Within ti := by
  induction as generalizing boolIt t with
  | nil =>
    simp only [applyTransientUpdate.booleanLoop, Except.ok.injEq, Prod.mk.injEq] at h
    rw [← h.2]; exact ht
  | cons a rest ih =>
    unfold applyTransientUpdate.booleanLoop at h
    by_cases hc : (a.lValueIsVariable && a.getExpressionVariable.hasBooleanType) = true
    · rw [if_pos hc] at h
      have hsuffix := List.dropWhile_suffix (fun i : TransientBooleanVariableData =>
        i.var != a.getExpressionVariable) (l := boolIt)
      cases hd : boolIt.dropWhile (fun i => i.var != a.getExpressionVariable) with
      | nil => simp only [hd] at h; cases h
      | cons i its =>
        simp only [hd] at h
        rw [hd] at hsuffix
        have hmem : ∀ x ∈ i :: its, x ∈ ti.booleanVariableInformation :=
          fun x hx => hit x (hsuffix.subset hx)
        refine ih (i :: its) _ h hmem ⟨fun p hp => ?_, ht.2.1, ht.2.2⟩
        rcases List.mem_append.1 hp with hp | hp
        · exact ht.1 p hp
        · rw [List.mem_singleton.1 hp]; exact hmem i (List.mem_cons_self _ _)
    · rw [if_neg hc] at h
      simp only [Except.ok.injEq, Prod.mk.injEq] at h
      rw [← h.2]; exact ht

theorem applyTransientUpdate.integerLoop_within (g : JaniNextStateGenerator)
    (ti : TransientVariableInformation)
    (ev : ExpressionEvaluator) (as : List Assignment)
    (integerIt : List TransientIntegerVariableData) (t : TransientVariableValuation)
    (as1 : List Assignment) (t1 : TransientVariableValuation)
    (h : applyTransientUpdate.integerLoop g ev as integerIt t = .ok (as1, t1))
    (hit : ∀ x ∈ integerIt, x ∈ ti.integerVariableInformation) (ht : t.Within ti) :
    t1.Within ti := by
  induction as generalizing integerIt t with
  | nil =>
    simp only [applyTransientUpdate.integerLoop, Except.ok.injEq, Prod.mk.injEq] at h
    rw [← h.2]; exact ht
  | cons a rest ih =>
    unfold applyTransientUpdate.integerLoop at h
    by_cases hc : (a.lValueIsVariable && a.getExpressionVariable.hasIntegerType) = true
    · rw [if_pos hc] at h
      have hsuffix := List.dropWhile_suffix (fun i : TransientIntegerVariableData =>
        i.var != a.getExpressionVariable) (l := integerIt)
      cases hd : integerIt.dropWhile (fun i => i.var != a.getExpressionVariable) with
      | nil => simp only [hd] at h; cases h
      | cons i its =>
        simp only [hd] at h
        rw [hd] at hsuffix
        have hmem : ∀ x ∈ i :: its, x ∈ ti.integerVariableInformation :=
          fun x hx => hit x (hsuffix.subset hx)
        cases hcheck : applyTransientUpdate.checkInteger g i (a.assignedExpression.asInt ev) with
        | error e => simp only [hcheck] at h; cases h
        | ok u =>
          simp only [hcheck] at h
          refine ih (i :: its) _ h hmem ⟨ht.1, fun p hp => ?_, ht.2.2⟩
          rcases List.mem_append.1 hp with hp | hp
          · exact ht.2.1 p hp
          · rw [List.mem_singleton.1 hp]; exact hmem i (List.mem_cons_self _ _)
    · rw [if_neg hc] at h
      simp only [Except.ok.injEq, Prod.mk.injEq] at h
      rw [← h.2]; exact ht

theorem applyTransientUpdate.rationalLoop_within (ti : TransientVariableInformation)
    (ev : ExpressionEvaluator) (as : List Assignment)
    (rationalIt : List TransientRationalVariableData) (t : TransientVariableValuation)
    (as1 : List Assignment) (t1 : TransientVariableValuation)
    (h : applyTransientUpdate.rationalLoop ev as rationalIt t = .ok (as1, t1))
    (hit : ∀ x ∈ rationalIt, x ∈ ti.rationalVariableInformation) (ht : t.Within ti) :
    t1.Within ti := by
  induction as generalizing rationalIt t with
  | nil =>
    simp only [applyTransientUpdate.rationalLoop, Except.ok.injEq, Prod.mk.injEq] at h
    rw [← h.2]; exact ht
  | cons a rest ih =>
    unfold applyTransientUpdate.rationalLoop at h
    by_cases hc : (a.lValueIsVariable && a.getExpressionVariable.hasRationalType) = true
    · rw [if_pos hc] at h
      have hsuffix := List.dropWhile_suffix (fun i : TransientRationalVariableData =>
        i.var != a.getExpressionVariable) (l := rationalIt)
      cases hd : rationalIt.dropWhile (fun i => i.var != a.getExpressionVariable) with
      | nil => simp only [hd] at h; cases h
      | cons i its =>
        simp only [hd] at h
        rw [hd] at hsuffix
        have hmem : ∀ x ∈ i :: its, x ∈ ti.rationalVariableInformation :=
          fun x hx => hit x (hsuffix.subset hx)
        refine ih (i :: its) _ h hmem ⟨ht.1, ht.2.1, fun p hp => ?_⟩
        rcases List.mem_append.1 hp with hp | hp
        · exact ht.2.2 p hp
        · rw [List.mem_singleton.1 hp]; exact hmem i (List.mem_cons_self _ _)
    · rw [if_neg hc] at h
      simp only [Except.ok.injEq, Prod.mk.injEq] at h
      rw [← h.2]; exact ht

theorem applyTransientUpdate.arrayLoop_within (g : JaniNextStateGenerator)
    (hclosed : g.transientVariableInformation.Closed)
    (ev : ExpressionEvaluator) (as : List Assignment) (t : TransientVariableValuation)
    (as1 : List Assignment) (t1 : TransientVariableValuation)
    (h : applyTransientUpdate.arrayLoop g ev as t = .ok (as1, t1))
    (ht : t.Within g.transientVariableInformation) :
    t1.Within g.transientVariableInformation := by
  induction as generalizing t with
  | nil =>
    simp only [applyTransientUpdate.arrayLoop, Except.ok.injEq, Prod.mk.injEq] at h
    rw [← h.2]; exact ht
  | cons a rest ih =>
    unfold applyTransientUpdate.arrayLoop at h
    rcases hl : a.lValue with v | ⟨array, index⟩
    · simp only [hl, Except.ok.injEq, Prod.mk.injEq] at h
      rw [← h.2]; exact ht
    · simp only [hl] at h
      by_cases hint : array.hasIntegerType = true
      · rw [if_pos hint] at h
        cases hrep : g.transientVariableInformation.getIntegerArrayVariableReplacement array
            (index.asInt ev) with
        | error e => simp only [hrep] at h; cases h
        | ok intInfo =>
          simp only [hrep] at h
          cases hcheck : applyTransientUpdate.checkInteger g intInfo
              (a.assignedExpression.asInt ev) with
          | error e => simp only [hcheck] at h; cases h
          | ok u =>
            simp only [hcheck] at h
            refine ih _ h ⟨ht.1, fun p hp => ?_, ht.2.2⟩
            rcases List.mem_append.1 hp with hp | hp
            · exact ht.2.1 p hp
            · rw [List.mem_singleton.1 hp]; exact hclosed.2.1 _ _ _ hrep
      · rw [if_neg hint] at h
        by_cases hbool : array.hasBooleanType = true
        · rw [if_pos hbool] at h
          cases hrep : g.transientVariableInformation.getBooleanArrayVariableReplacement array
              (index.asInt ev) with
          | error e => simp only [hrep] at h; cases h
          | ok boolInfo =>
            simp only [hrep] at h
            refine ih _ h ⟨fun p hp => ?_, ht.2.1, ht.2.2⟩
            rcases List.mem_append.1 hp with hp | hp
            · exact ht.1 p hp
            · rw [List.mem_singleton.1 hp]; exact hclosed.1 _ _ _ hrep
        · rw [if_neg hbool] at h
          by_cases hrat : array.hasRationalType = true
          · rw [if_pos hrat] at h
            cases hrep : g.transientVariableInformation.getRationalArrayVariableReplacement array
                (index.asInt ev) with
            | error e => simp only [hrep] at h; cases h
            | ok rationalInfo =>
              simp only [hrep] at h
              refine ih _ h ⟨ht.1, ht.2.1, fun p hp => ?_⟩
              rcases List.mem_append.1 hp with hp | hp
              · exact ht.2.2 p hp
              · rw [List.mem_singleton.1 hp]; exact hclosed.2.2 _ _ _ hrep
          · rw [if_neg hrat] at h
            cases h

/-- The valuation buffer that `applyTransientUpdate` returns holds listed transient
variables only. -/
theorem applyTransientUpdate_within (g : JaniNextStateGenerator)
    (hclosed : g.transientVariableInformation.Closed)
    (t : TransientVariableValuation) (as : List Assignment) (ev : ExpressionEvaluator)
    (t1 : TransientVariableValuation)
    (h : applyTransientUpdate g t as ev = .ok t1)
    (ht : t.Within g.transientVariableInformation) :
    t1.Within g.transientVariableInformation := by
  unfold applyTransientUpdate at h
  cases h1 : applyTransientUpdate.booleanLoop ev as
      g.transientVariableInformation.booleanVariableInformation t with
  | error e => simp only [h1] at h; cases h
  | ok r1 =>
    obtain ⟨as1, r1⟩ := r1
    simp only [h1] at h
    have ht1 := applyTransientUpdate.booleanLoop_within _ ev as _ t as1 r1 h1 (fun _ hx => hx) ht
    cases h2 : applyTransientUpdate.integerLoop g ev as1
        g.transientVariableInformation.integerVariableInformation r1 with
    | error e => simp only [h2] at h; cases h
    | ok r2 =>
      obtain ⟨as2, r2⟩ := r2
      simp only [h2] at h
      have ht2 := applyTransientUpdate.integerLoop_within g _ ev as1 _ r1 as2 r2 h2
        (fun _ hx => hx) ht1
      cases h3 : applyTransientUpdate.rationalLoop ev as2
          g.transientVariableInformation.rationalVariableInformation r2 with
      | error e => simp only [h3] at h; cases h
      | ok r3 =>
        obtain ⟨as3, r3⟩ := r3
        simp only [h3] at h
        have ht3 := applyTransientUpdate.rationalLoop_within _ ev as2 _ r2 as3 r3 h3
          (fun _ hx => hx) ht2
        cases h4 : applyTransientUpdate.arrayLoop g ev as3 r3 with
        | error e => simp only [h4] at h; cases h
        | ok r4 =>
          obtain ⟨as4, r4⟩ := r4
          simp only [h4, Except.ok.injEq] at h
          rw [← h]
          exact applyTransientUpdate.arrayLoop_within g hclosed ev as3 r3 as4 r4 h4 ht3

/-! ## Expanding a non-synchronizing edge leaves the evaluator as it was -/

theorem applyTransientLevels_agree (g : JaniNextStateGenerator)
    (hclosed : g.transientVariableInformation.Closed) (ev : ExpressionEvaluator)
    (assignments : OrderedAssignments) (n : Nat) (level : Int) (e e1 : ExpressionEvaluator)
    (h : applyTransientLevels g assignments n level e = .ok e1)
    (he : g.AgreeOffTransients e ev) : g.AgreeOffTransients e1 ev := by
  induction n generalizing level e with
  | zero =>
    simp only [applyTransientLevels, Except.ok.injEq] at h
    rw [← h]; exact he
  | succ n ih =>
    unfold applyTransientLevels at h
    cases ht : applyTransientUpdate g TransientVariableValuation.clear
        (assignments.getTransientAssignments level) e with
    | error x => simp only [ht] at h; cases h
    | ok t =>
      simp only [ht] at h
      exact ih _ _ h (he.setInEvaluator t
        (applyTransientUpdate_within g hclosed _ _ _ _ ht
          (TransientVariableValuation.clear_within _)))

/-- The evaluator that the edge-reward step returns is the loaded one. -/
theorem expandNonSynchronizingEdge.edgeRewards_restore (g : JaniNextStateGenerator)
    (hclosed : g.transientVariableInformation.Closed) (state : CompressedState)
    (ev : ExpressionEvaluator) (hl : Loaded g state ev) (edge : Edge)
    (rewards : List ℚ) (ev1 : ExpressionEvaluator)
    (h : expandNonSynchronizingEdge.edgeRewards g edge ev = .ok (rewards, ev1)) : ev1 = ev := by
  unfold expandNonSynchronizingEdge.edgeRewards at h
  by_cases hc : (!g.evaluateRewardExpressionsAtEdges || edge.assignments.isEmpty) = true
  · rw [if_pos hc] at h
    simp only [Except.ok.injEq, Prod.mk.injEq] at h
    exact h.2.symm
  · rw [if_neg hc] at h
    cases hlow : edge.assignments.getLowestLevel with
    | none => simp only [hlow] at h; cases h
    | some lowest =>
      cases hhigh : edge.assignments.getHighestLevel with
      | none => simp only [hlow, hhigh] at h; cases h
      | some highest =>
        simp only [hlow, hhigh] at h
        cases hlev : applyTransientLevels g edge.assignments (highest - lowest + 1).toNat
            lowest ev with
        | error x => simp only [hlev] at h; cases h
        | ok e1 =>
          simp only [hlev, Except.ok.injEq, Prod.mk.injEq] at h
          rw [← h.2]
          exact hl.restore_transients
            (applyTransientLevels_agree g hclosed ev _ _ _ _ _ hlev
              (ExpressionEvaluator.AgreeOutside.refl _ _ _ _))

theorem expandNonSynchronizingEdge.levelLoop_agree (g : JaniNextStateGenerator)
    (hclosed : g.transientVariableInformation.Closed) (ev : ExpressionEvaluator)
    (destination : EdgeDestination) (lv : LocationVariableInformation)
    (hasTransientAssignments : Bool) (n : Nat) (level : Int) (newState : CompressedState)
    (e : ExpressionEvaluator) (newState1 : CompressedState) (e1 : ExpressionEvaluator)
    (h : expandNonSynchronizingEdge.levelLoop g destination lv hasTransientAssignments n level
      newState e = .ok (newState1, e1)) :
    (g.AgreeOffVariables e ev → g.AgreeOffVariables e1 ev)
      ∧ (hasTransientAssignments = false → g.AgreeOffState e ev → g.AgreeOffState e1 ev)
      ∧ (n = 0 → e1 = e) := by
  induction n generalizing level newState e with
  | zero =>
    simp only [expandNonSynchronizingEdge.levelLoop, Except.ok.injEq, Prod.mk.injEq] at h
    rw [← h.2]
    exact ⟨fun he => he, fun _ he => he, fun _ => rfl⟩
  | succ n ih =>
    unfold expandNonSynchronizingEdge.levelLoop at h
    simp only at h
    cases hupd : applyUpdate g newState destination lv (level + 1)
        (unpackStateIntoEvaluator newState g.variableInformation e) with
    | error x => simp only [hupd] at h; cases h
    | ok s1 =>
      simp only [hupd] at h
      by_cases ht : hasTransientAssignments = true
      · rw [if_pos ht] at h
        cases htr : applyTransientUpdate g TransientVariableValuation.clear
            (destination.orderedAssignments.getTransientAssignments (level + 1))
            (unpackStateIntoEvaluator newState g.variableInformation e) with
        | error x => simp only [htr] at h; cases h
        | ok t =>
          simp only [htr] at h
          have hw := applyTransientUpdate_within g hclosed _ _ _ _ htr
            (TransientVariableValuation.clear_within _)
          obtain ⟨h1, _, _⟩ := ih _ _ _ h
          refine ⟨fun he => h1 ((he.unpack_variables newState).setInEvaluator_variables t hw), fun hf => ?_,
            fun hn => absurd hn (Nat.succ_ne_zero n)⟩
          rw [ht] at hf
          cases hf
      · rw [if_neg ht] at h
        obtain ⟨h1, h2, _⟩ := ih _ _ _ h
        exact ⟨fun he => h1 (he.unpack_variables newState), fun hf he => h2 hf (he.unpack newState),
          fun hn => absurd hn (Nat.succ_ne_zero n)⟩

theorem expandNonSynchronizingEdge.successor_agree (g : JaniNextStateGenerator)
    (hclosed : g.transientVariableInformation.Closed) (edge : Edge)
    (destination : EdgeDestination) (lv : LocationVariableInformation)
    (state : CompressedState) (ev : ExpressionEvaluator)
    (newState : CompressedState) (e1 : ExpressionEvaluator)
    (h : expandNonSynchronizingEdge.successor g edge destination lv state ev
      = .ok (newState, e1)) :
    g.AgreeOffVariables e1 ev
      ∧ (destination.hasTransientAssignment = false → g.AgreeOffState e1 ev)
      ∧ (destination.hasTransientAssignment = false →
          ¬ edge.lowestAssignmentLevel < edge.highestAssignmentLevel → e1 = ev) := by
  unfold expandNonSynchronizingEdge.successor at h
  simp only at h
  cases hupd : applyUpdate g state destination lv edge.lowestAssignmentLevel ev with
  | error x => simp only [hupd] at h; cases h
  | ok s1 =>
    simp only [hupd] at h
    by_cases ht : destination.hasTransientAssignment = true
    · simp only [ht, if_true] at h
      cases htr : applyTransientUpdate g TransientVariableValuation.clear
          (destination.orderedAssignments.getTransientAssignments edge.lowestAssignmentLevel) ev with
      | error x => simp only [htr] at h; cases h
      | ok t =>
        simp only [htr] at h
        have hw := applyTransientUpdate_within g hclosed _ _ _ _ htr
          (TransientVariableValuation.clear_within _)
        obtain ⟨h1, _, _⟩ := expandNonSynchronizingEdge.levelLoop_agree g hclosed ev _ _ _ _ _ _ _ _ _ h
        refine ⟨h1 (JaniNextStateGenerator.AgreeOffVariables.setInEvaluator_variables
          (ExpressionEvaluator.AgreeOutside.refl _ _ _ _) t hw), fun hf => ?_, fun hf => ?_⟩
        · rw [ht] at hf; cases hf
        · rw [ht] at hf; cases hf
    · have htf : destination.hasTransientAssignment = false := by simpa using ht
      simp only [htf] at h
      obtain ⟨h1, h2, h3⟩ := expandNonSynchronizingEdge.levelLoop_agree g hclosed ev _ _ _ _ _ _ _ _ _ h
      refine ⟨h1 (ExpressionEvaluator.AgreeOutside.refl _ _ _ _),
        fun _ => h2 rfl (ExpressionEvaluator.AgreeOutside.refl _ _ _ _), fun _ hlev => h3 ?_⟩
      have : edge.highestAssignmentLevel - edge.lowestAssignmentLevel ≤ 0 := by omega
      exact Int.toNat_eq_zero.2 this

/-- One pass of the loop over the destinations, started with the loaded evaluator: a
destination of probability zero changes nothing; for any other destination the successor
state is handed to the callback once, the value is added to the choice under the id that
the callback returned, and the evaluator is the loaded one again. -/
theorem expandNonSynchronizingEdge.destinationStep_spec {σ : Type} (g : JaniNextStateGenerator)
    (hclosed : g.transientVariableInformation.Closed) (state : CompressedState)
    (ev : ExpressionEvaluator) (hl : Loaded g state ev) (edge : Edge) (automatonIndex : Nat)
    (cb : StateToIdCallback σ) (exitRate : Option ℚ) (acc : ExpandEdgeState σ)
    (hacc : acc.evaluator = ev) (destination : EdgeDestination) (acc1 : ExpandEdgeState σ)
    (h : expandNonSynchronizingEdge.destinationStep g edge automatonIndex state cb exitRate acc
      destination = .ok acc1) :
    acc1.evaluator = ev
      ∧ ((destination.probability.asRational ev = 0 ∧ acc1 = acc)
        ∨ (destination.probability.asRational ev ≠ 0
          ∧ ∃ lv newState e1, g.variableInformation.locationVariables[automatonIndex]? = some lv
            ∧ expandNonSynchronizingEdge.successor g edge destination lv state ev
                = .ok (newState, e1)
            ∧ acc1.choice = acc.choice.addProbability (cb newState acc.callbackState).1
                (expandNonSynchronizingEdge.value exitRate ev destination)
            ∧ acc1.callbackState = (cb newState acc.callbackState).2
            ∧ acc1.probabilitySum
                = (if g.options.explorationChecks then
                    acc.probabilitySum + expandNonSynchronizingEdge.value exitRate ev destination
                   else acc.probabilitySum))) := by
  unfold expandNonSynchronizingEdge.destinationStep at h
  simp only [hacc] at h
  by_cases hp : destination.probability.asRational ev = 0
  · rw [if_pos hp] at h
    simp only [Except.ok.injEq] at h
    rw [← h]
    exact ⟨hacc, Or.inl ⟨hp, rfl⟩⟩
  · rw [if_neg hp] at h
    cases hlv : g.variableInformation.locationVariables[automatonIndex]? with
    | none => simp only [hlv] at h; cases h
    | some lv =>
      simp only [hlv] at h
      cases hsucc : expandNonSynchronizingEdge.successor g edge destination lv state ev with
      | error x => simp only [hsucc] at h; cases h
      | ok r =>
        obtain ⟨newState, e1⟩ := r
        simp only [hsucc, Except.ok.injEq] at h
        obtain ⟨hv, hs, hnone⟩ :=
          expandNonSynchronizingEdge.successor_agree g hclosed edge destination lv state ev
            newState e1 hsucc
        have hev : acc1.evaluator = ev := by
          rw [← h]
          simp only
          by_cases hd : g.evaluateRewardExpressionsAtDestinations = true
          · simp only [hd, Bool.or_true, if_true]
            by_cases ht : destination.hasTransientAssignment = true
            · rw [if_pos ht]
              exact hl.restore_variables (hv.unpack_variables newState)
            · rw [if_neg ht]
              exact hl.restore_state ((hs (by simpa using ht)).unpack newState)
          · have hdf : g.evaluateRewardExpressionsAtDestinations = false := by simpa using hd
            simp only [hdf, Bool.or_false, Bool.false_eq_true, if_false]
            by_cases ht : destination.hasTransientAssignment = true
            · simp only [ht, Bool.true_or, if_true]
              exact hl.restore_variables hv
            · have htf : destination.hasTransientAssignment = false := by simpa using ht
              simp only [htf, Bool.false_or, Bool.false_eq_true, if_false]
              by_cases hlev : edge.lowestAssignmentLevel < edge.highestAssignmentLevel
              · simp only [hlev, decide_True, if_true]
                exact hl.restore_state (hs htf)
              · simp only [hlev, decide_False, Bool.false_eq_true, if_false]
                exact hnone htf hlev
        refine ⟨hev, Or.inr ⟨hp, lv, newState, e1, rfl, hsucc, ?_, ?_, ?_⟩⟩
        · rw [← h]
          cases exitRate <;> rfl
        · rw [← h]
        · rw [← h]
          cases exitRate <;> rfl

/-- The recording callback appends the states it is handed to its log. -/
theorem internAll_recordingCallback (successors : List (CompressedState × ℚ))
    (log : List CompressedState) :
    (internAll recordingCallback successors log).2 = log ++ successors.map (fun p => p.1) := by
  induction successors generalizing log with
  | nil => simp [internAll]
  | cons p rest ih =>
    obtain ⟨s, v⟩ := p
    simp only [internAll, List.map_cons]
    rw [ih]
    simp [recordingCallback]

/-- The loop over the destinations, started with the loaded evaluator: the successor
states of the destinations of non-zero probability are handed to the callback, one call
each, in the order of the destinations; their values are added to the choice under the ids
returned; the values of all destinations add up in the total mass of the choice and, when
`explorationChecks` is on, in `probabilitySum`; the evaluator is the loaded one again. -/
theorem expandNonSynchronizingEdge.destinationLoop_spec {σ : Type} (g : JaniNextStateGenerator)
    (hclosed : g.transientVariableInformation.Closed) (state : CompressedState)
    (ev : ExpressionEvaluator) (hl : Loaded g state ev) (edge : Edge) (automatonIndex : Nat)
    (cb : StateToIdCallback σ) (exitRate : Option ℚ) (destinations : List EdgeDestination)
    (acc : ExpandEdgeState σ) (hacc : acc.evaluator = ev) (acc1 : ExpandEdgeState σ)
    (h : expandNonSynchronizingEdge.destinationLoop g edge automatonIndex state cb exitRate
      destinations acc = .ok acc1) :
    acc1.evaluator = ev
      ∧ acc1.probabilitySum
          = acc.probabilitySum
            + (if g.options.explorationChecks then
                (destinations.map (expandNonSynchronizingEdge.value exitRate ev)).sum
               else 0)
      ∧ acc1.choice.totalMass
          = acc.choice.totalMass
            + (destinations.map (expandNonSynchronizingEdge.value exitRate ev)).sum
      ∧ ∃ successors : List (CompressedState × ℚ),
          List.Forall₂
            (fun destination successor =>
              successor.2 = expandNonSynchronizingEdge.value exitRate ev destination
                ∧ ∃ lv e1, g.variableInformation.locationVariables[automatonIndex]? = some lv
                  ∧ expandNonSynchronizingEdge.successor g edge destination lv state ev
                      = .ok (successor.1, e1))
            (nonZeroDestinations ev destinations) successors
          ∧ acc1.choice
              = (internAll cb successors acc.callbackState).1.foldl
                  (fun c p => c.addProbability p.1 p.2) acc.choice
          ∧ acc1.callbackState = (internAll cb successors acc.callbackState).2 := by
  induction destinations generalizing acc with
  | nil =>
    simp only [expandNonSynchronizingEdge.destinationLoop, Except.ok.injEq] at h
    rw [← h]
    refine ⟨hacc, by simp, by simp, [], ?_, rfl, rfl⟩
    simp [nonZeroDestinations]
  | cons d rest ih =>
    unfold expandNonSynchronizingEdge.destinationLoop at h
    cases hstep : expandNonSynchronizingEdge.destinationStep g edge automatonIndex state cb
        exitRate acc d with
    | error x => simp only [hstep] at h; cases h
    | ok acc2 =>
      simp only [hstep] at h
      obtain ⟨hev2, hcases⟩ := expandNonSynchronizingEdge.destinationStep_spec g hclosed state ev
        hl edge automatonIndex cb exitRate acc hacc d acc2 hstep
      obtain ⟨hev1, hsum1, hmass1, successors, hall, hchoice, hcb⟩ := ih acc2 hev2 h
      rcases hcases with ⟨hp, heq⟩ | ⟨hp, lv, newState, e1, hlv, hsucc, hc2, hcb2, hsum2⟩
      · have hval : expandNonSynchronizingEdge.value exitRate ev d = 0 := by
          unfold expandNonSynchronizingEdge.value
          cases exitRate <;> simp [hp]
        rw [heq] at hsum1 hmass1 hchoice hcb
        refine ⟨hev1, ?_, ?_, successors, ?_, hchoice, hcb⟩
        · rw [hsum1]; simp [hval]
        · rw [hmass1]; simp [hval]
        · simpa [nonZeroDestinations, hp] using hall
      · refine ⟨hev1, ?_, ?_,
          (newState, expandNonSynchronizingEdge.value exitRate ev d) :: successors, ?_, ?_, ?_⟩
        · rw [hsum1, hsum2]
          by_cases hchk : g.options.explorationChecks = true
          · simp only [hchk, if_true, List.map_cons, List.sum_cons]; ring
          · simp only [hchk, Bool.false_eq_true, if_false, add_zero]
        · rw [hmass1, hc2]
          simp only [Choice.addProbability, List.map_cons, List.sum_cons]; ring
        · have : nonZeroDestinations ev (d :: rest) = d :: nonZeroDestinations ev rest := by
            simp [nonZeroDestinations, hp]
          rw [this]
          exact List.Forall₂.cons ⟨rfl, lv, e1, hlv, hsucc⟩ hall
        · rw [hchoice, hc2, hcb2]
          simp only [internAll, List.foldl_cons]
        · rw [hcb, hcb2]
          simp only [internAll]

theorem expandNonSynchronizingEdge.destinationStep_ok {σ : Type} (g : JaniNextStateGenerator)
    (edge : Edge) (automatonIndex : Nat) (state : CompressedState) (cb : StateToIdCallback σ)
    (exitRate : Option ℚ) (acc : ExpandEdgeState σ) (destination : EdgeDestination)
    (h : destination.probability.asRational acc.evaluator ≠ 0 →
      ∃ lv newState e1, g.variableInformation.locationVariables[automatonIndex]? = some lv
        ∧ expandNonSynchronizingEdge.successor g edge destination lv state acc.evaluator
            = .ok (newState, e1)) :
    ∃ acc1, expandNonSynchronizingEdge.destinationStep g edge automatonIndex state cb exitRate
      acc destination = .ok acc1 := by
  unfold expandNonSynchronizingEdge.destinationStep
  by_cases hp : destination.probability.asRational acc.evaluator = 0
  · simp only [hp, if_true]
    exact ⟨_, rfl⟩
  · obtain ⟨lv, newState, e1, hlv, hsucc⟩ := h hp
    simp only [hp, if_false, hlv, hsucc]
    exact ⟨_, rfl⟩

theorem expandNonSynchronizingEdge.destinationLoop_ok {σ : Type} (g : JaniNextStateGenerator)
    (hclosed : g.transientVariableInformation.Closed) (state : CompressedState)
    (ev : ExpressionEvaluator) (hl : Loaded g state ev) (edge : Edge) (automatonIndex : Nat)
    (cb : StateToIdCallback σ) (exitRate : Option ℚ) (destinations : List EdgeDestination)
    (hdest : ∀ destination ∈ destinations, destination.probability.asRational ev ≠ 0 →
      ∃ lv newState e1, g.variableInformation.locationVariables[automatonIndex]? = some lv
        ∧ expandNonSynchronizingEdge.successor g edge destination lv state ev
            = .ok (newState, e1))
    (acc : ExpandEdgeState σ) (hacc : acc.evaluator = ev) :
    ∃ acc1, expandNonSynchronizingEdge.destinationLoop g edge automatonIndex state cb exitRate
      destinations acc = .ok acc1 := by
  induction destinations generalizing acc with
  | nil => exact ⟨acc, rfl⟩
  | cons d rest ih =>
    obtain ⟨acc2, hstep⟩ := expandNonSynchronizingEdge.destinationStep_ok g edge automatonIndex
      state cb exitRate acc d (by rw [hacc]; exact hdest d (List.mem_cons_self _ _))
    have hev2 := (expandNonSynchronizingEdge.destinationStep_spec g hclosed state ev hl edge
      automatonIndex cb exitRate acc hacc d acc2 hstep).1
    obtain ⟨acc1, hloop⟩ := ih (fun d' hd' => hdest d' (List.mem_cons_of_mem _ hd')) acc2 hev2
    refine ⟨acc1, ?_⟩
    unfold expandNonSynchronizingEdge.destinationLoop
    simp only [hstep, hloop]

/-- The result of `expandNonSynchronizingEdge` for a loaded evaluator, when the edge-reward
step and the destinations raise no exception: the values of the destinations are added to
a fresh choice with the action index of the edge, and the check of the probability sum
decides between `WrongFormatException` and the choice. -/
theorem expandNonSynchronizingEdge_spec {σ : Type} (g : JaniNextStateGenerator)
    (hclosed : g.transientVariableInformation.Closed) (state : CompressedState)
    (ev : ExpressionEvaluator) (hl : Loaded g state ev) (edge : Edge)
    (outputActionIndex automatonIndex : Nat) (cb : StateToIdCallback σ) (st : σ)
    (hrew : ∃ r, expandNonSynchronizingEdge.edgeRewards g edge ev = .ok r)
    (hdest : expandNonSynchronizingEdge.DestinationsExpand g edge automatonIndex state ev) :
    ∃ (rewards : List ℚ) (successors : List (CompressedState × ℚ)),
      List.Forall₂
          (fun destination successor =>
            successor.2 = expandNonSynchronizingEdge.value
                (expandNonSynchronizingEdge.exitRate edge ev) ev destination
              ∧ ∃ lv e1, g.variableInformation.locationVariables[automatonIndex]? = some lv
                ∧ expandNonSynchronizingEdge.successor g edge destination lv state ev
                    = .ok (successor.1, e1))
          (nonZeroDestinations ev edge.destinations) successors
        ∧ ((internAll cb successors st).1.foldl (fun c p => c.addProbability p.1 p.2)
              (Choice.create edge.actionIndex edge.hasRate)).totalMass
            = (edge.destinations.map (expandNonSynchronizingEdge.value
                (expandNonSynchronizingEdge.exitRate edge ev) ev)).sum
        ∧ expandNonSynchronizingEdge g edge outputActionIndex automatonIndex state cb ev st
            = if g.options.explorationChecks = true ∧ g.isDiscreteTimeModel = true
                  ∧ (edge.destinations.map (expandNonSynchronizingEdge.value
                      (expandNonSynchronizingEdge.exitRate edge ev) ev)).sum ≠ 1 then
                .error Exception.WrongFormatException
              else
                .ok (((internAll cb successors st).1.foldl (fun c p => c.addProbability p.1 p.2)
                        (Choice.create edge.actionIndex edge.hasRate)).addRewards rewards,
                  ev, (internAll cb successors st).2) := by
  obtain ⟨⟨rewards0, ev1⟩, hr⟩ := hrew
  have hev1 : ev1 = ev :=
    expandNonSynchronizingEdge.edgeRewards_restore g hclosed state ev hl edge rewards0 ev1 hr
  subst hev1
  obtain ⟨acc, hloop⟩ := expandNonSynchronizingEdge.destinationLoop_ok g hclosed state ev1 hl edge
    automatonIndex cb (expandNonSynchronizingEdge.exitRate edge ev1) edge.destinations hdest
    { choice := Choice.create edge.actionIndex edge.hasRate, stateActionRewards := rewards0,
      probabilitySum := 0, evaluator := ev1, callbackState := st } rfl
  obtain ⟨hev, hsum, hmass, successors, hall, hchoice, hcb⟩ :=
    expandNonSynchronizingEdge.destinationLoop_spec g hclosed state ev1 hl edge automatonIndex cb
      _ edge.destinations _ rfl acc hloop
  refine ⟨acc.stateActionRewards, successors, hall, ?_, ?_⟩
  · rw [← hchoice, hmass]
    simp [Choice.create]
  · have hexp : expandNonSynchronizingEdge g edge outputActionIndex automatonIndex state cb ev1 st
        = if (g.options.explorationChecks
              && !(!g.isDiscreteTimeModel || decide (acc.probabilitySum = 1))) = true then
            .error Exception.WrongFormatException
          else .ok (acc.choice.addRewards acc.stateActionRewards, acc.evaluator,
            acc.callbackState) := by
      unfold expandNonSynchronizingEdge
      simp only [hr]
      have hrate : (Option.map (fun rate => rate.asRational ev1) edge.rate).isSome
          = edge.hasRate := by
        unfold Edge.hasRate
        cases edge.rate <;> rfl
      rw [hrate]
      unfold expandNonSynchronizingEdge.exitRate at hloop
      simp only [hloop]
    rw [hexp, hev, ← hchoice, ← hcb]
    by_cases hchk : g.options.explorationChecks = true
    · rw [hsum]
      simp only [hchk, if_true, zero_add, true_and, Bool.true_and]
      by_cases hdisc : g.isDiscreteTimeModel = true
      · simp only [hdisc, Bool.not_true, Bool.false_or, true_and, Bool.not_eq_true',
          decide_eq_false_iff_not, ne_eq]
      · have hdf : g.isDiscreteTimeModel = false := by simpa using hdisc
        simp [hdf]
    · have hcf : g.options.explorationChecks = false := by simpa using hchk
      simp [hcf]

/-! ## The check of the probability sum -/

theorem Examples.noTransientVariables_closed : Examples.noTransientVariables.Closed :=
  ⟨fun _ _ _ h => (by cases h), fun _ _ _ h => (by cases h), fun _ _ _ h => (by cases h)⟩

theorem Examples.coinGenerator_loaded (modelType : ModelType) (state : CompressedState) :
    Loaded (Examples.coinGenerator modelType) state Examples.zeroEvaluator :=
  ⟨rfl, rfl⟩

theorem Examples.coin_destinationsExpand (modelType : ModelType) (p q : ℚ)
    (rate : Option Expression) :
    expandNonSynchronizingEdge.DestinationsExpand (Examples.coinGenerator modelType)
      (Examples.coin p q rate) 0 [false] Examples.zeroEvaluator := by
  intro d hd _
  simp only [Examples.coin, List.mem_cons, List.mem_singleton, List.not_mem_nil, or_false] at hd
  rcases hd with rfl | rfl
  · exact ⟨_, _, _, rfl, rfl⟩
  · exact ⟨_, _, _, rfl, rfl⟩

/-- C12: the check of the probability sum.

For a loaded evaluator, an edge whose reward step raises nothing and whose destinations of
non-zero probability all have a successor state: with `explorationChecks` on and a
discrete-time model, `expandNonSynchronizingEdge` raises `WrongFormatException` if and only
if the values of the destinations do not sum to one (exact rationals: the comparator is
equality); with `explorationChecks` off, or for a continuous-time model, it returns a
choice.  The value of a destination is its probability, multiplied by the rate when the
edge has one; for an edge without rate the sum is the sum of the probabilities. -/
theorem expandNonSynchronizingEdge_probability_sum_check {σ : Type} (g : JaniNextStateGenerator)
    (hclosed : g.transientVariableInformation.Closed) (state : CompressedState)
    (ev : ExpressionEvaluator) (hl : Loaded g state ev) (edge : Edge)
    (outputActionIndex automatonIndex : Nat) (cb : StateToIdCallback σ) (st : σ)
    (hrew : ∃ r, expandNonSynchronizingEdge.edgeRewards g edge ev = .ok r)
    (hdest : expandNonSynchronizingEdge.DestinationsExpand g edge automatonIndex state ev) :
    (g.options.explorationChecks = true → g.isDiscreteTimeModel = true →
        (expandNonSynchronizingEdge g edge outputActionIndex automatonIndex state cb ev st
            = .error Exception.WrongFormatException
          ↔ (edge.destinations.map (expandNonSynchronizingEdge.value
              (expandNonSynchronizingEdge.exitRate edge ev) ev)).sum ≠ 1))
      ∧ (g.options.explorationChecks = false ∨ g.isDiscreteTimeModel = false →
          ∃ r, expandNonSynchronizingEdge g edge outputActionIndex automatonIndex state cb ev st
            = .ok r)
      ∧ (edge.rate = none →
          (edge.destinations.map (expandNonSynchronizingEdge.value
              (expandNonSynchronizingEdge.exitRate edge ev) ev)).sum
            = (edge.destinations.map (fun d => d.probability.asRational ev)).sum) := by
  obtain ⟨rewards, successors, _, _, hres⟩ := expandNonSynchronizingEdge_spec g hclosed state ev
    hl edge outputActionIndex automatonIndex cb st hrew hdest
  rw [hres]
  refine ⟨fun hchk hdisc => ?_, fun hor => ?_, fun hrate => ?_⟩
  · by_cases hsum : (edge.destinations.map (expandNonSynchronizingEdge.value
        (expandNonSynchronizingEdge.exitRate edge ev) ev)).sum = 1
    · rw [if_neg (fun h => h.2.2 hsum)]
      exact ⟨fun h => (by cases h), fun h => absurd hsum h⟩
    · rw [if_pos ⟨hchk, hdisc, hsum⟩]
      exact ⟨fun _ => hsum, fun _ => rfl⟩
  · rw [if_neg (fun h => by rcases hor with h' | h' <;> simp [h'] at h)]
    exact ⟨_, rfl⟩
  · simp only [expandNonSynchronizingEdge.exitRate, hrate, Option.map_none']
    rfl

/-- Witness for C12: in a DTMC, an edge with the probabilities 1/2 and 1/4. -/
theorem expandNonSynchronizingEdge_probability_sum_check_witness :
    expandNonSynchronizingEdge (Examples.coinGenerator ModelType.DTMC)
        (Examples.coin (1 / 2) (1 / 4) none) 0 0 [false] recordingCallback
        Examples.zeroEvaluator []
      = .error Exception.WrongFormatException :=
  ((expandNonSynchronizingEdge_probability_sum_check (Examples.coinGenerator ModelType.DTMC)
      Examples.noTransientVariables_closed [false] Examples.zeroEvaluator
      (Examples.coinGenerator_loaded _ _) (Examples.coin (1 / 2) (1 / 4) none) 0 0
      recordingCallback [] ⟨_, rfl⟩ (Examples.coin_destinationsExpand _ _ _ _)).1 rfl rfl).2
    (by
      simp only [Examples.coin, expandNonSynchronizingEdge.exitRate,
        expandNonSynchronizingEdge.value, Expression.rationalLiteral, Option.map_none',
        List.map_cons, List.map_nil, List.sum_cons, List.sum_nil]
      norm_num)

theorem forall₂_exists_right {α β : Type} {R : α → β → Prop} {l1 : List α} {l2 : List β}
    (h : List.Forall₂ R l1 l2) : ∀ x ∈ l1, ∃ y ∈ l2, R x y := by
  induction h with
  | nil => intro x hx; exact absurd hx (List.not_mem_nil x)
  | cons hr _ ih =>
    intro x hx
    rcases List.mem_cons.1 hx with rfl | hx
    · exact ⟨_, List.mem_cons_self _ _, hr⟩
    · obtain ⟨y, hy, hxy⟩ := ih x hx
      exact ⟨y, List.mem_cons_of_mem _ hy, hxy⟩

/-- When `expandNonSynchronizingEdge` returns for a loaded evaluator, the edge-reward step
and every destination of non-zero probability were carried out without an exception. -/
theorem expandNonSynchronizingEdge_expands_of_ok {σ : Type} (g : JaniNextStateGenerator)
    (hclosed : g.transientVariableInformation.Closed) (state : CompressedState)
    (ev : ExpressionEvaluator) (hl : Loaded g state ev) (edge : Edge)
    (outputActionIndex automatonIndex : Nat) (cb : StateToIdCallback σ) (st : σ)
    (r : Choice × ExpressionEvaluator × σ)
    (h : expandNonSynchronizingEdge g edge outputActionIndex automatonIndex state cb ev st
      = .ok r) :
    (∃ r, expandNonSynchronizingEdge.edgeRewards g edge ev = .ok r)
      ∧ expandNonSynchronizingEdge.DestinationsExpand g edge automatonIndex state ev := by
  unfold expandNonSynchronizingEdge at h
  simp only at h
  cases hr : expandNonSynchronizingEdge.edgeRewards g edge ev with
  | error x => simp only [hr] at h; cases h
  | ok rew =>
    obtain ⟨rewards0, ev1⟩ := rew
    have hev1 : ev1 = ev :=
      expandNonSynchronizingEdge.edgeRewards_restore g hclosed state ev hl edge rewards0 ev1 hr
    subst hev1
    simp only [hr] at h
    refine ⟨⟨_, rfl⟩, ?_⟩
    cases hloop : expandNonSynchronizingEdge.destinationLoop g edge automatonIndex state cb
        (Option.map (fun rate => rate.asRational ev1) edge.rate) edge.destinations
        { choice := Choice.create edge.actionIndex
            (Option.map (fun rate => rate.asRational ev1) edge.rate).isSome,
          stateActionRewards := rewards0, probabilitySum := 0, evaluator := ev1,
          callbackState := st } with
    | error x => simp only [hloop] at h; cases h
    | ok acc =>
      obtain ⟨_, _, _, successors, hall, _, _⟩ :=
        expandNonSynchronizingEdge.destinationLoop_spec g hclosed state ev1 hl edge
          automatonIndex cb _ edge.destinations _ rfl acc hloop
      intro d hd hp
      have hmem : d ∈ nonZeroDestinations ev1 edge.destinations := by
        simp [nonZeroDestinations, hd, hp]
      obtain ⟨s, _, _, lv, e1, hlv, hsucc⟩ := forall₂_exists_right hall d hmem
      exact ⟨lv, s.1, e1, hlv, hsucc⟩

theorem Distribution.sum_add (d : Distribution) (s : Nat) (v : ℚ) :
    ((Distribution.add d s v).map (fun p => p.2)).sum = (d.map (fun p => p.2)).sum + v := by
  induction d with
  | nil => simp [Distribution.add]
  | cons p rest ih =>
    obtain ⟨s', v'⟩ := p
    unfold Distribution.add
    by_cases h1 : s = s'
    · simp only [h1, if_true, List.map_cons, List.sum_cons]; ring
    · rw [if_neg h1]
      by_cases h2 : s < s'
      · simp only [h2, if_true, List.map_cons, List.sum_cons]; ring
      · simp only [h2, if_false, List.map_cons, List.sum_cons, ih]; ring

/-- Adding entries to a choice adds their values to the sum of the distribution and to the
total mass. -/
theorem Choice.foldl_addProbability_sum (entries : List (Nat × ℚ)) (c : Choice) :
    (((entries.foldl (fun c p => c.addProbability p.1 p.2) c).distribution.map
          (fun p => p.2)).sum
        = (c.distribution.map (fun p => p.2)).sum + (entries.map (fun p => p.2)).sum)
      ∧ (entries.foldl (fun c p => c.addProbability p.1 p.2) c).totalMass
          = c.totalMass + (entries.map (fun p => p.2)).sum
      ∧ (entries.foldl (fun c p => c.addProbability p.1 p.2) c).actionIndex = c.actionIndex
      ∧ (entries.foldl (fun c p => c.addProbability p.1 p.2) c).markovian = c.markovian := by
  induction entries generalizing c with
  | nil => simp
  | cons p rest ih =>
    simp only [List.foldl_cons, List.map_cons, List.sum_cons]
    obtain ⟨h1, h2, h3, h4⟩ := ih (c.addProbability p.1 p.2)
    refine ⟨?_, ?_, h3, h4⟩
    · rw [h1]
      simp only [Choice.addProbability, Distribution.sum_add]; ring
    · rw [h2]
      simp only [Choice.addProbability]; ring

theorem internAll_values {σ : Type} (cb : StateToIdCallback σ)
    (successors : List (CompressedState × ℚ)) (st : σ) :
    (internAll cb successors st).1.map (fun p => p.2) = successors.map (fun p => p.2) := by
  induction successors generalizing st with
  | nil => rfl
  | cons p rest ih =>
    obtain ⟨s, v⟩ := p
    simp only [internAll, List.map_cons, ih]

/-- The values of the destinations of non-zero probability add up to the values of all
destinations. -/
theorem nonZeroDestinations_sum (exitRate : Option ℚ) (ev : ExpressionEvaluator)
    (destinations : List EdgeDestination) :
    ((nonZeroDestinations ev destinations).map
        (expandNonSynchronizingEdge.value exitRate ev)).sum
      = (destinations.map (expandNonSynchronizingEdge.value exitRate ev)).sum := by
  induction destinations with
  | nil => rfl
  | cons d rest ih =>
    unfold nonZeroDestinations at ih ⊢
    by_cases hp : d.probability.asRational ev = 0
    · have hval : expandNonSynchronizingEdge.value exitRate ev d = 0 := by
        unfold expandNonSynchronizingEdge.value
        cases exitRate <;> simp [hp]
      rw [List.filter_cons_of_neg (by simp [hp]), ih]
      simp [hval]
    · rw [List.filter_cons_of_pos (by simp [hp])]
      simp only [List.map_cons, List.sum_cons, ih]

/-- The sum of the values of the destinations of an edge: the rate times the sum of the
probabilities when the edge has a rate, the sum of the probabilities otherwise. -/
theorem expandNonSynchronizingEdge.value_sum (edge : Edge) (ev : ExpressionEvaluator) :
    (edge.destinations.map (expandNonSynchronizingEdge.value
        (expandNonSynchronizingEdge.exitRate edge ev) ev)).sum
      = match edge.rate with
        | some rate =>
          rate.asRational ev * (edge.destinations.map (fun d => d.probability.asRational ev)).sum
        | none => (edge.destinations.map (fun d => d.probability.asRational ev)).sum := by
  unfold expandNonSynchronizingEdge.exitRate
  cases edge.rate with
  | none => rfl
  | some rate =>
    simp only [Option.map_some']
    induction edge.destinations with
    | nil => simp
    | cons d rest ih =>
      simp only [List.map_cons, List.sum_cons, ih, expandNonSynchronizingEdge.value]
      ring

/-- C13 (the claim does not hold): a negative probability is not rejected.  In a DTMC with
`explorationChecks` on, the edge with the destination probabilities 3/2 and -1/2 is
expanded into a choice with the values 3/2 and -1/2; no exception is raised. -/
theorem negative_probability_not_rejected :
    expandNonSynchronizingEdge (Examples.coinGenerator ModelType.DTMC)
        (Examples.coin (3 / 2) (-1 / 2) none) 0 0 [false] recordingCallback
        Examples.zeroEvaluator []
      = .ok ({ actionIndex := 0, markovian := false, distribution := [(0, 3 / 2), (1, -1 / 2)],
               totalMass := 1, rewards := [], originData := none },
             Examples.zeroEvaluator, [[false], [true]]) := by
  with_unfolding_all rfl

/-- C13 (amended): for a loaded evaluator, `explorationChecks` on, a discrete-time model and
an edge with a destination of negative probability (whose reward step raises nothing and
whose destinations of non-zero probability all have a successor state):
`expandNonSynchronizingEdge` raises `WrongFormatException` when the values of the
destinations do not sum to one; when they sum to one it returns a choice: the destination
of negative probability is among those whose successors are handed to the callback and
whose values are added to the choice, and the values in the choice sum to one. -/
theorem expandNonSynchronizingEdge_negative_probability {σ : Type} (g : JaniNextStateGenerator)
    (hclosed : g.transientVariableInformation.Closed) (state : CompressedState)
    (ev : ExpressionEvaluator) (hl : Loaded g state ev) (edge : Edge)
    (outputActionIndex automatonIndex : Nat) (cb : StateToIdCallback σ) (st : σ)
    (hchk : g.options.explorationChecks = true) (hdisc : g.isDiscreteTimeModel = true)
    (hrew : ∃ r, expandNonSynchronizingEdge.edgeRewards g edge ev = .ok r)
    (hdest : expandNonSynchronizingEdge.DestinationsExpand g edge automatonIndex state ev)
    (hneg : ∃ d ∈ edge.destinations, d.probability.asRational ev < 0) :
    ((edge.destinations.map (expandNonSynchronizingEdge.value
          (expandNonSynchronizingEdge.exitRate edge ev) ev)).sum ≠ 1 →
        expandNonSynchronizingEdge g edge outputActionIndex automatonIndex state cb ev st
          = .error Exception.WrongFormatException)
      ∧ ((edge.destinations.map (expandNonSynchronizingEdge.value
            (expandNonSynchronizingEdge.exitRate edge ev) ev)).sum = 1 →
          ∃ (choice : Choice) (successors : List (CompressedState × ℚ)),
            expandNonSynchronizingEdge g edge outputActionIndex automatonIndex state cb ev st
                = .ok (choice, ev, (internAll cb successors st).2)
              ∧ List.Forall₂
                  (fun destination successor =>
                    successor.2 = expandNonSynchronizingEdge.value
                        (expandNonSynchronizingEdge.exitRate edge ev) ev destination
                      ∧ ∃ lv e1,
                        g.variableInformation.locationVariables[automatonIndex]? = some lv
                        ∧ expandNonSynchronizingEdge.successor g edge destination lv state ev
                            = .ok (successor.1, e1))
                  (nonZeroDestinations ev edge.destinations) successors
              ∧ (∃ d ∈ nonZeroDestinations ev edge.destinations,
                  d.probability.asRational ev < 0)
              ∧ choice.distribution
                  = ((internAll cb successors st).1.foldl (fun c p => c.addProbability p.1 p.2)
                      (Choice.create edge.actionIndex edge.hasRate)).distribution
              ∧ (choice.distribution.map (fun p => p.2)).sum = 1) := by
  obtain ⟨rewards, successors, hall, hmass, hres⟩ := expandNonSynchronizingEdge_spec g hclosed
    state ev hl edge outputActionIndex automatonIndex cb st hrew hdest
  rw [hres]
  refine ⟨fun hsum => by rw [if_pos ⟨hchk, hdisc, hsum⟩], fun hsum => ?_⟩
  rw [if_neg (fun h => h.2.2 hsum)]
  obtain ⟨d, hd, hlt⟩ := hneg
  refine ⟨_, successors, rfl, hall, ⟨d, ?_, hlt⟩, rfl, ?_⟩
  · simp [nonZeroDestinations, hd, ne_of_lt hlt]
  · have hsums := Choice.foldl_addProbability_sum (internAll cb successors st).1
      (Choice.create edge.actionIndex edge.hasRate)
    simp only [Choice.addRewards]
    rw [hsums.1, ← hsum, ← hmass, hsums.2.1]
    simp [Choice.create]

/-- Witness for C13 (amended): the edge with the probabilities 3/2 and -1/2. -/
theorem expandNonSynchronizingEdge_negative_probability_witness :
    ∃ (choice : Choice) (successors : List (CompressedState × ℚ)),
      expandNonSynchronizingEdge (Examples.coinGenerator ModelType.DTMC)
          (Examples.coin (3 / 2) (-1 / 2) none) 0 0 [false] recordingCallback
          Examples.zeroEvaluator []
        = .ok (choice, Examples.zeroEvaluator, (internAll recordingCallback successors []).2)
      ∧ (choice.distribution.map (fun p => p.2)).sum = 1 := by
  obtain ⟨choice, successors, h1, _, _, _, h2⟩ :=
    (expandNonSynchronizingEdge_negative_probability (Examples.coinGenerator ModelType.DTMC)
      Examples.noTransientVariables_closed [false] Examples.zeroEvaluator
      (Examples.coinGenerator_loaded _ _) (Examples.coin (3 / 2) (-1 / 2) none) 0 0
      recordingCallback [] rfl rfl ⟨_, rfl⟩ (Examples.coin_destinationsExpand _ _ _ _)
      ⟨_, List.mem_cons_of_mem _ (List.mem_cons_self _ _), by
        simp only [Expression.rationalLiteral]; norm_num⟩).2
      (by
        simp only [Examples.coin, expandNonSynchronizingEdge.exitRate,
          expandNonSynchronizingEdge.value, Expression.rationalLiteral, Option.map_none',
          List.map_cons, List.map_nil, List.sum_cons, List.sum_nil]
        norm_num)
  exact ⟨choice, successors, h1, h2⟩

/-- C15: the values of a non-synchronizing edge.

When `expandNonSynchronizingEdge` returns a choice for a loaded evaluator: the value added
for every destination of non-zero probability is `rate * p` when the edge has a rate and
`p` otherwise; the values in the choice sum to the rate times the sum of the destination
probabilities (to the sum of the probabilities for an edge without rate); hence to the
rate, respectively to one, when the probabilities sum to one. -/
theorem expandNonSynchronizingEdge_values {σ : Type} (g : JaniNextStateGenerator)
    (hclosed : g.transientVariableInformation.Closed) (state : CompressedState)
    (ev : ExpressionEvaluator) (hl : Loaded g state ev) (edge : Edge)
    (outputActionIndex automatonIndex : Nat) (cb : StateToIdCallback σ) (st : σ)
    (choice : Choice) (ev1 : ExpressionEvaluator) (st1 : σ)
    (h : expandNonSynchronizingEdge g edge outputActionIndex automatonIndex state cb ev st
      = .ok (choice, ev1, st1)) :
    (∃ successors : List (CompressedState × ℚ),
        List.Forall₂
            (fun destination successor =>
              successor.2
                = match edge.rate with
                  | some rate => rate.asRational ev * destination.probability.asRational ev
                  | none => destination.probability.asRational ev)
            (nonZeroDestinations ev edge.destinations) successors
          ∧ choice.distribution
              = ((internAll cb successors st).1.foldl (fun c p => c.addProbability p.1 p.2)
                  (Choice.create edge.actionIndex edge.hasRate)).distribution)
      ∧ (choice.distribution.map (fun p => p.2)).sum
          = (match edge.rate with
             | some rate =>
               rate.asRational ev
                 * (edge.destinations.map (fun d => d.probability.asRational ev)).sum
             | none => (edge.destinations.map (fun d => d.probability.asRational ev)).sum)
      ∧ ((edge.destinations.map (fun d => d.probability.asRational ev)).sum = 1 →
          (choice.distribution.map (fun p => p.2)).sum
            = match edge.rate with
              | some rate => rate.asRational ev
              | none => 1) := by
  obtain ⟨hrew, hdest⟩ := expandNonSynchronizingEdge_expands_of_ok g hclosed state ev hl edge
    outputActionIndex automatonIndex cb st _ h
  obtain ⟨rewards, successors, hall, hmass, hres⟩ := expandNonSynchronizingEdge_spec g hclosed
    state ev hl edge outputActionIndex automatonIndex cb st hrew hdest
  rw [hres] at h
  have hchoice : choice.distribution
      = ((internAll cb successors st).1.foldl (fun c p => c.addProbability p.1 p.2)
          (Choice.create edge.actionIndex edge.hasRate)).distribution := by
    split_ifs at h
    simp only [Except.ok.injEq, Prod.mk.injEq] at h
    rw [← h.1]
    rfl
  have hsum : (choice.distribution.map (fun p => p.2)).sum
      = (match edge.rate with
         | some rate =>
           rate.asRational ev
             * (edge.destinations.map (fun d => d.probability.asRational ev)).sum
         | none => (edge.destinations.map (fun d => d.probability.asRational ev)).sum) := by
    have hsums := Choice.foldl_addProbability_sum (internAll cb successors st).1
      (Choice.create edge.actionIndex edge.hasRate)
    rw [hchoice, hsums.1, ← expandNonSynchronizingEdge.value_sum, ← hmass, hsums.2.1]
    simp [Choice.create]
  refine ⟨⟨successors, ?_, hchoice⟩, hsum, fun hone => ?_⟩
  · refine List.Forall₂.imp (fun d s hds => ?_) hall
    rw [hds.1]
    unfold expandNonSynchronizingEdge.value expandNonSynchronizingEdge.exitRate
    cases edge.rate <;> rfl
  · rw [hsum, hone]
    cases edge.rate <;> simp

/-- Witness for C15: in a CTMC, the edge with rate 3 and the probabilities 1/4 and 3/4. -/
theorem expandNonSynchronizingEdge_values_witness :
    expandNonSynchronizingEdge (Examples.coinGenerator ModelType.CTMC)
        (Examples.coin (1 / 4) (3 / 4) (some (Expression.rationalLiteral 3))) 0 0 [false]
        recordingCallback Examples.zeroEvaluator []
      = .ok ({ actionIndex := 0, markovian := true, distribution := [(0, 3 / 4), (1, 9 / 4)],
               totalMass := 3, rewards := [], originData := none },
             Examples.zeroEvaluator, [[false], [true]])
      ∧ ([(0, 3 / 4), (1, 9 / 4)].map (fun p : Nat × ℚ => p.2)).sum = 3 :=
  ⟨by with_unfolding_all rfl,
    (expandNonSynchronizingEdge_values (Examples.coinGenerator ModelType.CTMC)
        Examples.noTransientVariables_closed [false] Examples.zeroEvaluator
        (Examples.coinGenerator_loaded _ _)
        (Examples.coin (1 / 4) (3 / 4) (some (Expression.rationalLiteral 3))) 0 0
        recordingCallback []
        { actionIndex := 0, markovian := true, distribution := [(0, 3 / 4), (1, 9 / 4)],
          totalMass := 3, rewards := [], originData := none }
        Examples.zeroEvaluator [[false], [true]] (by with_unfolding_all rfl)).2.2
      (by
        simp only [Examples.coin, Expression.rationalLiteral, List.map_cons, List.map_nil,
          List.sum_cons, List.sum_nil]
        norm_num)⟩

/-! ## Expanding a synchronized tuple of edges -/

/-- The probability that the loop over the edges of a destination tuple computes is the
value of the tuple; the valuation buffer it fills holds listed transient variables. -/
theorem generateSynchronizedDistribution.firstLevel_spec (g : JaniNextStateGenerator)
    (hclosed : g.transientVariableInformation.Closed) (lowest : Int)
    (ev : ExpressionEvaluator) (edges : List (Nat × Nat × Edge))
    (acc first : DestinationTupleState)
    (h : generateSynchronizedDistribution.firstLevel g lowest ev edges acc = .ok first)
    (hw : acc.transientVariableValuation.Within g.transientVariableInformation) :
    first.successorProbability
        = acc.successorProbability
          * generateSynchronizedDistribution.tupleValue ev edges acc.destinationIndex
      ∧ first.transientVariableValuation.Within g.transientVariableInformation := by
  induction edges generalizing acc with
  | nil =>
    simp only [generateSynchronizedDistribution.firstLevel, Except.ok.injEq] at h
    rw [← h]
    exact ⟨by simp [generateSynchronizedDistribution.tupleValue], hw⟩
  | cons x rest ih =>
    unfold generateSynchronizedDistribution.firstLevel at h
    simp only at h
    by_cases hn : x.2.2.getNumberOfDestinations = 0
    · rw [if_pos hn] at h; cases h
    · rw [if_neg hn] at h
      cases hd : x.2.2.destinations[acc.destinationIndex % x.2.2.getNumberOfDestinations]? with
      | none => simp only [hd] at h; cases h
      | some destination =>
        cases hlv : g.variableInformation.locationVariables[x.1]? with
        | none => simp only [hd, hlv] at h; cases h
        | some lv =>
          simp only [hd, hlv] at h
          have htail : ∀ sp : ℚ,
              sp = acc.successorProbability
                * generateSynchronizedDistribution.factor ev x.2.2 destination →
              (if sp = 0 then
                  (Except.ok
                    { destinations := acc.destinations ++ [destination],
                      locationVars := acc.locationVars ++ [lv],
                      transientVariableValuation := acc.transientVariableValuation,
                      successorState := acc.successorState,
                      successorProbability := sp,
                      destinationIndex := acc.destinationIndex / x.2.2.getNumberOfDestinations }
                    : Except Exception DestinationTupleState)
                else
                  match applyUpdate g acc.successorState destination lv lowest ev with
                  | .error e => .error e
                  | .ok successorState =>
                    match applyTransientUpdate g acc.transientVariableValuation
                        (destination.orderedAssignments.getTransientAssignments lowest) ev with
                    | .error e => .error e
                    | .ok t =>
                      generateSynchronizedDistribution.firstLevel g lowest ev rest
                        { destinations := acc.destinations ++ [destination],
                          locationVars := acc.locationVars ++ [lv],
                          transientVariableValuation := t, successorState := successorState,
                          successorProbability := sp,
                          destinationIndex :=
                            acc.destinationIndex / x.2.2.getNumberOfDestinations })
                = .ok first →
              first.successorProbability
                  = acc.successorProbability
                    * generateSynchronizedDistribution.tupleValue ev (x :: rest)
                        acc.destinationIndex
                ∧ first.transientVariableValuation.Within g.transientVariableInformation := by
            intro sp hsp h
            by_cases hz : sp = 0
            · rw [if_pos hz] at h
              simp only [Except.ok.injEq] at h
              rw [← h]
              refine ⟨?_, hw⟩
              simp only [generateSynchronizedDistribution.tupleValue, hd, Option.map_some', Option.getD_some]
              rw [← mul_assoc, ← hsp, hz, zero_mul]
            · rw [if_neg hz] at h
              cases hupd : applyUpdate g acc.successorState destination lv lowest ev with
              | error e => simp only [hupd] at h; cases h
              | ok s1 =>
                simp only [hupd] at h
                cases htr : applyTransientUpdate g acc.transientVariableValuation
                    (destination.orderedAssignments.getTransientAssignments lowest) ev with
                | error e => simp only [htr] at h; cases h
                | ok t =>
                  simp only [htr] at h
                  obtain ⟨h1, h2⟩ := ih _ h
                    (applyTransientUpdate_within g hclosed _ _ _ _ htr hw)
                  refine ⟨?_, h2⟩
                  rw [h1]
                  simp only [generateSynchronizedDistribution.tupleValue, hd, Option.map_some', Option.getD_some]
                  rw [hsp]
                  ring
          cases hrate : x.2.2.rate with
          | none =>
            simp only [hrate] at h
            exact htail _ (by unfold generateSynchronizedDistribution.factor; rw [hrate]) h
          | some rate =>
            simp only [hrate] at h
            exact htail _ (by unfold generateSynchronizedDistribution.factor; rw [hrate]) h

theorem generateSynchronizedDistribution.applyLevel_within (g : JaniNextStateGenerator)
    (hclosed : g.transientVariableInformation.Closed) (level : Int)
    (ev : ExpressionEvaluator) (back : Option EdgeDestination)
    (destinations : List EdgeDestination) (locationVars : List LocationVariableInformation)
    (s : CompressedState) (t : TransientVariableValuation) (s1 : CompressedState)
    (t1 : TransientVariableValuation)
    (h : generateSynchronizedDistribution.applyLevel g level ev back destinations locationVars
      s t = .ok (s1, t1))
    (hw : t.Within g.transientVariableInformation) :
    t1.Within g.transientVariableInformation := by
  induction destinations generalizing locationVars s t with
  | nil =>
    simp only [generateSynchronizedDistribution.applyLevel, Except.ok.injEq,
      Prod.mk.injEq] at h
    rw [← h.2]; exact hw
  | cons d rest ih =>
    cases locationVars with
    | nil => simp only [generateSynchronizedDistribution.applyLevel] at h; cases h
    | cons lv lvs =>
      unfold generateSynchronizedDistribution.applyLevel at h
      cases hupd : applyUpdate g s d lv level ev with
      | error e => simp only [hupd] at h; cases h
      | ok s2 =>
        simp only [hupd] at h
        cases back with
        | none => simp only at h; cases h
        | some last =>
          simp only at h
          cases htr : applyTransientUpdate g t
              (last.orderedAssignments.getTransientAssignments level) ev with
          | error e => simp only [htr] at h; cases h
          | ok t2 =>
            simp only [htr] at h
            exact ih _ _ _ h (applyTransientUpdate_within g hclosed _ _ _ _ htr hw)

theorem generateSynchronizedDistribution.remainingLevels_agree (g : JaniNextStateGenerator)
    (hclosed : g.transientVariableInformation.Closed) (ev : ExpressionEvaluator)
    (destinations : List EdgeDestination) (locationVars : List LocationVariableInformation)
    (n : Nat) (level : Int) (s : CompressedState) (t : TransientVariableValuation)
    (e : ExpressionEvaluator) (s1 : CompressedState) (t1 : TransientVariableValuation)
    (e1 : ExpressionEvaluator)
    (h : generateSynchronizedDistribution.remainingLevels g destinations locationVars n level
      s t e = .ok (s1, t1, e1))
    (hw : t.Within g.transientVariableInformation) (he : g.AgreeOffVariables e ev) :
    g.AgreeOffVariables e1 ev ∧ t1.Within g.transientVariableInformation
      ∧ (n = 0 → e1 = e ∧ t1 = t) := by
  induction n generalizing level s t e with
  | zero =>
    simp only [generateSynchronizedDistribution.remainingLevels, Except.ok.injEq,
      Prod.mk.injEq] at h
    rw [← h.2.1, ← h.2.2]
    exact ⟨he, hw, fun _ => ⟨rfl, rfl⟩⟩
  | succ n ih =>
    unfold generateSynchronizedDistribution.remainingLevels at h
    simp only at h
    cases hlev : generateSynchronizedDistribution.applyLevel g (level + 1)
        (t.setInEvaluator (unpackStateIntoEvaluator s g.variableInformation e))
        destinations.getLast? destinations locationVars s TransientVariableValuation.clear with
    | error x => simp only [hlev] at h; cases h
    | ok r =>
      obtain ⟨s2, t2⟩ := r
      simp only [hlev] at h
      have hw2 := generateSynchronizedDistribution.applyLevel_within g hclosed _ _ _ _ _ _ _ _ _
        hlev (TransientVariableValuation.clear_within _)
      obtain ⟨h1, h2, _⟩ := ih _ _ _ _ h hw2 ((he.unpack_variables s).setInEvaluator_variables t hw)
      exact ⟨h1, h2, fun hn => absurd hn (Nat.succ_ne_zero n)⟩

/-- One pass of the loop over the destination tuples, started with the loaded evaluator: a
tuple of value zero changes nothing; for any other tuple the successor state is handed to
the callback once, the value of the tuple is added to the distribution under the id that
the callback returned, and the evaluator is the loaded one again. -/
theorem generateSynchronizedDistribution.tupleStep_spec {σ : Type}
    (g : JaniNextStateGenerator) (hclosed : g.transientVariableInformation.Closed)
    (state : CompressedState) (ev : ExpressionEvaluator) (hl : Loaded g state ev)
    (edges : List (Nat × Nat × Edge)) (info : SynchronizedEdgeInformation)
    (cb : StateToIdCallback σ) (acc : SynchronizedDistributionState σ)
    (hacc : acc.evaluator = ev) (destinationId : Nat) (acc1 : SynchronizedDistributionState σ)
    (h : generateSynchronizedDistribution.destinationStep g state edges info cb acc
      destinationId = .ok acc1) :
    acc1.evaluator = ev
      ∧ ((generateSynchronizedDistribution.tupleValue ev edges destinationId = 0 ∧ acc1 = acc)
        ∨ (generateSynchronizedDistribution.tupleValue ev edges destinationId ≠ 0
          ∧ ∃ successorState,
            generateSynchronizedDistribution.successor g state edges info ev destinationId
                = .ok successorState
            ∧ acc1.distribution
                = acc.distribution
                  ++ [((cb successorState acc.callbackState).1,
                      generateSynchronizedDistribution.tupleValue ev edges destinationId)]
            ∧ acc1.callbackState = (cb successorState acc.callbackState).2)) := by
  unfold generateSynchronizedDistribution.destinationStep at h
  simp only [hacc] at h
  cases hfirst : generateSynchronizedDistribution.firstLevel g
      info.lowestDestinationAssignmentLevel ev edges
      { destinations := [], locationVars := [],
        transientVariableValuation := TransientVariableValuation.clear,
        successorState := state, successorProbability := 1,
        destinationIndex := destinationId } with
  | error x => simp only [hfirst] at h; cases h
  | ok first =>
    simp only [hfirst] at h
    obtain ⟨hprob, hwfirst⟩ := generateSynchronizedDistribution.firstLevel_spec g hclosed _ ev
      edges _ first hfirst (TransientVariableValuation.clear_within _)
    simp only [one_mul] at hprob
    by_cases hz : first.successorProbability = 0
    · rw [if_pos hz] at h
      simp only [Except.ok.injEq] at h
      rw [← h]
      exact ⟨hacc, Or.inl ⟨by rw [← hprob]; exact hz, rfl⟩⟩
    · rw [if_neg hz] at h
      cases hrem : generateSynchronizedDistribution.remainingLevels g first.destinations
          first.locationVars
          (info.highestDestinationAssignmentLevel - info.lowestDestinationAssignmentLevel).toNat
          info.lowestDestinationAssignmentLevel first.successorState
          first.transientVariableValuation ev with
      | error x => simp only [hrem] at h; cases h
      | ok r =>
        obtain ⟨successorState, t, e1⟩ := r
        simp only [hrem, Except.ok.injEq] at h
        obtain ⟨hagree, hwt, hzero⟩ :=
          generateSynchronizedDistribution.remainingLevels_agree g hclosed ev _ _ _ _ _ _ _ _ _ _
            hrem hwfirst (ExpressionEvaluator.AgreeOutside.refl _ _ _ _)
        have hsucc : generateSynchronizedDistribution.successor g state edges info ev
            destinationId = .ok successorState := by
          unfold generateSynchronizedDistribution.successor
          simp only [hfirst, hrem]
        have hev2 : g.AgreeOffVariables (if (!t.empty) = true then t.setInEvaluator e1 else e1)
            ev := by
          split
          · exact hagree.setInEvaluator_variables t hwt
          · exact hagree
        have hev : acc1.evaluator = ev := by
          rw [← h]
          simp only
          by_cases hd : g.evaluateRewardExpressionsAtDestinations = true
          · simp only [hd, Bool.or_true, if_true]
            exact hl.restore_variables (hev2.unpack_variables successorState)
          · have hdf : g.evaluateRewardExpressionsAtDestinations = false := by simpa using hd
            simp only [hdf, Bool.or_false, Bool.false_eq_true, if_false]
            by_cases hchanged : (decide (0 < (info.highestDestinationAssignmentLevel
                - info.lowestDestinationAssignmentLevel).toNat) || !t.empty) = true
            · rw [if_pos hchanged]
              exact hl.restore_variables hev2
            · rw [if_neg hchanged]
              simp only [Bool.or_eq_true, decide_eq_true_eq, Bool.not_eq_true', not_or,
                not_lt, Nat.le_zero, Bool.not_eq_false] at hchanged
              obtain ⟨hlev, hempty⟩ := hchanged
              simp only [hempty, Bool.not_true, Bool.false_eq_true, if_false]
              exact (hzero hlev).1
        refine ⟨hev, Or.inr ⟨by rw [← hprob]; exact hz, successorState, hsucc, ?_, ?_⟩⟩
        · rw [← h, hprob]
        · rw [← h]

/-- The loop over the destination tuples, started with the loaded evaluator: the successor
states of the tuples of non-zero value are handed to the callback, one call each, in the
order of the tuples; the distribution gets one entry per call, with the id returned and
the value of the tuple; the evaluator is the loaded one again. -/
theorem generateSynchronizedDistribution.tupleLoop_spec {σ : Type}
    (g : JaniNextStateGenerator) (hclosed : g.transientVariableInformation.Closed)
    (state : CompressedState) (ev : ExpressionEvaluator) (hl : Loaded g state ev)
    (edges : List (Nat × Nat × Edge)) (info : SynchronizedEdgeInformation)
    (cb : StateToIdCallback σ) (destinationIds : List Nat)
    (acc : SynchronizedDistributionState σ) (hacc : acc.evaluator = ev)
    (acc1 : SynchronizedDistributionState σ)
    (h : generateSynchronizedDistribution.destinationLoop g state edges info cb destinationIds
      acc = .ok acc1) :
    acc1.evaluator = ev
      ∧ ∃ successors : List (CompressedState × ℚ),
          List.Forall₂
            (fun destinationId successor =>
              successor.2 = generateSynchronizedDistribution.tupleValue ev edges destinationId
                ∧ generateSynchronizedDistribution.successor g state edges info ev destinationId
                    = .ok successor.1)
            (generateSynchronizedDistribution.nonZeroTuples ev edges destinationIds) successors
          ∧ acc1.distribution = acc.distribution ++ (internAll cb successors acc.callbackState).1
          ∧ acc1.callbackState = (internAll cb successors acc.callbackState).2 := by
  induction destinationIds generalizing acc with
  | nil =>
    simp only [generateSynchronizedDistribution.destinationLoop, Except.ok.injEq] at h
    rw [← h]
    refine ⟨hacc, [], ?_, by simp [internAll], rfl⟩
    simp [generateSynchronizedDistribution.nonZeroTuples]
  | cons d rest ih =>
    unfold generateSynchronizedDistribution.destinationLoop at h
    cases hstep : generateSynchronizedDistribution.destinationStep g state edges info cb acc d with
    | error x => simp only [hstep] at h; cases h
    | ok acc2 =>
      simp only [hstep] at h
      obtain ⟨hev2, hcases⟩ := generateSynchronizedDistribution.tupleStep_spec g hclosed
        state ev hl edges info cb acc hacc d acc2 hstep
      obtain ⟨hev1, successors, hall, hdist, hcb⟩ := ih acc2 hev2 h
      rcases hcases with ⟨hp, heq⟩ | ⟨hp, s, hsucc, hd2, hcb2⟩
      · rw [heq] at hdist hcb
        refine ⟨hev1, successors, ?_, hdist, hcb⟩
        unfold generateSynchronizedDistribution.nonZeroTuples at hall ⊢
        rw [List.filter_cons_of_neg (by simp [hp])]
        exact hall
      · refine ⟨hev1, (s, generateSynchronizedDistribution.tupleValue ev edges d) :: successors,
          ?_, ?_, ?_⟩
        · unfold generateSynchronizedDistribution.nonZeroTuples at hall ⊢
          rw [List.filter_cons_of_pos (by simp [hp])]
          exact List.Forall₂.cons ⟨rfl, hsucc⟩ hall
        · rw [hdist, hd2, hcb2]
          simp only [internAll, List.append_assoc, List.singleton_append]
        · rw [hcb, hcb2]
          simp only [internAll]

/-- Summing over the numbers below `n * m` by remainder and quotient. -/
theorem sum_range_mul_div_mod (F T : Nat → ℚ) (n m : Nat) :
    ((List.range (n * m)).map (fun k => F (k % n) * T (k / n))).sum
      = ((List.range n).map F).sum * ((List.range m).map T).sum := by
  induction m with
  | zero => simp
  | succ m ih =>
    rw [Nat.mul_succ, List.range_add, List.map_append, List.sum_append, ih, List.range_succ,
      List.map_append, List.sum_append, List.map_map]
    have hsecond : ((List.range n).map ((fun k => F (k % n) * T (k / n)) ∘ fun x => n * m + x)).sum
        = ((List.range n).map F).sum * T m := by
      rw [← List.sum_map_mul_right]
      congr 1
      apply List.map_congr_left
      intro x hx
      have hxn : x < n := List.mem_range.1 hx
      have hn : 0 < n := Nat.lt_of_le_of_lt (Nat.zero_le x) hxn
      simp only [Function.comp]
      rw [Nat.mul_add_mod, Nat.mod_eq_of_lt hxn, Nat.mul_add_div hn, Nat.div_eq_of_lt hxn,
        Nat.add_zero]
    rw [hsecond]
    simp only [List.map_cons, List.map_nil, List.sum_cons, List.sum_nil]
    ring

/-- Summing over the positions of a list is summing over the list. -/
theorem sum_range_getElem? {α : Type} (f : α → ℚ) (l : List α) :
    ((List.range l.length).map (fun j => (l[j]?.map f).getD 0)).sum = (l.map f).sum := by
  induction l with
  | nil => rfl
  | cons a rest ih =>
    rw [List.length_cons, List.range_succ_eq_map, List.map_cons, List.sum_cons, List.map_map]
    simp only [List.getElem?_cons_zero, List.map_cons, List.sum_cons, Option.map_some',
      Option.getD_some]
    congr 1
    rw [← ih]
    congr 1
    apply List.map_congr_left
    intro j _
    simp

/-- The values of all destination tuples sum to the product of the masses of the edges. -/
theorem generateSynchronizedDistribution.tupleValue_sum (ev : ExpressionEvaluator)
    (edges : List (Nat × Nat × Edge)) :
    ((List.range (edges.map (fun x => x.2.2.getNumberOfDestinations)).prod).map
        (generateSynchronizedDistribution.tupleValue ev edges)).sum
      = (edges.map (fun x => generateSynchronizedDistribution.edgeMass ev x.2.2)).prod := by
  induction edges with
  | nil => simp [generateSynchronizedDistribution.tupleValue]
  | cons x rest ih =>
    simp only [List.map_cons, List.prod_cons]
    have h := sum_range_mul_div_mod
      (fun j => (x.2.2.destinations[j]?.map
        (generateSynchronizedDistribution.factor ev x.2.2)).getD 0)
      (generateSynchronizedDistribution.tupleValue ev rest) x.2.2.getNumberOfDestinations
      (rest.map (fun x => x.2.2.getNumberOfDestinations)).prod
    simp only [generateSynchronizedDistribution.tupleValue]
    rw [h, ih]
    congr 1
    simp only [generateSynchronizedDistribution.edgeMass, Edge.getNumberOfDestinations]
    exact sum_range_getElem? (generateSynchronizedDistribution.factor ev x.2.2)
      x.2.2.destinations

/-- The mass of an edge: the sum of the destination probabilities, multiplied by the rate
when the edge has a rate. -/
theorem generateSynchronizedDistribution.edgeMass_eq (ev : ExpressionEvaluator) (edge : Edge) :
    generateSynchronizedDistribution.edgeMass ev edge
      = match edge.rate with
        | some rate =>
          (edge.destinations.map (fun d => d.probability.asRational ev)).sum * rate.asRational ev
        | none => (edge.destinations.map (fun d => d.probability.asRational ev)).sum := by
  unfold generateSynchronizedDistribution.edgeMass generateSynchronizedDistribution.factor
  cases edge.rate with
  | none => rfl
  | some rate =>
    simp only
    rw [List.sum_map_mul_right]

/-- The values of the destination tuples of non-zero value add up to the values of all
tuples. -/
theorem generateSynchronizedDistribution.nonZeroTuples_sum (ev : ExpressionEvaluator)
    (edges : List (Nat × Nat × Edge)) (destinationIds : List Nat) :
    ((generateSynchronizedDistribution.nonZeroTuples ev edges destinationIds).map
        (generateSynchronizedDistribution.tupleValue ev edges)).sum
      = (destinationIds.map (generateSynchronizedDistribution.tupleValue ev edges)).sum := by
  induction destinationIds with
  | nil => rfl
  | cons d rest ih =>
    unfold generateSynchronizedDistribution.nonZeroTuples at ih ⊢
    by_cases hp : generateSynchronizedDistribution.tupleValue ev edges d = 0
    · rw [List.filter_cons_of_neg (by simp [hp]), ih]
      simp [hp]
    · rw [List.filter_cons_of_pos (by simp [hp])]
      simp only [List.map_cons, List.sum_cons, ih]

theorem generateSynchronizedDistribution.collect_numDestinations (g : JaniNextStateGenerator)
    (edges : List (Nat × Nat × Edge)) (info0 info : SynchronizedEdgeInformation)
    (h : generateSynchronizedDistribution.collect g edges info0 = .ok info) :
    info.numDestinations
      = info0.numDestinations * (edges.map (fun x => x.2.2.getNumberOfDestinations)).prod := by
  induction edges generalizing info0 with
  | nil =>
    simp only [generateSynchronizedDistribution.collect, Except.ok.injEq] at h
    rw [← h]; simp
  | cons x rest ih =>
    unfold generateSynchronizedDistribution.collect at h
    cases hstep : generateSynchronizedDistribution.collectStep g info0 x with
    | error e => simp only [hstep] at h; cases h
    | ok info1 =>
      simp only [hstep] at h
      have h1 : info1.numDestinations
          = info0.numDestinations * x.2.2.getNumberOfDestinations := by
        unfold generateSynchronizedDistribution.collectStep at hstep
        simp only at hstep
        by_cases hempty : (!x.2.2.assignments.isEmpty) = true
        · rw [if_pos hempty] at hstep
          cases hlow : x.2.2.assignments.getLowestLevel with
          | none => simp only [hlow] at hstep; cases hstep
          | some lowest =>
            cases hhigh : x.2.2.assignments.getHighestLevel with
            | none => simp only [hlow, hhigh] at hstep; cases hstep
            | some highest =>
              simp only [hlow, hhigh, Except.ok.injEq] at hstep
              rw [← hstep]
        · rw [if_neg hempty] at hstep
          simp only [Except.ok.injEq] at hstep
          rw [← hstep]
      rw [ih info1 h, h1]
      simp only [List.map_cons, List.prod_cons]
      ring

theorem generateSynchronizedDistribution.edgeAssignmentsAtLevel_within
    (g : JaniNextStateGenerator) (hclosed : g.transientVariableInformation.Closed)
    (level : Int) (ev : ExpressionEvaluator) (edges : List (Nat × Nat × Edge))
    (t t1 : TransientVariableValuation)
    (h : generateSynchronizedDistribution.edgeAssignmentsAtLevel g level ev edges t = .ok t1)
    (hw : t.Within g.transientVariableInformation) :
    t1.Within g.transientVariableInformation := by
  induction edges generalizing t with
  | nil =>
    simp only [generateSynchronizedDistribution.edgeAssignmentsAtLevel, Except.ok.injEq] at h
    rw [← h]; exact hw
  | cons x rest ih =>
    unfold generateSynchronizedDistribution.edgeAssignmentsAtLevel at h
    cases htr : applyTransientUpdate g t (x.2.2.assignments.getTransientAssignments level) ev with
    | error e => simp only [htr] at h; cases h
    | ok t2 =>
      simp only [htr] at h
      exact ih _ h (applyTransientUpdate_within g hclosed _ _ _ _ htr hw)

theorem generateSynchronizedDistribution.edgeAssignments_agree (g : JaniNextStateGenerator)
    (hclosed : g.transientVariableInformation.Closed) (ev : ExpressionEvaluator)
    (edges : List (Nat × Nat × Edge)) (n : Nat) (level : Int) (e e1 : ExpressionEvaluator)
    (h : generateSynchronizedDistribution.edgeAssignments g edges n level e = .ok e1)
    (he : g.AgreeOffTransients e ev) : g.AgreeOffTransients e1 ev := by
  induction n generalizing level e with
  | zero =>
    simp only [generateSynchronizedDistribution.edgeAssignments, Except.ok.injEq] at h
    rw [← h]; exact he
  | succ n ih =>
    unfold generateSynchronizedDistribution.edgeAssignments at h
    cases ht : generateSynchronizedDistribution.edgeAssignmentsAtLevel g level e edges
        TransientVariableValuation.clear with
    | error x => simp only [ht] at h; cases h
    | ok t =>
      simp only [ht] at h
      exact ih _ _ h (he.setInEvaluator t
        (generateSynchronizedDistribution.edgeAssignmentsAtLevel_within g hclosed _ _ _ _ _ ht
          (TransientVariableValuation.clear_within _)))

/-- The result of `generateSynchronizedDistribution` for a loaded evaluator: the successor
states of the destination tuples of non-zero value are handed to the callback, one call
each, in the order of their numbers; the distribution gets one entry per call, with the id
returned and the value of the tuple; the evaluator is the loaded one again. -/
theorem generateSynchronizedDistribution_spec {σ : Type} (g : JaniNextStateGenerator)
    (hclosed : g.transientVariableInformation.Closed) (state : CompressedState)
    (ev : ExpressionEvaluator) (hl : Loaded g state ev) (edges : List (Nat × Nat × Edge))
    (distribution : JitDistribution) (stateActionRewards : List ℚ) (edgeIndices : EdgeIndexSet)
    (cb : StateToIdCallback σ) (st : σ) (distribution1 : JitDistribution)
    (rewards1 : List ℚ) (edgeIndices1 : EdgeIndexSet) (ev1 : ExpressionEvaluator) (st1 : σ)
    (h : generateSynchronizedDistribution g state edges distribution stateActionRewards
      edgeIndices cb ev st = .ok (distribution1, rewards1, edgeIndices1, ev1, st1)) :
    ev1 = ev
      ∧ ∃ (info : SynchronizedEdgeInformation) (successors : List (CompressedState × ℚ)),
          generateSynchronizedDistribution.collect g edges
              (generateSynchronizedDistribution.initialInformation edgeIndices) = .ok info
          ∧ List.Forall₂
              (fun destinationId successor =>
                successor.2 = generateSynchronizedDistribution.tupleValue ev edges destinationId
                  ∧ generateSynchronizedDistribution.successor g state edges info ev
                      destinationId = .ok successor.1)
              (generateSynchronizedDistribution.nonZeroTuples ev edges
                (List.range (edges.map (fun x => x.2.2.getNumberOfDestinations)).prod))
              successors
          ∧ distribution1 = distribution ++ (internAll cb successors st).1
          ∧ st1 = (internAll cb successors st).2 := by
  unfold generateSynchronizedDistribution at h
  cases hcol : generateSynchronizedDistribution.collect g edges
      (generateSynchronizedDistribution.initialInformation edgeIndices) with
  | error x =>
    unfold generateSynchronizedDistribution.initialInformation at hcol
    simp only [hcol] at h; cases h
  | ok info =>
    have hnum := generateSynchronizedDistribution.collect_numDestinations g edges _ info hcol
    unfold generateSynchronizedDistribution.initialInformation at hcol hnum
    simp only [hcol, one_mul] at h hnum
    have htail : ∀ rewards : List ℚ,
        (match generateSynchronizedDistribution.destinationLoop g state edges info cb
            (List.range info.numDestinations)
            { distribution := distribution, stateActionRewards := rewards, evaluator := ev,
              callbackState := st } with
          | .error e => Except.error e
          | .ok acc =>
            Except.ok (acc.distribution, acc.stateActionRewards, info.edgeIndices,
              acc.evaluator, acc.callbackState))
          = (.ok (distribution1, rewards1, edgeIndices1, ev1, st1)
              : Except Exception
                  (JitDistribution × List ℚ × EdgeIndexSet × ExpressionEvaluator × σ)) →
        ev1 = ev
          ∧ ∃ (successors : List (CompressedState × ℚ)),
              List.Forall₂
                  (fun destinationId successor =>
                    successor.2
                        = generateSynchronizedDistribution.tupleValue ev edges destinationId
                      ∧ generateSynchronizedDistribution.successor g state edges info ev
                          destinationId = .ok successor.1)
                  (generateSynchronizedDistribution.nonZeroTuples ev edges
                    (List.range (edges.map (fun x => x.2.2.getNumberOfDestinations)).prod))
                  successors
              ∧ distribution1 = distribution ++ (internAll cb successors st).1
              ∧ st1 = (internAll cb successors st).2 := by
      intro rewards h
      cases hloop : generateSynchronizedDistribution.destinationLoop g state edges info cb
          (List.range info.numDestinations)
          { distribution := distribution, stateActionRewards := rewards, evaluator := ev,
            callbackState := st } with
      | error x => simp only [hloop] at h; cases h
      | ok acc =>
        simp only [hloop, Except.ok.injEq, Prod.mk.injEq] at h
        obtain ⟨hev, successors, hall, hdist, hcb⟩ :=
          generateSynchronizedDistribution.tupleLoop_spec g hclosed state ev hl edges info
            cb _ _ rfl acc hloop
        rw [hnum] at hall
        refine ⟨by rw [← h.2.2.2.1]; exact hev, successors, hall, ?_, ?_⟩
        · rw [← h.1]; exact hdist
        · rw [← h.2.2.2.2]; exact hcb
    by_cases hcond : (g.evaluateRewardExpressionsAtEdges
        && decide (info.lowestEdgeAssignmentLevel ≤ info.highestEdgeAssignmentLevel)) = true
    · rw [if_pos hcond] at h
      cases hlev : generateSynchronizedDistribution.edgeAssignments g edges
          (info.highestEdgeAssignmentLevel - info.lowestEdgeAssignmentLevel + 1).toNat
          info.lowestEdgeAssignmentLevel ev with
      | error x => simp only [hlev] at h; cases h
      | ok e1 =>
        simp only [hlev] at h
        have hrestore : g.transientVariableInformation.setDefaultValuesInEvaluator e1 = ev :=
          hl.restore_transients
            (generateSynchronizedDistribution.edgeAssignments_agree g hclosed ev edges _ _ _ _
              hlev (ExpressionEvaluator.AgreeOutside.refl _ _ _ _))
        rw [hrestore] at h
        obtain ⟨h1, successors, h2, h3, h4⟩ := htail _ h
        exact ⟨h1, info, successors, rfl, h2, h3, h4⟩
    · rw [if_neg hcond] at h
      obtain ⟨h1, successors, h2, h3, h4⟩ := htail _ h
      exact ⟨h1, info, successors, rfl, h2, h3, h4⟩

/-! ## Calls of the interning callback -/

theorem Examples.twoCoinGenerator_loaded (modelType : ModelType) (state : CompressedState) :
    Loaded (Examples.twoCoinGenerator modelType) state Examples.zeroEvaluator :=
  ⟨rfl, rfl⟩

/-- C14: calls of the interning callback.

For a loaded evaluator and every interning callback `cb`:

(1) when `expandNonSynchronizingEdge` returns, there is one successor state for each
destination of non-zero probability, in the declared order of the destinations (and none
for a destination of probability zero); these states are handed to the callback, one call
each, in that order (`internAll`), and the entries of the choice are the values of these
destinations under the ids returned;

(2) when `generateSynchronizedDistribution` returns, there is one successor state for each
destination tuple whose value (the product of the probabilities, and rates, of its
destinations) is not zero, in the order of the tuple numbers; these states are handed to
the callback, one call each, in that order, and the entries added to the distribution are
the values of these tuples under the ids returned;

(3) for the callback that records its calls, the log grows by exactly these states. -/
theorem callback_once_per_successor {σ : Type} (g : JaniNextStateGenerator)
    (hclosed : g.transientVariableInformation.Closed) (state : CompressedState)
    (ev : ExpressionEvaluator) (hl : Loaded g state ev) (cb : StateToIdCallback σ) :
    (∀ (edge : Edge) (outputActionIndex automatonIndex : Nat) (st : σ) (choice : Choice)
        (ev1 : ExpressionEvaluator) (st1 : σ),
        expandNonSynchronizingEdge g edge outputActionIndex automatonIndex state cb ev st
          = .ok (choice, ev1, st1) →
        ∃ successors : List (CompressedState × ℚ),
          List.Forall₂
              (fun destination successor =>
                successor.2 = expandNonSynchronizingEdge.value
                    (expandNonSynchronizingEdge.exitRate edge ev) ev destination
                  ∧ ∃ lv e1, g.variableInformation.locationVariables[automatonIndex]? = some lv
                    ∧ expandNonSynchronizingEdge.successor g edge destination lv state ev
                        = .ok (successor.1, e1))
              (nonZeroDestinations ev edge.destinations) successors
            ∧ st1 = (internAll cb successors st).2
            ∧ choice.distribution
                = ((internAll cb successors st).1.foldl (fun c p => c.addProbability p.1 p.2)
                    (Choice.create edge.actionIndex edge.hasRate)).distribution)
      ∧ (∀ (edges : List (Nat × Nat × Edge)) (distribution : JitDistribution)
          (stateActionRewards : List ℚ) (edgeIndices : EdgeIndexSet) (st : σ)
          (distribution1 : JitDistribution) (rewards1 : List ℚ) (edgeIndices1 : EdgeIndexSet)
          (ev1 : ExpressionEvaluator) (st1 : σ),
          generateSynchronizedDistribution g state edges distribution stateActionRewards
            edgeIndices cb ev st = .ok (distribution1, rewards1, edgeIndices1, ev1, st1) →
          ∃ (info : SynchronizedEdgeInformation) (successors : List (CompressedState × ℚ)),
            generateSynchronizedDistribution.collect g edges
                (generateSynchronizedDistribution.initialInformation edgeIndices) = .ok info
              ∧ List.Forall₂
                  (fun destinationId successor =>
                    successor.2
                        = generateSynchronizedDistribution.tupleValue ev edges destinationId
                      ∧ generateSynchronizedDistribution.successor g state edges info ev
                          destinationId = .ok successor.1)
                  (generateSynchronizedDistribution.nonZeroTuples ev edges
                    (List.range (edges.map (fun x => x.2.2.getNumberOfDestinations)).prod))
                  successors
              ∧ st1 = (internAll cb successors st).2
              ∧ distribution1 = distribution ++ (internAll cb successors st).1)
      ∧ (∀ (successors : List (CompressedState × ℚ)) (log : List CompressedState),
          (internAll recordingCallback successors log).2
            = log ++ successors.map (fun p => p.1)) := by
  refine ⟨?_, ?_, internAll_recordingCallback⟩
  · intro edge outputActionIndex automatonIndex st choice ev1 st1 h
    obtain ⟨hrew, hdest⟩ := expandNonSynchronizingEdge_expands_of_ok g hclosed state ev hl edge
      outputActionIndex automatonIndex cb st _ h
    obtain ⟨rewards, successors, hall, _, hres⟩ := expandNonSynchronizingEdge_spec g hclosed
      state ev hl edge outputActionIndex automatonIndex cb st hrew hdest
    rw [hres] at h
    split_ifs at h
    simp only [Except.ok.injEq, Prod.mk.injEq] at h
    refine ⟨successors, hall, h.2.2.symm, ?_⟩
    rw [← h.1]
    rfl
  · intro edges distribution stateActionRewards edgeIndices st distribution1 rewards1
      edgeIndices1 ev1 st1 h
    obtain ⟨_, info, successors, hcol, hall, hdist, hst⟩ :=
      generateSynchronizedDistribution_spec g hclosed state ev hl edges distribution
        stateActionRewards edgeIndices cb st distribution1 rewards1 edgeIndices1 ev1 st1 h
    exact ⟨info, successors, hcol, hall, hst, hdist⟩

/-- Witness for C14: an edge whose first destination has probability zero; the callback
is called once, with the successor of the second destination. -/
theorem callback_once_per_successor_witness :
    ∃ successors : List (CompressedState × ℚ),
      List.Forall₂
          (fun destination successor =>
            successor.2 = expandNonSynchronizingEdge.value
                (expandNonSynchronizingEdge.exitRate (Examples.coin 0 1 none)
                  Examples.zeroEvaluator) Examples.zeroEvaluator destination
              ∧ ∃ lv e1,
                (Examples.coinGenerator ModelType.DTMC).variableInformation.locationVariables[0]?
                    = some lv
                ∧ expandNonSynchronizingEdge.successor (Examples.coinGenerator ModelType.DTMC)
                    (Examples.coin 0 1 none) destination lv [false] Examples.zeroEvaluator
                    = .ok (successor.1, e1))
          (nonZeroDestinations Examples.zeroEvaluator (Examples.coin 0 1 none).destinations)
          successors
        ∧ [[true]] = (internAll recordingCallback successors []).2
        ∧ [((0 : Nat), (1 : ℚ))]
            = ((internAll recordingCallback successors []).1.foldl
                (fun c p => c.addProbability p.1 p.2)
                (Choice.create (Examples.coin 0 1 none).actionIndex
                  (Examples.coin 0 1 none).hasRate)).distribution :=
  (callback_once_per_successor (Examples.coinGenerator ModelType.DTMC)
      Examples.noTransientVariables_closed [false] Examples.zeroEvaluator
      (Examples.coinGenerator_loaded _ _) recordingCallback).1
    (Examples.coin 0 1 none) 0 0 []
    { actionIndex := 0, markovian := false, distribution := [(0, 1)], totalMass := 1,
      rewards := [], originData := none }
    Examples.zeroEvaluator [[true]] (by with_unfolding_all rfl)

/-! ## The values of a synchronized tuple of edges -/

theorem forall₂_map_eq {α β γ : Type} {R : α → β → Prop} {f : α → γ} {g : β → γ}
    {l1 : List α} {l2 : List β} (h : List.Forall₂ R l1 l2) (hR : ∀ a b, R a b → g b = f a) :
    l2.map g = l1.map f := by
  induction h with
  | nil => rfl
  | cons hr _ ih => simp only [List.map_cons, ih, hR _ _ hr]

/-- C16: the values of a synchronized tuple of edges.

When `generateSynchronizedDistribution` returns for a loaded evaluator: the entries it
added to the distribution are, for every destination tuple of non-zero value, the value of
the tuple, which is the product over the edges of the probability of the chosen
destination, multiplied by the rate of the edge when it has one (`tupleValue`); the values
added sum to the product over the edges of the mass of the edge, which is the sum of its
destination probabilities, multiplied by its rate when it has one; the sum is one when no
edge has a rate and the destination probabilities of every edge sum to one. -/
theorem generateSynchronizedDistribution_values {σ : Type} (g : JaniNextStateGenerator)
    (hclosed : g.transientVariableInformation.Closed) (state : CompressedState)
    (ev : ExpressionEvaluator) (hl : Loaded g state ev) (edges : List (Nat × Nat × Edge))
    (distribution : JitDistribution) (stateActionRewards : List ℚ) (edgeIndices : EdgeIndexSet)
    (cb : StateToIdCallback σ) (st : σ) (distribution1 : JitDistribution)
    (rewards1 : List ℚ) (edgeIndices1 : EdgeIndexSet) (ev1 : ExpressionEvaluator) (st1 : σ)
    (h : generateSynchronizedDistribution g state edges distribution stateActionRewards
      edgeIndices cb ev st = .ok (distribution1, rewards1, edgeIndices1, ev1, st1)) :
    (∃ added : JitDistribution,
        distribution1 = distribution ++ added
          ∧ added.map (fun p => p.2)
              = (generateSynchronizedDistribution.nonZeroTuples ev edges
                  (List.range (edges.map (fun x => x.2.2.getNumberOfDestinations)).prod)).map
                  (generateSynchronizedDistribution.tupleValue ev edges)
          ∧ (added.map (fun p => p.2)).sum
              = (edges.map (fun x => generateSynchronizedDistribution.edgeMass ev x.2.2)).prod)
      ∧ (∀ x ∈ edges, generateSynchronizedDistribution.edgeMass ev x.2.2
          = match x.2.2.rate with
            | some rate =>
              (x.2.2.destinations.map (fun d => d.probability.asRational ev)).sum
                * rate.asRational ev
            | none => (x.2.2.destinations.map (fun d => d.probability.asRational ev)).sum)
      ∧ ((∀ x ∈ edges, x.2.2.rate = none
            ∧ (x.2.2.destinations.map (fun d => d.probability.asRational ev)).sum = 1) →
          (distribution1.map (fun p => p.2)).sum = (distribution.map (fun p => p.2)).sum + 1) := by
  obtain ⟨_, info, successors, hcol, hall, hdist, hst⟩ :=
    generateSynchronizedDistribution_spec g hclosed state ev hl edges distribution
      stateActionRewards edgeIndices cb st distribution1 rewards1 edgeIndices1 ev1 st1 h
  have hvalues : (internAll cb successors st).1.map (fun p => p.2)
      = (generateSynchronizedDistribution.nonZeroTuples ev edges
          (List.range (edges.map (fun x => x.2.2.getNumberOfDestinations)).prod)).map
          (generateSynchronizedDistribution.tupleValue ev edges) := by
    rw [internAll_values]
    exact forall₂_map_eq hall (fun _ _ hr => hr.1)
  have hsum : ((internAll cb successors st).1.map (fun p => p.2)).sum
      = (edges.map (fun x => generateSynchronizedDistribution.edgeMass ev x.2.2)).prod := by
    rw [hvalues, generateSynchronizedDistribution.nonZeroTuples_sum,
      generateSynchronizedDistribution.tupleValue_sum]
  refine ⟨⟨_, hdist, hvalues, hsum⟩,
    fun x _ => generateSynchronizedDistribution.edgeMass_eq ev x.2.2, fun hone => ?_⟩
  rw [hdist, List.map_append, List.sum_append, hsum]
  congr 1
  apply List.prod_eq_one
  intro m hm
  obtain ⟨x, hx, hxm⟩ := List.mem_map.1 hm
  rw [← hxm, generateSynchronizedDistribution.edgeMass_eq, (hone x hx).1]
  exact (hone x hx).2

/-- Witness for C16: two synchronized edges without rate, with the destination
probabilities 1/2, 1/2 and 1/3, 2/3. -/
theorem generateSynchronizedDistribution_values_witness :
    generateSynchronizedDistribution (Examples.twoCoinGenerator ModelType.MDP) [false, false]
        Examples.coinPair [] [] ∅ recordingCallback Examples.zeroEvaluator []
      = .ok ([(0, 1 / 6), (1, 1 / 6), (2, 1 / 3), (3, 1 / 3)], [], ∅, Examples.zeroEvaluator,
          [[false, false], [true, false], [false, true], [true, true]])
      ∧ ([((0 : Nat), (1 / 6 : ℚ)), (1, 1 / 6), (2, 1 / 3), (3, 1 / 3)].map (fun p => p.2)).sum
          = (([] : JitDistribution).map (fun p => p.2)).sum + 1 :=
  ⟨by with_unfolding_all rfl,
    (generateSynchronizedDistribution_values (Examples.twoCoinGenerator ModelType.MDP)
        Examples.noTransientVariables_closed [false, false] Examples.zeroEvaluator
        (Examples.twoCoinGenerator_loaded _ _) Examples.coinPair [] [] ∅ recordingCallback []
        [(0, 1 / 6), (1, 1 / 6), (2, 1 / 3), (3, 1 / 3)] [] ∅ Examples.zeroEvaluator
        [[false, false], [true, false], [false, true], [true, true]]
        (by with_unfolding_all rfl)).2.2
      (by
        intro x hx
        simp only [Examples.coinPair, List.mem_cons, List.mem_singleton, List.not_mem_nil,
          or_false] at hx
        rcases hx with rfl | rfl
        · refine ⟨rfl, ?_⟩
          simp only [Examples.coin, Expression.rationalLiteral, List.map_cons, List.map_nil,
            List.sum_cons, List.sum_nil]
          norm_num
        · refine ⟨rfl, ?_⟩
          simp only [Examples.coin, Expression.rationalLiteral, List.map_cons, List.map_nil,
            List.sum_cons, List.sum_nil]
          norm_num)⟩

/-! ## The odometer over the edge combinations -/

theorem mixedRadixNumber_digits (radices : List Nat) (k : Nat) (hk : k < radices.prod) :
    mixedRadixNumber radices (mixedRadixDigits radices k) = k := by
  induction radices generalizing k with
  | nil => simp at hk; simp [mixedRadixDigits, mixedRadixNumber, hk]
  | cons n rest ih =>
    simp only [List.prod_cons] at hk
    simp only [mixedRadixDigits, mixedRadixNumber]
    rw [ih (k / n) (Nat.div_lt_of_lt_mul hk)]
    exact Nat.mod_add_div k n

theorem mixedRadixDigits_number (radices digits : List Nat)
    (h : List.Forall₂ (fun digit n => digit < n) digits radices) :
    mixedRadixNumber radices digits < radices.prod
      ∧ mixedRadixDigits radices (mixedRadixNumber radices digits) = digits := by
  induction h with
  | nil => simp [mixedRadixDigits, mixedRadixNumber]
  | @cons digit n digits radices hd _ ih =>
    obtain ⟨h1, h2⟩ := ih
    simp only [mixedRadixNumber, mixedRadixDigits, List.prod_cons]
    have hn : 0 < n := Nat.lt_of_le_of_lt (Nat.zero_le _) hd
    refine ⟨?_, ?_⟩
    · calc digit + n * mixedRadixNumber radices digits
          < n + n * mixedRadixNumber radices digits := Nat.add_lt_add_right hd _
        _ = n * (mixedRadixNumber radices digits + 1) := by ring
        _ ≤ n * radices.prod := Nat.mul_le_mul_left _ h1
    · rw [Nat.add_mul_mod_self_left, Nat.mod_eq_of_lt hd, Nat.add_mul_div_left _ _ hn,
        Nat.div_eq_of_lt hd, Nat.zero_add, h2]

theorem mixedRadixDigits_valid (radices : List Nat) (k : Nat) (hpos : ∀ n ∈ radices, 0 < n) :
    List.Forall₂ (fun digit n => digit < n) (mixedRadixDigits radices k) radices := by
  induction radices generalizing k with
  | nil => exact List.Forall₂.nil
  | cons n rest ih =>
    exact List.Forall₂.cons (Nat.mod_lt _ (hpos n (List.mem_cons_self _ _)))
      (ih _ (fun m hm => hpos m (List.mem_cons_of_mem _ hm)))

/-- Advancing the iterators from the positions of pass `k` gives the positions of pass
`k + 1`, or tells that pass `k` was the last one. -/
theorem expandSynchronizingEdgeCombination.advance_odometer (edgeCombination : AutomataEdgeSets)
    (hne : ∀ s ∈ edgeCombination, s.2 ≠ []) (k : Nat)
    (hk : k < (edgeCombination.map (fun s => s.2.length)).prod) :
    expandSynchronizingEdgeCombination.advance edgeCombination
        (odometerPositions edgeCombination k)
      = if k + 1 < (edgeCombination.map (fun s => s.2.length)).prod then
          (odometerPositions edgeCombination (k + 1), true)
        else (odometerPositions edgeCombination 0, false) := by
  induction edgeCombination generalizing k with
  | nil =>
    simp only [List.map_nil, List.prod_nil, Nat.lt_one_iff] at hk
    subst hk
    simp [odometerPositions, mixedRadixDigits, expandSynchronizingEdgeCombination.advance]
  | cons s rest ih =>
    have hn : 0 < s.2.length := List.length_pos.2 (hne s (List.mem_cons_self _ _))
    have hrest : ∀ s' ∈ rest, s'.2 ≠ [] := fun s' hs' => hne s' (List.mem_cons_of_mem _ hs')
    simp only [List.map_cons, List.prod_cons] at hk ⊢
    have hdiv : k / s.2.length < (rest.map (fun s => s.2.length)).prod :=
      Nat.div_lt_of_lt_mul hk
    have hmod : k % s.2.length < s.2.length := Nat.mod_lt _ hn
    have hk' := Nat.mod_add_div k s.2.length
    simp only [odometerPositions, List.map_cons, mixedRadixDigits,
      expandSynchronizingEdgeCombination.advance] at ih ⊢
    by_cases hlast : k % s.2.length + 1 = s.2.length
    · -- the first position wraps
      simp only [hlast, ne_eq, not_true_eq_false, if_false]
      rw [ih hrest (k / s.2.length) hdiv]
      have hsucc : k + 1 = s.2.length * (k / s.2.length + 1) := by
        rw [Nat.mul_add, Nat.mul_one]; omega
      by_cases hmore : k / s.2.length + 1 < (rest.map (fun s => s.2.length)).prod
      · have hlt : k + 1 < s.2.length * (rest.map (fun s => s.2.length)).prod := by
          rw [hsucc]; exact Nat.mul_lt_mul_of_pos_left hmore hn
        simp only [hmore, hlt, if_true]
        rw [hsucc, Nat.mul_mod_right, Nat.mul_div_cancel_left _ hn]
      · have hge : ¬ k + 1 < s.2.length * (rest.map (fun s => s.2.length)).prod := by
          rw [hsucc]
          intro h
          exact hmore (Nat.lt_of_mul_lt_mul_left h)
        simp only [hmore, hge, if_false, Nat.zero_mod, Nat.zero_div]
    · have hlt' : k % s.2.length + 1 < s.2.length := by omega
      simp only [ne_eq, hlast, not_false_eq_true, if_true]
      have hlt : k + 1 < s.2.length * (rest.map (fun s => s.2.length)).prod := by
        have h1 : s.2.length * (k / s.2.length + 1)
            ≤ s.2.length * (rest.map (fun s => s.2.length)).prod :=
          Nat.mul_le_mul_left _ hdiv
        rw [Nat.mul_add, Nat.mul_one] at h1
        omega
      simp only [hlt, if_true]
      have hm : (k + 1) % s.2.length = k % s.2.length + 1 := by
        rw [Nat.add_mod, Nat.mod_eq_of_lt (a := k % s.2.length + 1 % s.2.length)]
        · by_cases h1 : s.2.length = 1
          · omega
          · rw [Nat.mod_eq_of_lt (by omega : 1 < s.2.length)]
        · by_cases h1 : s.2.length = 1
          · omega
          · rw [Nat.mod_eq_of_lt (by omega : 1 < s.2.length)]; exact hlt'
      have hd : (k + 1) / s.2.length = k / s.2.length := by
        have h2 : k + 1 = (k % s.2.length + 1) + s.2.length * (k / s.2.length) := by omega
        rw [h2, Nat.add_mul_div_left _ _ hn, Nat.div_eq_of_lt hlt', Nat.zero_add]
      rw [hm, hd]

theorem expandSynchronizingEdgeCombination.dereference_odometer
    (edgeCombination : AutomataEdgeSets) (hne : ∀ s ∈ edgeCombination, s.2 ≠ []) (k : Nat) :
    expandSynchronizingEdgeCombination.dereference edgeCombination
        (odometerPositions edgeCombination k)
      = some (odometerTuple edgeCombination k) := by
  have hsome : ∃ edges, expandSynchronizingEdgeCombination.dereference edgeCombination
      (odometerPositions edgeCombination k) = some edges := by
    induction edgeCombination generalizing k with
    | nil => exact ⟨[], rfl⟩
    | cons s rest ih =>
      have hn : 0 < s.2.length := List.length_pos.2 (hne s (List.mem_cons_self _ _))
      obtain ⟨tail, htail⟩ := ih (fun s' hs' => hne s' (List.mem_cons_of_mem _ hs'))
        (k / s.2.length)
      have hlt : k % s.2.length < s.2.length := Nat.mod_lt _ hn
      simp only [odometerPositions, List.map_cons, mixedRadixDigits,
        expandSynchronizingEdgeCombination.dereference] at htail ⊢
      rw [List.getElem?_eq_getElem hlt, htail]
      exact ⟨_, rfl⟩
  obtain ⟨edges, h⟩ := hsome
  unfold odometerTuple
  rw [h]
  rfl

/-- The loop of `expandSynchronizingEdgeCombination`, started at pass `k` with enough fuel
for the remaining passes, builds the choices of the remaining tuples in odometer order. -/
theorem expandSynchronizingEdgeCombination.loop_odometer {σ : Type} (g : JaniNextStateGenerator)
    (edgeCombination : AutomataEdgeSets) (hne : ∀ s ∈ edgeCombination, s.2 ≠ [])
    (outputActionIndex : Nat) (state : CompressedState) (cb : StateToIdCallback σ)
    (j k fuel : Nat) (result : List Choice) (ev : ExpressionEvaluator) (st : σ)
    (hk : k + (j + 1) = (edgeCombination.map (fun s => s.2.length)).prod)
    (hfuel : j + 1 ≤ fuel) :
    expandSynchronizingEdgeCombination.loop g edgeCombination outputActionIndex state cb fuel
        (odometerPositions edgeCombination k) result ev st
      = expandSynchronizingEdgeCombination.choices g outputActionIndex state cb
          ((List.range' k (j + 1)).map (odometerTuple edgeCombination)) result ev st := by
  induction j generalizing k fuel result ev st with
  | zero =>
    obtain ⟨f, rfl⟩ : ∃ f, fuel = f + 1 := ⟨fuel - 1, by omega⟩
    unfold expandSynchronizingEdgeCombination.loop
    rw [expandSynchronizingEdgeCombination.dereference_odometer edgeCombination hne k,
      expandSynchronizingEdgeCombination.advance_odometer edgeCombination hne k (by omega)]
    simp only [List.range', List.map_cons, List.map_nil,
      expandSynchronizingEdgeCombination.choices]
    cases hc : expandSynchronizingEdgeCombination.choice g (odometerTuple edgeCombination k)
        outputActionIndex state cb ev st with
    | error e => rfl
    | ok r =>
      obtain ⟨c, ev1, st1⟩ := r
      have hnot : ¬ k + 1 < (edgeCombination.map (fun s => s.2.length)).prod := by omega
      simp only [hnot, if_false, Bool.false_eq_true]
  | succ j ih =>
    obtain ⟨f, rfl⟩ : ∃ f, fuel = f + 1 := ⟨fuel - 1, by omega⟩
    unfold expandSynchronizingEdgeCombination.loop
    rw [expandSynchronizingEdgeCombination.dereference_odometer edgeCombination hne k,
      expandSynchronizingEdgeCombination.advance_odometer edgeCombination hne k (by omega)]
    rw [show List.range' k (j + 1 + 1) = k :: List.range' (k + 1) (j + 1) from rfl]
    simp only [List.map_cons, expandSynchronizingEdgeCombination.choices]
    cases hc : expandSynchronizingEdgeCombination.choice g (odometerTuple edgeCombination k)
        outputActionIndex state cb ev st with
    | error e => rfl
    | ok r =>
      obtain ⟨c, ev1, st1⟩ := r
      have hlt : k + 1 < (edgeCombination.map (fun s => s.2.length)).prod := by omega
      simp only [hlt, if_true]
      exact ih (k + 1) f (result ++ [c]) ev1 st1 (by omega) (by omega)

theorem expandSynchronizingEdgeCombination.choices_length {σ : Type}
    (g : JaniNextStateGenerator) (outputActionIndex : Nat) (state : CompressedState)
    (cb : StateToIdCallback σ) (tuples : List (List (Nat × Nat × Edge)))
    (result : List Choice) (ev : ExpressionEvaluator) (st : σ) (result1 : List Choice)
    (ev1 : ExpressionEvaluator) (st1 : σ)
    (h : expandSynchronizingEdgeCombination.choices g outputActionIndex state cb tuples result
      ev st = .ok (result1, ev1, st1)) :
    result1.length = result.length + tuples.length := by
  induction tuples generalizing result ev st with
  | nil =>
    simp only [expandSynchronizingEdgeCombination.choices, Except.ok.injEq,
      Prod.mk.injEq] at h
    rw [← h.1]; simp
  | cons t rest ih =>
    unfold expandSynchronizingEdgeCombination.choices at h
    cases hc : expandSynchronizingEdgeCombination.choice g t outputActionIndex state cb ev st with
    | error e => simp only [hc] at h; cases h
    | ok r =>
      obtain ⟨c, ev2, st2⟩ := r
      simp only [hc] at h
      rw [ih _ _ _ h]
      simp only [List.length_append, List.length_cons, List.length_nil]
      omega

theorem expandSynchronizingEdgeCombination.prod_pos (edgeCombination : AutomataEdgeSets)
    (hne : ∀ s ∈ edgeCombination, s.2 ≠ []) :
    0 < (edgeCombination.map (fun s => s.2.length)).prod := by
  apply List.prod_pos
  intro n hn
  obtain ⟨s, hs, hsn⟩ := List.mem_map.1 hn
  rw [← hsn]
  exact List.length_pos.2 (hne s hs)

theorem odometerPositions_zero (edgeCombination : AutomataEdgeSets) :
    edgeCombination.map (fun _ => 0) = odometerPositions edgeCombination 0 := by
  unfold odometerPositions
  induction edgeCombination with
  | nil => rfl
  | cons s rest ih =>
    simp only [List.map_cons, mixedRadixDigits, Nat.zero_mod, Nat.zero_div]
    rw [ih]

/-- The loop of `expandSynchronizingEdgeCombination`, with fuel for at least as many passes
as there are edge combinations, builds the choices of all tuples in odometer order. -/
theorem expandSynchronizingEdgeCombination.loop_eq_choices {σ : Type}
    (g : JaniNextStateGenerator) (edgeCombination : AutomataEdgeSets)
    (hne : ∀ s ∈ edgeCombination, s.2 ≠ []) (outputActionIndex : Nat)
    (state : CompressedState) (cb : StateToIdCallback σ) (ev : ExpressionEvaluator) (st : σ)
    (fuel : Nat) (hfuel : (edgeCombination.map (fun s => s.2.length)).prod ≤ fuel) :
    expandSynchronizingEdgeCombination.loop g edgeCombination outputActionIndex state cb
        fuel (edgeCombination.map (fun _ => 0)) [] ev st
      = expandSynchronizingEdgeCombination.choices g outputActionIndex state cb
          ((List.range (edgeCombination.map (fun s => s.2.length)).prod).map
            (odometerTuple edgeCombination)) [] ev st := by
  have hpos := expandSynchronizingEdgeCombination.prod_pos edgeCombination hne
  rw [odometerPositions_zero, List.range_eq_range']
  obtain ⟨j, hj⟩ : ∃ j, (edgeCombination.map (fun s => s.2.length)).prod = j + 1 :=
    ⟨(edgeCombination.map (fun s => s.2.length)).prod - 1, by omega⟩
  rw [hj]
  exact expandSynchronizingEdgeCombination.loop_odometer g edgeCombination hne
    outputActionIndex state cb j 0 fuel [] ev st (by omega) (by omega)

/-- The result of `expandSynchronizingEdgeCombination` for non-empty edge lists: the check
of the writes to global variables, then the choices of all tuples in odometer order. -/
theorem expandSynchronizingEdgeCombination_eq_choices {σ : Type} (g : JaniNextStateGenerator)
    (edgeCombination : AutomataEdgeSets) (hne : ∀ s ∈ edgeCombination, s.2 ≠ [])
    (outputActionIndex : Nat) (state : CompressedState) (cb : StateToIdCallback σ)
    (ev : ExpressionEvaluator) (st : σ) (r : List Choice × ExpressionEvaluator × σ)
    (h : expandSynchronizingEdgeCombination g edgeCombination outputActionIndex state cb ev st
      = .ok r) :
    expandSynchronizingEdgeCombination.choices g outputActionIndex state cb
        ((List.range (edgeCombination.map (fun s => s.2.length)).prod).map
          (odometerTuple edgeCombination)) [] ev st = .ok r := by
  unfold expandSynchronizingEdgeCombination at h
  simp only at h
  rw [← expandSynchronizingEdgeCombination.loop_eq_choices g edgeCombination hne
    outputActionIndex state cb ev st _ (Nat.le_refl _)]
  split_ifs at h
  · cases hchk : checkGlobalVariableWritesValid g edgeCombination with
    | error e => simp only [hchk] at h; cases h
    | ok u =>
      simp only [hchk] at h
      exact h
  · exact h

/-- When `expandSynchronizingEdgeCombination` returns for non-empty edge lists, it returns
as many choices as there are edge combinations. -/
theorem expandSynchronizingEdgeCombination_length {σ : Type} (g : JaniNextStateGenerator)
    (edgeCombination : AutomataEdgeSets) (hne : ∀ s ∈ edgeCombination, s.2 ≠ [])
    (outputActionIndex : Nat) (state : CompressedState) (cb : StateToIdCallback σ)
    (ev : ExpressionEvaluator) (st : σ) (r : List Choice × ExpressionEvaluator × σ)
    (h : expandSynchronizingEdgeCombination g edgeCombination outputActionIndex state cb ev st
      = .ok r) :
    r.1.length = (edgeCombination.map (fun s => s.2.length)).prod := by
  have := expandSynchronizingEdgeCombination.choices_length g outputActionIndex state cb _
    [] ev st r.1 r.2.1 r.2.2
    (expandSynchronizingEdgeCombination_eq_choices g edgeCombination hne outputActionIndex
      state cb ev st r h)
  simpa using this

/-- C17: the odometer over the edge combinations.

For an edge combination all of whose edge lists are non-empty, with `N` the product of
their lengths:

(1) the loop of `expandSynchronizingEdgeCombination`, with any fuel of at least `N` passes,
does what the loop body does for the `N` tuples `odometerTuple 0 .. N-1` in this order (so
it ends after `N` passes, and more fuel changes nothing);

(2) tuple number `k` consists of the edges at the positions `odometerPositions k`, the
position in the list of the first automaton advancing fastest and carrying into the next;

(3) when `expandSynchronizingEdgeCombination` returns, it returns exactly `N` choices;

(4) the numbers below `N` and the position vectors are in bijection: every vector of
positions inside the edge lists is the vector of exactly one pass. -/
theorem expandSynchronizingEdgeCombination_odometer {σ : Type} (g : JaniNextStateGenerator)
    (edgeCombination : AutomataEdgeSets) (hne : ∀ s ∈ edgeCombination, s.2 ≠ [])
    (outputActionIndex : Nat) (state : CompressedState) (cb : StateToIdCallback σ)
    (ev : ExpressionEvaluator) (st : σ) :
    (∀ fuel, (edgeCombination.map (fun s => s.2.length)).prod ≤ fuel →
        expandSynchronizingEdgeCombination.loop g edgeCombination outputActionIndex state cb
            fuel (edgeCombination.map (fun _ => 0)) [] ev st
          = expandSynchronizingEdgeCombination.choices g outputActionIndex state cb
              ((List.range (edgeCombination.map (fun s => s.2.length)).prod).map
                (odometerTuple edgeCombination)) [] ev st)
      ∧ (∀ k, expandSynchronizingEdgeCombination.dereference edgeCombination
            (odometerPositions edgeCombination k) = some (odometerTuple edgeCombination k)
          ∧ odometerPositions edgeCombination k
              = mixedRadixDigits (edgeCombination.map (fun s => s.2.length)) k)
      ∧ (∀ choices ev1 st1,
          expandSynchronizingEdgeCombination g edgeCombination outputActionIndex state cb ev st
              = .ok (choices, ev1, st1) →
          choices.length = (edgeCombination.map (fun s => s.2.length)).prod)
      ∧ (∀ positions : List Nat,
          List.Forall₂ (fun position (s : Nat × EdgeSetWithIndices) => position < s.2.length)
            positions edgeCombination →
          ∃ k, (k < (edgeCombination.map (fun s => s.2.length)).prod
              ∧ odometerPositions edgeCombination k = positions)
            ∧ ∀ k', k' < (edgeCombination.map (fun s => s.2.length)).prod
              ∧ odometerPositions edgeCombination k' = positions → k' = k) := by
  refine ⟨fun fuel hfuel => expandSynchronizingEdgeCombination.loop_eq_choices g edgeCombination
      hne outputActionIndex state cb ev st fuel hfuel,
    fun k => ⟨expandSynchronizingEdgeCombination.dereference_odometer edgeCombination hne k, rfl⟩,
    fun choices ev1 st1 h => expandSynchronizingEdgeCombination_length g edgeCombination hne
      outputActionIndex state cb ev st _ h, ?_⟩
  intro positions hvalid
  have hvalid' : List.Forall₂ (fun digit n => digit < n) positions
      (edgeCombination.map (fun s => s.2.length)) := by
    clear hne
    induction hvalid with
    | nil => exact List.Forall₂.nil
    | cons hd _ ih => exact List.Forall₂.cons hd ih
  obtain ⟨h1, h2⟩ := mixedRadixDigits_number _ _ hvalid'
  refine ⟨mixedRadixNumber (edgeCombination.map (fun s => s.2.length)) positions,
    ⟨h1, by unfold odometerPositions; exact h2⟩, ?_⟩
  rintro k' ⟨hk', hpk'⟩
  rw [← hpk']
  unfold odometerPositions
  exact (mixedRadixNumber_digits _ k' hk').symm

/-- Witness for C17: two edges of automaton 0 and one edge of automaton 1. -/
theorem expandSynchronizingEdgeCombination_odometer_witness :
    expandSynchronizingEdgeCombination.loop (Examples.twoCoinGenerator ModelType.MDP)
        Examples.coinCombination 1 [false, false] recordingCallback 2
        (Examples.coinCombination.map (fun _ => 0)) [] Examples.zeroEvaluator []
      = expandSynchronizingEdgeCombination.choices (Examples.twoCoinGenerator ModelType.MDP) 1
          [false, false] recordingCallback
          ((List.range 2).map (odometerTuple Examples.coinCombination)) []
          Examples.zeroEvaluator [] :=
  (expandSynchronizingEdgeCombination_odometer (Examples.twoCoinGenerator ModelType.MDP)
      Examples.coinCombination
      (by
        intro s hs
        simp only [Examples.coinCombination, List.mem_cons, List.mem_singleton,
          List.not_mem_nil, or_false] at hs
        rcases hs with rfl | rfl <;> simp)
      1 [false, false] recordingCallback Examples.zeroEvaluator []).1 2 (Nat.le_refl _)

/-! ## Productive synchronization groups -/

theorem getActionChoices.mem_enabledAt (locations : List Nat) (edgeFilter : EdgeFilter)
    (ev : ExpressionEvaluator) (automatonAndEdges : Nat × LocationsAndEdges)
    (indexAndEdge : Nat × Edge) :
    indexAndEdge ∈ getActionChoices.enabledAt locations edgeFilter ev automatonAndEdges
      ↔ ∃ location edges, locations[automatonAndEdges.1]? = some location
          ∧ getActionChoices.find automatonAndEdges.2 location = some edges
          ∧ indexAndEdge ∈ edges
          ∧ getActionChoices.passesFilter edgeFilter indexAndEdge.2 = true
          ∧ indexAndEdge.2.guard.asBool ev = true := by
  unfold getActionChoices.enabledAt getActionChoices.enabledEdgesOfAutomaton
  cases hloc : locations[automatonAndEdges.1]? with
  | none => simp
  | some location =>
    cases hfind : getActionChoices.find automatonAndEdges.2 location with
    | none => simp [hfind]
    | some edges => simp [hfind, List.mem_filter]

theorem getActionChoices.automataEdgeSets_productive (locations : List Nat)
    (edgeFilter : EdgeFilter) (ev : ExpressionEvaluator) (group : AutomataAndEdges)
    (hloc : ∀ a ∈ group, a.1 < locations.length)
    (hall : ∀ a ∈ group, getActionChoices.enabledAt locations edgeFilter ev a ≠ []) :
    getActionChoices.automataEdgeSets locations edgeFilter ev group
      = .ok (some (group.map (fun a =>
          (a.1, getActionChoices.enabledAt locations edgeFilter ev a)))) := by
  induction group with
  | nil => rfl
  | cons a rest ih =>
    have hlt := hloc a (List.mem_cons_self _ _)
    have hne := hall a (List.mem_cons_self _ _)
    unfold getActionChoices.enabledAt at hne
    rw [List.getElem?_eq_getElem hlt] at hne
    simp only at hne
    unfold getActionChoices.automataEdgeSets
    rw [List.getElem?_eq_getElem hlt]
    simp only
    rw [if_neg (by simpa using hne),
      ih (fun b hb => hloc b (List.mem_cons_of_mem _ hb))
        (fun b hb => hall b (List.mem_cons_of_mem _ hb))]
    simp only [List.map_cons, getActionChoices.enabledAt, List.getElem?_eq_getElem hlt]

theorem getActionChoices.automataEdgeSets_unproductive (locations : List Nat)
    (edgeFilter : EdgeFilter) (ev : ExpressionEvaluator) (group : AutomataAndEdges)
    (hloc : ∀ a ∈ group, a.1 < locations.length)
    (hsome : ∃ a ∈ group, getActionChoices.enabledAt locations edgeFilter ev a = []) :
    getActionChoices.automataEdgeSets locations edgeFilter ev group = .ok none := by
  induction group with
  | nil =>
    obtain ⟨a, ha, _⟩ := hsome
    exact absurd ha (List.not_mem_nil a)
  | cons a rest ih =>
    have hlt := hloc a (List.mem_cons_self _ _)
    unfold getActionChoices.automataEdgeSets
    rw [List.getElem?_eq_getElem hlt]
    simp only
    by_cases hempty : (getActionChoices.enabledEdgesOfAutomaton edgeFilter ev a.2
        locations[a.1]).isEmpty = true
    · rw [if_pos hempty]
    · rw [if_neg hempty]
      have hrest : ∃ b ∈ rest, getActionChoices.enabledAt locations edgeFilter ev b = [] := by
        obtain ⟨b, hb, hbe⟩ := hsome
        rcases List.mem_cons.1 hb with rfl | hb
        · exfalso
          apply hempty
          unfold getActionChoices.enabledAt at hbe
          rw [List.getElem?_eq_getElem hlt] at hbe
          simp only at hbe
          rw [hbe]
          rfl
        · exact ⟨b, hb, hbe⟩
      rw [ih (fun b hb => hloc b (List.mem_cons_of_mem _ hb)) hrest]

/-- The result of `expandSynchronizingEdgeCombination` for non-empty edge lists without the
bound on the passes of the loop: the check of the writes to global variables, then the
choices of all tuples in odometer order. -/
theorem expandSynchronizingEdgeCombination_unfold {σ : Type} (g : JaniNextStateGenerator)
    (edgeCombination : AutomataEdgeSets) (hne : ∀ s ∈ edgeCombination, s.2 ≠ [])
    (outputActionIndex : Nat) (state : CompressedState) (cb : StateToIdCallback σ)
    (ev : ExpressionEvaluator) (st : σ) :
    expandSynchronizingEdgeCombination g edgeCombination outputActionIndex state cb ev st
      = match (if g.options.explorationChecks = true then
            checkGlobalVariableWritesValid g edgeCombination else .ok ()) with
        | .error e => .error e
        | .ok _ =>
          expandSynchronizingEdgeCombination.choices g outputActionIndex state cb
            ((List.range (edgeCombination.map (fun s => s.2.length)).prod).map
              (odometerTuple edgeCombination)) [] ev st := by
  unfold expandSynchronizingEdgeCombination
  simp only
  rw [expandSynchronizingEdgeCombination.loop_eq_choices g edgeCombination hne
    outputActionIndex state cb ev st _ (Nat.le_refl _)]

/-- C18: productive synchronization groups.

For a synchronization group with an output action and two or more participating automata,
all of which have a current location:

(1) when some participating automaton has no enabled edge (no edge that the group lists
under the current location of the automaton, that passes the filter and whose guard
evaluates to true), the group contributes nothing: the choices, the evaluator and the
state of the callback are returned as they were, so the callback is not called;

(2) when every participating automaton has an enabled edge, the group checks the writes to
global variables (with exploration checks on) and builds one choice per combination of
enabled edges, in odometer order; unless this raises an exception, the group returns, and
it has appended at least one choice;

(3) the enabled edges of an automaton are exactly the edges listed under its current
location that pass the filter and whose guard evaluates to true. -/
theorem getActionChoices_group_productive {σ : Type} (g : JaniNextStateGenerator)
    (locations : List Nat) (state : CompressedState) (cb : StateToIdCallback σ)
    (edgeFilter : EdgeFilter) (outputActionIndex : Nat)
    (first second : Nat × LocationsAndEdges) (others : AutomataAndEdges)
    (result : List Choice) (ev : ExpressionEvaluator) (st : σ)
    (hloc : ∀ a ∈ first :: second :: others, a.1 < locations.length) :
    ((∃ a ∈ first :: second :: others,
          getActionChoices.enabledAt locations edgeFilter ev a = []) →
        getActionChoices.group g locations state cb edgeFilter
            (some outputActionIndex, first :: second :: others) result ev st
          = .ok (result, ev, st))
      ∧ ((∀ a ∈ first :: second :: others,
            getActionChoices.enabledAt locations edgeFilter ev a ≠ []) →
          getActionChoices.group g locations state cb edgeFilter
              (some outputActionIndex, first :: second :: others) result ev st
            = (match (if g.options.explorationChecks = true then
                  checkGlobalVariableWritesValid g ((first :: second :: others).map (fun a =>
                    (a.1, getActionChoices.enabledAt locations edgeFilter ev a)))
                else .ok ()) with
              | .error e => .error e
              | .ok _ =>
                match expandSynchronizingEdgeCombination.choices g outputActionIndex state cb
                    ((List.range ((first :: second :: others).map (fun a =>
                        (getActionChoices.enabledAt locations edgeFilter ev a).length)).prod).map
                      (odometerTuple ((first :: second :: others).map (fun a =>
                        (a.1, getActionChoices.enabledAt locations edgeFilter ev a)))))
                    [] ev st with
                | .error e => .error e
                | .ok (choices, ev1, st1) => .ok (result ++ choices, ev1, st1)))
      ∧ ((∀ a ∈ first :: second :: others,
            getActionChoices.enabledAt locations edgeFilter ev a ≠ []) →
          ∀ result1 ev1 st1,
            getActionChoices.group g locations state cb edgeFilter
                (some outputActionIndex, first :: second :: others) result ev st
              = .ok (result1, ev1, st1) →
            ∃ choices : List Choice, choices ≠ [] ∧ result1 = result ++ choices
              ∧ choices.length
                  = ((first :: second :: others).map (fun a =>
                      (getActionChoices.enabledAt locations edgeFilter ev a).length)).prod)
      ∧ (∀ (a : Nat × LocationsAndEdges) (indexAndEdge : Nat × Edge),
          indexAndEdge ∈ getActionChoices.enabledAt locations edgeFilter ev a
            ↔ ∃ location edges, locations[a.1]? = some location
                ∧ getActionChoices.find a.2 location = some edges
                ∧ indexAndEdge ∈ edges
                ∧ getActionChoices.passesFilter edgeFilter indexAndEdge.2 = true
                ∧ indexAndEdge.2.guard.asBool ev = true) := by
  refine ⟨fun hsome => ?_, fun hall => ?_, fun hall result1 ev1 st1 h => ?_,
    fun a indexAndEdge => getActionChoices.mem_enabledAt locations edgeFilter ev a indexAndEdge⟩
  · unfold getActionChoices.group
    simp only [getActionChoices.automataEdgeSets_unproductive locations edgeFilter ev _ hloc hsome]
  · have hne : ∀ s ∈ (first :: second :: others).map (fun a =>
        (a.1, getActionChoices.enabledAt locations edgeFilter ev a)), s.2 ≠ [] := by
      intro s hs
      obtain ⟨a, ha, has⟩ := List.mem_map.1 hs
      rw [← has]
      exact hall a ha
    unfold getActionChoices.group
    simp only [getActionChoices.automataEdgeSets_productive locations edgeFilter ev _ hloc hall]
    rw [expandSynchronizingEdgeCombination_unfold g _ hne]
    simp only [List.map_map]
    have hfun : ((fun s : Nat × EdgeSetWithIndices => s.2.length) ∘ fun a =>
        (a.1, getActionChoices.enabledAt locations edgeFilter ev a))
        = fun a => (getActionChoices.enabledAt locations edgeFilter ev a).length := rfl
    rw [hfun]
    by_cases hx : g.options.explorationChecks = true
    · simp only [hx, if_true]
      cases checkGlobalVariableWritesValid g ((first :: second :: others).map (fun a =>
          (a.1, getActionChoices.enabledAt locations edgeFilter ev a))) with
      | error e => rfl
      | ok u => rfl
    · simp only [hx, if_false, Bool.false_eq_true]
  · unfold getActionChoices.group at h
    simp only [getActionChoices.automataEdgeSets_productive locations edgeFilter ev _ hloc hall]
      at h
    cases hexp : expandSynchronizingEdgeCombination g
        ((first :: second :: others).map (fun a =>
          (a.1, getActionChoices.enabledAt locations edgeFilter ev a)))
        outputActionIndex state cb ev st with
    | error e => simp only [hexp] at h; cases h
    | ok r =>
      obtain ⟨choices, ev2, st2⟩ := r
      simp only [hexp, Except.ok.injEq, Prod.mk.injEq] at h
      have hne : ∀ s ∈ (first :: second :: others).map (fun a =>
          (a.1, getActionChoices.enabledAt locations edgeFilter ev a)), s.2 ≠ [] := by
        intro s hs
        obtain ⟨a, ha, has⟩ := List.mem_map.1 hs
        rw [← has]
        exact hall a ha
      have hlen := expandSynchronizingEdgeCombination_length g _ hne outputActionIndex state cb
        ev st _ hexp
      have hpos := expandSynchronizingEdgeCombination.prod_pos _ hne
      simp only [List.map_map] at hlen hpos
      refine ⟨choices, ?_, h.1.symm, ?_⟩
      · intro hnil
        rw [hnil] at hlen
        simp only [List.length_nil] at hlen
        omega
      · rw [hlen]
        rfl

/-- Witness for C18: in the blocked-synchronization model at the locations 0 and 0,
automaton 1 has no edge with action 1. -/
theorem getActionChoices_group_productive_witness :
    getActionChoices.group Examples.blockedGenerator [0, 0] [false] recordingCallback
        EdgeFilter.All
        (some 1, [(0, [(0, [(0, Examples.plainEdge 0 1 none)])]),
                  (1, [(1, [(1, Examples.plainEdge 1 1 none)])])])
        [] Examples.zeroEvaluator []
      = .ok ([], Examples.zeroEvaluator, []) :=
  (getActionChoices_group_productive Examples.blockedGenerator [0, 0] [false] recordingCallback
      EdgeFilter.All 1 (0, [(0, [(0, Examples.plainEdge 0 1 none)])])
      (1, [(1, [(1, Examples.plainEdge 1 1 none)])]) [] [] Examples.zeroEvaluator []
      (by decide)).1
    ⟨(1, [(1, [(1, Examples.plainEdge 1 1 none)])]),
      List.mem_cons_of_mem _ (List.mem_cons_self _ _), rfl⟩

/-! ## Determinism of `expand` -/

theorem StateToIdCallback.Reaches.reaches_refl {σ : Type} (cb : StateToIdCallback σ) (st : σ) :
    StateToIdCallback.Reaches cb st st := ⟨[], rfl⟩

theorem StateToIdCallback.Reaches.step {σ : Type} (cb : StateToIdCallback σ)
    (s : CompressedState) (st : σ) : StateToIdCallback.Reaches cb st (cb s st).2 := ⟨[s], rfl⟩

theorem StateToIdCallback.Reaches.reaches_trans {σ : Type} {cb : StateToIdCallback σ} {a b c : σ}
    (h1 : StateToIdCallback.Reaches cb a b) (h2 : StateToIdCallback.Reaches cb b c) :
    StateToIdCallback.Reaches cb a c := by
  obtain ⟨l1, rfl⟩ := h1
  obtain ⟨l2, rfl⟩ := h2
  exact ⟨l1 ++ l2, by rw [List.foldl_append]⟩

/-- One pass of the loop over the destinations can be repeated in every later state of an
interning callback, with the same result. -/
theorem expandNonSynchronizingEdge.destinationStep_replay {σ : Type}
    (g : JaniNextStateGenerator) (edge : Edge) (automatonIndex : Nat) (state : CompressedState)
    (cb : StateToIdCallback σ) (hcb : StateToIdCallback.Interning cb) (exitRate : Option ℚ)
    (acc : ExpandEdgeState σ) (destination : EdgeDestination) (acc1 : ExpandEdgeState σ)
    (h : expandNonSynchronizingEdge.destinationStep g edge automatonIndex state cb exitRate acc
      destination = .ok acc1) :
    StateToIdCallback.Reaches cb acc.callbackState acc1.callbackState
      ∧ ∀ later, StateToIdCallback.Reaches cb acc1.callbackState later →
          ∃ later1,
            expandNonSynchronizingEdge.destinationStep g edge automatonIndex state cb exitRate
                { acc with callbackState := later } destination
              = .ok { acc1 with callbackState := later1 }
            ∧ StateToIdCallback.Reaches cb later later1 := by
  unfold expandNonSynchronizingEdge.destinationStep at h
  by_cases hp : destination.probability.asRational acc.evaluator = 0
  · simp only [hp, if_true, Except.ok.injEq] at h
    subst h
    refine ⟨StateToIdCallback.Reaches.reaches_refl cb _, fun later _ =>
      ⟨later, ?_, StateToIdCallback.Reaches.reaches_refl cb _⟩⟩
    unfold expandNonSynchronizingEdge.destinationStep
    simp only [hp, if_true]
  · simp only [hp, if_false] at h
    cases hlv : g.variableInformation.locationVariables[automatonIndex]? with
    | none => simp only [hlv] at h; cases h
    | some lv =>
      simp only [hlv] at h
      cases hsucc : expandNonSynchronizingEdge.successor g edge destination lv state
          acc.evaluator with
      | error x => simp only [hsucc] at h; cases h
      | ok r =>
        obtain ⟨newState, e1⟩ := r
        simp only [hsucc, Except.ok.injEq] at h
        subst h
        refine ⟨StateToIdCallback.Reaches.step cb _ _, fun later hlater =>
          ⟨(cb newState later).2, ?_, StateToIdCallback.Reaches.step cb _ _⟩⟩
        unfold expandNonSynchronizingEdge.destinationStep
        simp only [hp, if_false, hlv, hsucc, hcb newState acc.callbackState later hlater]

/-- The loop over the destinations can be repeated in every later state of an interning
callback, with the same result. -/
theorem expandNonSynchronizingEdge.destinationLoop_replay {σ : Type}
    (g : JaniNextStateGenerator) (edge : Edge) (automatonIndex : Nat) (state : CompressedState)
    (cb : StateToIdCallback σ) (hcb : StateToIdCallback.Interning cb) (exitRate : Option ℚ)
    (destinations : List EdgeDestination) (acc acc1 : ExpandEdgeState σ)
    (h : expandNonSynchronizingEdge.destinationLoop g edge automatonIndex state cb exitRate
      destinations acc = .ok acc1) :
    StateToIdCallback.Reaches cb acc.callbackState acc1.callbackState
      ∧ ∀ later, StateToIdCallback.Reaches cb acc1.callbackState later →
          ∃ later1,
            expandNonSynchronizingEdge.destinationLoop g edge automatonIndex state cb exitRate
                destinations { acc with callbackState := later }
              = .ok { acc1 with callbackState := later1 }
            ∧ StateToIdCallback.Reaches cb later later1 := by
  induction destinations generalizing acc with
  | nil =>
    simp only [expandNonSynchronizingEdge.destinationLoop, Except.ok.injEq] at h
    subst h
    exact ⟨StateToIdCallback.Reaches.reaches_refl cb _, fun later _ =>
      ⟨later, rfl, StateToIdCallback.Reaches.reaches_refl cb _⟩⟩
  | cons d rest ih =>
    unfold expandNonSynchronizingEdge.destinationLoop at h
    cases hstep : expandNonSynchronizingEdge.destinationStep g edge automatonIndex state cb
        exitRate acc d with
    | error x => simp only [hstep] at h; cases h
    | ok acc2 =>
      simp only [hstep] at h
      obtain ⟨hr2, hre2⟩ := expandNonSynchronizingEdge.destinationStep_replay g edge
        automatonIndex state cb hcb exitRate acc d acc2 hstep
      obtain ⟨hr1, hre1⟩ := ih acc2 h
      refine ⟨hr2.reaches_trans hr1, fun later hlater => ?_⟩
      obtain ⟨l1, hs1, hl1⟩ := hre2 later (hr1.reaches_trans hlater)
      obtain ⟨l2, hs2, hl2⟩ := hre1 l1 (hlater.reaches_trans hl1)
      refine ⟨l2, ?_, hl1.reaches_trans hl2⟩
      unfold expandNonSynchronizingEdge.destinationLoop
      simp only [hs1]
      exact hs2

/-- A returning call of `expandNonSynchronizingEdge` with the loaded evaluator returns the
loaded evaluator, and can be repeated in every later state of an interning callback, with
the same choice. -/
theorem expandNonSynchronizingEdge_replay {σ : Type} (g : JaniNextStateGenerator)
    (hclosed : g.transientVariableInformation.Closed) (state : CompressedState)
    (ev : ExpressionEvaluator) (hl : Loaded g state ev) (edge : Edge)
    (outputActionIndex automatonIndex : Nat) (cb : StateToIdCallback σ)
    (hcb : StateToIdCallback.Interning cb) (st : σ) (choice : Choice)
    (ev1 : ExpressionEvaluator) (st1 : σ)
    (h : expandNonSynchronizingEdge g edge outputActionIndex automatonIndex state cb ev st
      = .ok (choice, ev1, st1)) :
    ev1 = ev ∧ StateToIdCallback.Reaches cb st st1
      ∧ ∀ later, StateToIdCallback.Reaches cb st1 later →
          ∃ later1,
            expandNonSynchronizingEdge g edge outputActionIndex automatonIndex state cb ev later
              = .ok (choice, ev, later1)
            ∧ StateToIdCallback.Reaches cb later later1 := by
  unfold expandNonSynchronizingEdge at h
  simp only at h
  cases hr : expandNonSynchronizingEdge.edgeRewards g edge ev with
  | error x => simp only [hr] at h; cases h
  | ok rew =>
    obtain ⟨rewards0, ev2⟩ := rew
    have hev2 : ev2 = ev :=
      expandNonSynchronizingEdge.edgeRewards_restore g hclosed state ev hl edge rewards0 ev2 hr
    subst hev2
    simp only [hr] at h
    cases hloop : expandNonSynchronizingEdge.destinationLoop g edge automatonIndex state cb
        (Option.map (fun rate => rate.asRational ev2) edge.rate) edge.destinations
        { choice := Choice.create edge.actionIndex
            (Option.map (fun rate => rate.asRational ev2) edge.rate).isSome,
          stateActionRewards := rewards0, probabilitySum := 0, evaluator := ev2,
          callbackState := st } with
    | error x => simp only [hloop] at h; cases h
    | ok acc =>
      simp only [hloop] at h
      have hev := (expandNonSynchronizingEdge.destinationLoop_spec g hclosed state ev2 hl edge
        automatonIndex cb _ edge.destinations _ rfl acc hloop).1
      obtain ⟨hreach, hreplay⟩ := expandNonSynchronizingEdge.destinationLoop_replay g edge
        automatonIndex state cb hcb _ edge.destinations _ acc hloop
      by_cases hchk : (g.options.explorationChecks
          && !(!g.isDiscreteTimeModel || decide (acc.probabilitySum = 1))) = true
      · rw [if_pos hchk] at h; cases h
      · rw [if_neg hchk] at h
        simp only [Except.ok.injEq, Prod.mk.injEq] at h
        obtain ⟨hc, he, hs⟩ := h
        subst hs
        refine ⟨by rw [← he, hev], hreach, fun later hlater => ?_⟩
        obtain ⟨l1, hs1, hl1⟩ := hreplay later hlater
        refine ⟨l1, ?_, hl1⟩
        unfold expandNonSynchronizingEdge
        simp only [hr]
        simp only at hs1
        simp only [hs1]
        rw [if_neg hchk, hc, hev]


/-- One pass of the loop over the destination tuples can be repeated in every later state
of an interning callback, with the same result. -/
theorem generateSynchronizedDistribution.tupleStep_replay {σ : Type}
    (g : JaniNextStateGenerator) (state : CompressedState) (edges : List (Nat × Nat × Edge))
    (info : SynchronizedEdgeInformation) (cb : StateToIdCallback σ)
    (hcb : StateToIdCallback.Interning cb) (acc : SynchronizedDistributionState σ)
    (destinationId : Nat) (acc1 : SynchronizedDistributionState σ)
    (h : generateSynchronizedDistribution.destinationStep g state edges info cb acc
      destinationId = .ok acc1) :
    StateToIdCallback.Reaches cb acc.callbackState acc1.callbackState
      ∧ ∀ later, StateToIdCallback.Reaches cb acc1.callbackState later →
          ∃ later1,
            generateSynchronizedDistribution.destinationStep g state edges info cb
                { acc with callbackState := later } destinationId
              = .ok { acc1 with callbackState := later1 }
            ∧ StateToIdCallback.Reaches cb later later1 := by
  unfold generateSynchronizedDistribution.destinationStep at h
  cases hfirst : generateSynchronizedDistribution.firstLevel g
      info.lowestDestinationAssignmentLevel acc.evaluator edges
      { destinations := [], locationVars := [],
        transientVariableValuation := TransientVariableValuation.clear,
        successorState := state, successorProbability := 1,
        destinationIndex := destinationId } with
  | error x => simp only [hfirst] at h; cases h
  | ok first =>
    simp only [hfirst] at h
    by_cases hp : first.successorProbability = 0
    · simp only [hp, if_true, Except.ok.injEq] at h
      subst h
      refine ⟨StateToIdCallback.Reaches.reaches_refl cb _, fun later _ =>
        ⟨later, ?_, StateToIdCallback.Reaches.reaches_refl cb _⟩⟩
      unfold generateSynchronizedDistribution.destinationStep
      simp only [hfirst, hp, if_true]
    · simp only [hp, if_false] at h
      cases hrem : generateSynchronizedDistribution.remainingLevels g first.destinations
          first.locationVars
          (info.highestDestinationAssignmentLevel - info.lowestDestinationAssignmentLevel).toNat
          info.lowestDestinationAssignmentLevel first.successorState
          first.transientVariableValuation acc.evaluator with
      | error x => simp only [hrem] at h; cases h
      | ok r =>
        obtain ⟨successorState, t, e1⟩ := r
        simp only [hrem, Except.ok.injEq] at h
        subst h
        refine ⟨StateToIdCallback.Reaches.step cb _ _, fun later hlater =>
          ⟨(cb successorState later).2, ?_, StateToIdCallback.Reaches.step cb _ _⟩⟩
        unfold generateSynchronizedDistribution.destinationStep
        simp only [hfirst, hp, if_false, hrem,
          hcb successorState acc.callbackState later hlater]

/-- The loop over the destination tuples can be repeated in every later state of an
interning callback, with the same result. -/
theorem generateSynchronizedDistribution.tupleLoop_replay {σ : Type}
    (g : JaniNextStateGenerator) (state : CompressedState) (edges : List (Nat × Nat × Edge))
    (info : SynchronizedEdgeInformation) (cb : StateToIdCallback σ)
    (hcb : StateToIdCallback.Interning cb) (destinationIds : List Nat)
    (acc acc1 : SynchronizedDistributionState σ)
    (h : generateSynchronizedDistribution.destinationLoop g state edges info cb destinationIds
      acc = .ok acc1) :
    StateToIdCallback.Reaches cb acc.callbackState acc1.callbackState
      ∧ ∀ later, StateToIdCallback.Reaches cb acc1.callbackState later →
          ∃ later1,
            generateSynchronizedDistribution.destinationLoop g state edges info cb
                destinationIds { acc with callbackState := later }
              = .ok { acc1 with callbackState := later1 }
            ∧ StateToIdCallback.Reaches cb later later1 := by
  induction destinationIds generalizing acc with
  | nil =>
    simp only [generateSynchronizedDistribution.destinationLoop, Except.ok.injEq] at h
    subst h
    exact ⟨StateToIdCallback.Reaches.reaches_refl cb _, fun later _ =>
      ⟨later, rfl, StateToIdCallback.Reaches.reaches_refl cb _⟩⟩
  | cons d rest ih =>
    unfold generateSynchronizedDistribution.destinationLoop at h
    cases hstep : generateSynchronizedDistribution.destinationStep g state edges info cb acc
        d with
    | error x => simp only [hstep] at h; cases h
    | ok acc2 =>
      simp only [hstep] at h
      obtain ⟨hr2, hre2⟩ := generateSynchronizedDistribution.tupleStep_replay g state
        edges info cb hcb acc d acc2 hstep
      obtain ⟨hr1, hre1⟩ := ih acc2 h
      refine ⟨hr2.reaches_trans hr1, fun later hlater => ?_⟩
      obtain ⟨l1, hs1, hl1⟩ := hre2 later (hr1.reaches_trans hlater)
      obtain ⟨l2, hs2, hl2⟩ := hre1 l1 (hlater.reaches_trans hl1)
      refine ⟨l2, ?_, hl1.reaches_trans hl2⟩
      unfold generateSynchronizedDistribution.destinationLoop
      simp only [hs1]
      exact hs2

/-- A returning call of `generateSynchronizedDistribution` with the loaded evaluator
returns the loaded evaluator, and can be repeated in every later state of an interning
callback, with the same result. -/
theorem generateSynchronizedDistribution_replay {σ : Type} (g : JaniNextStateGenerator)
    (hclosed : g.transientVariableInformation.Closed) (state : CompressedState)
    (ev : ExpressionEvaluator) (hl : Loaded g state ev) (edges : List (Nat × Nat × Edge))
    (distribution : JitDistribution) (stateActionRewards : List ℚ) (edgeIndices : EdgeIndexSet)
    (cb : StateToIdCallback σ) (hcb : StateToIdCallback.Interning cb) (st : σ)
    (distribution1 : JitDistribution) (rewards1 : List ℚ) (edgeIndices1 : EdgeIndexSet)
    (ev1 : ExpressionEvaluator) (st1 : σ)
    (h : generateSynchronizedDistribution g state edges distribution stateActionRewards
      edgeIndices cb ev st = .ok (distribution1, rewards1, edgeIndices1, ev1, st1)) :
    ev1 = ev ∧ StateToIdCallback.Reaches cb st st1
      ∧ ∀ later, StateToIdCallback.Reaches cb st1 later →
          ∃ later1,
            generateSynchronizedDistribution g state edges distribution stateActionRewards
                edgeIndices cb ev later
              = .ok (distribution1, rewards1, edgeIndices1, ev, later1)
            ∧ StateToIdCallback.Reaches cb later later1 := by
  have hev1 := (generateSynchronizedDistribution_spec g hclosed state ev hl edges distribution
    stateActionRewards edgeIndices cb st distribution1 rewards1 edgeIndices1 ev1 st1 h).1
  subst hev1
  refine ⟨rfl, ?_⟩
  unfold generateSynchronizedDistribution at h
  cases hcol : generateSynchronizedDistribution.collect g edges
      { lowestDestinationAssignmentLevel := int64Max,
        highestDestinationAssignmentLevel := int64Min,
        lowestEdgeAssignmentLevel := int64Max,
        highestEdgeAssignmentLevel := int64Min,
        numDestinations := 1,
        edgeIndices := edgeIndices } with
  | error x => simp only [hcol] at h; cases h
  | ok info =>
    simp only [hcol] at h
    have htail : ∀ (rewards : List ℚ) (e0 : ExpressionEvaluator),
        (match generateSynchronizedDistribution.destinationLoop g state edges info cb
            (List.range info.numDestinations)
            { distribution := distribution, stateActionRewards := rewards, evaluator := e0,
              callbackState := st } with
          | .error e => Except.error e
          | .ok acc =>
            Except.ok (acc.distribution, acc.stateActionRewards, info.edgeIndices,
              acc.evaluator, acc.callbackState))
          = (.ok (distribution1, rewards1, edgeIndices1, ev1, st1)
              : Except Exception
                  (JitDistribution × List ℚ × EdgeIndexSet × ExpressionEvaluator × σ)) →
        StateToIdCallback.Reaches cb st st1
          ∧ ∀ later, StateToIdCallback.Reaches cb st1 later →
              ∃ later1,
                (match generateSynchronizedDistribution.destinationLoop g state edges info cb
                    (List.range info.numDestinations)
                    { distribution := distribution, stateActionRewards := rewards,
                      evaluator := e0, callbackState := later } with
                  | .error e => Except.error e
                  | .ok acc =>
                    Except.ok (acc.distribution, acc.stateActionRewards, info.edgeIndices,
                      acc.evaluator, acc.callbackState))
                  = (.ok (distribution1, rewards1, edgeIndices1, ev1, later1)
                      : Except Exception
                          (JitDistribution × List ℚ × EdgeIndexSet × ExpressionEvaluator × σ))
                ∧ StateToIdCallback.Reaches cb later later1 := by
      intro rewards e0 hm
      cases hloop : generateSynchronizedDistribution.destinationLoop g state edges info cb
          (List.range info.numDestinations)
          { distribution := distribution, stateActionRewards := rewards, evaluator := e0,
            callbackState := st } with
      | error x => simp only [hloop] at hm; cases hm
      | ok acc =>
        simp only [hloop, Except.ok.injEq, Prod.mk.injEq] at hm
        obtain ⟨hd, hrw, hei, hev, hst⟩ := hm
        obtain ⟨hreach, hreplay⟩ := generateSynchronizedDistribution.tupleLoop_replay g
          state edges info cb hcb _ _ acc hloop
        subst hst
        refine ⟨hreach, fun later hlater => ?_⟩
        obtain ⟨l1, hs1, hl1⟩ := hreplay later hlater
        refine ⟨l1, ?_, hl1⟩
        simp only at hs1
        simp only [hs1, hd, hrw, hei, hev]
    by_cases hcond : (g.evaluateRewardExpressionsAtEdges
        && decide (info.lowestEdgeAssignmentLevel ≤ info.highestEdgeAssignmentLevel)) = true
    · rw [if_pos hcond] at h
      cases hlev : generateSynchronizedDistribution.edgeAssignments g edges
          (info.highestEdgeAssignmentLevel - info.lowestEdgeAssignmentLevel + 1).toNat
          info.lowestEdgeAssignmentLevel ev1 with
      | error x => simp only [hlev] at h; cases h
      | ok e1 =>
        simp only [hlev] at h
        obtain ⟨hreach, hreplay⟩ := htail _ _ h
        refine ⟨hreach, fun later hlater => ?_⟩
        obtain ⟨l1, hs1, hl1⟩ := hreplay later hlater
        refine ⟨l1, ?_, hl1⟩
        unfold generateSynchronizedDistribution
        simp only [hcol]
        rw [if_pos hcond]
        simp only [hlev]
        exact hs1
    · rw [if_neg hcond] at h
      obtain ⟨hreach, hreplay⟩ := htail _ _ h
      refine ⟨hreach, fun later hlater => ?_⟩
      obtain ⟨l1, hs1, hl1⟩ := hreplay later hlater
      refine ⟨l1, ?_, hl1⟩
      unfold generateSynchronizedDistribution
      simp only [hcol]
      rw [if_neg hcond]
      exact hs1

theorem ite_error_eq_ok {α : Type} {c : Prop} [Decidable c] {e : Exception} {x y : α} :
    (if c then (Except.error e : Except Exception α) else Except.ok x) = Except.ok y
      ↔ ¬ c ∧ x = y := by
  by_cases hc : c
  · rw [if_pos hc]
    exact ⟨fun h => (by cases h), fun h => absurd hc h.1⟩
  · rw [if_neg hc]
    exact ⟨fun h => ⟨hc, by injection h⟩, fun h => by rw [h.2]⟩

/-- A returning pass of the loop of `expandSynchronizingEdgeCombination` with the loaded
evaluator returns the loaded evaluator, and can be repeated in every later state of an
interning callback, with the same choice. -/
theorem expandSynchronizingEdgeCombination.choice_replay {σ : Type}
    (g : JaniNextStateGenerator) (hclosed : g.transientVariableInformation.Closed)
    (state : CompressedState) (ev : ExpressionEvaluator) (hl : Loaded g state ev)
    (edges : List (Nat × Nat × Edge)) (outputActionIndex : Nat) (cb : StateToIdCallback σ)
    (hcb : StateToIdCallback.Interning cb) (st : σ) (choice : Choice)
    (ev1 : ExpressionEvaluator) (st1 : σ)
    (h : expandSynchronizingEdgeCombination.choice g edges outputActionIndex state cb ev st
      = .ok (choice, ev1, st1)) :
    ev1 = ev ∧ StateToIdCallback.Reaches cb st st1
      ∧ ∀ later, StateToIdCallback.Reaches cb st1 later →
          ∃ later1,
            expandSynchronizingEdgeCombination.choice g edges outputActionIndex state cb ev later
              = .ok (choice, ev, later1)
            ∧ StateToIdCallback.Reaches cb later later1 := by
  unfold expandSynchronizingEdgeCombination.choice at h
  cases hg : generateSynchronizedDistribution g state edges []
      (List.replicate g.rewardExpressions.length 0) ∅ cb ev st with
  | error x => simp only [hg] at h; cases h
  | ok r =>
    obtain ⟨distribution, rewards, edgeIndices, ev2, st2⟩ := r
    obtain ⟨hev2, hreach, hreplay⟩ := generateSynchronizedDistribution_replay g hclosed state ev
      hl edges _ _ _ cb hcb st _ _ _ _ _ hg
    subst hev2
    simp only [hg] at h
    rw [ite_error_eq_ok] at h
    obtain ⟨hchk, hx⟩ := h
    simp only [Prod.mk.injEq] at hx
    obtain ⟨hc, he, hs⟩ := hx
    subst hs
    refine ⟨he.symm, hreach, fun later hlater => ?_⟩
    obtain ⟨l1, hs1, hl1⟩ := hreplay later hlater
    refine ⟨l1, ?_, hl1⟩
    unfold expandSynchronizingEdgeCombination.choice
    simp only [hs1]
    rw [ite_error_eq_ok]
    exact ⟨hchk, by rw [hc]⟩

/-- A returning run of the loop of `expandSynchronizingEdgeCombination` with the loaded
evaluator returns the loaded evaluator, and can be repeated in every later state of an
interning callback, with the same choices. -/
theorem expandSynchronizingEdgeCombination.loop_replay {σ : Type}
    (g : JaniNextStateGenerator) (hclosed : g.transientVariableInformation.Closed)
    (state : CompressedState) (ev : ExpressionEvaluator) (hl : Loaded g state ev)
    (edgeCombination : AutomataEdgeSets) (outputActionIndex : Nat) (cb : StateToIdCallback σ)
    (hcb : StateToIdCallback.Interning cb) (fuel : Nat) (iteratorList : List Nat)
    (result : List Choice) (st : σ) (choices : List Choice) (ev1 : ExpressionEvaluator)
    (st1 : σ)
    (h : expandSynchronizingEdgeCombination.loop g edgeCombination outputActionIndex state cb
      fuel iteratorList result ev st = .ok (choices, ev1, st1)) :
    ev1 = ev ∧ StateToIdCallback.Reaches cb st st1
      ∧ ∀ later, StateToIdCallback.Reaches cb st1 later →
          ∃ later1,
            expandSynchronizingEdgeCombination.loop g edgeCombination outputActionIndex state
                cb fuel iteratorList result ev later
              = .ok (choices, ev, later1)
            ∧ StateToIdCallback.Reaches cb later later1 := by
  induction fuel generalizing iteratorList result st with
  | zero => simp only [expandSynchronizingEdgeCombination.loop] at h; cases h
  | succ fuel ih =>
    unfold expandSynchronizingEdgeCombination.loop at h
    cases hd : expandSynchronizingEdgeCombination.dereference edgeCombination iteratorList with
    | none => simp only [hd] at h; cases h
    | some edges =>
      simp only [hd] at h
      cases hc : expandSynchronizingEdgeCombination.choice g edges outputActionIndex state cb
          ev st with
      | error x => simp only [hc] at h; cases h
      | ok r =>
        obtain ⟨choice, ev2, st2⟩ := r
        obtain ⟨hev2, hreach2, hreplay2⟩ := expandSynchronizingEdgeCombination.choice_replay g
          hclosed state ev hl edges outputActionIndex cb hcb st choice ev2 st2 hc
        subst hev2
        simp only [hc] at h
        by_cases hm : (expandSynchronizingEdgeCombination.advance edgeCombination
            iteratorList).2 = true
        · rw [if_pos hm] at h
          obtain ⟨hev1, hreach1, hreplay1⟩ := ih _ _ _ h
          refine ⟨hev1, hreach2.reaches_trans hreach1, fun later hlater => ?_⟩
          obtain ⟨l1, hs1, hl1⟩ := hreplay2 later (hreach1.reaches_trans hlater)
          obtain ⟨l2, hs2, hl2⟩ := hreplay1 l1 (hlater.reaches_trans hl1)
          refine ⟨l2, ?_, hl1.reaches_trans hl2⟩
          unfold expandSynchronizingEdgeCombination.loop
          simp only [hd, hs1]
          rw [if_pos hm]
          exact hs2
        · rw [if_neg hm] at h
          simp only [Except.ok.injEq, Prod.mk.injEq] at h
          obtain ⟨hres, he, hs⟩ := h
          subst hs
          refine ⟨he.symm, hreach2, fun later hlater => ?_⟩
          obtain ⟨l1, hs1, hl1⟩ := hreplay2 later hlater
          refine ⟨l1, ?_, hl1⟩
          unfold expandSynchronizingEdgeCombination.loop
          simp only [hd, hs1]
          rw [if_neg hm, hres]

/-- A returning call of `expandSynchronizingEdgeCombination` with the loaded evaluator
returns the loaded evaluator, and can be repeated in every later state of an interning
callback, with the same choices. -/
theorem expandSynchronizingEdgeCombination_replay {σ : Type} (g : JaniNextStateGenerator)
    (hclosed : g.transientVariableInformation.Closed) (state : CompressedState)
    (ev : ExpressionEvaluator) (hl : Loaded g state ev) (edgeCombination : AutomataEdgeSets)
    (outputActionIndex : Nat) (cb : StateToIdCallback σ)
    (hcb : StateToIdCallback.Interning cb) (st : σ) (choices : List Choice)
    (ev1 : ExpressionEvaluator) (st1 : σ)
    (h : expandSynchronizingEdgeCombination g edgeCombination outputActionIndex state cb ev st
      = .ok (choices, ev1, st1)) :
    ev1 = ev ∧ StateToIdCallback.Reaches cb st st1
      ∧ ∀ later, StateToIdCallback.Reaches cb st1 later →
          ∃ later1,
            expandSynchronizingEdgeCombination g edgeCombination outputActionIndex state cb ev
                later
              = .ok (choices, ev, later1)
            ∧ StateToIdCallback.Reaches cb later later1 := by
  unfold expandSynchronizingEdgeCombination at h
  simp only at h
  have hloop : expandSynchronizingEdgeCombination.loop g edgeCombination outputActionIndex
      state cb ((edgeCombination.map (fun s => s.2.length)).prod)
      (edgeCombination.map (fun _ => 0)) [] ev st = .ok (choices, ev1, st1)
      ∧ (if g.options.explorationChecks = true then
          checkGlobalVariableWritesValid g edgeCombination else .ok ()) = .ok () := by
    by_cases hx : g.options.explorationChecks = true
    · simp only [hx, if_true] at h ⊢
      cases hchk : checkGlobalVariableWritesValid g edgeCombination with
      | error e => simp only [hchk] at h; cases h
      | ok u =>
        simp only [hchk] at h
        exact ⟨h, rfl⟩
    · simp only [hx, if_false, Bool.false_eq_true] at h ⊢
      exact ⟨h, trivial⟩
  obtain ⟨hev1, hreach, hreplay⟩ := expandSynchronizingEdgeCombination.loop_replay g hclosed
    state ev hl edgeCombination outputActionIndex cb hcb _ _ _ st choices ev1 st1 hloop.1
  refine ⟨hev1, hreach, fun later hlater => ?_⟩
  obtain ⟨l1, hs1, hl1⟩ := hreplay later hlater
  refine ⟨l1, ?_, hl1⟩
  unfold expandSynchronizingEdgeCombination
  simp only [hloop.2]
  exact hs1


theorem getActionChoices.nonSynchronizing_cons {σ : Type} (g : JaniNextStateGenerator)
    (output : Option Nat) (automatonIndex : Nat) (state : CompressedState)
    (cb : StateToIdCallback σ) (edgeFilter : EdgeFilter) (indexAndEdge : Nat × Edge)
    (rest : EdgeSetWithIndices) (result : List Choice) (ev : ExpressionEvaluator) (st : σ) :
    getActionChoices.nonSynchronizing g output automatonIndex state cb edgeFilter
        (indexAndEdge :: rest) result ev st
      = if (!getActionChoices.passesFilter edgeFilter indexAndEdge.2) = true then
          getActionChoices.nonSynchronizing g output automatonIndex state cb edgeFilter rest
            result ev st
        else if (!indexAndEdge.2.guard.asBool ev) = true then
          getActionChoices.nonSynchronizing g output automatonIndex state cb edgeFilter rest
            result ev st
        else
          match expandNonSynchronizingEdge g indexAndEdge.2
              (output.getD indexAndEdge.2.actionIndex) automatonIndex state cb ev st with
          | .error e => .error e
          | .ok (choice, ev1, st1) =>
            getActionChoices.nonSynchronizing g output automatonIndex state cb edgeFilter rest
              (result ++ [if g.options.buildChoiceOrigins = true then
                  choice.addOriginData
                    {g.encodeAutomatonAndEdgeIndices automatonIndex indexAndEdge.1}
                else choice]) ev1 st1 := by
  cases output <;> rfl

/-- A returning run of the loop over the edges of a non-synchronizing group with the loaded
evaluator returns the loaded evaluator, and can be repeated in every later state of an
interning callback, with the same choices. -/
theorem getActionChoices.nonSynchronizing_replay {σ : Type} (g : JaniNextStateGenerator)
    (hclosed : g.transientVariableInformation.Closed) (state : CompressedState)
    (ev : ExpressionEvaluator) (hl : Loaded g state ev) (output : Option Nat)
    (automatonIndex : Nat) (cb : StateToIdCallback σ) (hcb : StateToIdCallback.Interning cb)
    (edgeFilter : EdgeFilter) (edges : EdgeSetWithIndices) (result : List Choice) (st : σ)
    (choices : List Choice) (ev1 : ExpressionEvaluator) (st1 : σ)
    (h : getActionChoices.nonSynchronizing g output automatonIndex state cb edgeFilter edges
      result ev st = .ok (choices, ev1, st1)) :
    ev1 = ev ∧ StateToIdCallback.Reaches cb st st1
      ∧ ∀ later, StateToIdCallback.Reaches cb st1 later →
          ∃ later1,
            getActionChoices.nonSynchronizing g output automatonIndex state cb edgeFilter edges
                result ev later
              = .ok (choices, ev, later1)
            ∧ StateToIdCallback.Reaches cb later later1 := by
  induction edges generalizing result st with
  | nil =>
    simp only [getActionChoices.nonSynchronizing, Except.ok.injEq, Prod.mk.injEq] at h
    obtain ⟨hres, he, hs⟩ := h
    subst hs
    refine ⟨he.symm, StateToIdCallback.Reaches.reaches_refl cb _, fun later _ =>
      ⟨later, ?_, StateToIdCallback.Reaches.reaches_refl cb _⟩⟩
    simp only [getActionChoices.nonSynchronizing, hres]
  | cons indexAndEdge rest ih =>
    rw [getActionChoices.nonSynchronizing_cons] at h
    by_cases hpass : (!getActionChoices.passesFilter edgeFilter indexAndEdge.2) = true
    · rw [if_pos hpass] at h
      obtain ⟨hev1, hreach, hreplay⟩ := ih _ _ h
      refine ⟨hev1, hreach, fun later hlater => ?_⟩
      obtain ⟨l1, hs1, hl1⟩ := hreplay later hlater
      refine ⟨l1, ?_, hl1⟩
      rw [getActionChoices.nonSynchronizing_cons, if_pos hpass]
      exact hs1
    · rw [if_neg hpass] at h
      by_cases hguard : (!indexAndEdge.2.guard.asBool ev) = true
      · rw [if_pos hguard] at h
        obtain ⟨hev1, hreach, hreplay⟩ := ih _ _ h
        refine ⟨hev1, hreach, fun later hlater => ?_⟩
        obtain ⟨l1, hs1, hl1⟩ := hreplay later hlater
        refine ⟨l1, ?_, hl1⟩
        rw [getActionChoices.nonSynchronizing_cons, if_neg hpass, if_pos hguard]
        exact hs1
      · rw [if_neg hguard] at h
        cases hexp : expandNonSynchronizingEdge g indexAndEdge.2
            (output.getD indexAndEdge.2.actionIndex) automatonIndex state cb ev st with
        | error x => simp only [hexp] at h; cases h
        | ok r =>
          obtain ⟨choice, ev2, st2⟩ := r
          obtain ⟨hev2, hreach2, hreplay2⟩ := expandNonSynchronizingEdge_replay g hclosed state
            ev hl indexAndEdge.2 _ automatonIndex cb hcb st choice ev2 st2 hexp
          subst hev2
          simp only [hexp] at h
          obtain ⟨hev1, hreach1, hreplay1⟩ := ih _ _ h
          refine ⟨hev1, hreach2.reaches_trans hreach1, fun later hlater => ?_⟩
          obtain ⟨l1, hs1, hl1⟩ := hreplay2 later (hreach1.reaches_trans hlater)
          obtain ⟨l2, hs2, hl2⟩ := hreplay1 l1 (hlater.reaches_trans hl1)
          refine ⟨l2, ?_, hl1.reaches_trans hl2⟩
          rw [getActionChoices.nonSynchronizing_cons, if_neg hpass, if_neg hguard]
          simp only [hs1]
          exact hs2

/-- A returning pass of the loop over the synchronization groups with the loaded evaluator
returns the loaded evaluator, and can be repeated in every later state of an interning
callback, with the same choices. -/
theorem getActionChoices.group_replay {σ : Type} (g : JaniNextStateGenerator)
    (hclosed : g.transientVariableInformation.Closed) (state : CompressedState)
    (ev : ExpressionEvaluator) (hl : Loaded g state ev) (locations : List Nat)
    (cb : StateToIdCallback σ) (hcb : StateToIdCallback.Interning cb)
    (edgeFilter : EdgeFilter) (outputAndEdges : OutputAndEdges) (result : List Choice) (st : σ)
    (choices : List Choice) (ev1 : ExpressionEvaluator) (st1 : σ)
    (h : getActionChoices.group g locations state cb edgeFilter outputAndEdges result ev st
      = .ok (choices, ev1, st1)) :
    ev1 = ev ∧ StateToIdCallback.Reaches cb st st1
      ∧ ∀ later, StateToIdCallback.Reaches cb st1 later →
          ∃ later1,
            getActionChoices.group g locations state cb edgeFilter outputAndEdges result ev later
              = .ok (choices, ev, later1)
            ∧ StateToIdCallback.Reaches cb later later1 := by
  have hsame : ∀ later : σ, (Except.ok (result, ev, st)
        : Except Exception (List Choice × ExpressionEvaluator × σ)) = .ok (choices, ev1, st1) →
      ev1 = ev ∧ StateToIdCallback.Reaches cb st st1
        ∧ (Except.ok (result, ev, later)
            : Except Exception (List Choice × ExpressionEvaluator × σ))
          = .ok (choices, ev, later) := by
    intro later hx
    simp only [Except.ok.injEq, Prod.mk.injEq] at hx
    obtain ⟨hres, he, hs⟩ := hx
    subst hs
    exact ⟨he.symm, StateToIdCallback.Reaches.reaches_refl cb _, by rw [hres]⟩
  have hsync : ∀ automataAndEdges : AutomataAndEdges,
      (match outputAndEdges.1 with
        | none => Except.error Exception.UndefinedBehavior
        | some outputActionIndex =>
          match getActionChoices.automataEdgeSets locations edgeFilter ev automataAndEdges with
          | .error e => .error e
          | .ok none => .ok (result, ev, st)
          | .ok (some automataEdgeSets) =>
            match expandSynchronizingEdgeCombination g automataEdgeSets outputActionIndex state
                cb ev st with
            | .error e => .error e
            | .ok (choices, ev1, st1) => .ok (result ++ choices, ev1, st1))
        = (.ok (choices, ev1, st1)
            : Except Exception (List Choice × ExpressionEvaluator × σ)) →
      ev1 = ev ∧ StateToIdCallback.Reaches cb st st1
        ∧ ∀ later, StateToIdCallback.Reaches cb st1 later →
            ∃ later1,
              (match outputAndEdges.1 with
                | none => Except.error Exception.UndefinedBehavior
                | some outputActionIndex =>
                  match getActionChoices.automataEdgeSets locations edgeFilter ev
                      automataAndEdges with
                  | .error e => .error e
                  | .ok none => .ok (result, ev, later)
                  | .ok (some automataEdgeSets) =>
                    match expandSynchronizingEdgeCombination g automataEdgeSets
                        outputActionIndex state cb ev later with
                    | .error e => .error e
                    | .ok (choices, ev1, st1) => .ok (result ++ choices, ev1, st1))
                = (.ok (choices, ev, later1)
                    : Except Exception (List Choice × ExpressionEvaluator × σ))
              ∧ StateToIdCallback.Reaches cb later later1 := by
    intro automataAndEdges hm
    cases hout : outputAndEdges.1 with
    | none => simp only [hout] at hm; cases hm
    | some outputActionIndex =>
      simp only [hout] at hm ⊢
      cases hsets : getActionChoices.automataEdgeSets locations edgeFilter ev
          automataAndEdges with
      | error x => simp only [hsets] at hm; cases hm
      | ok sets =>
        cases sets with
        | none =>
          simp only [hsets] at hm ⊢
          obtain ⟨h1, h2, _⟩ := hsame st hm
          exact ⟨h1, h2, fun later _ =>
            ⟨later, (hsame later hm).2.2, StateToIdCallback.Reaches.reaches_refl cb _⟩⟩
        | some automataEdgeSets =>
          simp only [hsets] at hm ⊢
          cases hexp : expandSynchronizingEdgeCombination g automataEdgeSets outputActionIndex
              state cb ev st with
          | error x => simp only [hexp] at hm; cases hm
          | ok r =>
            obtain ⟨cs, ev2, st2⟩ := r
            simp only [hexp, Except.ok.injEq, Prod.mk.injEq] at hm
            obtain ⟨hres, he, hs⟩ := hm
            obtain ⟨hev2, hreach, hreplay⟩ := expandSynchronizingEdgeCombination_replay g hclosed
              state ev hl automataEdgeSets outputActionIndex cb hcb st cs ev2 st2 hexp
            subst hs
            refine ⟨by rw [← he, hev2], hreach, fun later hlater => ?_⟩
            obtain ⟨l1, hs1, hl1⟩ := hreplay later hlater
            refine ⟨l1, ?_, hl1⟩
            simp only [hs1, hres]
  unfold getActionChoices.group at h
  rcases hg2 : outputAndEdges.2 with _ | ⟨a, _ | ⟨b, rest⟩⟩
  · simp only [hg2] at h
    obtain ⟨h1, h2, h3⟩ := hsync [] h
    refine ⟨h1, h2, fun later hlater => ?_⟩
    obtain ⟨l1, hs1, hl1⟩ := h3 later hlater
    refine ⟨l1, ?_, hl1⟩
    unfold getActionChoices.group
    simp only [hg2]
    exact hs1
  · simp only [hg2] at h
    cases hloc : locations[a.1]? with
    | none => simp only [hloc] at h; cases h
    | some location =>
      simp only [hloc] at h
      cases hfind : getActionChoices.find a.2 location with
      | none =>
        simp only [hfind] at h
        obtain ⟨h1, h2, _⟩ := hsame st h
        refine ⟨h1, h2, fun later _ => ⟨later, ?_, StateToIdCallback.Reaches.reaches_refl cb _⟩⟩
        unfold getActionChoices.group
        simp only [hg2, hloc, hfind]
        exact (hsame later h).2.2
      | some edges =>
        simp only [hfind] at h
        obtain ⟨h1, h2, h3⟩ := getActionChoices.nonSynchronizing_replay g hclosed state ev hl
          outputAndEdges.1 a.1 cb hcb edgeFilter edges result st choices ev1 st1 h
        refine ⟨h1, h2, fun later hlater => ?_⟩
        obtain ⟨l1, hs1, hl1⟩ := h3 later hlater
        refine ⟨l1, ?_, hl1⟩
        unfold getActionChoices.group
        simp only [hg2, hloc, hfind]
        exact hs1
  · simp only [hg2] at h
    obtain ⟨h1, h2, h3⟩ := hsync (a :: b :: rest) h
    refine ⟨h1, h2, fun later hlater => ?_⟩
    obtain ⟨l1, hs1, hl1⟩ := h3 later hlater
    refine ⟨l1, ?_, hl1⟩
    unfold getActionChoices.group
    simp only [hg2]
    exact hs1

/-- A returning run of the loop over the synchronization groups with the loaded evaluator
returns the loaded evaluator, and can be repeated in every later state of an interning
callback, with the same choices. -/
theorem getActionChoices.groups_replay {σ : Type} (g : JaniNextStateGenerator)
    (hclosed : g.transientVariableInformation.Closed) (state : CompressedState)
    (ev : ExpressionEvaluator) (hl : Loaded g state ev) (locations : List Nat)
    (cb : StateToIdCallback σ) (hcb : StateToIdCallback.Interning cb)
    (edgeFilter : EdgeFilter) (groups : List OutputAndEdges) (result : List Choice) (st : σ)
    (choices : List Choice) (ev1 : ExpressionEvaluator) (st1 : σ)
    (h : getActionChoices.groups g locations state cb edgeFilter groups result ev st
      = .ok (choices, ev1, st1)) :
    ev1 = ev ∧ StateToIdCallback.Reaches cb st st1
      ∧ ∀ later, StateToIdCallback.Reaches cb st1 later →
          ∃ later1,
            getActionChoices.groups g locations state cb edgeFilter groups result ev later
              = .ok (choices, ev, later1)
            ∧ StateToIdCallback.Reaches cb later later1 := by
  induction groups generalizing result st with
  | nil =>
    simp only [getActionChoices.groups, Except.ok.injEq, Prod.mk.injEq] at h
    obtain ⟨hres, he, hs⟩ := h
    subst hs
    refine ⟨he.symm, StateToIdCallback.Reaches.reaches_refl cb _, fun later _ =>
      ⟨later, ?_, StateToIdCallback.Reaches.reaches_refl cb _⟩⟩
    simp only [getActionChoices.groups, hres]
  | cons outputAndEdges rest ih =>
    unfold getActionChoices.groups at h
    cases hgr : getActionChoices.group g locations state cb edgeFilter outputAndEdges result
        ev st with
    | error x => simp only [hgr] at h; cases h
    | ok r =>
      obtain ⟨result2, ev2, st2⟩ := r
      obtain ⟨hev2, hreach2, hreplay2⟩ := getActionChoices.group_replay g hclosed state ev hl
        locations cb hcb edgeFilter outputAndEdges result st result2 ev2 st2 hgr
      subst hev2
      simp only [hgr] at h
      obtain ⟨hev1, hreach1, hreplay1⟩ := ih _ _ h
      refine ⟨hev1, hreach2.reaches_trans hreach1, fun later hlater => ?_⟩
      obtain ⟨l1, hs1, hl1⟩ := hreplay2 later (hreach1.reaches_trans hlater)
      obtain ⟨l2, hs2, hl2⟩ := hreplay1 l1 (hlater.reaches_trans hl1)
      refine ⟨l2, ?_, hl1.reaches_trans hl2⟩
      unfold getActionChoices.groups
      simp only [hs1]
      exact hs2

/-- A returning collection of the choices of a state with the loaded evaluator returns the
loaded evaluator, and can be repeated in every later state of an interning callback, with
the same choices. -/
theorem expand.allChoices_replay {σ : Type} (g : JaniNextStateGenerator)
    (hclosed : g.transientVariableInformation.Closed) (state : CompressedState)
    (ev : ExpressionEvaluator) (hl : Loaded g state ev) (locations : List Nat)
    (cb : StateToIdCallback σ) (hcb : StateToIdCallback.Interning cb) (st : σ)
    (choices : List Choice) (ev1 : ExpressionEvaluator) (st1 : σ)
    (h : expand.allChoices g locations state cb ev st = .ok (choices, ev1, st1)) :
    ev1 = ev ∧ StateToIdCallback.Reaches cb st st1
      ∧ ∀ later, StateToIdCallback.Reaches cb st1 later →
          ∃ later1,
            expand.allChoices g locations state cb ev later = .ok (choices, ev, later1)
            ∧ StateToIdCallback.Reaches cb later later1 := by
  unfold expand.allChoices at h
  by_cases hmax : g.options.applyMaximalProgressAssumption = true
  · rw [if_pos hmax] at h
    cases hfirst : getActionChoices g locations state cb EdgeFilter.WithoutRate ev st with
    | error x => simp only [hfirst] at h; cases h
    | ok r =>
      obtain ⟨cs, ev2, st2⟩ := r
      obtain ⟨hev2, hreach2, hreplay2⟩ := getActionChoices.groups_replay g hclosed state ev hl
        locations cb hcb EdgeFilter.WithoutRate g.edges [] st cs ev2 st2 hfirst
      subst hev2
      simp only [hfirst] at h
      by_cases hempty : cs.isEmpty = true
      · rw [if_pos hempty] at h
        obtain ⟨hev1, hreach1, hreplay1⟩ := getActionChoices.groups_replay g hclosed state ev2
          hl locations cb hcb EdgeFilter.WithRate g.edges [] st2 choices ev1 st1 h
        refine ⟨hev1, hreach2.reaches_trans hreach1, fun later hlater => ?_⟩
        obtain ⟨l1, hs1, hl1⟩ := hreplay2 later (hreach1.reaches_trans hlater)
        obtain ⟨l2, hs2, hl2⟩ := hreplay1 l1 (hlater.reaches_trans hl1)
        refine ⟨l2, ?_, hl1.reaches_trans hl2⟩
        unfold expand.allChoices
        rw [if_pos hmax]
        unfold getActionChoices
        simp only [hs1]
        rw [if_pos hempty]
        exact hs2
      · rw [if_neg hempty] at h
        simp only [Except.ok.injEq, Prod.mk.injEq] at h
        obtain ⟨hres, he, hs⟩ := h
        subst hs
        refine ⟨he.symm, hreach2, fun later hlater => ?_⟩
        obtain ⟨l1, hs1, hl1⟩ := hreplay2 later hlater
        refine ⟨l1, ?_, hl1⟩
        unfold expand.allChoices
        rw [if_pos hmax]
        unfold getActionChoices
        simp only [hs1]
        rw [if_neg hempty, hres]
  · rw [if_neg hmax] at h
    obtain ⟨hev1, hreach1, hreplay1⟩ := getActionChoices.groups_replay g hclosed state ev hl
      locations cb hcb EdgeFilter.All g.edges [] st choices ev1 st1 h
    refine ⟨hev1, hreach1, fun later hlater => ?_⟩
    obtain ⟨l1, hs1, hl1⟩ := hreplay1 later hlater
    refine ⟨l1, ?_, hl1⟩
    unfold expand.allChoices
    rw [if_neg hmax]
    exact hs1

theorem expand.locationAssignments_within (g : JaniNextStateGenerator)
    (hclosed : g.transientVariableInformation.Closed) (ev : ExpressionEvaluator)
    (automata : List Automaton) (locations : List Nat) (t t1 : TransientVariableValuation)
    (h : expand.locationAssignments g ev automata locations t = .ok t1)
    (ht : t.Within g.transientVariableInformation) :
    t1.Within g.transientVariableInformation := by
  induction automata generalizing locations t with
  | nil =>
    simp only [expand.locationAssignments, Except.ok.injEq] at h
    rw [← h]; exact ht
  | cons automaton rest ih =>
    cases locations with
    | nil => simp only [expand.locationAssignments] at h; cases h
    | cons l locations =>
      unfold expand.locationAssignments at h
      cases hloc : automaton.locations[l]? with
      | none => simp only [hloc] at h; cases h
      | some location =>
        simp only [hloc] at h
        cases htr : applyTransientUpdate g t location.assignments.getAllTransientAssignments
            ev with
        | error x => simp only [htr] at h; cases h
        | ok t2 =>
          simp only [htr] at h
          exact ih _ _ h (applyTransientUpdate_within g hclosed _ _ _ _ htr ht)

/-- The evaluator that the state-reward step of `expand` returns is the loaded one. -/
theorem expand.stateRewards_restore (g : JaniNextStateGenerator)
    (hclosed : g.transientVariableInformation.Closed) (state : CompressedState)
    (ev : ExpressionEvaluator) (hl : Loaded g state ev) (rewards : List ℚ)
    (ev1 : ExpressionEvaluator)
    (h : expand.stateRewards g state ev = .ok (rewards, ev1)) : ev1 = ev := by
  unfold expand.stateRewards at h
  cases hla : expand.locationAssignments g ev g.parallelAutomata
      (getLocations g.variableInformation state) TransientVariableValuation.clear with
  | error x => simp only [hla] at h; cases h
  | ok t =>
    simp only [hla, Except.ok.injEq, Prod.mk.injEq] at h
    rw [← h.2]
    have he : g.AgreeOffTransients ev ev := ExpressionEvaluator.AgreeOutside.refl _ _ _ _
    exact hl.restore_transients (he.setInEvaluator t
      (expand.locationAssignments_within g hclosed ev _ _ _ t hla
        (TransientVariableValuation.clear_within _)))

/-- A returning call of `expand` with the loaded evaluator returns the loaded evaluator,
and can be repeated in every later state of an interning callback, with the same
behaviour. -/
theorem expand_replay {σ : Type} (g : JaniNextStateGenerator)
    (hclosed : g.transientVariableInformation.Closed) (state : CompressedState)
    (ev : ExpressionEvaluator) (hl : Loaded g state ev) (cb : StateToIdCallback σ)
    (hcb : StateToIdCallback.Interning cb) (st : σ) (behavior : StateBehavior)
    (ev1 : ExpressionEvaluator) (st1 : σ)
    (h : expand g state cb ev st = .ok (behavior, ev1, st1)) :
    ev1 = ev ∧ StateToIdCallback.Reaches cb st st1
      ∧ ∀ later, StateToIdCallback.Reaches cb st1 later →
          ∃ later1, expand g state cb ev later = .ok (behavior, ev, later1)
            ∧ StateToIdCallback.Reaches cb later later1 := by
  unfold expand at h
  simp only at h
  cases hsr : expand.stateRewards g state ev with
  | error x => simp only [hsr] at h; cases h
  | ok r =>
    obtain ⟨stateRewards, ev2⟩ := r
    have hev2 := expand.stateRewards_restore g hclosed state ev hl stateRewards ev2 hsr
    subst hev2
    simp only [hsr] at h
    by_cases hterm : expand.isTerminal g ev2 = true
    · rw [if_pos hterm] at h
      simp only [Except.ok.injEq, Prod.mk.injEq] at h
      obtain ⟨hb, he, hs⟩ := h
      subst hs
      refine ⟨he.symm, StateToIdCallback.Reaches.reaches_refl cb _, fun later _ =>
        ⟨later, ?_, StateToIdCallback.Reaches.reaches_refl cb _⟩⟩
      unfold expand
      simp only [hsr]
      rw [if_pos hterm, hb]
    · rw [if_neg hterm] at h
      cases hall : expand.allChoices g (getLocations g.variableInformation state) state cb ev2
          st with
      | error x => simp only [hall] at h; cases h
      | ok r =>
        obtain ⟨allChoices, ev3, st3⟩ := r
        obtain ⟨hev3, hreach3, hreplay3⟩ := expand.allChoices_replay g hclosed state ev2 hl _
          cb hcb st allChoices ev3 st3 hall
        subst hev3
        simp only [hall] at h
        by_cases hzero : allChoices.length = 0
        · rw [if_pos hzero] at h
          simp only [Except.ok.injEq, Prod.mk.injEq] at h
          obtain ⟨hb, he, hs⟩ := h
          subst hs
          refine ⟨he.symm, hreach3, fun later hlater => ?_⟩
          obtain ⟨l1, hs1, hl1⟩ := hreplay3 later hlater
          refine ⟨l1, ?_, hl1⟩
          unfold expand
          simp only [hsr]
          rw [if_neg hterm]
          simp only [hs1]
          rw [if_pos hzero, hb]
        · rw [if_neg hzero] at h
          by_cases hdet : (g.isDeterministicModel && decide (allChoices.length > 1)) = true
          · rw [if_pos hdet] at h
            cases hfuse : expand.fuse g allChoices with
            | error x => simp only [hfuse] at h; cases h
            | ok globalChoice =>
            simp only [hfuse, Except.ok.injEq, Prod.mk.injEq] at h
            obtain ⟨hb, he, hs⟩ := h
            have hreach4 : StateToIdCallback.Reaches cb st3 st1 := by
              rw [← hs]
              by_cases hadd : g.options.addOverlappingGuardLabel = true
              · rw [if_pos hadd]; exact StateToIdCallback.Reaches.step cb _ _
              · rw [if_neg hadd]; exact StateToIdCallback.Reaches.reaches_refl cb _
            refine ⟨he.symm, hreach3.reaches_trans hreach4, fun later hlater => ?_⟩
            obtain ⟨l1, hs1, hl1⟩ := hreplay3 later (hreach4.reaches_trans hlater)
            refine ⟨if g.options.addOverlappingGuardLabel = true then (cb state l1).2 else l1,
              ?_, ?_⟩
            · unfold expand
              simp only [hsr]
              rw [if_neg hterm]
              simp only [hs1]
              rw [if_neg hzero, if_pos hdet]
              simp only [hfuse]
              rw [hb]
            · apply hl1.reaches_trans
              by_cases hadd : g.options.addOverlappingGuardLabel = true
              · rw [if_pos hadd]; exact StateToIdCallback.Reaches.step cb _ _
              · rw [if_neg hadd]; exact StateToIdCallback.Reaches.reaches_refl cb _
          · rw [if_neg hdet] at h
            simp only [Except.ok.injEq, Prod.mk.injEq] at h
            obtain ⟨hb, he, hs⟩ := h
            subst hs
            refine ⟨he.symm, hreach3, fun later hlater => ?_⟩
            obtain ⟨l1, hs1, hl1⟩ := hreplay3 later hlater
            refine ⟨l1, ?_, hl1⟩
            unfold expand
            simp only [hsr]
            rw [if_neg hterm]
            simp only [hs1]
            rw [if_neg hzero, if_neg hdet, hb]


theorem Examples.tableCallback_grows (table later : List CompressedState)
    (h : StateToIdCallback.Reaches Examples.tableCallback table later) :
    ∃ more, later = table ++ more := by
  obtain ⟨states, rfl⟩ := h
  induction states generalizing table with
  | nil => exact ⟨[], by simp⟩
  | cons s rest ih =>
    obtain ⟨more, hmore⟩ := ih (Examples.tableCallback s table).2
    simp only [List.foldl_cons]
    rw [hmore]
    unfold Examples.tableCallback
    by_cases hs : s ∈ table
    · exact ⟨more, by simp only [hs, if_true]⟩
    · exact ⟨[s] ++ more, by simp only [hs, if_false, List.append_assoc]⟩

theorem Examples.position_append_of_mem (s : CompressedState)
    (table more : List CompressedState) (h : s ∈ table) :
    Examples.position s (table ++ more) = Examples.position s table := by
  induction table with
  | nil => exact absurd h (List.not_mem_nil s)
  | cons t rest ih =>
    simp only [List.cons_append, Examples.position]
    by_cases hst : s = t
    · rw [if_pos hst, if_pos hst]
    · rw [if_neg hst, if_neg hst]
      rcases List.mem_cons.1 h with h1 | h1
      · exact absurd h1 hst
      · exact congrArg (fun n => n + 1) (ih h1)

theorem Examples.position_append_self (s : CompressedState) (table : List CompressedState)
    (h : s ∉ table) :
    Examples.position s (table ++ [s]) = Examples.position s table := by
  induction table with
  | nil => simp [Examples.position]
  | cons t rest ih =>
    simp only [List.cons_append, Examples.position]
    have hst : s ≠ t := fun hst => h (hst ▸ List.mem_cons_self _ _)
    rw [if_neg hst, if_neg hst]
    exact congrArg (fun n => n + 1) (ih (fun hm => h (List.mem_cons_of_mem _ hm)))

/-- The table callback is an interning callback. -/
theorem Examples.tableCallback_interning :
    StateToIdCallback.Interning Examples.tableCallback := by
  intro s table later hlater
  obtain ⟨more, hmore⟩ := Examples.tableCallback_grows _ _ hlater
  have hmem : s ∈ (Examples.tableCallback s table).2 := by
    unfold Examples.tableCallback
    by_cases hs : s ∈ table
    · simp only [hs, if_true]
    · simp only [hs, if_false, List.mem_append, List.mem_singleton, or_true]
  have hidx : Examples.position s (Examples.tableCallback s table).2
      = Examples.position s table := by
    unfold Examples.tableCallback
    by_cases hs : s ∈ table
    · simp only [hs, if_true]
    · simp only [hs, if_false]
      exact Examples.position_append_self s table hs
  show Examples.position s later = Examples.position s table
  rw [hmore, Examples.position_append_of_mem s _ more hmem, hidx]

/-- C20: `expand` is deterministic and leaves no residue.

Let the evaluator be loaded with the state (unpacking the state and setting the transient
defaults change nothing), let the array replacements of the transient variable information
be listed transient variables, and let the callback be an interning function (a state that
has been given an id is given the same id by every later call).  When `expand` returns a
behaviour:

(1) the evaluator it returns is the loaded evaluator it was given;

(2) the next invocation of `expand` on the same state, with the evaluator and the callback
state that the first one left behind, returns the same behaviour: the same state rewards
and the same choices (action indices, successor maps, reward vectors, origins) in the same
order;

(3) so does every later invocation, whatever states the callback has been handed in
between;

(4) the reason: every pass of the loop over the destinations of an edge, and every pass of
the loop over the destination tuples of a synchronized edge combination, that starts with
the loaded evaluator ends with the loaded evaluator. -/
theorem expand_deterministic {σ : Type} (g : JaniNextStateGenerator)
    (hclosed : g.transientVariableInformation.Closed) (state : CompressedState)
    (ev : ExpressionEvaluator) (hl : Loaded g state ev) (cb : StateToIdCallback σ)
    (hcb : StateToIdCallback.Interning cb) (st : σ) (behavior : StateBehavior)
    (ev1 : ExpressionEvaluator) (st1 : σ)
    (h : expand g state cb ev st = .ok (behavior, ev1, st1)) :
    ev1 = ev
      ∧ (∃ st2, expand g state cb ev1 st1 = .ok (behavior, ev1, st2))
      ∧ (∀ later, StateToIdCallback.Reaches cb st1 later →
          ∃ later1, expand g state cb ev1 later = .ok (behavior, ev1, later1))
      ∧ (∀ (edge : Edge) (automatonIndex : Nat) (exitRate : Option ℚ)
            (acc acc1 : ExpandEdgeState σ) (destination : EdgeDestination),
          acc.evaluator = ev →
          expandNonSynchronizingEdge.destinationStep g edge automatonIndex state cb exitRate acc
              destination = .ok acc1 →
          acc1.evaluator = ev)
      ∧ (∀ (edges : List (Nat × Nat × Edge)) (info : SynchronizedEdgeInformation)
            (acc acc1 : SynchronizedDistributionState σ) (destinationId : Nat),
          acc.evaluator = ev →
          generateSynchronizedDistribution.destinationStep g state edges info cb acc
              destinationId = .ok acc1 →
          acc1.evaluator = ev) := by
  obtain ⟨hev, _, hreplay⟩ := expand_replay g hclosed state ev hl cb hcb st behavior ev1 st1 h
  subst hev
  refine ⟨rfl, ?_, ?_, ?_, ?_⟩
  · obtain ⟨st2, h2, _⟩ := hreplay st1 (StateToIdCallback.Reaches.reaches_refl cb _)
    exact ⟨st2, h2⟩
  · intro later hlater
    obtain ⟨later1, h2, _⟩ := hreplay later hlater
    exact ⟨later1, h2⟩
  · intro edge automatonIndex exitRate acc acc1 destination hacc hstep
    exact (expandNonSynchronizingEdge.destinationStep_spec g hclosed state ev1 hl edge
      automatonIndex cb exitRate acc hacc destination acc1 hstep).1
  · intro edges info acc acc1 destinationId hacc hstep
    exact (generateSynchronizedDistribution.tupleStep_spec g hclosed state ev1 hl edges
      info cb acc hacc destinationId acc1 hstep).1

/-- Witness for C20: the blocked-synchronization model at location 0 of the receiver, with
the table callback: both invocations return the Markovian choice that leads to state 0
with rate 2. -/
theorem expand_deterministic_witness :
    ∃ behavior st1 st2,
      expand Examples.blockedGenerator [false] Examples.tableCallback Examples.zeroEvaluator []
          = .ok (behavior, Examples.zeroEvaluator, st1)
        ∧ expand Examples.blockedGenerator [false] Examples.tableCallback
            Examples.zeroEvaluator st1
          = .ok (behavior, Examples.zeroEvaluator, st2)
        ∧ behavior.choices.map (fun c => c.distribution.map (fun p => p.1)) = [[0]] := by
  obtain ⟨behavior, e, s, h, hc⟩ : ∃ behavior e s,
      expand Examples.blockedGenerator [false] Examples.tableCallback Examples.zeroEvaluator []
          = .ok (behavior, e, s)
        ∧ behavior.choices.map (fun c => c.distribution.map (fun p => p.1)) = [[0]] :=
    ⟨_, _, _, rfl, rfl⟩
  obtain ⟨he, ⟨st2, h2⟩, _⟩ := expand_deterministic Examples.blockedGenerator
    Examples.noTransientVariables_closed [false] Examples.zeroEvaluator ⟨rfl, rfl⟩
    Examples.tableCallback Examples.tableCallback_interning [] behavior e s h
  subst he
  exact ⟨behavior, s, st2, h, h2, hc⟩

/-! ## Action index and Markovian flag of the choices -/

theorem Choice.foldl_addProbability_header (entries : List (Nat × ℚ)) (c : Choice) :
    (entries.foldl (fun c p => c.addProbability p.1 p.2) c).actionIndex = c.actionIndex
      ∧ (entries.foldl (fun c p => c.addProbability p.1 p.2) c).markovian = c.markovian := by
  induction entries generalizing c with
  | nil => exact ⟨rfl, rfl⟩
  | cons p rest ih =>
    simp only [List.foldl_cons]
    exact ⟨(ih _).1, (ih _).2⟩

theorem expandNonSynchronizingEdge.destinationStep_header {σ : Type}
    (g : JaniNextStateGenerator) (edge : Edge) (automatonIndex : Nat) (state : CompressedState)
    (cb : StateToIdCallback σ) (exitRate : Option ℚ) (acc : ExpandEdgeState σ)
    (destination : EdgeDestination) (acc1 : ExpandEdgeState σ)
    (h : expandNonSynchronizingEdge.destinationStep g edge automatonIndex state cb exitRate acc
      destination = .ok acc1) :
    acc1.choice.actionIndex = acc.choice.actionIndex
      ∧ acc1.choice.markovian = acc.choice.markovian := by
  unfold expandNonSynchronizingEdge.destinationStep at h
  by_cases hp : destination.probability.asRational acc.evaluator = 0
  · simp only [hp, if_true, Except.ok.injEq] at h
    subst h
    exact ⟨rfl, rfl⟩
  · simp only [hp, if_false] at h
    cases hlv : g.variableInformation.locationVariables[automatonIndex]? with
    | none => simp only [hlv] at h; cases h
    | some lv =>
      simp only [hlv] at h
      cases hsucc : expandNonSynchronizingEdge.successor g edge destination lv state
          acc.evaluator with
      | error x => simp only [hsucc] at h; cases h
      | ok r =>
        obtain ⟨newState, e1⟩ := r
        simp only [hsucc, Except.ok.injEq] at h
        subst h
        exact ⟨rfl, rfl⟩

theorem expandNonSynchronizingEdge.destinationLoop_header {σ : Type}
    (g : JaniNextStateGenerator) (edge : Edge) (automatonIndex : Nat) (state : CompressedState)
    (cb : StateToIdCallback σ) (exitRate : Option ℚ) (destinations : List EdgeDestination)
    (acc acc1 : ExpandEdgeState σ)
    (h : expandNonSynchronizingEdge.destinationLoop g edge automatonIndex state cb exitRate
      destinations acc = .ok acc1) :
    acc1.choice.actionIndex = acc.choice.actionIndex
      ∧ acc1.choice.markovian = acc.choice.markovian := by
  induction destinations generalizing acc with
  | nil =>
    simp only [expandNonSynchronizingEdge.destinationLoop, Except.ok.injEq] at h
    subst h
    exact ⟨rfl, rfl⟩
  | cons d rest ih =>
    unfold expandNonSynchronizingEdge.destinationLoop at h
    cases hstep : expandNonSynchronizingEdge.destinationStep g edge automatonIndex state cb
        exitRate acc d with
    | error x => simp only [hstep] at h; cases h
    | ok acc2 =>
      simp only [hstep] at h
      obtain ⟨h1, h2⟩ := expandNonSynchronizingEdge.destinationStep_header g edge automatonIndex
        state cb exitRate acc d acc2 hstep
      obtain ⟨h3, h4⟩ := ih acc2 h
      exact ⟨h3.trans h1, h4.trans h2⟩

/-- The choice that `expandNonSynchronizingEdge` returns has the action index of the edge
and is Markovian exactly when the edge has a rate. -/
theorem expandNonSynchronizingEdge_header {σ : Type} (g : JaniNextStateGenerator) (edge : Edge)
    (outputActionIndex automatonIndex : Nat) (state : CompressedState)
    (cb : StateToIdCallback σ) (ev : ExpressionEvaluator) (st : σ) (choice : Choice)
    (ev1 : ExpressionEvaluator) (st1 : σ)
    (h : expandNonSynchronizingEdge g edge outputActionIndex automatonIndex state cb ev st
      = .ok (choice, ev1, st1)) :
    choice.actionIndex = edge.actionIndex ∧ choice.markovian = edge.hasRate := by
  unfold expandNonSynchronizingEdge at h
  simp only at h
  cases hr : expandNonSynchronizingEdge.edgeRewards g edge ev with
  | error x => simp only [hr] at h; cases h
  | ok rew =>
    obtain ⟨rewards0, ev2⟩ := rew
    simp only [hr] at h
    cases hloop : expandNonSynchronizingEdge.destinationLoop g edge automatonIndex state cb
        (Option.map (fun rate => rate.asRational ev) edge.rate) edge.destinations
        { choice := Choice.create edge.actionIndex
            (Option.map (fun rate => rate.asRational ev) edge.rate).isSome,
          stateActionRewards := rewards0, probabilitySum := 0, evaluator := ev2,
          callbackState := st } with
    | error x => simp only [hloop] at h; cases h
    | ok acc =>
      simp only [hloop] at h
      rw [ite_error_eq_ok] at h
      obtain ⟨_, hx⟩ := h
      simp only [Prod.mk.injEq] at hx
      obtain ⟨h1, h2⟩ := expandNonSynchronizingEdge.destinationLoop_header g edge automatonIndex
        state cb _ edge.destinations _ acc hloop
      rw [← hx.1]
      refine ⟨h1, ?_⟩
      show acc.choice.markovian = edge.hasRate
      rw [h2]
      unfold Edge.hasRate
      cases edge.rate <;> rfl

theorem getActionChoices.nonSynchronizing_header {σ : Type} (g : JaniNextStateGenerator)
    (output : Option Nat) (automatonIndex : Nat) (state : CompressedState)
    (cb : StateToIdCallback σ) (edgeFilter : EdgeFilter) (edges : EdgeSetWithIndices)
    (result : List Choice) (ev : ExpressionEvaluator) (st : σ) (result1 : List Choice)
    (ev1 : ExpressionEvaluator) (st1 : σ)
    (h : getActionChoices.nonSynchronizing g output automatonIndex state cb edgeFilter edges
      result ev st = .ok (result1, ev1, st1)) :
    ∃ added : List Choice, result1 = result ++ added
      ∧ ∀ c ∈ added, ∃ indexAndEdge ∈ edges,
          c.actionIndex = indexAndEdge.2.actionIndex ∧ c.markovian = indexAndEdge.2.hasRate := by
  induction edges generalizing result ev st with
  | nil =>
    simp only [getActionChoices.nonSynchronizing, Except.ok.injEq, Prod.mk.injEq] at h
    exact ⟨[], by rw [← h.1]; simp, fun c hc => absurd hc (List.not_mem_nil c)⟩
  | cons indexAndEdge rest ih =>
    rw [getActionChoices.nonSynchronizing_cons] at h
    have hrest : ∀ (ev2 : ExpressionEvaluator) (st2 : σ),
        getActionChoices.nonSynchronizing g output automatonIndex state cb edgeFilter rest
          result ev2 st2 = .ok (result1, ev1, st1) →
        ∃ added : List Choice, result1 = result ++ added
          ∧ ∀ c ∈ added, ∃ e ∈ indexAndEdge :: rest,
              c.actionIndex = e.2.actionIndex ∧ c.markovian = e.2.hasRate := by
      intro ev2 st2 h2
      obtain ⟨added, h3, h4⟩ := ih _ _ _ h2
      refine ⟨added, h3, fun c hc => ?_⟩
      obtain ⟨e, he, hce⟩ := h4 c hc
      exact ⟨e, List.mem_cons_of_mem _ he, hce⟩
    by_cases hpass : (!getActionChoices.passesFilter edgeFilter indexAndEdge.2) = true
    · rw [if_pos hpass] at h
      exact hrest _ _ h
    · rw [if_neg hpass] at h
      by_cases hguard : (!indexAndEdge.2.guard.asBool ev) = true
      · rw [if_pos hguard] at h
        exact hrest _ _ h
      · rw [if_neg hguard] at h
        cases hexp : expandNonSynchronizingEdge g indexAndEdge.2
            (output.getD indexAndEdge.2.actionIndex) automatonIndex state cb ev st with
        | error x => simp only [hexp] at h; cases h
        | ok r =>
          obtain ⟨choice, ev2, st2⟩ := r
          simp only [hexp] at h
          obtain ⟨hidx, hmark⟩ := expandNonSynchronizingEdge_header g indexAndEdge.2 _
            automatonIndex state cb ev st choice ev2 st2 hexp
          obtain ⟨added, h3, h4⟩ := ih _ _ _ h
          refine ⟨(if g.options.buildChoiceOrigins = true then
              choice.addOriginData
                {g.encodeAutomatonAndEdgeIndices automatonIndex indexAndEdge.1}
            else choice) :: added, by rw [h3]; simp, fun c hc => ?_⟩
          rcases List.mem_cons.1 hc with hc1 | hc1
          · refine ⟨indexAndEdge, List.mem_cons_self _ _, ?_⟩
            rw [hc1]
            by_cases hb : g.options.buildChoiceOrigins = true
            · rw [if_pos hb]
              exact ⟨hidx, hmark⟩
            · rw [if_neg hb]
              exact ⟨hidx, hmark⟩
          · obtain ⟨e, he, hce⟩ := h4 c hc1
            exact ⟨e, List.mem_cons_of_mem _ he, hce⟩

/-- C27: the action index of the choice of a non-synchronizing edge.

(1) The result of `expandNonSynchronizingEdge` does not depend on the `outputActionIndex`
it is passed.

(2) The choice it returns carries the action index of the edge, and it is flagged
Markovian exactly when the edge has a rate.

(3) For a synchronization group with an output action and exactly one participating
automaton, every choice that `getActionChoices` appends for the group carries the action
index of the edge it was built from (an edge that the group lists under the current
location of the automaton), not the output action index of the group, and is Markovian
exactly when that edge has a rate. -/
theorem expandNonSynchronizingEdge_action_index {σ : Type} (g : JaniNextStateGenerator)
    (edge : Edge) (outputActionIndex automatonIndex : Nat) (state : CompressedState)
    (cb : StateToIdCallback σ) (ev : ExpressionEvaluator) (st : σ) (choice : Choice)
    (ev1 : ExpressionEvaluator) (st1 : σ)
    (h : expandNonSynchronizingEdge g edge outputActionIndex automatonIndex state cb ev st
      = .ok (choice, ev1, st1)) :
    (∀ other : Nat,
        expandNonSynchronizingEdge g edge other automatonIndex state cb ev st
          = .ok (choice, ev1, st1))
      ∧ choice.actionIndex = edge.actionIndex
      ∧ (choice.markovian = true ↔ edge.hasRate = true)
      ∧ (∀ (locations : List Nat) (edgeFilter : EdgeFilter) (output : Nat)
            (automatonAndEdges : Nat × LocationsAndEdges) (result result1 : List Choice)
            (ev2 : ExpressionEvaluator) (st2 : σ),
          getActionChoices.group g locations state cb edgeFilter
              (some output, [automatonAndEdges]) result ev st = .ok (result1, ev2, st2) →
          ∃ added : List Choice, result1 = result ++ added
            ∧ ∀ c ∈ added, ∃ location edges indexAndEdge,
                locations[automatonAndEdges.1]? = some location
                ∧ getActionChoices.find automatonAndEdges.2 location = some edges
                ∧ indexAndEdge ∈ edges
                ∧ c.actionIndex = indexAndEdge.2.actionIndex
                ∧ (c.markovian = true ↔ indexAndEdge.2.hasRate = true)) := by
  obtain ⟨hidx, hmark⟩ := expandNonSynchronizingEdge_header g edge outputActionIndex
    automatonIndex state cb ev st choice ev1 st1 h
  refine ⟨fun other => h, hidx, by rw [hmark], ?_⟩
  intro locations edgeFilter output automatonAndEdges result result1 ev2 st2 hgroup
  unfold getActionChoices.group at hgroup
  simp only at hgroup
  cases hloc : locations[automatonAndEdges.1]? with
  | none => simp only [hloc] at hgroup; cases hgroup
  | some location =>
    simp only [hloc] at hgroup
    cases hfind : getActionChoices.find automatonAndEdges.2 location with
    | none =>
      simp only [hfind, Except.ok.injEq, Prod.mk.injEq] at hgroup
      exact ⟨[], by rw [← hgroup.1]; simp, fun c hc => absurd hc (List.not_mem_nil c)⟩
    | some edges =>
      simp only [hfind] at hgroup
      obtain ⟨added, h1, h2⟩ := getActionChoices.nonSynchronizing_header g _ _ state cb
        edgeFilter edges result ev st result1 ev2 st2 hgroup
      refine ⟨added, h1, fun c hc => ?_⟩
      obtain ⟨e, he, hce1, hce2⟩ := h2 c hc
      exact ⟨location, edges, e, rfl, hfind, he, hce1, by rw [hce2]⟩

/-- Witness for C27: an edge with action index 0 expanded with the output action index 7. -/
theorem expandNonSynchronizingEdge_action_index_witness :
    ∃ choice ev1 st1,
      expandNonSynchronizingEdge (Examples.coinGenerator ModelType.MDP)
          (Examples.coin (1 / 2) (1 / 2) none) 7 0 [false] recordingCallback
          Examples.zeroEvaluator [] = .ok (choice, ev1, st1)
        ∧ choice.actionIndex = 0 ∧ (choice.markovian = true ↔ False) := by
  obtain ⟨choice, ev1, st1, h⟩ : ∃ choice ev1 st1,
      expandNonSynchronizingEdge (Examples.coinGenerator ModelType.MDP)
          (Examples.coin (1 / 2) (1 / 2) none) 7 0 [false] recordingCallback
          Examples.zeroEvaluator [] = .ok (choice, ev1, st1) :=
    ⟨_, _, _, by with_unfolding_all rfl⟩
  obtain ⟨_, h1, h2, _⟩ := expandNonSynchronizingEdge_action_index
    (Examples.coinGenerator ModelType.MDP) (Examples.coin (1 / 2) (1 / 2) none) 7 0 [false]
    recordingCallback Examples.zeroEvaluator [] choice ev1 st1 h
  refine ⟨choice, ev1, st1, h, h1, ?_⟩
  rw [h2]
  simp [Examples.coin, Edge.hasRate]

theorem expandSynchronizingEdgeCombination.choice_header {σ : Type}
    (g : JaniNextStateGenerator) (edges : List (Nat × Nat × Edge)) (outputActionIndex : Nat)
    (state : CompressedState) (cb : StateToIdCallback σ) (ev : ExpressionEvaluator) (st : σ)
    (choice : Choice) (ev1 : ExpressionEvaluator) (st1 : σ)
    (h : expandSynchronizingEdgeCombination.choice g edges outputActionIndex state cb ev st
      = .ok (choice, ev1, st1)) :
    choice.actionIndex = outputActionIndex ∧ choice.markovian = false := by
  unfold expandSynchronizingEdgeCombination.choice at h
  cases hg : generateSynchronizedDistribution g state edges []
      (List.replicate g.rewardExpressions.length 0) ∅ cb ev st with
  | error x => simp only [hg] at h; cases h
  | ok r =>
    obtain ⟨distribution, rewards, edgeIndices, ev2, st2⟩ := r
    simp only [hg] at h
    rw [ite_error_eq_ok] at h
    obtain ⟨_, hx⟩ := h
    simp only [Prod.mk.injEq] at hx
    rw [← hx.1]
    obtain ⟨h1, h2⟩ := Choice.foldl_addProbability_header (JitDistribution.compress distribution)
      ((if g.options.buildChoiceOrigins = true then
          (Choice.create outputActionIndex false).addOriginData edgeIndices
        else Choice.create outputActionIndex false).addRewards rewards)
    rw [h1, h2]
    by_cases hb : g.options.buildChoiceOrigins = true
    · rw [if_pos hb]
      exact ⟨rfl, rfl⟩
    · rw [if_neg hb]
      exact ⟨rfl, rfl⟩

theorem expandSynchronizingEdgeCombination.loop_header {σ : Type}
    (g : JaniNextStateGenerator) (edgeCombination : AutomataEdgeSets) (outputActionIndex : Nat)
    (state : CompressedState) (cb : StateToIdCallback σ) (fuel : Nat) (iteratorList : List Nat)
    (result : List Choice) (ev : ExpressionEvaluator) (st : σ) (choices : List Choice)
    (ev1 : ExpressionEvaluator) (st1 : σ)
    (h : expandSynchronizingEdgeCombination.loop g edgeCombination outputActionIndex state cb
      fuel iteratorList result ev st = .ok (choices, ev1, st1))
    (hres : ∀ c ∈ result, c.actionIndex = outputActionIndex ∧ c.markovian = false) :
    ∀ c ∈ choices, c.actionIndex = outputActionIndex ∧ c.markovian = false := by
  induction fuel generalizing iteratorList result ev st with
  | zero => simp only [expandSynchronizingEdgeCombination.loop] at h; cases h
  | succ fuel ih =>
    unfold expandSynchronizingEdgeCombination.loop at h
    cases hd : expandSynchronizingEdgeCombination.dereference edgeCombination iteratorList with
    | none => simp only [hd] at h; cases h
    | some edges =>
      simp only [hd] at h
      cases hc : expandSynchronizingEdgeCombination.choice g edges outputActionIndex state cb
          ev st with
      | error x => simp only [hc] at h; cases h
      | ok r =>
        obtain ⟨choice, ev2, st2⟩ := r
        simp only [hc] at h
        have hch := expandSynchronizingEdgeCombination.choice_header g edges outputActionIndex
          state cb ev st choice ev2 st2 hc
        have hres2 : ∀ c ∈ result ++ [choice],
            c.actionIndex = outputActionIndex ∧ c.markovian = false := by
          intro c hmem
          rcases List.mem_append.1 hmem with h1 | h1
          · exact hres c h1
          · rw [List.mem_singleton.1 h1]; exact hch
        by_cases hm : (expandSynchronizingEdgeCombination.advance edgeCombination
            iteratorList).2 = true
        · rw [if_pos hm] at h
          exact ih _ _ _ _ h hres2
        · rw [if_neg hm] at h
          simp only [Except.ok.injEq, Prod.mk.injEq] at h
          rw [← h.1]
          exact hres2

/-- C28: the action index of the choices of a synchronizing edge combination.

(1) Every choice that `expandSynchronizingEdgeCombination` returns carries the output
action index it was passed and is not flagged Markovian.

(2) This does not depend on the rates of the edges: the factor that an edge with a rate
contributes to the value of a destination tuple is the probability of the destination
multiplied by the rate. -/
theorem expandSynchronizingEdgeCombination_action_index {σ : Type}
    (g : JaniNextStateGenerator) (edgeCombination : AutomataEdgeSets) (outputActionIndex : Nat)
    (state : CompressedState) (cb : StateToIdCallback σ) (ev : ExpressionEvaluator) (st : σ)
    (choices : List Choice) (ev1 : ExpressionEvaluator) (st1 : σ)
    (h : expandSynchronizingEdgeCombination g edgeCombination outputActionIndex state cb ev st
      = .ok (choices, ev1, st1)) :
    (∀ c ∈ choices, c.actionIndex = outputActionIndex ∧ c.markovian = false)
      ∧ (∀ (edge : Edge) (rate : Expression) (destination : EdgeDestination),
          edge.rate = some rate →
          generateSynchronizedDistribution.factor ev edge destination
            = destination.probability.asRational ev * rate.asRational ev) := by
  refine ⟨?_, fun edge rate destination hrate => ?_⟩
  · unfold expandSynchronizingEdgeCombination at h
    simp only at h
    have hloop : expandSynchronizingEdgeCombination.loop g edgeCombination outputActionIndex
        state cb ((edgeCombination.map (fun s => s.2.length)).prod)
        (edgeCombination.map (fun _ => 0)) [] ev st = .ok (choices, ev1, st1) := by
      by_cases hx : g.options.explorationChecks = true
      · simp only [hx, if_true] at h
        cases hchk : checkGlobalVariableWritesValid g edgeCombination with
        | error e => simp only [hchk] at h; cases h
        | ok u =>
          simp only [hchk] at h
          exact h
      · simp only [hx, if_false, Bool.false_eq_true] at h
        exact h
    exact expandSynchronizingEdgeCombination.loop_header g edgeCombination outputActionIndex
      state cb _ _ [] ev st choices ev1 st1 hloop (fun c hc => absurd hc (List.not_mem_nil c))
  · unfold generateSynchronizedDistribution.factor
    rw [hrate]

/-- Witness for C28: a combination in which the edge of automaton 0 has rate 3; the choice
has the output action index 5, is not Markovian, and its total mass is 3. -/
theorem expandSynchronizingEdgeCombination_action_index_witness :
    ∃ choices ev1 st1,
      expandSynchronizingEdgeCombination (Examples.twoCoinGenerator ModelType.MA)
          Examples.ratedCombination 5 [false, false] recordingCallback
          Examples.zeroEvaluator [] = .ok (choices, ev1, st1)
        ∧ choices.map (fun c => c.totalMass) = [3]
        ∧ ∀ c ∈ choices, c.actionIndex = 5 ∧ c.markovian = false := by
  obtain ⟨choices, ev1, st1, h, hmass⟩ : ∃ choices ev1 st1,
      expandSynchronizingEdgeCombination (Examples.twoCoinGenerator ModelType.MA)
          Examples.ratedCombination 5 [false, false] recordingCallback
          Examples.zeroEvaluator [] = .ok (choices, ev1, st1)
        ∧ choices.map (fun c => c.totalMass) = [3] :=
    ⟨_, _, _, by with_unfolding_all rfl, by with_unfolding_all rfl⟩
  exact ⟨choices, ev1, st1, h, hmass,
    (expandSynchronizingEdgeCombination_action_index (Examples.twoCoinGenerator ModelType.MA)
      Examples.ratedCombination 5 [false, false] recordingCallback Examples.zeroEvaluator []
      choices ev1 st1 h).1⟩

/-! ## The divisor of the fused action rewards -/

/-- C30 (the code departs from the claim): the divisor `totalExitRate` of the fusion can be
zero, and the fusion divides by it without a test.  In a CTMC with state-action rewards and
one reward model, two enabled edges all of whose destination probabilities evaluate to zero
give two choices of total mass zero; the model is deterministic, so `expand` fuses the two
choices; the divisor, the sum of the total masses, is zero, and the division of line 517 is
a division by zero: `expand` does not return a behaviour. -/
theorem zero_exit_rate_in_fusion :
    ∃ allChoices ev1 st1,
      expand.allChoices Examples.zeroMassGenerator
          (getLocations Examples.zeroMassGenerator.variableInformation [false]) [false]
          recordingCallback Examples.zeroEvaluator [] = .ok (allChoices, ev1, st1)
        ∧ allChoices.map (fun c => c.totalMass) = [0, 0]
        ∧ Examples.zeroMassGenerator.isDeterministicModel = true
        ∧ Examples.zeroMassGenerator.isDiscreteTimeModel = false
        ∧ Examples.zeroMassGenerator.hasStateActionRewards = true
        ∧ Examples.zeroMassGenerator.rewardExpressions.length = 1
        ∧ expand.totalExitRate Examples.zeroMassGenerator allChoices = 0
        ∧ expand.fuse Examples.zeroMassGenerator allChoices
            = .error Exception.DivisionByZero
        ∧ expand Examples.zeroMassGenerator [false] recordingCallback Examples.zeroEvaluator []
            = .error Exception.DivisionByZero :=
  ⟨_, _, _, by with_unfolding_all rfl, by with_unfolding_all rfl, rfl, rfl, rfl, rfl,
    by with_unfolding_all rfl, by with_unfolding_all rfl, by with_unfolding_all rfl⟩

/-! ## The bounds check of array elements -/

/-- C22 (the code departs from the claim): the bounds check of an assignment to an array
element ignores the flag `forceOutOfBoundsCheck` of the replacement slot.  With all options
off and a slot with range `[0, 2]` whose flag is set, the assignment `x := 3` to the plain
variable raises `WrongFormatException`, and the assignment `y[0] := 3`, whose replacement
is the same slot, raises nothing and writes the raw value 3 into the slot.  In general the
check of an array element is made with `explorationChecks` alone: with that option and
`addOutOfBoundsState` off, the write of an array element never raises. -/
theorem applyUpdate_array_element_check_not_forced :
    (Examples.generatorFor Examples.forcedLayout).options.addOutOfBoundsState = false
      ∧ (Examples.generatorFor Examples.forcedLayout).options.explorationChecks = false
      ∧ Examples.forcedLayout.getIntegerArrayVariableReplacement Examples.y 0
          = .ok Examples.forcedSlot
      ∧ Examples.forcedSlot.forceOutOfBoundsCheck = true
      ∧ Examples.forcedSlot.upperBound < 3
      ∧ applyUpdate (Examples.generatorFor Examples.forcedLayout) [false, false] Examples.assignThree
            { bitOffset := 0, bitWidth := 0 } 0 Examples.zeroEvaluator
          = .error Exception.WrongFormatException
      ∧ applyUpdate (Examples.generatorFor Examples.forcedLayout) [false, false]
            Examples.assignThreeToElement { bitOffset := 0, bitWidth := 0 } 0
            Examples.zeroEvaluator
          = .ok [true, true]
      ∧ ∀ (g : JaniNextStateGenerator) (state : CompressedState)
          (info : IntegerVariableInformation) (assignedValue : Int),
          g.options.addOutOfBoundsState = false → g.options.explorationChecks = false →
          applyUpdate.writeInteger g state info g.options.explorationChecks assignedValue
            = .ok (BitVector.setFromInt state info.bitOffset info.bitWidth
                (toUInt64 (assignedValue - info.lowerBound))) := by
  refine ⟨rfl, rfl, rfl, rfl, by decide, rfl, rfl, ?_⟩
  intro g state info assignedValue h1 h2
  unfold applyUpdate.writeInteger
  simp [h1, h2]

/-! ## Transient assignments at the higher levels of a destination tuple -/

/-- C23 (the code departs from the claim): at an assignment level above the lowest one the
loop over the destinations of a tuple takes the transient assignments of the last
destination of the tuple in every pass (`destinations.back()`, line 724), not those of the
destination of the pass.  For the tuple of a destination that assigns `r := 5` and a
destination that assigns `s := 7`, both at level 1, the valuation buffer after level 1 holds
`s := 7` twice and no value for `r`; the rewards `r` and `s`, evaluated at the destination
tuple, are 0 and 7. -/
theorem generateSynchronizedDistribution_uses_last_destination :
    ((Examples.transientDestination Examples.r 5).orderedAssignments.getTransientAssignments
        1).length = 1
      ∧ generateSynchronizedDistribution.applyLevel Examples.transientGenerator 1
            Examples.zeroEvaluator
            [Examples.transientDestination Examples.r 5,
              Examples.transientDestination Examples.s 7].getLast?
            [Examples.transientDestination Examples.r 5,
              Examples.transientDestination Examples.s 7]
            [{ bitOffset := 0, bitWidth := 1 }, { bitOffset := 1, bitWidth := 1 }]
            [false, false] TransientVariableValuation.clear
          = .ok ([false, false],
              { booleanValues := [],
                integerValues := [(Examples.sData, 7), (Examples.sData, 7)],
                rationalValues := [] })
      ∧ ∃ distribution ev1 st1,
          generateSynchronizedDistribution Examples.transientGenerator [false, false]
              Examples.transientPair [] [0, 0] ∅ recordingCallback Examples.zeroEvaluator []
            = .ok (distribution, [0, 7], ∅, ev1, st1) :=
  ⟨rfl, rfl, _, _, _, by with_unfolding_all rfl⟩

/-! ## Decoding the number of a destination tuple -/

/-- The digit at position `i` of a number in a mixed radix system: the number divided by
the product of the radices before `i`, modulo the radix at `i`. -/
theorem mixedRadixDigits_getElem? (radices : List Nat) (k i n : Nat)
    (h : radices[i]? = some n) :
    (mixedRadixDigits radices k)[i]? = some ((k / (radices.take i).prod) % n) := by
  induction radices generalizing k i with
  | nil => simp at h
  | cons m rest ih =>
    cases i with
    | zero =>
      simp only [List.getElem?_cons_zero, Option.some.injEq] at h
      simp [mixedRadixDigits, h]
    | succ i =>
      simp only [List.getElem?_cons_succ] at h
      simp only [mixedRadixDigits, List.getElem?_cons_succ, List.take_succ_cons, List.prod_cons]
      rw [ih (k / m) i h, Nat.div_div_eq_div_mul]

/-- The destinations that the loop over the edges of a destination tuple has selected when
it ends with a probability that is not zero are the destinations of the tuple. -/
theorem generateSynchronizedDistribution.firstLevel_destinations (g : JaniNextStateGenerator)
    (lowest : Int) (ev : ExpressionEvaluator) (edges : List (Nat × Nat × Edge))
    (acc first : DestinationTupleState)
    (h : generateSynchronizedDistribution.firstLevel g lowest ev edges acc = .ok first)
    (hp : first.successorProbability ≠ 0) :
    first.destinations.map some
      = acc.destinations.map some
        ++ generateSynchronizedDistribution.destinationTuple edges acc.destinationIndex := by
  induction edges generalizing acc with
  | nil =>
    simp only [generateSynchronizedDistribution.firstLevel, Except.ok.injEq] at h
    rw [← h]
    simp [generateSynchronizedDistribution.destinationTuple]
  | cons x rest ih =>
    unfold generateSynchronizedDistribution.firstLevel at h
    simp only at h
    by_cases hn : x.2.2.getNumberOfDestinations = 0
    · rw [if_pos hn] at h; cases h
    · rw [if_neg hn] at h
      cases hd : x.2.2.destinations[acc.destinationIndex % x.2.2.getNumberOfDestinations]? with
      | none => simp only [hd] at h; cases h
      | some destination =>
        cases hlv : g.variableInformation.locationVariables[x.1]? with
        | none => simp only [hd, hlv] at h; cases h
        | some lv =>
          simp only [hd, hlv] at h
          have htail : ∀ sp : ℚ,
              (if sp = 0 then
                  (Except.ok
                    { destinations := acc.destinations ++ [destination],
                      locationVars := acc.locationVars ++ [lv],
                      transientVariableValuation := acc.transientVariableValuation,
                      successorState := acc.successorState,
                      successorProbability := sp,
                      destinationIndex := acc.destinationIndex / x.2.2.getNumberOfDestinations }
                    : Except Exception DestinationTupleState)
                else
                  match applyUpdate g acc.successorState destination lv lowest ev with
                  | .error e => .error e
                  | .ok successorState =>
                    match applyTransientUpdate g acc.transientVariableValuation
                        (destination.orderedAssignments.getTransientAssignments lowest) ev with
                    | .error e => .error e
                    | .ok t =>
                      generateSynchronizedDistribution.firstLevel g lowest ev rest
                        { destinations := acc.destinations ++ [destination],
                          locationVars := acc.locationVars ++ [lv],
                          transientVariableValuation := t, successorState := successorState,
                          successorProbability := sp,
                          destinationIndex :=
                            acc.destinationIndex / x.2.2.getNumberOfDestinations })
                = .ok first →
              first.destinations.map some
                = acc.destinations.map some
                  ++ generateSynchronizedDistribution.destinationTuple (x :: rest)
                      acc.destinationIndex := by
            intro sp h
            by_cases hz : sp = 0
            · rw [if_pos hz] at h
              simp only [Except.ok.injEq] at h
              rw [← h] at hp
              exact absurd hz hp
            · rw [if_neg hz] at h
              cases hupd : applyUpdate g acc.successorState destination lv lowest ev with
              | error e => simp only [hupd] at h; cases h
              | ok s1 =>
                simp only [hupd] at h
                cases htr : applyTransientUpdate g acc.transientVariableValuation
                    (destination.orderedAssignments.getTransientAssignments lowest) ev with
                | error e => simp only [htr] at h; cases h
                | ok t =>
                  simp only [htr] at h
                  rw [ih _ h]
                  simp only [generateSynchronizedDistribution.destinationTuple, List.map_append,
                    List.map_cons, List.map_nil, mixedRadixDigits, List.zipWith_cons_cons, hd,
                    List.append_assoc, List.singleton_append]
          cases hrate : x.2.2.rate with
          | none =>
            simp only [hrate] at h
            exact htail _ h
          | some rate =>
            simp only [hrate] at h
            exact htail _ h

theorem forall₂_and_left {α β : Type} (R : α → β → Prop) (P : α → Prop) (l : List α)
    (l' : List β) (h : List.Forall₂ R l l') (hP : ∀ a ∈ l, P a) :
    List.Forall₂ (fun a b => P a ∧ R a b) l l' := by
  induction h with
  | nil => exact List.Forall₂.nil
  | cons hab _ ih =>
    exact List.Forall₂.cons ⟨hP _ (List.mem_cons_self _ _), hab⟩
      (ih (fun a ha => hP a (List.mem_cons_of_mem _ ha)))

/-- C24: the enumeration of the destination tuples.

For edges with `n_1, ..., n_k` destinations, all `n_i > 0`, and `N = n_1 * ... * n_k`, and
a loaded evaluator:

(1) when `generateSynchronizedDistribution` returns, the number of passes it has computed
is `N`, and the states it hands to the callback, one call each and in this order, are the
successors of the numbers `destinationId` below `N` whose tuple has a value that is not
zero, each number once, in increasing order; for each of them the loop over the edges
(lines 690-710), started with `destinationId`, has returned, and the destinations it has
selected are those of `destinationTuple destinationId`: for edge `i` the destination whose
index is digit `i` of the number (a tuple of value zero is left at line 704 and nothing is
handed over for it);

(2) digit `i` is `(destinationId div (n_1 * ... * n_(i-1))) mod n_i`;

(3) every digit is an index of a destination of its edge;

(4) the digits are a bijection between the numbers below `N` and the vectors of indices:
every vector of indices of destinations is the vector of exactly one number below `N`. -/
theorem generateSynchronizedDistribution_decoding {σ : Type} (g : JaniNextStateGenerator)
    (hclosed : g.transientVariableInformation.Closed) (state : CompressedState)
    (ev : ExpressionEvaluator) (hl : Loaded g state ev) (edges : List (Nat × Nat × Edge))
    (hpos : ∀ x ∈ edges, 0 < x.2.2.getNumberOfDestinations) :
    (∀ (cb : StateToIdCallback σ) (distribution : JitDistribution)
        (stateActionRewards : List ℚ) (edgeIndices : EdgeIndexSet) (st : σ)
        (distribution1 : JitDistribution) (rewards1 : List ℚ) (edgeIndices1 : EdgeIndexSet)
        (ev1 : ExpressionEvaluator) (st1 : σ),
        generateSynchronizedDistribution g state edges distribution stateActionRewards
          edgeIndices cb ev st = .ok (distribution1, rewards1, edgeIndices1, ev1, st1) →
        ∃ (info : SynchronizedEdgeInformation) (successors : List (CompressedState × ℚ)),
          generateSynchronizedDistribution.collect g edges
              (generateSynchronizedDistribution.initialInformation edgeIndices) = .ok info
            ∧ info.numDestinations
                = (edges.map (fun x => x.2.2.getNumberOfDestinations)).prod
            ∧ List.Forall₂
                (fun destinationId successor =>
                  (destinationId < (edges.map (fun x => x.2.2.getNumberOfDestinations)).prod
                    ∧ generateSynchronizedDistribution.tupleValue ev edges destinationId ≠ 0)
                  ∧ (∃ first : DestinationTupleState,
                      generateSynchronizedDistribution.firstLevel g
                          info.lowestDestinationAssignmentLevel ev edges
                          { destinations := [], locationVars := [],
                            transientVariableValuation := TransientVariableValuation.clear,
                            successorState := state, successorProbability := 1,
                            destinationIndex := destinationId } = .ok first
                        ∧ first.destinations.map some
                            = generateSynchronizedDistribution.destinationTuple edges
                                destinationId
                        ∧ first.successorProbability
                            = generateSynchronizedDistribution.tupleValue ev edges
                                destinationId)
                  ∧ successor.2
                      = generateSynchronizedDistribution.tupleValue ev edges destinationId
                  ∧ generateSynchronizedDistribution.successor g state edges info ev
                      destinationId = .ok successor.1)
                ((List.range (edges.map (fun x => x.2.2.getNumberOfDestinations)).prod).filter
                  (fun destinationId =>
                    decide (generateSynchronizedDistribution.tupleValue ev edges destinationId
                      ≠ 0)))
                successors
            ∧ st1 = (internAll cb successors st).2
            ∧ distribution1 = distribution ++ (internAll cb successors st).1)
      ∧ (∀ (destinationId i : Nat) (x : Nat × Nat × Edge), edges[i]? = some x →
          (generateSynchronizedDistribution.destinationTuple edges destinationId)[i]?
            = some (x.2.2.destinations[(destinationId
                / ((edges.map (fun x => x.2.2.getNumberOfDestinations)).take i).prod)
                  % x.2.2.getNumberOfDestinations]?))
      ∧ (∀ destinationId : Nat,
          List.Forall₂ (fun digit n => digit < n)
            (mixedRadixDigits (edges.map (fun x => x.2.2.getNumberOfDestinations))
              destinationId)
            (edges.map (fun x => x.2.2.getNumberOfDestinations)))
      ∧ (∀ digits : List Nat,
          List.Forall₂ (fun digit n => digit < n) digits
            (edges.map (fun x => x.2.2.getNumberOfDestinations)) →
          ∃ destinationId,
            (destinationId < (edges.map (fun x => x.2.2.getNumberOfDestinations)).prod
              ∧ mixedRadixDigits (edges.map (fun x => x.2.2.getNumberOfDestinations))
                  destinationId = digits)
            ∧ ∀ other,
                other < (edges.map (fun x => x.2.2.getNumberOfDestinations)).prod
                  ∧ mixedRadixDigits (edges.map (fun x => x.2.2.getNumberOfDestinations))
                      other = digits →
                other = destinationId) := by
  have hradices : ∀ n ∈ edges.map (fun x => x.2.2.getNumberOfDestinations), 0 < n := by
    intro n hn
    obtain ⟨x, hx, hxn⟩ := List.mem_map.1 hn
    rw [← hxn]
    exact hpos x hx
  refine ⟨?_, fun destinationId i x hx => ?_,
    fun destinationId => mixedRadixDigits_valid _ destinationId hradices,
    fun digits hvalid => ?_⟩
  · intro cb distribution stateActionRewards edgeIndices st distribution1 rewards1
      edgeIndices1 ev1 st1 h
    obtain ⟨_, info, successors, hcol, hall, hdist, hst⟩ :=
      generateSynchronizedDistribution_spec g hclosed state ev hl edges distribution
        stateActionRewards edgeIndices cb st distribution1 rewards1 edgeIndices1 ev1 st1 h
    have hnum := generateSynchronizedDistribution.collect_numDestinations g edges _ info hcol
    have hnum' : info.numDestinations
        = (edges.map (fun x => x.2.2.getNumberOfDestinations)).prod := by
      rw [hnum]
      simp [generateSynchronizedDistribution.initialInformation]
    refine ⟨info, successors, hcol, hnum', ?_, hst, hdist⟩
    have hmem : ∀ destinationId ∈ generateSynchronizedDistribution.nonZeroTuples ev edges
        (List.range (edges.map (fun x => x.2.2.getNumberOfDestinations)).prod),
        destinationId < (edges.map (fun x => x.2.2.getNumberOfDestinations)).prod
          ∧ generateSynchronizedDistribution.tupleValue ev edges destinationId ≠ 0 := by
      intro destinationId hd
      unfold generateSynchronizedDistribution.nonZeroTuples at hd
      rw [List.mem_filter, List.mem_range] at hd
      exact ⟨hd.1, of_decide_eq_true hd.2⟩
    have hboth := forall₂_and_left _ _ _ _ hall hmem
    refine List.Forall₂.imp ?_ hboth
    intro destinationId successor ⟨⟨hlt, hne⟩, hval, hsucc⟩
    refine ⟨⟨hlt, hne⟩, ?_, hval, hsucc⟩
    unfold generateSynchronizedDistribution.successor at hsucc
    cases hfirst : generateSynchronizedDistribution.firstLevel g
        info.lowestDestinationAssignmentLevel ev edges
        { destinations := [], locationVars := [],
          transientVariableValuation := TransientVariableValuation.clear,
          successorState := state, successorProbability := 1,
          destinationIndex := destinationId } with
    | error e => simp only [hfirst] at hsucc; cases hsucc
    | ok first =>
      have hprob := (generateSynchronizedDistribution.firstLevel_spec g hclosed _ ev edges _
        first hfirst (TransientVariableValuation.clear_within _)).1
      simp only [one_mul] at hprob
      have hdest := generateSynchronizedDistribution.firstLevel_destinations g _ ev edges _
        first hfirst (by rw [hprob]; exact hne)
      exact ⟨first, rfl, by simpa using hdest, hprob⟩
  · unfold generateSynchronizedDistribution.destinationTuple
    have hradix : (edges.map (fun x => x.2.2.getNumberOfDestinations))[i]?
        = some x.2.2.getNumberOfDestinations := by
      rw [List.getElem?_map, hx]
      rfl
    have hdigit := mixedRadixDigits_getElem? _ destinationId i _ hradix
    rw [List.getElem?_zipWith, hx, hdigit]
  · obtain ⟨h1, h2⟩ := mixedRadixDigits_number _ _ hvalid
    refine ⟨mixedRadixNumber (edges.map (fun x => x.2.2.getNumberOfDestinations)) digits,
      ⟨h1, h2⟩, ?_⟩
    rintro other ⟨ho, hod⟩
    rw [← hod]
    exact (mixedRadixNumber_digits _ other ho).symm

/-- Witness for C24: the pair of coins, two destinations each; the call returns, the four
numbers 0, 1, 2, 3 have tuples of non-zero value, and the number 2 selects destination 0 of
the first edge and destination 1 of the second edge. -/
theorem generateSynchronizedDistribution_decoding_witness :
    generateSynchronizedDistribution (Examples.twoCoinGenerator ModelType.MDP) [false, false]
        Examples.coinPair [] [] ∅ recordingCallback Examples.zeroEvaluator []
      = .ok ([(0, 1 / 6), (1, 1 / 6), (2, 1 / 3), (3, 1 / 3)], [], ∅, Examples.zeroEvaluator,
          [[false, false], [true, false], [false, true], [true, true]])
      ∧ (List.range (Examples.coinPair.map (fun x => x.2.2.getNumberOfDestinations)).prod).filter
          (fun destinationId =>
            decide (generateSynchronizedDistribution.tupleValue Examples.zeroEvaluator
              Examples.coinPair destinationId ≠ 0)) = [0, 1, 2, 3]
      ∧ generateSynchronizedDistribution.destinationTuple Examples.coinPair 2
          = [(Examples.coin (1 / 2) (1 / 2) none).destinations[0]?,
             (Examples.coin (1 / 3) (2 / 3) none).destinations[1]?]
      ∧ ∃ (info : SynchronizedEdgeInformation) (successors : List (CompressedState × ℚ)),
          generateSynchronizedDistribution.collect (Examples.twoCoinGenerator ModelType.MDP)
              Examples.coinPair (generateSynchronizedDistribution.initialInformation ∅)
            = .ok info
          ∧ info.numDestinations
              = (Examples.coinPair.map (fun x => x.2.2.getNumberOfDestinations)).prod
          ∧ List.Forall₂
              (fun destinationId successor =>
                (destinationId
                    < (Examples.coinPair.map (fun x => x.2.2.getNumberOfDestinations)).prod
                  ∧ generateSynchronizedDistribution.tupleValue Examples.zeroEvaluator
                      Examples.coinPair destinationId ≠ 0)
                ∧ (∃ first : DestinationTupleState,
                    generateSynchronizedDistribution.firstLevel
                        (Examples.twoCoinGenerator ModelType.MDP)
                        info.lowestDestinationAssignmentLevel Examples.zeroEvaluator
                        Examples.coinPair
                        { destinations := [], locationVars := [],
                          transientVariableValuation := TransientVariableValuation.clear,
                          successorState := [false, false], successorProbability := 1,
                          destinationIndex := destinationId } = .ok first
                      ∧ first.destinations.map some
                          = generateSynchronizedDistribution.destinationTuple Examples.coinPair
                              destinationId
                      ∧ first.successorProbability
                          = generateSynchronizedDistribution.tupleValue Examples.zeroEvaluator
                              Examples.coinPair destinationId)
                ∧ successor.2
                    = generateSynchronizedDistribution.tupleValue Examples.zeroEvaluator
                        Examples.coinPair destinationId
                ∧ generateSynchronizedDistribution.successor
                    (Examples.twoCoinGenerator ModelType.MDP) [false, false] Examples.coinPair
                    info Examples.zeroEvaluator destinationId = .ok successor.1)
              ((List.range
                  (Examples.coinPair.map (fun x => x.2.2.getNumberOfDestinations)).prod).filter
                (fun destinationId =>
                  decide (generateSynchronizedDistribution.tupleValue Examples.zeroEvaluator
                    Examples.coinPair destinationId ≠ 0)))
              successors
          ∧ [[false, false], [true, false], [false, true], [true, true]]
              = (internAll recordingCallback successors []).2
          ∧ [((0 : Nat), (1 / 6 : ℚ)), (1, 1 / 6), (2, 1 / 3), (3, 1 / 3)]
              = [] ++ (internAll recordingCallback successors []).1 :=
  ⟨by with_unfolding_all rfl, by with_unfolding_all rfl, rfl,
    (generateSynchronizedDistribution_decoding (Examples.twoCoinGenerator ModelType.MDP)
      Examples.noTransientVariables_closed [false, false] Examples.zeroEvaluator
      (Examples.twoCoinGenerator_loaded _ _) Examples.coinPair
      (by
        intro x hx
        simp only [Examples.coinPair, List.mem_cons, List.mem_singleton, List.not_mem_nil,
          or_false] at hx
        rcases hx with rfl | rfl <;> decide)).1 recordingCallback [] [] ∅ []
      [(0, 1 / 6), (1, 1 / 6), (2, 1 / 3), (3, 1 / 3)] [] ∅ Examples.zeroEvaluator
      [[false, false], [true, false], [false, true], [true, true]]
      (by with_unfolding_all rfl)⟩

/-! ## Choice origins -/

theorem generateChoiceOrigins.fill_length (entries : List (EdgeIndexSet × Nat))
    (mapping : List EdgeIndexSet) :
    (generateChoiceOrigins.fill entries mapping).length = mapping.length := by
  induction entries generalizing mapping with
  | nil => rfl
  | cons p rest ih =>
    simp only [generateChoiceOrigins.fill, List.foldl_cons] at ih ⊢
    rw [ih, List.length_set]

theorem generateChoiceOrigins.fill_getElem?_of_not_mem (entries : List (EdgeIndexSet × Nat))
    (mapping : List EdgeIndexSet) (k : Nat) (hk : k ∉ entries.map Prod.snd) :
    (generateChoiceOrigins.fill entries mapping)[k]? = mapping[k]? := by
  induction entries generalizing mapping with
  | nil => rfl
  | cons p rest ih =>
    simp only [List.map_cons, List.mem_cons, not_or] at hk
    simp only [generateChoiceOrigins.fill, List.foldl_cons] at ih ⊢
    rw [ih _ hk.2, List.getElem?_set_ne (fun h => hk.1 h.symm)]

/-- The loop that fills the mapping writes, for every entry of the map, the set of the
entry at the position of its identifier, in whatever order it visits the entries. -/
theorem generateChoiceOrigins.fill_getElem?_of_mem (entries : List (EdgeIndexSet × Nat))
    (mapping : List EdgeIndexSet) (hnodup : (entries.map Prod.snd).Nodup)
    (s : EdgeIndexSet) (k : Nat) (hmem : (s, k) ∈ entries) (hk : k < mapping.length) :
    (generateChoiceOrigins.fill entries mapping)[k]? = some s := by
  induction entries generalizing mapping with
  | nil => exact absurd hmem (List.not_mem_nil _)
  | cons p rest ih =>
    simp only [List.map_cons, List.nodup_cons] at hnodup
    rcases List.mem_cons.1 hmem with h1 | h1
    · have hfill : generateChoiceOrigins.fill (p :: rest) mapping
          = generateChoiceOrigins.fill rest (mapping.set p.2 p.1) := rfl
      have hp1 : p.1 = s := by rw [← h1]
      have hp2 : p.2 = k := by rw [← h1]
      rw [hfill, hp1, hp2]
      rw [generateChoiceOrigins.fill_getElem?_of_not_mem rest _ k (by rw [← hp2]; exact hnodup.1)]
      simp only [List.getElem?_set_self hk]
    · have hfill : generateChoiceOrigins.fill (p :: rest) mapping
          = generateChoiceOrigins.fill rest (mapping.set p.2 p.1) := rfl
      rw [hfill]
      exact ih _ hnodup.2 h1 (by rw [List.length_set]; exact hk)

theorem EdgeIndexSetToIdentifierMap.emplace_spec (map : EdgeIndexSetToIdentifierMap)
    (key : EdgeIndexSet) (value : Nat) (hinv : generateChoiceOrigins.Invariant map value) :
    generateChoiceOrigins.Invariant (map.emplace key value).2.2
        (if (map.emplace key value).2.1 = true then value + 1 else value)
      ∧ (key, (map.emplace key value).1.2) ∈ (map.emplace key value).2.2
      ∧ ∃ added, (map.emplace key value).2.2 = map ++ added
          ∧ ∀ p ∈ added, p.2 = (map.emplace key value).1.2 := by
  unfold EdgeIndexSetToIdentifierMap.emplace
  cases hfind : map.find? (fun p => decide (p.1 = key)) with
  | some p =>
    have hp := List.find?_some hfind
    have hmem := List.mem_of_find?_eq_some hfind
    simp only [decide_eq_true_eq] at hp
    simp only [Bool.false_eq_true, if_false]
    refine ⟨hinv, ?_, [], by simp, fun q hq => absurd hq (List.not_mem_nil q)⟩
    rw [← hp]
    exact hmem
  | none =>
    have hnot : key ∉ map.map Prod.fst := by
      intro hk
      obtain ⟨q, hq, hqk⟩ := List.mem_map.1 hk
      have := List.find?_eq_none.1 hfind q hq
      simp only [decide_eq_true_eq] at this
      exact this hqk
    simp only [if_true]
    refine ⟨⟨?_, ?_⟩, by simp, [(key, value)], rfl, fun q hq => ?_⟩
    · rw [List.map_append, hinv.1, List.range_succ]
      rfl
    · rw [List.map_append, List.nodup_append]
      refine ⟨hinv.2, by simp, ?_⟩
      intro a ha hb
      simp only [List.map_cons, List.map_nil, List.mem_singleton] at hb
      rw [hb] at ha
      exact hnot ha
    · rw [List.mem_singleton.1 hq]

/-- The loop over the origin data keeps the invariant; every element of the data gets an
identifier under which the map holds its set, and every entry that the loop inserts has
the identifier of some element. -/
theorem generateChoiceOrigins.loop_spec (data : List (Option EdgeIndexSet))
    (identifiers : List Nat) (map : EdgeIndexSetToIdentifierMap) (currentIdentifier : Nat)
    (hinv : generateChoiceOrigins.Invariant map currentIdentifier) :
    generateChoiceOrigins.Invariant
        (generateChoiceOrigins.loop data identifiers map currentIdentifier).2.1
        (generateChoiceOrigins.loop data identifiers map currentIdentifier).2.2
      ∧ ∃ new added,
          (generateChoiceOrigins.loop data identifiers map currentIdentifier).1
              = identifiers ++ new
            ∧ (generateChoiceOrigins.loop data identifiers map currentIdentifier).2.1
              = map ++ added
            ∧ List.Forall₂
                (fun (originData : Option EdgeIndexSet) identifier =>
                  (originData.getD ∅, identifier)
                    ∈ (generateChoiceOrigins.loop data identifiers map currentIdentifier).2.1)
                data new
            ∧ ∀ p ∈ added, p.2 ∈ new := by
  induction data generalizing identifiers map currentIdentifier with
  | nil =>
    exact ⟨hinv, [], [], by simp [generateChoiceOrigins.loop],
      by simp [generateChoiceOrigins.loop], List.Forall₂.nil,
      fun p hp => absurd hp (List.not_mem_nil p)⟩
  | cons originData rest ih =>
    obtain ⟨hinv1, hmem1, added1, hadd1, hids1⟩ :=
      EdgeIndexSetToIdentifierMap.emplace_spec map (originData.getD ∅) currentIdentifier hinv
    have hloop : generateChoiceOrigins.loop (originData :: rest) identifiers map
          currentIdentifier
        = generateChoiceOrigins.loop rest
            (identifiers ++ [(map.emplace (originData.getD ∅) currentIdentifier).1.2])
            (map.emplace (originData.getD ∅) currentIdentifier).2.2
            (if (map.emplace (originData.getD ∅) currentIdentifier).2.1 = true then
              currentIdentifier + 1 else currentIdentifier) := rfl
    rw [hloop]
    obtain ⟨hinv2, new2, added2, hnew2, hadd2, hall2, hids2⟩ :=
      ih (identifiers ++ [(map.emplace (originData.getD ∅) currentIdentifier).1.2])
        (map.emplace (originData.getD ∅) currentIdentifier).2.2 _ hinv1
    refine ⟨hinv2, (map.emplace (originData.getD ∅) currentIdentifier).1.2 :: new2,
      added1 ++ added2, ?_, ?_, ?_, ?_⟩
    · rw [hnew2]; simp
    · rw [hadd2, hadd1]; simp
    · refine List.Forall₂.cons ?_ hall2
      rw [hadd2]
      exact List.mem_append_left _ hmem1
    · intro p hp
      rcases List.mem_append.1 hp with h1 | h1
      · rw [hids1 p h1]
        exact List.mem_cons_self _ _
      · exact List.mem_cons_of_mem _ (hids2 p h1)

theorem forall₂_getElem? {α β : Type} {R : α → β → Prop} {l1 : List α} {l2 : List β}
    (h : List.Forall₂ R l1 l2) :
    l1.length = l2.length
      ∧ ∀ (i : Nat) (a : α) (b : β), l1[i]? = some a → l2[i]? = some b → R a b := by
  induction h with
  | nil => exact ⟨rfl, fun i a b ha => by simp at ha⟩
  | cons hr _ ih =>
    refine ⟨by simp [ih.1], fun i a b ha hb => ?_⟩
    cases i with
    | zero =>
      simp only [List.getElem?_cons_zero, Option.some.injEq] at ha hb
      rw [← ha, ← hb]
      exact hr
    | succ i =>
      simp only [List.getElem?_cons_succ] at ha hb
      exact ih.2 i a b ha hb

/-- In a map that satisfies the invariant an identifier belongs to one set only, and a set
has one identifier only. -/
theorem generateChoiceOrigins.Invariant.unique {map : EdgeIndexSetToIdentifierMap}
    {currentIdentifier : Nat} (hinv : generateChoiceOrigins.Invariant map currentIdentifier)
    (s1 s2 : EdgeIndexSet) (k1 k2 : Nat) (h1 : (s1, k1) ∈ map) (h2 : (s2, k2) ∈ map) :
    (k1 = k2 ↔ s1 = s2) := by
  have hsnd : (map.map Prod.snd).Nodup := by rw [hinv.1]; exact List.nodup_range _
  constructor
  · intro hk
    have := List.inj_on_of_nodup_map hsnd h1 h2 hk
    exact congrArg Prod.fst this
  · intro hs
    have := List.inj_on_of_nodup_map hinv.2 h1 h2 hs
    exact congrArg Prod.snd this

/-- C29: `generateChoiceOrigins` is a lossless indexing of the origin sets.

With `buildChoiceOrigins` on, for every list of origin data (an element without origin
data counts as the empty set):

(1) there is one identifier per choice, and the mapping holds the set of choice `i` at the
position `identifiers[i]`;

(2) two choices have the same identifier exactly when their sets are equal;

(3) the mapping holds the empty set at position 0, and a choice whose set is empty has the
identifier 0;

(4) every identifier of a choice is a position of the mapping, every position of the
mapping other than 0 is the identifier of some choice, and no set occurs twice in the
mapping: the identifiers that the map hands out are exactly `0, ..., m - 1` for the length
`m` of the mapping (position 0 is reserved for the empty set, whether a choice uses it or
not);

(5) the mapping does not depend on the order in which the entries of the map are visited.

With `buildChoiceOrigins` off the result is the null pointer. -/
theorem generateChoiceOrigins_lossless (g : JaniNextStateGenerator)
    (hbuild : g.options.buildChoiceOrigins = true)
    (dataForChoiceOrigins : List (Option EdgeIndexSet)) :
    ∃ origins : JaniChoiceOrigins,
      generateChoiceOrigins g dataForChoiceOrigins = some origins
        ∧ origins.identifiers.length = dataForChoiceOrigins.length
        ∧ (∀ (i : Nat) (originData : Option EdgeIndexSet),
            dataForChoiceOrigins[i]? = some originData →
            ∃ identifier, origins.identifiers[i]? = some identifier
              ∧ origins.identifierToEdgeIndexSetMapping[identifier]?
                  = some (originData.getD ∅))
        ∧ (∀ (i j : Nat) (originData1 originData2 : Option EdgeIndexSet)
              (identifier1 identifier2 : Nat),
            dataForChoiceOrigins[i]? = some originData1 →
            dataForChoiceOrigins[j]? = some originData2 →
            origins.identifiers[i]? = some identifier1 →
            origins.identifiers[j]? = some identifier2 →
            (identifier1 = identifier2 ↔ originData1.getD ∅ = originData2.getD ∅))
        ∧ origins.identifierToEdgeIndexSetMapping[0]? = some ∅
        ∧ (∀ (i : Nat) (originData : Option EdgeIndexSet) (identifier : Nat),
            dataForChoiceOrigins[i]? = some originData →
            origins.identifiers[i]? = some identifier →
            originData.getD ∅ = ∅ → identifier = 0)
        ∧ (∀ identifier ∈ origins.identifiers,
            identifier < origins.identifierToEdgeIndexSetMapping.length)
        ∧ (∀ k, 0 < k → k < origins.identifierToEdgeIndexSetMapping.length →
            k ∈ origins.identifiers)
        ∧ origins.identifierToEdgeIndexSetMapping.Nodup
        ∧ (∀ entries : List (EdgeIndexSet × Nat),
            entries.Perm (generateChoiceOrigins.loop dataForChoiceOrigins [] [(∅, 0)] 1).2.1 →
            generateChoiceOrigins.fill entries
                (List.replicate
                  (generateChoiceOrigins.loop dataForChoiceOrigins [] [(∅, 0)] 1).2.2 ∅)
              = origins.identifierToEdgeIndexSetMapping)
        ∧ ∀ g' : JaniNextStateGenerator, g'.options.buildChoiceOrigins = false →
            generateChoiceOrigins g' dataForChoiceOrigins = none := by
  have hinv0 : generateChoiceOrigins.Invariant [(∅, 0)] 1 := ⟨rfl, by simp⟩
  obtain ⟨hinv, new, added, hnew, hadd, hall, hids⟩ :=
    generateChoiceOrigins.loop_spec dataForChoiceOrigins [] [(∅, 0)] 1 hinv0
  generalize hr : generateChoiceOrigins.loop dataForChoiceOrigins [] [(∅, 0)] 1 = r
    at hinv hnew hadd hall hids
  obtain ⟨identifiers, map, currentIdentifier⟩ := r
  simp only [List.nil_append] at hnew
  simp only at hinv hadd hall hids
  subst hnew
  have hsnd : (map.map Prod.snd).Nodup := by rw [hinv.1]; exact List.nodup_range _
  have hlen : map.length = currentIdentifier := by
    have := congrArg List.length hinv.1
    simpa using this
  have hlt : ∀ p ∈ map, p.2 < currentIdentifier := by
    intro p hp
    have : p.2 ∈ map.map Prod.snd := List.mem_map.2 ⟨p, hp, rfl⟩
    rw [hinv.1] at this
    exact List.mem_range.1 this
  have hget : ∀ (entries : List (EdgeIndexSet × Nat)), entries.Perm map →
      ∀ s k, (s, k) ∈ map →
        (generateChoiceOrigins.fill entries (List.replicate currentIdentifier ∅))[k]?
          = some s := by
    intro entries hperm s k hmem
    exact generateChoiceOrigins.fill_getElem?_of_mem entries _
      ((hperm.map Prod.snd).nodup_iff.2 hsnd) s k (hperm.mem_iff.2 hmem)
      (by rw [List.length_replicate]; exact hlt _ hmem)
  have hzero : ((∅ : EdgeIndexSet), 0) ∈ map := by
    rw [hadd]; exact List.mem_append_left _ (List.mem_singleton.2 rfl)
  obtain ⟨hlen2, helem⟩ := forall₂_getElem? hall
  have hident : ∀ (i : Nat) (originData : Option EdgeIndexSet),
      dataForChoiceOrigins[i]? = some originData →
      ∃ identifier, identifiers[i]? = some identifier
        ∧ (originData.getD ∅, identifier) ∈ map := by
    intro i originData hd
    have hi : i < identifiers.length := by
      rw [← hlen2]
      exact (List.getElem?_eq_some.1 hd).1
    exact ⟨identifiers[i], List.getElem?_eq_getElem hi,
      helem i originData _ hd (List.getElem?_eq_getElem hi)⟩
  refine ⟨{ identifiers := identifiers,
            identifierToEdgeIndexSetMapping :=
              generateChoiceOrigins.fill map (List.replicate currentIdentifier ∅) },
    ?_, hlen2.symm, ?_, ?_, hget map (List.Perm.refl _) _ _ hzero, ?_, ?_, ?_, ?_, ?_, ?_⟩
  · unfold generateChoiceOrigins
    simp only [hbuild, Bool.not_true, Bool.false_eq_true, if_false, hr]
  · intro i originData hd
    obtain ⟨identifier, h1, h2⟩ := hident i originData hd
    exact ⟨identifier, h1, hget map (List.Perm.refl _) _ _ h2⟩
  · intro i j originData1 originData2 identifier1 identifier2 hd1 hd2 hi1 hi2
    exact hinv.unique _ _ _ _ (helem i _ _ hd1 hi1) (helem j _ _ hd2 hi2)
  · intro i originData identifier hd hi hempty
    have := (hinv.unique _ _ _ _ (helem i _ _ hd hi) hzero).2 hempty
    exact this
  · intro identifier hmem
    simp only at hmem ⊢
    rw [generateChoiceOrigins.fill_length, List.length_replicate]
    obtain ⟨i, hi, hget⟩ := List.mem_iff_getElem.1 hmem
    have hi' : i < dataForChoiceOrigins.length := by rw [hlen2]; exact hi
    have := helem i dataForChoiceOrigins[i] identifier (List.getElem?_eq_getElem hi')
      (by rw [List.getElem?_eq_getElem hi, hget])
    exact hlt _ this
  · intro k hpos hk
    simp only at hk ⊢
    rw [generateChoiceOrigins.fill_length, List.length_replicate] at hk
    have hkm : k ∈ map.map Prod.snd := by rw [hinv.1]; exact List.mem_range.2 hk
    obtain ⟨p, hp, hpk⟩ := List.mem_map.1 hkm
    rw [hadd] at hp
    rcases List.mem_append.1 hp with h1 | h1
    · rw [List.mem_singleton.1 h1] at hpk
      simp only at hpk
      omega
    · rw [← hpk]
      exact hids p h1
  · simp only
    rw [List.nodup_iff_injective_getElem]
    intro a b hab
    have ha : a.val < currentIdentifier :=
      lt_of_lt_of_eq a.isLt (by rw [generateChoiceOrigins.fill_length, List.length_replicate])
    have hb : b.val < currentIdentifier :=
      lt_of_lt_of_eq b.isLt (by rw [generateChoiceOrigins.fill_length, List.length_replicate])
    obtain ⟨pa, hpa, hpak⟩ := List.mem_map.1
      (show a.val ∈ map.map Prod.snd by rw [hinv.1]; exact List.mem_range.2 ha)
    obtain ⟨pb, hpb, hpbk⟩ := List.mem_map.1
      (show b.val ∈ map.map Prod.snd by rw [hinv.1]; exact List.mem_range.2 hb)
    have hga := hget map (List.Perm.refl _) pa.1 a.val (by rw [← hpak]; exact hpa)
    have hgb := hget map (List.Perm.refl _) pb.1 b.val (by rw [← hpbk]; exact hpb)
    have hsets : pa.1 = pb.1 := by
      have h1 := List.getElem?_eq_getElem a.isLt
      have h2 := List.getElem?_eq_getElem b.isLt
      rw [hga] at h1
      rw [hgb] at h2
      simp only [Option.some.injEq] at h1 h2
      rw [h1, h2]
      exact hab
    have := (hinv.unique pa.1 pb.1 pa.2 pb.2 hpa hpb).2 hsets
    exact Fin.ext (by rw [← hpak, ← hpbk]; exact this)
  · intro entries hperm
    simp only
    apply List.ext_getElem?
    intro k
    by_cases hk : k < currentIdentifier
    · obtain ⟨p, hp, hpk⟩ := List.mem_map.1
        (show k ∈ map.map Prod.snd by rw [hinv.1]; exact List.mem_range.2 hk)
      rw [hget entries hperm p.1 k (by rw [← hpk]; exact hp),
        hget map (List.Perm.refl _) p.1 k (by rw [← hpk]; exact hp)]
    · rw [List.getElem?_eq_none (by
          rw [generateChoiceOrigins.fill_length, List.length_replicate]; omega),
        List.getElem?_eq_none (by
          rw [generateChoiceOrigins.fill_length, List.length_replicate]; omega)]
  · intro g' hoff
    unfold generateChoiceOrigins
    simp only [hoff, Bool.not_false, if_true]

/-- Witness for C29: five choices with the origin sets `{1}`, none, `{2}`, `{1}` and the
empty set. -/
theorem generateChoiceOrigins_lossless_witness :
    generateChoiceOrigins Examples.blockedGenerator [some {1}, none, some {2}, some {1}, some ∅]
        = some { identifiers := [1, 0, 2, 1, 0],
                 identifierToEdgeIndexSetMapping := [∅, {1}, {2}] }
      ∧ ∃ origins : JaniChoiceOrigins,
          generateChoiceOrigins Examples.blockedGenerator
              [some {1}, none, some {2}, some {1}, some ∅] = some origins
            ∧ origins.identifiers.length = 5 := by
  refine ⟨by decide, ?_⟩
  obtain ⟨origins, h1, h2, _⟩ := generateChoiceOrigins_lossless Examples.blockedGenerator rfl
    [some {1}, none, some {2}, some {1}, some ∅]
  exact ⟨origins, h1, h2⟩

/-! ## Termination of the enumeration of the initial states -/

theorem BitVector.set_false_of_get (s : BitVector) (i : Nat) (h : BitVector.get s i = false) :
    BitVector.set s i false = s := by
  unfold BitVector.set
  unfold BitVector.get at h
  apply List.ext_getElem?
  intro j
  rw [List.getElem?_set]
  by_cases hij : i = j
  · subst hij
    rw [if_pos rfl]
    by_cases hi : i < s.length
    · simp only [hi, if_true]
      rw [List.getD_eq_getElem?_getD, List.getElem?_eq_getElem hi] at h
      simp only [Option.getD_some] at h
      rw [List.getElem?_eq_getElem hi, h]
    · simp only [hi, if_false]
      rw [List.getElem?_eq_none (by omega)]
  · rw [if_neg hij]

theorem BitVector.get_create (n j : Nat) : BitVector.get (BitVector.create n) j = false := by
  unfold BitVector.get BitVector.create
  rw [List.getD_eq_getElem?_getD, List.getElem?_replicate]
  split <;> rfl

/-- The loop over the boolean variables changes nothing when every boolean variable is
false in the state. -/
theorem getInitialStates.booleanPass_of_false (booleanVariables : List BooleanVariableInformation)
    (s : CompressedState)
    (h : ∀ b ∈ booleanVariables, BitVector.get s b.bitOffset = false) :
    getInitialStates.booleanPass booleanVariables s = (s, false) := by
  induction booleanVariables with
  | nil => rfl
  | cons b rest ih =>
    have hb := h b (List.mem_cons_self _ _)
    unfold getInitialStates.booleanPass
    rw [hb]
    simp only [Bool.false_eq_true, if_false]
    rw [BitVector.set_false_of_get s _ hb]
    exact ih (fun b' hb' => h b' (List.mem_cons_of_mem _ hb'))

/-- The loop over the integer variables writes into integer slots only. -/
theorem getInitialStates.integerPass_get_outside
    (integerVariables : List IntegerVariableInformation) (values : List Int)
    (s : CompressedState) (j : Nat)
    (hj : ∀ i ∈ integerVariables, j < i.bitOffset ∨ i.bitOffset + i.bitWidth ≤ j) :
    BitVector.get (getInitialStates.integerPass integerVariables values s).2.1 j
      = BitVector.get s j := by
  induction integerVariables generalizing values s with
  | nil => cases values <;> rfl
  | cons v rest ih =>
    cases values with
    | nil => rfl
    | cons current values =>
      unfold getInitialStates.integerPass
      by_cases hc : current < toInt64 (v.upperBound - v.lowerBound)
      · rw [if_pos hc]
        exact BitVector.get_setFromInt_outside _ _ _ _ _ (hj v (List.mem_cons_self _ _))
      · rw [if_neg hc]
        simp only
        rw [ih _ _ (fun i hi => hj i (List.mem_cons_of_mem _ hi))]
        exact BitVector.get_setFromInt_outside _ _ _ _ _ (hj v (List.mem_cons_self _ _))

theorem toInt64_range (x : Int) : -(2 ^ 63) ≤ toInt64 x ∧ toInt64 x < 2 ^ 63 := by
  unfold toInt64
  have h63 : (2 : Int) ^ 63 = 9223372036854775808 := by norm_num
  have h64 : (2 : Int) ^ 64 = 18446744073709551616 := by norm_num
  rw [h63, h64]
  omega

theorem toInt64_of_range (x : Int) (hlo : -(2 ^ 63) ≤ x) (hhi : x < 2 ^ 63) :
    toInt64 x = x := by
  unfold toInt64
  have h63 : (2 : Int) ^ 63 = 9223372036854775808 := by norm_num
  have h64 : (2 : Int) ^ 64 = 18446744073709551616 := by norm_num
  rw [h63] at hlo hhi ⊢
  rw [h64]
  omega

/-- The counters stay values of `int_fast64_t`: after a pass of the loop over the integer
variables every counter is at least `-2^63`, when the lower bounds are. -/
theorem getInitialStates.integerPass_values
    (integerVariables : List IntegerVariableInformation) (values : List Int)
    (s : CompressedState)
    (hrep : ∀ i ∈ integerVariables, -(2 ^ 63) ≤ i.lowerBound)
    (hvalues : ∀ c ∈ values, -(2 ^ 63) ≤ c) :
    ∀ c ∈ (getInitialStates.integerPass integerVariables values s).1, -(2 ^ 63) ≤ c := by
  induction integerVariables generalizing values s with
  | nil => cases values <;> exact hvalues
  | cons v rest ih =>
    cases values with
    | nil => exact hvalues
    | cons current values =>
      unfold getInitialStates.integerPass
      by_cases hc : current < toInt64 (v.upperBound - v.lowerBound)
      · rw [if_pos hc]
        intro c hmem
        rcases List.mem_cons.1 hmem with h | h
        · rw [h]; exact (toInt64_range _).1
        · exact hvalues c (List.mem_cons_of_mem _ h)
      · rw [if_neg hc]
        intro c hmem
        rcases List.mem_cons.1 hmem with h | h
        · rw [h]; exact hrep v (List.mem_cons_self _ _)
        · exact ih values _ (fun i hi => hrep i (List.mem_cons_of_mem _ hi))
            (fun c' hc' => hvalues c' (List.mem_cons_of_mem _ hc')) c h

/-- A pass of the loop over the integer variables that changes a variable lowers the number
of remaining passes by one. -/
theorem getInitialStates.integerPass_remaining
    (integerVariables : List IntegerVariableInformation) (values : List Int)
    (s : CompressedState) (hvalues : ∀ c ∈ values, -(2 ^ 63) ≤ c)
    (h : (getInitialStates.integerPass integerVariables values s).2.2 = true) :
    getInitialStates.remaining integerVariables
        (getInitialStates.integerPass integerVariables values s).1 + 1
      = getInitialStates.remaining integerVariables values := by
  induction integerVariables generalizing values s with
  | nil => cases values <;> simp [getInitialStates.integerPass] at h
  | cons v rest ih =>
    cases values with
    | nil => simp [getInitialStates.integerPass] at h
    | cons current values =>
      unfold getInitialStates.integerPass at h ⊢
      by_cases hc : current < toInt64 (v.upperBound - v.lowerBound)
      · rw [if_pos hc]
        simp only [getInitialStates.remaining]
        have hcur := hvalues current (List.mem_cons_self _ _)
        have hD := (toInt64_range (v.upperBound - v.lowerBound)).2
        have hinc : toInt64 (current + 1) = current + 1 :=
          toInt64_of_range _ (by omega) (by omega)
        rw [hinc]
        have h1 : (toInt64 (v.upperBound - v.lowerBound) - current).toNat
            = (toInt64 (v.upperBound - v.lowerBound) - (current + 1)).toNat + 1 := by omega
        omega
      · rw [if_neg hc] at h ⊢
        simp only at h ⊢
        have hrest := ih values _ (fun c' hc' => hvalues c' (List.mem_cons_of_mem _ hc')) h
        simp only [getInitialStates.remaining]
        rw [← hrest]
        have h0 : (toInt64 (v.upperBound - v.lowerBound) - current).toNat = 0 := by omega
        rw [h0]
        ring

/-- The enumeration loop ends: with more fuel than the number of remaining passes it
returns, and the result does not depend on the fuel. -/
theorem getInitialStates.loop_terminates {σ : Type} (vi : VariableInformation)
    (cb : StateToIdCallback σ)
    (hapart : ∀ b ∈ vi.booleanVariables, ∀ i ∈ vi.integerVariables,
      b.bitOffset < i.bitOffset ∨ i.bitOffset + i.bitWidth ≤ b.bitOffset)
    (hrep : ∀ i ∈ vi.integerVariables, -(2 ^ 63) ≤ i.lowerBound)
    (n : Nat) (initialState : CompressedState) (currentIntegerValues : List Int)
    (initialStateIndices : List Nat) (st : σ)
    (hn : getInitialStates.remaining vi.integerVariables currentIntegerValues = n)
    (hvalues : ∀ c ∈ currentIntegerValues, -(2 ^ 63) ≤ c)
    (hfalse : ∀ b ∈ vi.booleanVariables, BitVector.get initialState b.bitOffset = false) :
    ∃ result, ∀ fuel, n < fuel →
      getInitialStates.loop vi cb fuel initialState currentIntegerValues initialStateIndices st
        = some result := by
  induction n generalizing initialState currentIntegerValues initialStateIndices st with
  | zero =>
    have hpass : (getInitialStates.integerPass vi.integerVariables currentIntegerValues
        initialState).2.2 = false := by
      by_contra hne
      have := getInitialStates.integerPass_remaining vi.integerVariables currentIntegerValues
        initialState hvalues (by simpa using hne)
      omega
    refine ⟨(initialStateIndices, st), fun fuel hfuel => ?_⟩
    obtain ⟨f, rfl⟩ : ∃ f, fuel = f + 1 := ⟨fuel - 1, by omega⟩
    unfold getInitialStates.loop
    simp only [getInitialStates.booleanPass_of_false _ _ hfalse, Bool.false_eq_true, if_false,
      hpass]
  | succ n ih =>
    by_cases hpass : (getInitialStates.integerPass vi.integerVariables currentIntegerValues
        initialState).2.2 = true
    · have hrem := getInitialStates.integerPass_remaining vi.integerVariables
        currentIntegerValues initialState hvalues hpass
      have hfalse2 : ∀ b ∈ vi.booleanVariables,
          BitVector.get (getInitialStates.integerPass vi.integerVariables currentIntegerValues
            initialState).2.1 b.bitOffset = false := by
        intro b hb
        rw [getInitialStates.integerPass_get_outside _ _ _ _ (hapart b hb)]
        exact hfalse b hb
      obtain ⟨result, hres⟩ := ih
        (getInitialStates.integerPass vi.integerVariables currentIntegerValues initialState).2.1
        (getInitialStates.integerPass vi.integerVariables currentIntegerValues initialState).1
        (initialStateIndices ++ [(cb (getInitialStates.integerPass vi.integerVariables
          currentIntegerValues initialState).2.1 st).1])
        (cb (getInitialStates.integerPass vi.integerVariables currentIntegerValues
          initialState).2.1 st).2
        (by omega)
        (getInitialStates.integerPass_values vi.integerVariables currentIntegerValues
          initialState hrep hvalues)
        hfalse2
      refine ⟨result, fun fuel hfuel => ?_⟩
      obtain ⟨f, rfl⟩ : ∃ f, fuel = f + 1 := ⟨fuel - 1, by omega⟩
      unfold getInitialStates.loop
      simp only [getInitialStates.booleanPass_of_false _ _ hfalse, Bool.false_eq_true, if_false,
        hpass, if_true]
      exact hres f (by omega)
    · refine ⟨(initialStateIndices, st), fun fuel hfuel => ?_⟩
      obtain ⟨f, rfl⟩ : ∃ f, fuel = f + 1 := ⟨fuel - 1, by omega⟩
      unfold getInitialStates.loop
      simp only [getInitialStates.booleanPass_of_false _ _ hfalse, Bool.false_eq_true, if_false,
        hpass]

/-- The loop that checks the bounds returns zero counters and writes into integer slots
only, when every integer variable has a non-empty range. -/
theorem getInitialStates.init_ok (integerVariables : List IntegerVariableInformation)
    (s : CompressedState) (hbounds : ∀ i ∈ integerVariables, i.lowerBound ≤ i.upperBound) :
    ∃ s1, getInitialStates.init integerVariables s
        = .ok (integerVariables.map (fun _ => 0), s1)
      ∧ ∀ j, (∀ i ∈ integerVariables, j < i.bitOffset ∨ i.bitOffset + i.bitWidth ≤ j) →
          BitVector.get s1 j = BitVector.get s j := by
  induction integerVariables generalizing s with
  | nil => exact ⟨s, rfl, fun j _ => rfl⟩
  | cons v rest ih =>
    obtain ⟨s1, h1, h2⟩ := ih (BitVector.setFromInt s v.bitOffset v.bitWidth 0)
      (fun i hi => hbounds i (List.mem_cons_of_mem _ hi))
    refine ⟨s1, ?_, fun j hj => ?_⟩
    · unfold getInitialStates.init
      rw [if_pos (hbounds v (List.mem_cons_self _ _)), h1]
      rfl
    · rw [h2 j (fun i hi => hj i (List.mem_cons_of_mem _ hi))]
      exact BitVector.get_setFromInt_outside _ _ _ _ _ (hj v (List.mem_cons_self _ _))

/-- The loop that checks the bounds raises `InvalidArgumentException` when some integer
variable has an empty range. -/
theorem getInitialStates.init_error (integerVariables : List IntegerVariableInformation)
    (s : CompressedState) (h : ∃ i ∈ integerVariables, i.upperBound < i.lowerBound) :
    getInitialStates.init integerVariables s = .error Exception.InvalidArgumentException := by
  induction integerVariables generalizing s with
  | nil =>
    obtain ⟨i, hi, _⟩ := h
    exact absurd hi (List.not_mem_nil i)
  | cons v rest ih =>
    unfold getInitialStates.init
    by_cases hv : v.lowerBound ≤ v.upperBound
    · rw [if_pos hv]
      have hrest : ∃ i ∈ rest, i.upperBound < i.lowerBound := by
        obtain ⟨i, hi, hlt⟩ := h
        rcases List.mem_cons.1 hi with rfl | hi
        · omega
        · exact ⟨i, hi, hlt⟩
      rw [ih _ hrest]
    · rw [if_neg hv]

/-- C26: termination of the brute-force enumeration of the initial states.

For a layout in which no boolean variable is stored inside the slot of an integer
variable and whose bounds are values of `int_fast64_t`:

(1) when every integer variable has `lowerBound ≤ upperBound` (whatever the values of the
bounds, negative or large, also when `upperBound - lowerBound` wraps around at 64 bits),
`getInitialStates` returns: there is a result that it returns for every fuel above
`getInitialStates.remaining`, the number of passes of the loop that change a variable;

(2) when some integer variable has `lowerBound > upperBound`, the loop that checks the
bounds (lines 247-251), which precedes the first call of the callback (line 253) and does
not take the callback, raises `InvalidArgumentException`, and `getInitialStates` raises it
for every callback, every state of the callback and every fuel. -/
theorem getInitialStates_terminates (vi : VariableInformation)
    (hapart : ∀ b ∈ vi.booleanVariables, ∀ i ∈ vi.integerVariables,
      b.bitOffset < i.bitOffset ∨ i.bitOffset + i.bitWidth ≤ b.bitOffset)
    (hrep : ∀ i ∈ vi.integerVariables,
      -(2 ^ 63) ≤ i.lowerBound ∧ i.lowerBound < 2 ^ 63
        ∧ -(2 ^ 63) ≤ i.upperBound ∧ i.upperBound < 2 ^ 63) :
    ((∀ i ∈ vi.integerVariables, i.lowerBound ≤ i.upperBound) →
        ∀ (σ : Type) (cb : StateToIdCallback σ) (st : σ),
          ∃ result : List Nat × σ, ∀ fuel,
            getInitialStates.remaining vi.integerVariables
                (vi.integerVariables.map (fun _ => 0)) < fuel →
            getInitialStates vi cb st fuel = some (.ok result))
      ∧ ((∃ i ∈ vi.integerVariables, i.upperBound < i.lowerBound) →
          getInitialStates.init vi.integerVariables (BitVector.create vi.totalBitOffset)
              = .error Exception.InvalidArgumentException
            ∧ ∀ (σ : Type) (cb : StateToIdCallback σ) (st : σ) (fuel : Nat),
                getInitialStates vi cb st fuel
                  = some (.error Exception.InvalidArgumentException)) := by
  refine ⟨fun hbounds σ cb st => ?_, fun hempty => ?_⟩
  · obtain ⟨s1, hinit, hget⟩ := getInitialStates.init_ok vi.integerVariables
      (BitVector.create vi.totalBitOffset) hbounds
    have hfalse : ∀ b ∈ vi.booleanVariables, BitVector.get s1 b.bitOffset = false := by
      intro b hb
      rw [hget _ (hapart b hb)]
      exact BitVector.get_create _ _
    have hzero : ∀ c ∈ vi.integerVariables.map (fun _ => (0 : Int)), -(2 ^ 63) ≤ c := by
      intro c hc
      obtain ⟨_, _, h0⟩ := List.mem_map.1 hc
      rw [← h0]
      norm_num
    obtain ⟨result, hres⟩ := getInitialStates.loop_terminates vi cb hapart
      (fun i hi => (hrep i hi).1) _ s1
      (vi.integerVariables.map (fun _ => 0)) [(cb s1 st).1] (cb s1 st).2 rfl hzero hfalse
    refine ⟨result, fun fuel hfuel => ?_⟩
    unfold getInitialStates
    simp only [hinit, hres fuel hfuel, Option.map_some']
  · have herr := getInitialStates.init_error vi.integerVariables
      (BitVector.create vi.totalBitOffset) hempty
    refine ⟨herr, fun σ cb st fuel => ?_⟩
    unfold getInitialStates
    simp only [herr]

/-- Witness for C26: a variable with the range `[-5, -3]`, for which the loop ends after
interning three states; and a variable with the range `[-2^63, 0]`, for which the
difference of the bounds wraps around to `-2^63` and the loop ends after the first state. -/
theorem getInitialStates_terminates_witness :
    getInitialStates.remaining Examples.negativeLayout.integerVariables
        (Examples.negativeLayout.integerVariables.map (fun _ => 0)) = 2
      ∧ getInitialStates Examples.negativeLayout recordingCallback [] 3
        = some (.ok ([0, 1, 2], [[false, false], [false, true], [true, false]]))
      ∧ (∃ result : List Nat × List CompressedState, ∀ fuel,
          getInitialStates.remaining Examples.negativeLayout.integerVariables
              (Examples.negativeLayout.integerVariables.map (fun _ => 0)) < fuel →
          getInitialStates Examples.negativeLayout recordingCallback [] fuel
            = some (.ok result))
      ∧ getInitialStates.remaining Examples.wideLayout.integerVariables
          (Examples.wideLayout.integerVariables.map (fun _ => 0)) = 0
      ∧ getInitialStates Examples.wideLayout recordingCallback [] 1
        = some (.ok ([0], [List.replicate 64 false]))
      ∧ ∃ result : List Nat × List CompressedState, ∀ fuel,
          getInitialStates.remaining Examples.wideLayout.integerVariables
              (Examples.wideLayout.integerVariables.map (fun _ => 0)) < fuel →
          getInitialStates Examples.wideLayout recordingCallback [] fuel
            = some (.ok result) :=
  ⟨by decide, rfl,
    (getInitialStates_terminates Examples.negativeLayout
      (fun b hb => absurd hb (List.not_mem_nil b))
      (fun i hi => by
        rw [List.mem_singleton.1 hi]
        norm_num [Examples.negativeLayout])).1
      (fun i hi => by
        rw [List.mem_singleton.1 hi]
        norm_num [Examples.negativeLayout]) (List CompressedState) recordingCallback [],
    by decide, rfl,
    (getInitialStates_terminates Examples.wideLayout
      (fun b hb => absurd hb (List.not_mem_nil b))
      (fun i hi => by
        rw [List.mem_singleton.1 hi]
        norm_num [Examples.wideLayout])).1
      (fun i hi => by
        rw [List.mem_singleton.1 hi]
        norm_num [Examples.wideLayout]) (List CompressedState) recordingCallback []⟩

/-! ## The groups of the synchronization vectors -/

theorem getActionChoices.find_cons (l0 : Nat) (es : EdgeSetWithIndices)
    (rest : LocationsAndEdges) (l : Nat) :
    getActionChoices.find ((l0, es) :: rest) l
      = if l0 = l then some es else getActionChoices.find rest l := by
  unfold getActionChoices.find
  by_cases h : l0 = l
  · simp [List.find?_cons, h]
  · simp [List.find?_cons, h]

theorem getActionChoices.find_eq_none_of_lt (le : LocationsAndEdges) (l : Nat)
    (h : ∀ q ∈ le, l < q.1) : getActionChoices.find le l = none := by
  induction le with
  | nil => rfl
  | cons q rest ih =>
    obtain ⟨l0, es⟩ := q
    rw [getActionChoices.find_cons, if_neg, ih (fun q' hq' => h q' (List.mem_cons_of_mem _ hq'))]
    have := h (l0, es) (List.mem_cons_self _ _)
    simp only at this
    omega

theorem LocationsAndEdges.mem_emplaceBack (le : LocationsAndEdges) (l : Nat) (entry : Nat × Edge)
    (q : Nat × EdgeSetWithIndices) (hq : q ∈ LocationsAndEdges.emplaceBack le l entry) :
    (q.1 = l ∨ ∃ q' ∈ le, q'.1 = q.1) ∧ q.2 ≠ [] ∨ q ∈ le := by
  induction le with
  | nil =>
    simp only [LocationsAndEdges.emplaceBack, List.mem_singleton] at hq
    rw [hq]
    exact Or.inl ⟨Or.inl rfl, by simp⟩
  | cons q0 rest ih =>
    obtain ⟨l0, es⟩ := q0
    unfold LocationsAndEdges.emplaceBack at hq
    by_cases h1 : l = l0
    · rw [if_pos h1] at hq
      rcases List.mem_cons.1 hq with h | h
      · rw [h]
        exact Or.inl ⟨Or.inl h1.symm, by simp⟩
      · exact Or.inr (List.mem_cons_of_mem _ h)
    · rw [if_neg h1] at hq
      by_cases h2 : l < l0
      · rw [if_pos h2] at hq
        rcases List.mem_cons.1 hq with h | h
        · rw [h]
          exact Or.inl ⟨Or.inl rfl, by simp⟩
        · exact Or.inr h
      · rw [if_neg h2] at hq
        rcases List.mem_cons.1 hq with h | h
        · rw [h]
          exact Or.inr (List.mem_cons_self _ _)
        · rcases ih h with ⟨h3 | ⟨q', hq', hq'1⟩, h4⟩ | h3
          · exact Or.inl ⟨Or.inl h3, h4⟩
          · exact Or.inl ⟨Or.inr ⟨q', List.mem_cons_of_mem _ hq', hq'1⟩, h4⟩
          · exact Or.inr (List.mem_cons_of_mem _ h3)

/-- The insertion into the map from source locations to edges keeps the keys in strictly
increasing order and stores no empty list; the entry is appended to the list of its
location, the lists of the other locations are as before. -/
theorem LocationsAndEdges.emplaceBack_spec (le : LocationsAndEdges) (l : Nat)
    (entry : Nat × Edge) (hsorted : (le.map Prod.fst).Pairwise (· < ·))
    (hne : ∀ q ∈ le, q.2 ≠ []) :
    ((LocationsAndEdges.emplaceBack le l entry).map Prod.fst).Pairwise (· < ·)
      ∧ (∀ q ∈ LocationsAndEdges.emplaceBack le l entry, q.2 ≠ [])
      ∧ ∀ l', (getActionChoices.find (LocationsAndEdges.emplaceBack le l entry) l').getD []
          = (getActionChoices.find le l').getD [] ++ (if l' = l then [entry] else []) := by
  have hne' : ∀ q ∈ LocationsAndEdges.emplaceBack le l entry, q.2 ≠ [] := by
    intro q hq
    rcases LocationsAndEdges.mem_emplaceBack le l entry q hq with ⟨_, h⟩ | h
    · exact h
    · exact hne q h
  refine ⟨?_, hne', ?_⟩
  · induction le with
    | nil => simp [LocationsAndEdges.emplaceBack]
    | cons q0 rest ih =>
      obtain ⟨l0, es⟩ := q0
      simp only [List.map_cons, List.pairwise_cons] at hsorted
      unfold LocationsAndEdges.emplaceBack
      by_cases h1 : l = l0
      · rw [if_pos h1]
        simp only [List.map_cons, List.pairwise_cons]
        exact hsorted
      · rw [if_neg h1]
        by_cases h2 : l < l0
        · rw [if_pos h2]
          simp only [List.map_cons, List.pairwise_cons]
          refine ⟨?_, hsorted⟩
          intro a ha
          rcases List.mem_cons.1 ha with ha | ha
          · omega
          · have := hsorted.1 a ha
            omega
        · rw [if_neg h2]
          simp only [List.map_cons, List.pairwise_cons]
          refine ⟨?_, ih hsorted.2 (fun q hq => hne q (List.mem_cons_of_mem _ hq))
            (fun q hq => ?_)⟩
          · intro a ha
            obtain ⟨q, hq, hqa⟩ := List.mem_map.1 ha
            rcases LocationsAndEdges.mem_emplaceBack rest l entry q hq with
              ⟨h3 | ⟨q', hq', hq'1⟩, _⟩ | h3
            · rw [← hqa, h3]; omega
            · rw [← hqa, ← hq'1]
              exact hsorted.1 _ (List.mem_map.2 ⟨q', hq', rfl⟩)
            · rw [← hqa]
              exact hsorted.1 _ (List.mem_map.2 ⟨q, h3, rfl⟩)
          · rcases LocationsAndEdges.mem_emplaceBack rest l entry q hq with ⟨_, h⟩ | h
            · exact h
            · exact hne q (List.mem_cons_of_mem _ h)
  · intro l'
    induction le with
    | nil =>
      simp only [LocationsAndEdges.emplaceBack, getActionChoices.find_cons]
      by_cases h : l = l'
      · rw [if_pos h, if_pos h.symm]; rfl
      · rw [if_neg h, if_neg (fun h' => h h'.symm)]; rfl
    | cons q0 rest ih =>
      obtain ⟨l0, es⟩ := q0
      simp only [List.map_cons, List.pairwise_cons] at hsorted
      unfold LocationsAndEdges.emplaceBack
      by_cases h1 : l = l0
      · rw [if_pos h1]
        rw [getActionChoices.find_cons, getActionChoices.find_cons]
        by_cases h : l0 = l'
        · rw [if_pos h, if_pos h, if_pos (by omega : l' = l)]; rfl
        · rw [if_neg h, if_neg h, if_neg (by omega : ¬ l' = l)]; simp
      · rw [if_neg h1]
        by_cases h2 : l < l0
        · rw [if_pos h2]
          rw [getActionChoices.find_cons]
          by_cases h : l = l'
          · rw [if_pos h, if_pos h.symm]
            have hnone : getActionChoices.find ((l0, es) :: rest) l' = none := by
              apply getActionChoices.find_eq_none_of_lt
              intro q hq
              rcases List.mem_cons.1 hq with hq | hq
              · rw [hq]; simp only; omega
              · have := hsorted.1 q.1 (List.mem_map.2 ⟨q, hq, rfl⟩)
                omega
            rw [hnone]; rfl
          · rw [if_neg h, if_neg (fun h' => h h'.symm)]; simp
        · rw [if_neg h2]
          rw [getActionChoices.find_cons, getActionChoices.find_cons]
          by_cases h : l0 = l'
          · rw [if_pos h, if_pos h, if_neg (by omega : ¬ l' = l)]; simp
          · rw [if_neg h, if_neg h]
            exact ih hsorted.2 (fun q hq => hne q (List.mem_cons_of_mem _ hq))
              (fun q hq => by
                rcases LocationsAndEdges.mem_emplaceBack rest l entry q hq with ⟨_, h⟩ | h
                · exact h
                · exact hne q (List.mem_cons_of_mem _ h))

/-- The map that the loop over the edges of an automaton builds: its keys are in strictly
increasing order, it stores no empty list, and under every location it lists the edges that
satisfy `p` and start in the location, with their positions, after what was there. -/
theorem createSynchronizationInformation.collectEdges_spec (p : Edge → Bool)
    (edges : List Edge) (edgeIndex : Nat) (le : LocationsAndEdges)
    (hsorted : (le.map Prod.fst).Pairwise (· < ·)) (hne : ∀ q ∈ le, q.2 ≠ []) :
    ((createSynchronizationInformation.collectEdges p edges edgeIndex le).map
        Prod.fst).Pairwise (· < ·)
      ∧ (∀ q ∈ createSynchronizationInformation.collectEdges p edges edgeIndex le, q.2 ≠ [])
      ∧ ∀ l, (getActionChoices.find
            (createSynchronizationInformation.collectEdges p edges edgeIndex le) l).getD []
          = (getActionChoices.find le l).getD []
            ++ (edges.enumFrom edgeIndex).filter
                (fun indexAndEdge => p indexAndEdge.2
                  && indexAndEdge.2.sourceLocationIndex == l) := by
  induction edges generalizing edgeIndex le with
  | nil => exact ⟨hsorted, hne, fun l => by simp [createSynchronizationInformation.collectEdges]⟩
  | cons edge rest ih =>
    unfold createSynchronizationInformation.collectEdges
    by_cases hp : p edge = true
    · rw [if_pos hp]
      obtain ⟨h1, h2, h3⟩ := LocationsAndEdges.emplaceBack_spec le edge.sourceLocationIndex
        (edgeIndex, edge) hsorted hne
      obtain ⟨h4, h5, h6⟩ := ih (edgeIndex + 1) _ h1 h2
      refine ⟨h4, h5, fun l => ?_⟩
      rw [h6 l, h3 l, List.enumFrom_cons]
      by_cases hl : l = edge.sourceLocationIndex
      · rw [if_pos hl, List.filter_cons_of_pos (by simp [hp, hl])]
        simp
      · rw [if_neg hl, List.filter_cons_of_neg (by
          simp only [Bool.and_eq_true, beq_iff_eq, not_and]
          intro _ h
          exact hl h.symm)]
        simp
    · rw [if_neg hp]
      obtain ⟨h4, h5, h6⟩ := ih (edgeIndex + 1) le hsorted hne
      refine ⟨h4, h5, fun l => ?_⟩
      rw [h6 l, List.enumFrom_cons, List.filter_cons_of_neg (by simp [hp])]

/-- The map of an automaton is empty exactly when no edge satisfies `p`. -/
theorem createSynchronizationInformation.collectEdges_isEmpty (p : Edge → Bool)
    (edges : List Edge) :
    (createSynchronizationInformation.collectEdges p edges 0 []).isEmpty
      = !edges.any p := by
  obtain ⟨_, hne, hfind⟩ := createSynchronizationInformation.collectEdges_spec p edges 0 []
    List.Pairwise.nil (fun q hq => absurd hq (List.not_mem_nil q))
  cases hr : createSynchronizationInformation.collectEdges p edges 0 [] with
  | nil =>
    simp only [List.isEmpty_nil]
    symm
    simp only [Bool.not_eq_true', List.any_eq_false]
    intro e he hpe
    obtain ⟨i, hi, hie⟩ := List.mem_iff_getElem.1 he
    have hmem : (i, e) ∈ (edges.enumFrom 0).filter
        (fun indexAndEdge => p indexAndEdge.2
          && indexAndEdge.2.sourceLocationIndex == e.sourceLocationIndex) := by
      rw [List.mem_filter]
      refine ⟨?_, by simp [hpe]⟩
      rw [List.mk_mem_enumFrom_iff_le_and_getElem?_sub]
      simp [List.getElem?_eq_getElem hi, hie]
    have := hfind e.sourceLocationIndex
    rw [hr] at this
    simp only [getActionChoices.find, List.find?_nil, Option.map_none', Option.getD_none,
      List.nil_append] at this
    rw [← this] at hmem
    exact absurd hmem (List.not_mem_nil _)
  | cons q rest =>
    obtain ⟨l0, es⟩ := q
    simp only [List.isEmpty_cons]
    symm
    simp only [Bool.not_eq_false', List.any_eq_true]
    have hes : es ≠ [] := hne (l0, es) (by rw [hr]; exact List.mem_cons_self _ _)
    have := hfind l0
    rw [hr, getActionChoices.find_cons, if_pos rfl] at this
    simp only [Option.getD_some, getActionChoices.find, List.find?_nil, Option.map_none',
      Option.getD_none, List.nil_append] at this
    obtain ⟨ie, hie⟩ := List.exists_mem_of_ne_nil es hes
    rw [this, List.mem_filter] at hie
    refine ⟨ie.2, ?_, ?_⟩
    · have := List.mem_enumFrom hie.1
      rw [this.2.2]
      exact List.getElem_mem _
    · have := hie.2
      simp only [Bool.and_eq_true] at this
      exact this.1

theorem createSynchronizationInformation.mem_participants (input : List (Option Nat))
    (automatonIndex i a : Nat) :
    (i, a) ∈ createSynchronizationInformation.participants input automatonIndex
      ↔ automatonIndex ≤ i ∧ input[i - automatonIndex]? = some (some a) := by
  induction input generalizing automatonIndex with
  | nil => simp [createSynchronizationInformation.participants]
  | cons element rest ih =>
    cases element with
    | none =>
      simp only [createSynchronizationInformation.participants, ih]
      constructor
      · rintro ⟨h1, h2⟩
        refine ⟨by omega, ?_⟩
        have : i - automatonIndex = (i - (automatonIndex + 1)) + 1 := by omega
        rw [this, List.getElem?_cons_succ]
        exact h2
      · rintro ⟨h1, h2⟩
        by_cases heq : i = automatonIndex
        · subst heq
          simp at h2
        · refine ⟨by omega, ?_⟩
          have : i - automatonIndex = (i - (automatonIndex + 1)) + 1 := by omega
          rw [this, List.getElem?_cons_succ] at h2
          exact h2
    | some b =>
      simp only [createSynchronizationInformation.participants, List.mem_cons, Prod.mk.injEq, ih]
      constructor
      · rintro (⟨h1, h2⟩ | ⟨h1, h2⟩)
        · subst h1 h2
          simp
        · refine ⟨by omega, ?_⟩
          have : i - automatonIndex = (i - (automatonIndex + 1)) + 1 := by omega
          rw [this, List.getElem?_cons_succ]
          exact h2
      · rintro ⟨h1, h2⟩
        by_cases heq : i = automatonIndex
        · subst heq
          simp only [Nat.sub_self, List.getElem?_cons_zero, Option.some.injEq] at h2
          exact Or.inl ⟨rfl, h2.symm⟩
        · right
          refine ⟨by omega, ?_⟩
          have : i - automatonIndex = (i - (automatonIndex + 1)) + 1 := by omega
          rw [this, List.getElem?_cons_succ] at h2
          exact h2

theorem createSynchronizationInformation.participants_sorted (input : List (Option Nat))
    (automatonIndex : Nat) :
    ((createSynchronizationInformation.participants input automatonIndex).map
      Prod.fst).Pairwise (· < ·) := by
  induction input generalizing automatonIndex with
  | nil => simp [createSynchronizationInformation.participants]
  | cons element rest ih =>
    cases element with
    | none => exact ih (automatonIndex + 1)
    | some b =>
      simp only [createSynchronizationInformation.participants, List.map_cons,
        List.pairwise_cons]
      refine ⟨fun i hi => ?_, ih (automatonIndex + 1)⟩
      obtain ⟨q, hq, hqi⟩ := List.mem_map.1 hi
      have := (createSynchronizationInformation.mem_participants rest (automatonIndex + 1) q.1
        q.2).1 hq
      omega

/-- The loop over the input of a synchronization vector: the group of the participants,
appended to what was collected, when every participant has an edge with its action, and
nothing otherwise. -/
theorem createSynchronizationInformation.vectorInput_spec (parallelAutomata : List Automaton)
    (input : List (Option Nat)) (automatonIndex : Nat) (automataAndEdges : AutomataAndEdges)
    (hrange : ∀ participant ∈ createSynchronizationInformation.participants input
      automatonIndex, participant.1 < parallelAutomata.length) :
    createSynchronizationInformation.vectorInput parallelAutomata input automatonIndex
        automataAndEdges
      = .ok (if (createSynchronizationInformation.participants input automatonIndex).all
              (createSynchronizationInformation.hasEdge parallelAutomata) = true then
            some (automataAndEdges
              ++ createSynchronizationInformation.groupOf parallelAutomata
                  (createSynchronizationInformation.participants input automatonIndex))
          else none) := by
  induction input generalizing automatonIndex automataAndEdges with
  | nil =>
    simp [createSynchronizationInformation.vectorInput,
      createSynchronizationInformation.participants,
      createSynchronizationInformation.groupOf]
  | cons element rest ih =>
    cases element with
    | none =>
      unfold createSynchronizationInformation.vectorInput
      simp only [createSynchronizationInformation.participants]
      exact ih _ _ hrange
    | some actionIndex =>
      unfold createSynchronizationInformation.vectorInput
      simp only [createSynchronizationInformation.participants] at hrange ⊢
      have hlt := hrange (automatonIndex, actionIndex) (List.mem_cons_self _ _)
      simp only at hlt
      rw [List.getElem?_eq_getElem hlt]
      simp only
      rw [createSynchronizationInformation.collectEdges_isEmpty]
      have hhas : createSynchronizationInformation.hasEdge parallelAutomata
          (automatonIndex, actionIndex)
          = parallelAutomata[automatonIndex].edges.any
              (fun edge => edge.actionIndex == actionIndex) := by
        unfold createSynchronizationInformation.hasEdge
        rw [List.getElem?_eq_getElem hlt]
        rfl
      by_cases hany : parallelAutomata[automatonIndex].edges.any
          (fun edge => edge.actionIndex == actionIndex) = true
      · rw [if_neg (by simp [hany])]
        rw [ih _ _ (fun q hq => hrange q (List.mem_cons_of_mem _ hq))]
        simp only [List.all_cons, hhas, hany, Bool.true_and]
        by_cases hall : (createSynchronizationInformation.participants rest
            (automatonIndex + 1)).all
            (createSynchronizationInformation.hasEdge parallelAutomata) = true
        · rw [if_pos hall, if_pos hall]
          simp only [createSynchronizationInformation.groupOf, List.filterMap_cons,
            List.getElem?_eq_getElem hlt, Option.map_some', List.append_assoc,
            List.singleton_append]
        · rw [if_neg hall, if_neg hall]
      · rw [if_pos (by simp [hany])]
        simp only [List.all_cons, hhas, hany, Bool.false_and, Bool.false_eq_true, if_false]

/-- The loop over the synchronization vectors appends the groups of the vectors that are
kept, in the order of the vectors. -/
theorem createSynchronizationInformation.vectors_spec (parallelAutomata : List Automaton)
    (vectors : List SynchronizationVector) (edges : List OutputAndEdges)
    (hrange : ∀ vector ∈ vectors,
      ∀ participant ∈ createSynchronizationInformation.participants vector.input 0,
        participant.1 < parallelAutomata.length) :
    createSynchronizationInformation.vectors parallelAutomata vectors edges
      = .ok (edges ++ vectors.filterMap
          (createSynchronizationInformation.keptGroup parallelAutomata)) := by
  induction vectors generalizing edges with
  | nil => simp [createSynchronizationInformation.vectors]
  | cons vector rest ih =>
    unfold createSynchronizationInformation.vectors
    rw [createSynchronizationInformation.vectorInput_spec parallelAutomata vector.input 0 []
      (hrange vector (List.mem_cons_self _ _))]
    by_cases hall : (createSynchronizationInformation.participants vector.input 0).all
        (createSynchronizationInformation.hasEdge parallelAutomata) = true
    · rw [if_pos hall]
      simp only
      rw [ih _ (fun v hv => hrange v (List.mem_cons_of_mem _ hv))]
      simp only [List.filterMap_cons, createSynchronizationInformation.keptGroup]
      rw [if_pos hall]
      simp only [List.nil_append, List.append_assoc, List.singleton_append]
    · rw [if_neg hall]
      simp only
      rw [ih _ (fun v hv => hrange v (List.mem_cons_of_mem _ hv))]
      simp only [List.filterMap_cons, createSynchronizationInformation.keptGroup]
      rw [if_neg hall]

theorem createSynchronizationInformation.groupOf_keys (parallelAutomata : List Automaton)
    (participants : List (Nat × Nat))
    (hrange : ∀ participant ∈ participants, participant.1 < parallelAutomata.length) :
    (createSynchronizationInformation.groupOf parallelAutomata participants).map Prod.fst
      = participants.map Prod.fst := by
  induction participants with
  | nil => rfl
  | cons participant rest ih =>
    have hlt := hrange participant (List.mem_cons_self _ _)
    simp only [createSynchronizationInformation.groupOf, List.filterMap_cons,
      List.getElem?_eq_getElem hlt, Option.map_some', List.map_cons]
    exact congrArg _ (ih (fun q hq => hrange q (List.mem_cons_of_mem _ hq)))

theorem createSynchronizationInformation.mem_groupOf (parallelAutomata : List Automaton)
    (participants : List (Nat × Nat)) (i : Nat) (le : LocationsAndEdges)
    (h : (i, le) ∈ createSynchronizationInformation.groupOf parallelAutomata participants) :
    ∃ a automaton, (i, a) ∈ participants ∧ parallelAutomata[i]? = some automaton
      ∧ le = createSynchronizationInformation.collectEdges
          (fun edge => edge.actionIndex == a) automaton.edges 0 [] := by
  unfold createSynchronizationInformation.groupOf at h
  obtain ⟨participant, hmem, heq⟩ := List.mem_filterMap.1 h
  cases hget : parallelAutomata[participant.1]? with
  | none => rw [hget] at heq; exact absurd heq (by simp)
  | some automaton =>
    rw [hget] at heq
    simp only [Option.map_some', Option.some.injEq, Prod.mk.injEq] at heq
    obtain ⟨h1, h2⟩ := heq
    refine ⟨participant.2, automaton, ?_, ?_, h2.symm⟩
    · rw [← h1]; exact hmem
    · rw [← h1]; exact hget

theorem createSynchronizationInformation.all_hasEdge (parallelAutomata : List Automaton)
    (input : List (Option Nat)) :
    (createSynchronizationInformation.participants input 0).all
        (createSynchronizationInformation.hasEdge parallelAutomata) = true
      ↔ ∀ (i a : Nat), input[i]? = some (some a) →
          ∃ automaton : Automaton, parallelAutomata[i]? = some automaton
            ∧ ∃ edge ∈ automaton.edges, edge.actionIndex = a := by
  rw [List.all_eq_true]
  constructor
  · intro h i a hia
    have := h (i, a) ((createSynchronizationInformation.mem_participants input 0 i a).2
      ⟨Nat.zero_le _, hia⟩)
    unfold createSynchronizationInformation.hasEdge at this
    cases hget : parallelAutomata[i]? with
    | none => simp [hget] at this
    | some automaton =>
      simp only [hget, Option.any_some, List.any_eq_true, beq_iff_eq] at this
      exact ⟨automaton, rfl, this⟩
  · intro h participant hmem
    obtain ⟨i, a⟩ := participant
    have hia := ((createSynchronizationInformation.mem_participants input 0 i a).1 hmem).2
    obtain ⟨automaton, hget, hedge⟩ := h i a hia
    unfold createSynchronizationInformation.hasEdge
    simp only [hget, Option.any_some, List.any_eq_true, beq_iff_eq]
    exact hedge

theorem Automaton.mem_edgesWithAction (automaton : Automaton) (actionIndex location : Nat)
    (edgeIndex : Nat) (edge : Edge) :
    (edgeIndex, edge) ∈ automaton.edgesWithAction actionIndex location
      ↔ automaton.edges[edgeIndex]? = some edge ∧ edge.actionIndex = actionIndex
          ∧ edge.sourceLocationIndex = location := by
  unfold Automaton.edgesWithAction
  rw [List.mem_filter, List.enum, List.mk_mem_enumFrom_iff_le_and_getElem?_sub]
  simp

/-- C25: for a parallel composition whose automata have been collected and whose
synchronization vectors have no more input slots than there are automata,
`createSynchronizationInformation` returns the groups of the silent action followed by the
groups of the synchronization vectors that are kept, in the order of the vectors.  A vector
is kept if and only if every automaton with a non-empty input slot has at least one edge
whose action is the action of the slot.  The group of a kept vector carries the output
action of the vector and lists the participating automata, one entry for each non-empty
input slot, in strictly increasing automaton index; the entry of an automaton is a map
with strictly increasing source locations and no empty list that holds, under every source
location, exactly the edges of the automaton with the action of the slot and this source
location, each paired with its position in the edge list of the automaton, in the order of
the edge list. -/
theorem createSynchronizationInformation_groups (model : Model)
    (subcompositions : List Composition) (vectors : List SynchronizationVector)
    (parallelAutomata : List Automaton) (edges : List OutputAndEdges)
    (hcomposition : model.systemComposition = Composition.parallel subcompositions vectors)
    (hsub : createSynchronizationInformation.subcompositions model subcompositions 0 [] []
      = .ok (parallelAutomata, edges))
    (hrange : ∀ vector ∈ vectors, vector.input.length ≤ parallelAutomata.length) :
    createSynchronizationInformation model
        = .ok (parallelAutomata,
            edges ++ vectors.filterMap
              (createSynchronizationInformation.keptGroup parallelAutomata))
      ∧ (∀ vector : SynchronizationVector,
          (createSynchronizationInformation.keptGroup parallelAutomata vector).isSome = true
            ↔ ∀ (i a : Nat), vector.input[i]? = some (some a) →
                ∃ automaton : Automaton, parallelAutomata[i]? = some automaton
                  ∧ ∃ edge ∈ automaton.edges, edge.actionIndex = a)
      ∧ (∀ vector ∈ vectors, ∀ group,
          createSynchronizationInformation.keptGroup parallelAutomata vector = some group →
          group.1 = some vector.output
            ∧ (group.2.map Prod.fst).Pairwise (· < ·)
            ∧ (∀ i : Nat, i ∈ group.2.map Prod.fst ↔ ∃ a : Nat, vector.input[i]? = some (some a))
            ∧ ∀ i locationsAndEdges, (i, locationsAndEdges) ∈ group.2 →
                ∃ (a : Nat) (automaton : Automaton), vector.input[i]? = some (some a)
                  ∧ parallelAutomata[i]? = some automaton
                  ∧ (locationsAndEdges.map Prod.fst).Pairwise (· < ·)
                  ∧ (∀ q ∈ locationsAndEdges, q.2 ≠ [])
                  ∧ (∀ location,
                      (getActionChoices.find locationsAndEdges location).getD []
                        = automaton.edgesWithAction a location)
                  ∧ ∀ location edgeIndex edge,
                      (edgeIndex, edge) ∈ automaton.edgesWithAction a location
                        ↔ automaton.edges[edgeIndex]? = some edge ∧ edge.actionIndex = a
                            ∧ edge.sourceLocationIndex = location) := by
  have hrange' : ∀ vector ∈ vectors,
      ∀ participant ∈ createSynchronizationInformation.participants vector.input 0,
        participant.1 < parallelAutomata.length := by
    intro vector hv participant hp
    have h := ((createSynchronizationInformation.mem_participants vector.input 0
      participant.1 participant.2).1 hp).2
    have hlt : participant.1 - 0 < vector.input.length := by
      by_contra hge
      rw [List.getElem?_eq_none (by omega)] at h
      exact absurd h (by simp)
    have := hrange vector hv
    omega
  refine ⟨?_, ?_, ?_⟩
  · unfold createSynchronizationInformation
    rw [hcomposition]
    simp only [hsub]
    rw [createSynchronizationInformation.vectors_spec parallelAutomata vectors edges hrange']
  · intro vector
    rw [← createSynchronizationInformation.all_hasEdge]
    unfold createSynchronizationInformation.keptGroup
    by_cases hall : (createSynchronizationInformation.participants vector.input 0).all
        (createSynchronizationInformation.hasEdge parallelAutomata) = true
    · rw [if_pos hall]; simp [hall]
    · rw [if_neg hall]; simp [hall]
  · intro vector hv group hgroup
    unfold createSynchronizationInformation.keptGroup at hgroup
    by_cases hall : (createSynchronizationInformation.participants vector.input 0).all
        (createSynchronizationInformation.hasEdge parallelAutomata) = true
    · rw [if_pos hall] at hgroup
      have hg : group = (some vector.output,
          createSynchronizationInformation.groupOf parallelAutomata
            (createSynchronizationInformation.participants vector.input 0)) :=
        (Option.some.inj hgroup).symm
      rw [hg]
      have hkeys := createSynchronizationInformation.groupOf_keys parallelAutomata
        (createSynchronizationInformation.participants vector.input 0) (hrange' vector hv)
      refine ⟨rfl, ?_, ?_, ?_⟩
      · simp only [hkeys]
        exact createSynchronizationInformation.participants_sorted vector.input 0
      · intro i
        simp only [hkeys]
        constructor
        · intro hi
          obtain ⟨q, hq, hqi⟩ := List.mem_map.1 hi
          refine ⟨q.2, ?_⟩
          rw [← hqi]
          exact ((createSynchronizationInformation.mem_participants vector.input 0 q.1
            q.2).1 hq).2
        · rintro ⟨a, ha⟩
          exact List.mem_map.2 ⟨(i, a),
            (createSynchronizationInformation.mem_participants vector.input 0 i a).2
              ⟨Nat.zero_le _, ha⟩, rfl⟩
      · intro i locationsAndEdges hmem
        obtain ⟨a, automaton, hp, hget, hle⟩ :=
          createSynchronizationInformation.mem_groupOf parallelAutomata _ i locationsAndEdges
            hmem
        obtain ⟨h1, h2, h3⟩ := createSynchronizationInformation.collectEdges_spec
          (fun edge => edge.actionIndex == a) automaton.edges 0 [] List.Pairwise.nil
          (fun q hq => absurd hq (List.not_mem_nil q))
        refine ⟨a, automaton,
          ((createSynchronizationInformation.mem_participants vector.input 0 i a).1 hp).2,
          hget, ?_, ?_, ?_, fun location edgeIndex edge =>
            Automaton.mem_edgesWithAction automaton a location edgeIndex edge⟩
        · rw [hle]; exact h1
        · rw [hle]; exact h2
        · intro location
          rw [hle, h3 location]
          rfl
    · rw [if_neg hall] at hgroup
      exact absurd hgroup (by simp)

/-- Witness for C25: the blocked-synchronization model; both automata have an edge with
action 1, so the vector is kept. -/
theorem createSynchronizationInformation_groups_witness :
    Examples.blockedModel.systemComposition
        = Composition.parallel [Composition.automaton 0, Composition.automaton 1]
            [{ input := [some 1, some 1], output := 1 }]
      ∧ createSynchronizationInformation.subcompositions Examples.blockedModel
          [Composition.automaton 0, Composition.automaton 1] 0 [] []
        = .ok ([Examples.senderAutomaton, Examples.receiverAutomaton],
            [(none, [(1, [(0, [(0, Examples.plainEdge 0 0
              (some (Expression.rationalLiteral 2)))])])])])
      ∧ createSynchronizationInformation Examples.blockedModel
        = .ok ([Examples.senderAutomaton, Examples.receiverAutomaton],
            [(none, [(1, [(0, [(0, Examples.plainEdge 0 0
              (some (Expression.rationalLiteral 2)))])])])]
            ++ [({ input := [some 1, some 1], output := 1 } :
                  SynchronizationVector)].filterMap
                (createSynchronizationInformation.keptGroup
                  [Examples.senderAutomaton, Examples.receiverAutomaton])) :=
  ⟨rfl, rfl,
    (createSynchronizationInformation_groups Examples.blockedModel
      [Composition.automaton 0, Composition.automaton 1]
      [{ input := [some 1, some 1], output := 1 }]
      [Examples.senderAutomaton, Examples.receiverAutomaton]
      [(none, [(1, [(0, [(0, Examples.plainEdge 0 0
        (some (Expression.rationalLiteral 2)))])])])]
      rfl rfl
      (by
        intro vector hv
        rw [List.mem_singleton.1 hv]
        decide)).1⟩

/-! ## The slot-range invariant -/

theorem dropWhile_eq_cons {α : Type} (p : α → Bool) (l : List α) (x : α) (xs : List α)
    (h : l.dropWhile p = x :: xs) : p x = false ∧ ∀ y ∈ x :: xs, y ∈ l := by
  constructor
  · induction l with
    | nil => simp at h
    | cons y ys ih =>
      rw [List.dropWhile_cons] at h
      by_cases hp : p y = true
      · rw [if_pos hp] at h; exact ih h
      · rw [if_neg hp] at h
        have := (List.cons.inj h).1
        rw [← this]; simpa using hp
  · intro y hy
    have := List.dropWhile_suffix p (l := l)
    rw [h] at this
    exact this.subset hy

theorem getElem?_mem_of_eq_some {α : Type} (l : List α) (i : Nat) (a : α)
    (h : l[i]? = some a) : a ∈ l := by
  obtain ⟨hi, ha⟩ := List.getElem?_eq_some.1 h
  rw [← ha]
  exact List.getElem_mem _

/-- A checked write that returns has a value inside the bounds and writes it. -/
theorem applyUpdate.writeInteger_checked (g : JaniNextStateGenerator) (state : CompressedState)
    (info : IntegerVariableInformation) (v : Int) (state1 : CompressedState)
    (hoff : g.options.addOutOfBoundsState = false)
    (h : applyUpdate.writeInteger g state info true v = .ok state1) :
    info.lowerBound ≤ v ∧ v ≤ info.upperBound
      ∧ state1 = BitVector.setFromInt state info.bitOffset info.bitWidth
          (toUInt64 (v - info.lowerBound)) := by
  unfold applyUpdate.writeInteger at h
  rw [if_neg (by simp [hoff]), if_pos rfl] at h
  by_cases hlo : v < info.lowerBound
  · rw [if_pos hlo] at h; cases h
  · rw [if_neg hlo] at h
    by_cases hhi : v > info.upperBound
    · rw [if_pos hhi] at h; cases h
    · rw [if_neg hhi] at h
      exact ⟨by omega, by omega, (Except.ok.inj h).symm⟩

/-- A checked write into a slot of a well-formed layout: the slot holds the value minus the
lower bound, which fits the range, and every other slot that was in range still is. -/
theorem applyUpdate.writeInteger_slots (g : JaniNextStateGenerator) (n : Nat)
    (hwf : g.variableInformation.WellFormed n)
    (hoff : g.options.addOutOfBoundsState = false) (state : CompressedState)
    (hlen : state.length = n) (info : IntegerVariableInformation)
    (hinfo : info ∈ g.variableInformation.integerVariables) (v : Int)
    (state1 : CompressedState)
    (h : applyUpdate.writeInteger g state info true v = .ok state1) :
    state1.length = n
      ∧ (BitVector.getAsInt state1 info.bitOffset info.bitWidth : Int) = v - info.lowerBound
      ∧ info.InRange state1
      ∧ ∀ j ∈ g.variableInformation.integerVariables, j.InRange state → j.InRange state1 := by
  obtain ⟨hlo, hhi, hst⟩ := applyUpdate.writeInteger_checked g state info v state1 hoff h
  obtain ⟨hint, _, _, hnodup, _, _, hdisj, _, _, _⟩ := hwf
  obtain ⟨hin, hw, hwide⟩ := hint info hinfo
  have hraw : (BitVector.getAsInt state1 info.bitOffset info.bitWidth : Int)
      = v - info.lowerBound := by
    rw [hst]
    exact BitVector.getAsInt_setFromInt_toUInt64 state info.bitOffset info.bitWidth
      (v - info.lowerBound) hw (by omega) (by omega) (by omega)
  have hrange : info.InRange state1 := by
    unfold IntegerVariableInformation.InRange
    rw [hraw]
    constructor <;> omega
  refine ⟨by rw [hst, BitVector.length_setFromInt]; exact hlen, hraw, hrange, ?_⟩
  intro j hj hjr
  by_cases hji : j = info
  · rw [hji]; exact hrange
  · have hvar : info.var ≠ j.var := fun hv =>
      hji (List.inj_on_of_nodup_map hnodup hj hinfo hv.symm)
    have hd := hdisj info hinfo j hj hvar
    unfold IntegerVariableInformation.InRange at hjr ⊢
    rw [hst, BitVector.getAsInt_setFromInt_disjoint _ _ _ _ _ _ (by omega)]
    exact hjr

/-- Writing the bit of a boolean variable of a well-formed layout keeps the slot-range
invariant of every integer slot. -/
theorem BitVector.set_slots (vi : VariableInformation) (n : Nat) (hwf : vi.WellFormed n)
    (state : CompressedState) (b : BooleanVariableInformation)
    (hb : b ∈ vi.booleanVariables) (value : Bool) (j : IntegerVariableInformation)
    (hj : j ∈ vi.integerVariables) (hjr : j.InRange state) :
    j.InRange (BitVector.set state b.bitOffset value) := by
  obtain ⟨_, _, _, _, _, _, _, _, hdisj, _⟩ := hwf
  unfold IntegerVariableInformation.InRange at hjr ⊢
  rw [BitVector.getAsInt_set_outside _ _ _ _ _ (hdisj b hb j hj)]
  exact hjr

/-- The loop over the boolean assignments keeps the length of the state and the slots that
are in range, and returns the assignments from the first one that is not an assignment to a
boolean variable. -/
theorem applyUpdate.booleanLoop_slots (vi : VariableInformation) (n : Nat)
    (hwf : vi.WellFormed n) (ev : ExpressionEvaluator) (as : List Assignment)
    (boolIt : List BooleanVariableInformation) (hit : ∀ b ∈ boolIt, b ∈ vi.booleanVariables)
    (state : CompressedState) (rest : List Assignment) (state1 : CompressedState)
    (h : applyUpdate.booleanLoop ev as boolIt state = .ok (rest, state1)) :
    state1.length = state.length
      ∧ rest = as.dropWhile applyUpdate.isBooleanAssignment
      ∧ ∀ j ∈ vi.integerVariables, j.InRange state → j.InRange state1 := by
  induction as generalizing boolIt state with
  | nil =>
    simp only [applyUpdate.booleanLoop, Except.ok.injEq, Prod.mk.injEq] at h
    obtain ⟨h1, h2⟩ := h
    subst h1 h2
    exact ⟨rfl, rfl, fun _ _ hj => hj⟩
  | cons a tail ih =>
    unfold applyUpdate.booleanLoop at h
    by_cases hc : (a.lValueIsVariable && a.getExpressionVariable.hasBooleanType) = true
    · rw [if_pos hc] at h
      cases hd : boolIt.dropWhile (fun i => i.var != a.getExpressionVariable) with
      | nil => simp only [hd] at h; cases h
      | cons i its =>
        simp only [hd] at h
        have hmem := (dropWhile_eq_cons _ _ _ _ hd).2
        obtain ⟨h1, h2, h3⟩ := ih (i :: its) (fun b hb => hit b (hmem b hb)) _ h
        refine ⟨by rw [h1, BitVector.length_set], ?_, fun j hj hjr => h3 j hj
          (BitVector.set_slots vi n hwf state i (hit i (hmem i (List.mem_cons_self _ _))) _ j hj
            hjr)⟩
        rw [h2, List.dropWhile_cons, if_pos (by exact hc)]
    · rw [if_neg hc] at h
      simp only [Except.ok.injEq, Prod.mk.injEq] at h
      obtain ⟨h1, h2⟩ := h
      subst h1 h2
      refine ⟨rfl, ?_, fun _ _ hj => hj⟩
      rw [List.dropWhile_cons, if_neg (by exact hc)]

/-- The loop over the integer assignments, with `explorationChecks` on and
`addOutOfBoundsState` off: the slot of every assignment it consumes is in range afterwards,
and so is every slot that was in range before. -/
theorem applyUpdate.integerLoop_slots (g : JaniNextStateGenerator) (n : Nat)
    (hwf : g.variableInformation.WellFormed n)
    (hchecks : g.options.explorationChecks = true)
    (hoff : g.options.addOutOfBoundsState = false) (ev : ExpressionEvaluator)
    (as : List Assignment) (integerIt : List IntegerVariableInformation)
    (hit : ∀ i ∈ integerIt, i ∈ g.variableInformation.integerVariables)
    (state : CompressedState) (hlen : state.length = n) (rest : List Assignment)
    (state1 : CompressedState)
    (h : applyUpdate.integerLoop g ev as integerIt state = .ok (rest, state1)) :
    state1.length = n
      ∧ rest = as.dropWhile applyUpdate.isIntegerAssignment
      ∧ (∀ j ∈ g.variableInformation.integerVariables, j.InRange state → j.InRange state1)
      ∧ ∀ a ∈ as.takeWhile applyUpdate.isIntegerAssignment,
          ∀ j ∈ g.variableInformation.integerVariables, a.getExpressionVariable = j.var →
            j.InRange state1 := by
  induction as generalizing integerIt state with
  | nil =>
    simp only [applyUpdate.integerLoop, Except.ok.injEq, Prod.mk.injEq] at h
    obtain ⟨h1, h2⟩ := h
    subst h1 h2
    exact ⟨hlen, rfl, fun _ _ hj => hj, fun a ha => absurd ha (List.not_mem_nil a)⟩
  | cons a tail ih =>
    unfold applyUpdate.integerLoop at h
    by_cases hc : (a.lValueIsVariable && a.getExpressionVariable.hasIntegerType) = true
    · rw [if_pos hc] at h
      cases hd : integerIt.dropWhile (fun i => i.var != a.getExpressionVariable) with
      | nil => simp only [hd] at h; cases h
      | cons i its =>
        simp only [hd] at h
        obtain ⟨hhead, hmem⟩ := dropWhile_eq_cons _ _ _ _ hd
        have hiv : i.var = a.getExpressionVariable := by simpa using hhead
        have hi := hit i (hmem i (List.mem_cons_self _ _))
        have hcheck : (i.forceOutOfBoundsCheck || g.options.explorationChecks) = true := by
          simp [hchecks]
        rw [hcheck] at h
        cases hw : applyUpdate.writeInteger g state i true (a.assignedExpression.asInt ev) with
        | error x => simp only [hw] at h; cases h
        | ok state2 =>
          simp only [hw] at h
          obtain ⟨hl2, _, hr2, hk2⟩ := applyUpdate.writeInteger_slots g n hwf hoff state hlen i
            hi _ state2 hw
          obtain ⟨h1, h2, h3, h4⟩ := ih (i :: its) (fun b hb => hit b (hmem b hb)) state2 hl2 h
          refine ⟨h1, ?_, fun j hj hjr => h3 j hj (hk2 j hj hjr), ?_⟩
          · rw [h2, List.dropWhile_cons, if_pos (by exact hc)]
          · intro a' ha' j hj hv
            rw [List.takeWhile_cons, if_pos (by exact hc)] at ha'
            rcases List.mem_cons.1 ha' with heq | hmem'
            · have hji : j = i := by
                obtain ⟨_, _, _, hnodup, _⟩ := hwf
                exact List.inj_on_of_nodup_map hnodup hj hi (by rw [← hv, heq, hiv])
              rw [hji]
              exact h3 i hi hr2
            · exact h4 a' hmem' j hj hv
    · rw [if_neg hc] at h
      simp only [Except.ok.injEq, Prod.mk.injEq] at h
      obtain ⟨h1, h2⟩ := h
      subst h1 h2
      refine ⟨hlen, ?_, fun _ _ hj => hj, ?_⟩
      · rw [List.dropWhile_cons, if_neg (by exact hc)]
      · intro a' ha'
        rw [List.takeWhile_cons, if_neg (by exact hc)] at ha'
        exact absurd ha' (List.not_mem_nil a')

/-- The loop over the array accesses, with `explorationChecks` on and `addOutOfBoundsState`
off: the slot of every integer element it writes is in range afterwards, and so is every
slot that was in range before. -/
theorem applyUpdate.arrayLoop_slots (g : JaniNextStateGenerator) (n : Nat)
    (hwf : g.variableInformation.WellFormed n)
    (hlisted : g.variableInformation.ReplacementsListed)
    (hchecks : g.options.explorationChecks = true)
    (hoff : g.options.addOutOfBoundsState = false) (ev : ExpressionEvaluator)
    (as : List Assignment) (state : CompressedState) (hlen : state.length = n)
    (rest : List Assignment) (state1 : CompressedState)
    (h : applyUpdate.arrayLoop g ev as state = .ok (rest, state1)) :
    state1.length = n
      ∧ (∀ j ∈ g.variableInformation.integerVariables, j.InRange state → j.InRange state1)
      ∧ ∀ a ∈ as.takeWhile (fun a => a.lValueIsArrayAccess),
          ∀ j array index, a.lValue = LValue.arrayAccess array index →
            a.assignedExpression.hasIntegerType = true →
            g.variableInformation.getIntegerArrayVariableReplacement array (index.asInt ev)
              = .ok j →
            j.InRange state1 := by
  induction as generalizing state with
  | nil =>
    simp only [applyUpdate.arrayLoop, Except.ok.injEq, Prod.mk.injEq] at h
    obtain ⟨h1, h2⟩ := h
    subst h1 h2
    exact ⟨hlen, fun _ _ hj => hj, fun a ha => absurd ha (List.not_mem_nil a)⟩
  | cons a tail ih =>
    unfold applyUpdate.arrayLoop at h
    rcases hlv : a.lValue with v | ⟨array, index⟩
    · simp only [hlv, Except.ok.injEq, Prod.mk.injEq] at h
      obtain ⟨h1, h2⟩ := h
      subst h1 h2
      refine ⟨hlen, fun _ _ hj => hj, ?_⟩
      intro a' ha'
      rw [List.takeWhile_cons, if_neg (by simp [Assignment.lValueIsArrayAccess, hlv])] at ha'
      exact absurd ha' (List.not_mem_nil a')
    · simp only [hlv] at h
      have htake : (a :: tail).takeWhile (fun a => a.lValueIsArrayAccess)
          = a :: tail.takeWhile (fun a => a.lValueIsArrayAccess) := by
        rw [List.takeWhile_cons, if_pos (by simp [Assignment.lValueIsArrayAccess, hlv])]
      rw [htake]
      by_cases hint : a.assignedExpression.hasIntegerType = true
      · rw [if_pos hint] at h
        cases hrep : g.variableInformation.getIntegerArrayVariableReplacement array
            (index.asInt ev) with
        | error x => simp only [hrep] at h; cases h
        | ok intInfo =>
          simp only [hrep] at h
          rw [hchecks] at h
          cases hw : applyUpdate.writeInteger g state intInfo true
              (a.assignedExpression.asInt ev) with
          | error x => simp only [hw] at h; cases h
          | ok state2 =>
            simp only [hw] at h
            have hi := hlisted.1 array (index.asInt ev) intInfo hrep
            obtain ⟨hl2, _, hr2, hk2⟩ := applyUpdate.writeInteger_slots g n hwf hoff state hlen
              intInfo hi _ state2 hw
            obtain ⟨h1, h3, h4⟩ := ih state2 hl2 h
            refine ⟨h1, fun j hj hjr => h3 j hj (hk2 j hj hjr), ?_⟩
            intro a' ha' j array' index' hlv' hint' hrep'
            rcases List.mem_cons.1 ha' with heq | hmem'
            · rw [heq, hlv] at hlv'
              simp only [LValue.arrayAccess.injEq] at hlv'
              obtain ⟨ha1, ha2⟩ := hlv'
              rw [← ha1, ← ha2, hrep] at hrep'
              rw [← Except.ok.inj hrep']
              exact h3 intInfo hi hr2
            · exact h4 a' hmem' j array' index' hlv' hint' hrep'
      · rw [if_neg hint] at h
        by_cases hbool : a.assignedExpression.hasBooleanType = true
        · rw [if_pos hbool] at h
          cases hrep : g.variableInformation.getBooleanArrayVariableReplacement array
              (index.asInt ev) with
          | error x => simp only [hrep] at h; cases h
          | ok boolInfo =>
            simp only [hrep] at h
            have hb := hlisted.2 array (index.asInt ev) boolInfo hrep
            obtain ⟨h1, h3, h4⟩ := ih (BitVector.set state boolInfo.bitOffset
              (a.assignedExpression.asBool ev)) (by rw [BitVector.length_set]; exact hlen) h
            refine ⟨h1, fun j hj hjr => h3 j hj
              (BitVector.set_slots g.variableInformation n hwf state boolInfo hb _ j hj hjr), ?_⟩
            intro a' ha' j array' index' hlv' hint' hrep'
            rcases List.mem_cons.1 ha' with heq | hmem'
            · rw [heq] at hint'
              exact absurd hint' hint
            · exact h4 a' hmem' j array' index' hlv' hint' hrep'
        · rw [if_neg hbool] at h; cases h

/-- With `explorationChecks` on and `addOutOfBoundsState` off, when `applyUpdate` returns,
the state has kept its length, every bounded integer slot that it wrote is in range, and so
is every slot that was in range before. -/
theorem applyUpdate_slots (g : JaniNextStateGenerator) (n : Nat)
    (hwf : g.variableInformation.WellFormed n)
    (hlisted : g.variableInformation.ReplacementsListed)
    (hchecks : g.options.explorationChecks = true)
    (hoff : g.options.addOutOfBoundsState = false) (state : CompressedState)
    (hlen : state.length = n) (destination : EdgeDestination)
    (locationVariable : LocationVariableInformation)
    (hlv : locationVariable ∈ g.variableInformation.locationVariables)
    (assignmentLevel : Int) (ev : ExpressionEvaluator) (state1 : CompressedState)
    (h : applyUpdate g state destination locationVariable assignmentLevel ev = .ok state1) :
    state1.length = n
      ∧ (∀ j ∈ g.variableInformation.integerVariables, j.InRange state → j.InRange state1)
      ∧ ∀ j ∈ g.variableInformation.integerVariables,
          applyUpdate.Writes g destination assignmentLevel ev j → j.InRange state1 := by
  unfold applyUpdate at h
  simp only at h
  have hloc : ∀ j ∈ g.variableInformation.integerVariables, j.InRange state →
      j.InRange (setLocation state locationVariable destination.locationIndex) := by
    intro j hj hjr
    obtain ⟨_, _, _, _, _, _, _, hdisj, _, _⟩ := hwf
    unfold IntegerVariableInformation.InRange at hjr ⊢
    rw [getAsInt_setLocation _ _ _ _ _ (hdisj locationVariable hlv j hj)]
    exact hjr
  cases hb : applyUpdate.booleanLoop ev
      (destination.orderedAssignments.getNonTransientAssignments assignmentLevel)
      g.variableInformation.booleanVariables
      (setLocation state locationVariable destination.locationIndex) with
  | error x => simp only [hb] at h; cases h
  | ok r1 =>
    obtain ⟨as1, s1⟩ := r1
    simp only [hb] at h
    obtain ⟨hb1, hb2, hb3⟩ := applyUpdate.booleanLoop_slots g.variableInformation n hwf ev _ _
      (fun b hb => hb) _ as1 s1 hb
    have hl1 : s1.length = n := by rw [hb1, setLocation_length]; exact hlen
    cases hi : applyUpdate.integerLoop g ev as1 g.variableInformation.integerVariables s1 with
    | error x => simp only [hi] at h; cases h
    | ok r2 =>
      obtain ⟨as2, s2⟩ := r2
      simp only [hi] at h
      obtain ⟨hi1, hi2, hi3, hi4⟩ := applyUpdate.integerLoop_slots g n hwf hchecks hoff ev as1
        _ (fun i hi => hi) s1 hl1 as2 s2 hi
      cases ha : applyUpdate.arrayLoop g ev as2 s2 with
      | error x => simp only [ha] at h; cases h
      | ok r3 =>
        obtain ⟨as3, s3⟩ := r3
        simp only [ha, Except.ok.injEq] at h
        subst h
        obtain ⟨ha1, ha3, ha4⟩ := applyUpdate.arrayLoop_slots g n hwf hlisted hchecks hoff ev
          as2 s2 hi1 as3 s3 ha
        refine ⟨ha1, fun j hj hjr => ha3 j hj (hi3 j hj (hb3 j hj (hloc j hj hjr))), ?_⟩
        intro j hj hwrites
        unfold applyUpdate.Writes at hwrites
        simp only at hwrites
        rw [← hb2, ← hi2] at hwrites
        rcases hwrites with ⟨a, ha', hv⟩ | ⟨a, ha', array, index, hlv', hint', hrep'⟩
        · exact ha3 j hj (hi4 a ha' j hj hv)
        · exact ha4 a ha' j array index hlv' hint' hrep'

/-- The update keeps the slot-range invariant. -/
theorem applyUpdate_invariant (g : JaniNextStateGenerator) (n : Nat) (hg : g.ChecksSlots n)
    (state : CompressedState) (hs : g.variableInformation.SlotsInRange n state)
    (destination : EdgeDestination) (locationVariable : LocationVariableInformation)
    (hlv : locationVariable ∈ g.variableInformation.locationVariables)
    (assignmentLevel : Int) (ev : ExpressionEvaluator) (state1 : CompressedState)
    (h : applyUpdate g state destination locationVariable assignmentLevel ev = .ok state1) :
    g.variableInformation.SlotsInRange n state1 := by
  obtain ⟨hwf, hlisted, hchecks, hoff⟩ := hg
  obtain ⟨h1, h2, _⟩ := applyUpdate_slots g n hwf hlisted hchecks hoff state hs.1 destination
    locationVariable hlv assignmentLevel ev state1 h
  exact ⟨h1, fun j hj => h2 j hj (hs.2 j hj)⟩

theorem expandNonSynchronizingEdge.levelLoop_invariant (g : JaniNextStateGenerator) (n : Nat)
    (hg : g.ChecksSlots n) (destination : EdgeDestination)
    (locationVariable : LocationVariableInformation)
    (hlv : locationVariable ∈ g.variableInformation.locationVariables)
    (hasTransientAssignments : Bool) (k : Nat) :
    ∀ (assignmentLevel : Int) (newState : CompressedState) (ev : ExpressionEvaluator)
      (r : CompressedState × ExpressionEvaluator),
      g.variableInformation.SlotsInRange n newState →
      expandNonSynchronizingEdge.levelLoop g destination locationVariable
          hasTransientAssignments k assignmentLevel newState ev = .ok r →
      g.variableInformation.SlotsInRange n r.1 := by
  induction k with
  | zero =>
    intro assignmentLevel newState ev r hs h
    simp only [expandNonSynchronizingEdge.levelLoop, Except.ok.injEq] at h
    rw [← h]
    exact hs
  | succ k ih =>
    intro assignmentLevel newState ev r hs h
    unfold expandNonSynchronizingEdge.levelLoop at h
    simp only at h
    cases hu : applyUpdate g newState destination locationVariable (assignmentLevel + 1)
        (unpackStateIntoEvaluator newState g.variableInformation ev) with
    | error x => simp only [hu] at h; cases h
    | ok newState1 =>
      simp only [hu] at h
      have hs1 := applyUpdate_invariant g n hg newState hs destination locationVariable hlv _ _
        newState1 hu
      by_cases ht : hasTransientAssignments = true
      · rw [if_pos ht] at h
        cases htu : applyTransientUpdate g TransientVariableValuation.clear
            (destination.orderedAssignments.getTransientAssignments (assignmentLevel + 1))
            (unpackStateIntoEvaluator newState g.variableInformation ev) with
        | error x => simp only [htu] at h; cases h
        | ok t =>
          simp only [htu] at h
          exact ih _ _ _ _ hs1 h
      · rw [if_neg ht] at h
        exact ih _ _ _ _ hs1 h

/-- The successor state of a destination of a non-synchronizing edge satisfies the
slot-range invariant when the state does. -/
theorem expandNonSynchronizingEdge.successor_invariant (g : JaniNextStateGenerator) (n : Nat)
    (hg : g.ChecksSlots n) (edge : Edge) (destination : EdgeDestination)
    (locationVariable : LocationVariableInformation)
    (hlv : locationVariable ∈ g.variableInformation.locationVariables)
    (state : CompressedState) (hs : g.variableInformation.SlotsInRange n state)
    (ev : ExpressionEvaluator) (r : CompressedState × ExpressionEvaluator)
    (h : expandNonSynchronizingEdge.successor g edge destination locationVariable state ev
      = .ok r) :
    g.variableInformation.SlotsInRange n r.1 := by
  unfold expandNonSynchronizingEdge.successor at h
  simp only at h
  cases hu : applyUpdate g state destination locationVariable edge.lowestAssignmentLevel
      ev with
  | error x => simp only [hu] at h; cases h
  | ok newState =>
    simp only [hu] at h
    have hs1 := applyUpdate_invariant g n hg state hs destination locationVariable hlv _ _
      newState hu
    have htail : ∀ first : Except Exception ExpressionEvaluator,
        (match first with
          | .error e => Except.error e
          | .ok ev1 =>
            expandNonSynchronizingEdge.levelLoop g destination locationVariable
              destination.hasTransientAssignment
              (edge.highestAssignmentLevel - edge.lowestAssignmentLevel).toNat
              edge.lowestAssignmentLevel newState ev1) = .ok r →
        g.variableInformation.SlotsInRange n r.1 := by
      intro first hm
      cases first with
      | error x => cases hm
      | ok ev1 =>
        exact expandNonSynchronizingEdge.levelLoop_invariant g n hg destination
          locationVariable hlv _ _ _ _ _ _ hs1 hm
    exact htail _ h

theorem expandNonSynchronizingEdge.destinationStep_keeps {σ : Type}
    (g : JaniNextStateGenerator) (n : Nat) (hg : g.ChecksSlots n) (edge : Edge)
    (automatonIndex : Nat) (state : CompressedState)
    (hs : g.variableInformation.SlotsInRange n state) (cb : StateToIdCallback σ)
    (P : σ → Prop) (hcb : cb.Keeps (g.variableInformation.SlotsInRange n) P)
    (exitRate : Option ℚ) (acc : ExpandEdgeState σ) (destination : EdgeDestination)
    (acc1 : ExpandEdgeState σ) (hP : P acc.callbackState)
    (h : expandNonSynchronizingEdge.destinationStep g edge automatonIndex state cb exitRate acc
      destination = .ok acc1) :
    P acc1.callbackState := by
  unfold expandNonSynchronizingEdge.destinationStep at h
  by_cases hp : destination.probability.asRational acc.evaluator = 0
  · simp only [hp, if_true, Except.ok.injEq] at h
    rw [← h]
    exact hP
  · simp only [hp, if_false] at h
    cases hlv : g.variableInformation.locationVariables[automatonIndex]? with
    | none => simp only [hlv] at h; cases h
    | some lv =>
      simp only [hlv] at h
      cases hsucc : expandNonSynchronizingEdge.successor g edge destination lv state
          acc.evaluator with
      | error x => simp only [hsucc] at h; cases h
      | ok r =>
        obtain ⟨newState, e1⟩ := r
        simp only [hsucc, Except.ok.injEq] at h
        rw [← h]
        exact hcb newState acc.callbackState
          (expandNonSynchronizingEdge.successor_invariant g n hg edge destination lv
            (getElem?_mem_of_eq_some _ _ _ hlv) state hs acc.evaluator (newState, e1) hsucc) hP

theorem expandNonSynchronizingEdge.destinationLoop_keeps {σ : Type}
    (g : JaniNextStateGenerator) (n : Nat) (hg : g.ChecksSlots n) (edge : Edge)
    (automatonIndex : Nat) (state : CompressedState)
    (hs : g.variableInformation.SlotsInRange n state) (cb : StateToIdCallback σ)
    (P : σ → Prop) (hcb : cb.Keeps (g.variableInformation.SlotsInRange n) P)
    (exitRate : Option ℚ) (destinations : List EdgeDestination) :
    ∀ (acc acc1 : ExpandEdgeState σ), P acc.callbackState →
      expandNonSynchronizingEdge.destinationLoop g edge automatonIndex state cb exitRate
          destinations acc = .ok acc1 →
      P acc1.callbackState := by
  induction destinations with
  | nil =>
    intro acc acc1 hP h
    simp only [expandNonSynchronizingEdge.destinationLoop, Except.ok.injEq] at h
    rw [← h]
    exact hP
  | cons d rest ih =>
    intro acc acc1 hP h
    unfold expandNonSynchronizingEdge.destinationLoop at h
    cases hstep : expandNonSynchronizingEdge.destinationStep g edge automatonIndex state cb
        exitRate acc d with
    | error x => simp only [hstep] at h; cases h
    | ok acc2 =>
      simp only [hstep] at h
      exact ih acc2 acc1 (expandNonSynchronizingEdge.destinationStep_keeps g n hg edge
        automatonIndex state hs cb P hcb exitRate acc d acc2 hP hstep) h

/-- The calls of the callback that `expandNonSynchronizingEdge` makes are on states that
satisfy the slot-range invariant. -/
theorem expandNonSynchronizingEdge_keeps {σ : Type} (g : JaniNextStateGenerator) (n : Nat)
    (hg : g.ChecksSlots n) (edge : Edge) (outputActionIndex automatonIndex : Nat)
    (state : CompressedState) (hs : g.variableInformation.SlotsInRange n state)
    (cb : StateToIdCallback σ) (P : σ → Prop)
    (hcb : cb.Keeps (g.variableInformation.SlotsInRange n) P) (ev : ExpressionEvaluator)
    (st : σ) (r : Choice × ExpressionEvaluator × σ) (hP : P st)
    (h : expandNonSynchronizingEdge g edge outputActionIndex automatonIndex state cb ev st
      = .ok r) :
    P r.2.2 := by
  unfold expandNonSynchronizingEdge at h
  simp only at h
  cases hr : expandNonSynchronizingEdge.edgeRewards g edge ev with
  | error x => simp only [hr] at h; cases h
  | ok rew =>
    obtain ⟨rewards0, ev2⟩ := rew
    simp only [hr] at h
    cases hloop : expandNonSynchronizingEdge.destinationLoop g edge automatonIndex state cb
        (Option.map (fun rate => rate.asRational ev) edge.rate) edge.destinations
        { choice := Choice.create edge.actionIndex
            (Option.map (fun rate => rate.asRational ev) edge.rate).isSome,
          stateActionRewards := rewards0, probabilitySum := 0, evaluator := ev2,
          callbackState := st } with
    | error x => simp only [hloop] at h; cases h
    | ok acc =>
      simp only [hloop] at h
      rw [ite_error_eq_ok] at h
      rw [← h.2]
      exact expandNonSynchronizingEdge.destinationLoop_keeps g n hg edge automatonIndex state hs
        cb P hcb _ edge.destinations _ acc hP hloop

theorem generateSynchronizedDistribution.firstLevel_invariant (g : JaniNextStateGenerator)
    (n : Nat) (hg : g.ChecksSlots n) (lowest : Int) (ev : ExpressionEvaluator)
    (edges : List (Nat × Nat × Edge)) :
    ∀ (acc first : DestinationTupleState),
      g.variableInformation.SlotsInRange n acc.successorState →
      (∀ lv ∈ acc.locationVars, lv ∈ g.variableInformation.locationVariables) →
      generateSynchronizedDistribution.firstLevel g lowest ev edges acc = .ok first →
      g.variableInformation.SlotsInRange n first.successorState
        ∧ ∀ lv ∈ first.locationVars, lv ∈ g.variableInformation.locationVariables := by
  induction edges with
  | nil =>
    intro acc first hs hl h
    simp only [generateSynchronizedDistribution.firstLevel, Except.ok.injEq] at h
    rw [← h]
    exact ⟨hs, hl⟩
  | cons x rest ih =>
    intro acc first hs hl h
    unfold generateSynchronizedDistribution.firstLevel at h
    simp only at h
    by_cases hn : x.2.2.getNumberOfDestinations = 0
    · rw [if_pos hn] at h; cases h
    · rw [if_neg hn] at h
      cases hd : x.2.2.destinations[acc.destinationIndex % x.2.2.getNumberOfDestinations]? with
      | none => simp only [hd] at h; cases h
      | some destination =>
        cases hlv : g.variableInformation.locationVariables[x.1]? with
        | none => simp only [hd, hlv] at h; cases h
        | some lv =>
          simp only [hd, hlv] at h
          have hlvm : lv ∈ g.variableInformation.locationVariables := getElem?_mem_of_eq_some _ _ _ hlv
          have hl1 : ∀ lv1 ∈ acc.locationVars ++ [lv],
              lv1 ∈ g.variableInformation.locationVariables := by
            intro lv1 h1
            rcases List.mem_append.1 h1 with h2 | h2
            · exact hl lv1 h2
            · rw [List.mem_singleton.1 h2]; exact hlvm
          have htail : ∀ sp : ℚ,
              (if sp = 0 then
                  (Except.ok
                    { destinations := acc.destinations ++ [destination],
                      locationVars := acc.locationVars ++ [lv],
                      transientVariableValuation := acc.transientVariableValuation,
                      successorState := acc.successorState,
                      successorProbability := sp,
                      destinationIndex := acc.destinationIndex / x.2.2.getNumberOfDestinations }
                    : Except Exception DestinationTupleState)
                else
                  match applyUpdate g acc.successorState destination lv lowest ev with
                  | .error e => .error e
                  | .ok successorState =>
                    match applyTransientUpdate g acc.transientVariableValuation
                        (destination.orderedAssignments.getTransientAssignments lowest) ev with
                    | .error e => .error e
                    | .ok t =>
                      generateSynchronizedDistribution.firstLevel g lowest ev rest
                        { destinations := acc.destinations ++ [destination],
                          locationVars := acc.locationVars ++ [lv],
                          transientVariableValuation := t, successorState := successorState,
                          successorProbability := sp,
                          destinationIndex :=
                            acc.destinationIndex / x.2.2.getNumberOfDestinations })
                = .ok first →
              g.variableInformation.SlotsInRange n first.successorState
                ∧ ∀ lv ∈ first.locationVars,
                    lv ∈ g.variableInformation.locationVariables := by
            intro sp h
            by_cases hz : sp = 0
            · rw [if_pos hz] at h
              simp only [Except.ok.injEq] at h
              rw [← h]
              exact ⟨hs, hl1⟩
            · rw [if_neg hz] at h
              cases hupd : applyUpdate g acc.successorState destination lv lowest ev with
              | error e => simp only [hupd] at h; cases h
              | ok s1 =>
                simp only [hupd] at h
                cases htr : applyTransientUpdate g acc.transientVariableValuation
                    (destination.orderedAssignments.getTransientAssignments lowest) ev with
                | error e => simp only [htr] at h; cases h
                | ok t =>
                  simp only [htr] at h
                  exact ih _ first
                    (applyUpdate_invariant g n hg acc.successorState hs destination lv hlvm _ _
                      s1 hupd) hl1 h
          exact htail _ h

theorem generateSynchronizedDistribution.applyLevel_invariant (g : JaniNextStateGenerator)
    (n : Nat) (hg : g.ChecksSlots n) (assignmentLevel : Int) (ev : ExpressionEvaluator)
    (back : Option EdgeDestination) (destinations : List EdgeDestination) :
    ∀ (locationVars : List LocationVariableInformation) (successorState : CompressedState)
      (t : TransientVariableValuation) (r : CompressedState × TransientVariableValuation),
      g.variableInformation.SlotsInRange n successorState →
      (∀ lv ∈ locationVars, lv ∈ g.variableInformation.locationVariables) →
      generateSynchronizedDistribution.applyLevel g assignmentLevel ev back destinations
          locationVars successorState t = .ok r →
      g.variableInformation.SlotsInRange n r.1 := by
  induction destinations with
  | nil =>
    intro locationVars successorState t r hs hl h
    simp only [generateSynchronizedDistribution.applyLevel, Except.ok.injEq] at h
    rw [← h]
    exact hs
  | cons destination rest ih =>
    intro locationVars successorState t r hs hl h
    cases locationVars with
    | nil => simp only [generateSynchronizedDistribution.applyLevel] at h; cases h
    | cons lv lvs =>
      unfold generateSynchronizedDistribution.applyLevel at h
      cases hupd : applyUpdate g successorState destination lv assignmentLevel ev with
      | error e => simp only [hupd] at h; cases h
      | ok s1 =>
        simp only [hupd] at h
        cases back with
        | none => simp only at h; cases h
        | some last =>
          simp only at h
          cases htr : applyTransientUpdate g t
              (last.orderedAssignments.getTransientAssignments assignmentLevel) ev with
          | error e => simp only [htr] at h; cases h
          | ok t1 =>
            simp only [htr] at h
            exact ih lvs s1 t1 r
              (applyUpdate_invariant g n hg successorState hs destination lv
                (hl lv (List.mem_cons_self _ _)) _ _ s1 hupd)
              (fun lv1 h1 => hl lv1 (List.mem_cons_of_mem _ h1)) h

theorem generateSynchronizedDistribution.remainingLevels_invariant
    (g : JaniNextStateGenerator) (n : Nat) (hg : g.ChecksSlots n)
    (destinations : List EdgeDestination) (locationVars : List LocationVariableInformation)
    (hl : ∀ lv ∈ locationVars, lv ∈ g.variableInformation.locationVariables) (k : Nat) :
    ∀ (assignmentLevel : Int) (successorState : CompressedState)
      (t : TransientVariableValuation) (ev : ExpressionEvaluator)
      (r : CompressedState × TransientVariableValuation × ExpressionEvaluator),
      g.variableInformation.SlotsInRange n successorState →
      generateSynchronizedDistribution.remainingLevels g destinations locationVars k
          assignmentLevel successorState t ev = .ok r →
      g.variableInformation.SlotsInRange n r.1 := by
  induction k with
  | zero =>
    intro assignmentLevel successorState t ev r hs h
    simp only [generateSynchronizedDistribution.remainingLevels, Except.ok.injEq] at h
    rw [← h]
    exact hs
  | succ k ih =>
    intro assignmentLevel successorState t ev r hs h
    unfold generateSynchronizedDistribution.remainingLevels at h
    simp only at h
    cases hlev : generateSynchronizedDistribution.applyLevel g (assignmentLevel + 1)
        (t.setInEvaluator (unpackStateIntoEvaluator successorState g.variableInformation ev))
        destinations.getLast? destinations locationVars successorState
        TransientVariableValuation.clear with
    | error e => simp only [hlev] at h; cases h
    | ok r1 =>
      obtain ⟨s1, t1⟩ := r1
      simp only [hlev] at h
      exact ih _ _ _ _ r
        (generateSynchronizedDistribution.applyLevel_invariant g n hg _ _ _ destinations
          locationVars successorState _ (s1, t1) hs hl hlev) h

theorem generateSynchronizedDistribution.tupleStep_keeps {σ : Type}
    (g : JaniNextStateGenerator) (n : Nat) (hg : g.ChecksSlots n) (state : CompressedState)
    (hs : g.variableInformation.SlotsInRange n state) (edges : List (Nat × Nat × Edge))
    (info : SynchronizedEdgeInformation) (cb : StateToIdCallback σ) (P : σ → Prop)
    (hcb : cb.Keeps (g.variableInformation.SlotsInRange n) P)
    (acc : SynchronizedDistributionState σ) (destinationId : Nat)
    (acc1 : SynchronizedDistributionState σ) (hP : P acc.callbackState)
    (h : generateSynchronizedDistribution.destinationStep g state edges info cb acc
      destinationId = .ok acc1) :
    P acc1.callbackState := by
  unfold generateSynchronizedDistribution.destinationStep at h
  cases hfirst : generateSynchronizedDistribution.firstLevel g
      info.lowestDestinationAssignmentLevel acc.evaluator edges
      { destinations := [], locationVars := [],
        transientVariableValuation := TransientVariableValuation.clear,
        successorState := state, successorProbability := 1,
        destinationIndex := destinationId } with
  | error x => simp only [hfirst] at h; cases h
  | ok first =>
    simp only [hfirst] at h
    obtain ⟨hs1, hl1⟩ := generateSynchronizedDistribution.firstLevel_invariant g n hg _ _ edges
      _ first hs (fun lv hlv => absurd hlv (List.not_mem_nil lv)) hfirst
    by_cases hp : first.successorProbability = 0
    · simp only [hp, if_true, Except.ok.injEq] at h
      rw [← h]
      exact hP
    · simp only [hp, if_false] at h
      cases hrem : generateSynchronizedDistribution.remainingLevels g first.destinations
          first.locationVars
          (info.highestDestinationAssignmentLevel - info.lowestDestinationAssignmentLevel).toNat
          info.lowestDestinationAssignmentLevel first.successorState
          first.transientVariableValuation acc.evaluator with
      | error x => simp only [hrem] at h; cases h
      | ok r =>
        obtain ⟨successorState, t, e1⟩ := r
        simp only [hrem, Except.ok.injEq] at h
        rw [← h]
        exact hcb successorState acc.callbackState
          (generateSynchronizedDistribution.remainingLevels_invariant g n hg first.destinations
            first.locationVars hl1 _ _ _ _ _ (successorState, t, e1) hs1 hrem) hP

theorem generateSynchronizedDistribution.tupleLoop_keeps {σ : Type}
    (g : JaniNextStateGenerator) (n : Nat) (hg : g.ChecksSlots n) (state : CompressedState)
    (hs : g.variableInformation.SlotsInRange n state) (edges : List (Nat × Nat × Edge))
    (info : SynchronizedEdgeInformation) (cb : StateToIdCallback σ) (P : σ → Prop)
    (hcb : cb.Keeps (g.variableInformation.SlotsInRange n) P) (destinationIds : List Nat) :
    ∀ (acc acc1 : SynchronizedDistributionState σ), P acc.callbackState →
      generateSynchronizedDistribution.destinationLoop g state edges info cb destinationIds
          acc = .ok acc1 →
      P acc1.callbackState := by
  induction destinationIds with
  | nil =>
    intro acc acc1 hP h
    simp only [generateSynchronizedDistribution.destinationLoop, Except.ok.injEq] at h
    rw [← h]
    exact hP
  | cons d rest ih =>
    intro acc acc1 hP h
    unfold generateSynchronizedDistribution.destinationLoop at h
    cases hstep : generateSynchronizedDistribution.destinationStep g state edges info cb acc
        d with
    | error x => simp only [hstep] at h; cases h
    | ok acc2 =>
      simp only [hstep] at h
      exact ih acc2 acc1 (generateSynchronizedDistribution.tupleStep_keeps g n hg state hs
        edges info cb P hcb acc d acc2 hP hstep) h

/-- The calls of the callback that `generateSynchronizedDistribution` makes are on states
that satisfy the slot-range invariant. -/
theorem generateSynchronizedDistribution_keeps {σ : Type} (g : JaniNextStateGenerator)
    (n : Nat) (hg : g.ChecksSlots n) (state : CompressedState)
    (hs : g.variableInformation.SlotsInRange n state) (edges : List (Nat × Nat × Edge))
    (distribution : JitDistribution) (stateActionRewards : List ℚ) (edgeIndices : EdgeIndexSet)
    (cb : StateToIdCallback σ) (P : σ → Prop)
    (hcb : cb.Keeps (g.variableInformation.SlotsInRange n) P) (ev : ExpressionEvaluator)
    (st : σ) (r : JitDistribution × List ℚ × EdgeIndexSet × ExpressionEvaluator × σ)
    (hP : P st)
    (h : generateSynchronizedDistribution g state edges distribution stateActionRewards
      edgeIndices cb ev st = .ok r) :
    P r.2.2.2.2 := by
  unfold generateSynchronizedDistribution at h
  cases hcol : generateSynchronizedDistribution.collect g edges
      { lowestDestinationAssignmentLevel := int64Max,
        highestDestinationAssignmentLevel := int64Min,
        lowestEdgeAssignmentLevel := int64Max,
        highestEdgeAssignmentLevel := int64Min,
        numDestinations := 1,
        edgeIndices := edgeIndices } with
  | error x => simp only [hcol] at h; cases h
  | ok info =>
    simp only [hcol] at h
    have htail : ∀ atEdges : Except Exception (List ℚ × ExpressionEvaluator),
        (match atEdges with
          | .error e => Except.error e
          | .ok (rewards, ev1) =>
            match generateSynchronizedDistribution.destinationLoop g state edges info cb
                (List.range info.numDestinations)
                { distribution := distribution, stateActionRewards := rewards,
                  evaluator := ev1, callbackState := st } with
            | .error e => Except.error e
            | .ok acc =>
              Except.ok (acc.distribution, acc.stateActionRewards, info.edgeIndices,
                acc.evaluator, acc.callbackState)) = .ok r →
        P r.2.2.2.2 := by
      intro atEdges hm
      cases atEdges with
      | error x => cases hm
      | ok p =>
        obtain ⟨rewards, e0⟩ := p
        simp only at hm
        cases hloop : generateSynchronizedDistribution.destinationLoop g state edges info cb
            (List.range info.numDestinations)
            { distribution := distribution, stateActionRewards := rewards, evaluator := e0,
              callbackState := st } with
        | error x => simp only [hloop] at hm; cases hm
        | ok acc =>
          simp only [hloop, Except.ok.injEq] at hm
          rw [← hm]
          exact generateSynchronizedDistribution.tupleLoop_keeps g n hg state hs edges info cb
            P hcb _ _ acc hP hloop
    exact htail _ h

theorem expandSynchronizingEdgeCombination.choice_keeps {σ : Type}
    (g : JaniNextStateGenerator) (n : Nat) (hg : g.ChecksSlots n)
    (edges : List (Nat × Nat × Edge)) (outputActionIndex : Nat) (state : CompressedState)
    (hs : g.variableInformation.SlotsInRange n state) (cb : StateToIdCallback σ)
    (P : σ → Prop) (hcb : cb.Keeps (g.variableInformation.SlotsInRange n) P)
    (ev : ExpressionEvaluator) (st : σ) (r : Choice × ExpressionEvaluator × σ) (hP : P st)
    (h : expandSynchronizingEdgeCombination.choice g edges outputActionIndex state cb ev st
      = .ok r) :
    P r.2.2 := by
  unfold expandSynchronizingEdgeCombination.choice at h
  cases hgen : generateSynchronizedDistribution g state edges []
      (List.replicate g.rewardExpressions.length 0) ∅ cb ev st with
  | error x => simp only [hgen] at h; cases h
  | ok r1 =>
    have hk := generateSynchronizedDistribution_keeps g n hg state hs edges _ _ _ cb P hcb ev
      st r1 hP hgen
    obtain ⟨distribution, rewards, edgeIndices, ev2, st2⟩ := r1
    simp only [hgen] at h
    rw [ite_error_eq_ok] at h
    rw [← h.2]
    exact hk

theorem expandSynchronizingEdgeCombination.loop_keeps {σ : Type}
    (g : JaniNextStateGenerator) (n : Nat) (hg : g.ChecksSlots n)
    (edgeCombination : AutomataEdgeSets) (outputActionIndex : Nat) (state : CompressedState)
    (hs : g.variableInformation.SlotsInRange n state) (cb : StateToIdCallback σ)
    (P : σ → Prop) (hcb : cb.Keeps (g.variableInformation.SlotsInRange n) P) (fuel : Nat) :
    ∀ (iteratorList : List Nat) (result : List Choice) (ev : ExpressionEvaluator) (st : σ)
      (r : List Choice × ExpressionEvaluator × σ), P st →
      expandSynchronizingEdgeCombination.loop g edgeCombination outputActionIndex state cb
          fuel iteratorList result ev st = .ok r →
      P r.2.2 := by
  induction fuel with
  | zero =>
    intro iteratorList result ev st r hP h
    simp only [expandSynchronizingEdgeCombination.loop] at h
    cases h
  | succ fuel ih =>
    intro iteratorList result ev st r hP h
    unfold expandSynchronizingEdgeCombination.loop at h
    cases hd : expandSynchronizingEdgeCombination.dereference edgeCombination iteratorList with
    | none => simp only [hd] at h; cases h
    | some edges =>
      simp only [hd] at h
      cases hc : expandSynchronizingEdgeCombination.choice g edges outputActionIndex state cb
          ev st with
      | error x => simp only [hc] at h; cases h
      | ok r1 =>
        have hk := expandSynchronizingEdgeCombination.choice_keeps g n hg edges
          outputActionIndex state hs cb P hcb ev st r1 hP hc
        obtain ⟨choice, ev2, st2⟩ := r1
        simp only [hc] at h
        by_cases hm : (expandSynchronizingEdgeCombination.advance edgeCombination
            iteratorList).2 = true
        · rw [if_pos hm] at h
          exact ih _ _ _ _ r hk h
        · rw [if_neg hm] at h
          simp only [Except.ok.injEq] at h
          rw [← h]
          exact hk

/-- The calls of the callback that `expandSynchronizingEdgeCombination` makes are on states
that satisfy the slot-range invariant. -/
theorem expandSynchronizingEdgeCombination_keeps {σ : Type} (g : JaniNextStateGenerator)
    (n : Nat) (hg : g.ChecksSlots n) (edgeCombination : AutomataEdgeSets)
    (outputActionIndex : Nat) (state : CompressedState)
    (hs : g.variableInformation.SlotsInRange n state) (cb : StateToIdCallback σ)
    (P : σ → Prop) (hcb : cb.Keeps (g.variableInformation.SlotsInRange n) P)
    (ev : ExpressionEvaluator) (st : σ) (r : List Choice × ExpressionEvaluator × σ)
    (hP : P st)
    (h : expandSynchronizingEdgeCombination g edgeCombination outputActionIndex state cb ev st
      = .ok r) :
    P r.2.2 := by
  unfold expandSynchronizingEdgeCombination at h
  simp only at h
  have htail : ∀ checked : Except Exception Unit,
      (match checked with
        | .error e => Except.error e
        | .ok _ =>
          expandSynchronizingEdgeCombination.loop g edgeCombination outputActionIndex state cb
            ((List.map (fun s : Nat × EdgeSetWithIndices => s.2.length) edgeCombination).prod)
            (edgeCombination.map (fun _ => 0)) [] ev st) = .ok r →
      P r.2.2 := by
    intro checked hm
    cases checked with
    | error x => cases hm
    | ok u =>
      exact expandSynchronizingEdgeCombination.loop_keeps g n hg edgeCombination
        outputActionIndex state hs cb P hcb _ _ _ _ _ r hP hm
  exact htail _ h

theorem getActionChoices.nonSynchronizing_keeps {σ : Type} (g : JaniNextStateGenerator)
    (n : Nat) (hg : g.ChecksSlots n) (output : Option Nat) (automatonIndex : Nat)
    (state : CompressedState) (hs : g.variableInformation.SlotsInRange n state)
    (cb : StateToIdCallback σ) (P : σ → Prop)
    (hcb : cb.Keeps (g.variableInformation.SlotsInRange n) P) (edgeFilter : EdgeFilter)
    (edges : EdgeSetWithIndices) :
    ∀ (result : List Choice) (ev : ExpressionEvaluator) (st : σ)
      (r : List Choice × ExpressionEvaluator × σ), P st →
      getActionChoices.nonSynchronizing g output automatonIndex state cb edgeFilter edges
          result ev st = .ok r →
      P r.2.2 := by
  induction edges with
  | nil =>
    intro result ev st r hP h
    simp only [getActionChoices.nonSynchronizing, Except.ok.injEq] at h
    rw [← h]
    exact hP
  | cons indexAndEdge rest ih =>
    intro result ev st r hP h
    rw [getActionChoices.nonSynchronizing_cons] at h
    by_cases hpass : (!getActionChoices.passesFilter edgeFilter indexAndEdge.2) = true
    · rw [if_pos hpass] at h
      exact ih _ _ _ r hP h
    · rw [if_neg hpass] at h
      by_cases hguard : (!indexAndEdge.2.guard.asBool ev) = true
      · rw [if_pos hguard] at h
        exact ih _ _ _ r hP h
      · rw [if_neg hguard] at h
        cases hexp : expandNonSynchronizingEdge g indexAndEdge.2
            (output.getD indexAndEdge.2.actionIndex) automatonIndex state cb ev st with
        | error x => simp only [hexp] at h; cases h
        | ok r1 =>
          have hk := expandNonSynchronizingEdge_keeps g n hg indexAndEdge.2 _ automatonIndex
            state hs cb P hcb ev st r1 hP hexp
          obtain ⟨choice, ev2, st2⟩ := r1
          simp only [hexp] at h
          exact ih _ _ _ r hk h

theorem getActionChoices.group_keeps {σ : Type} (g : JaniNextStateGenerator) (n : Nat)
    (hg : g.ChecksSlots n) (locations : List Nat) (state : CompressedState)
    (hs : g.variableInformation.SlotsInRange n state) (cb : StateToIdCallback σ)
    (P : σ → Prop) (hcb : cb.Keeps (g.variableInformation.SlotsInRange n) P)
    (edgeFilter : EdgeFilter) (outputAndEdges : OutputAndEdges) (result : List Choice)
    (ev : ExpressionEvaluator) (st : σ) (r : List Choice × ExpressionEvaluator × σ)
    (hP : P st)
    (h : getActionChoices.group g locations state cb edgeFilter outputAndEdges result ev st
      = .ok r) :
    P r.2.2 := by
  have hsync : ∀ automataAndEdges : AutomataAndEdges,
      (match outputAndEdges.1 with
        | none => Except.error Exception.UndefinedBehavior
        | some outputActionIndex =>
          match getActionChoices.automataEdgeSets locations edgeFilter ev automataAndEdges with
          | .error e => .error e
          | .ok none => .ok (result, ev, st)
          | .ok (some automataEdgeSets) =>
            match expandSynchronizingEdgeCombination g automataEdgeSets outputActionIndex state
                cb ev st with
            | .error e => .error e
            | .ok (choices, ev1, st1) => .ok (result ++ choices, ev1, st1))
        = .ok r →
      P r.2.2 := by
    intro automataAndEdges hm
    cases hout : outputAndEdges.1 with
    | none => simp only [hout] at hm; cases hm
    | some outputActionIndex =>
      simp only [hout] at hm
      cases hsets : getActionChoices.automataEdgeSets locations edgeFilter ev
          automataAndEdges with
      | error x => simp only [hsets] at hm; cases hm
      | ok sets =>
        cases sets with
        | none =>
          simp only [hsets, Except.ok.injEq] at hm
          rw [← hm]
          exact hP
        | some automataEdgeSets =>
          simp only [hsets] at hm
          cases hexp : expandSynchronizingEdgeCombination g automataEdgeSets outputActionIndex
              state cb ev st with
          | error x => simp only [hexp] at hm; cases hm
          | ok r1 =>
            have hk := expandSynchronizingEdgeCombination_keeps g n hg automataEdgeSets
              outputActionIndex state hs cb P hcb ev st r1 hP hexp
            obtain ⟨cs, ev2, st2⟩ := r1
            simp only [hexp, Except.ok.injEq] at hm
            rw [← hm]
            exact hk
  unfold getActionChoices.group at h
  rcases hg2 : outputAndEdges.2 with _ | ⟨a, _ | ⟨b, rest⟩⟩
  · simp only [hg2] at h
    exact hsync [] h
  · simp only [hg2] at h
    cases hloc : locations[a.1]? with
    | none => simp only [hloc] at h; cases h
    | some location =>
      simp only [hloc] at h
      cases hfind : getActionChoices.find a.2 location with
      | none =>
        simp only [hfind, Except.ok.injEq] at h
        rw [← h]
        exact hP
      | some edges =>
        simp only [hfind] at h
        exact getActionChoices.nonSynchronizing_keeps g n hg outputAndEdges.1 a.1 state hs cb P
          hcb edgeFilter edges result ev st r hP h
  · simp only [hg2] at h
    exact hsync (a :: b :: rest) h

theorem getActionChoices.groups_keeps {σ : Type} (g : JaniNextStateGenerator) (n : Nat)
    (hg : g.ChecksSlots n) (locations : List Nat) (state : CompressedState)
    (hs : g.variableInformation.SlotsInRange n state) (cb : StateToIdCallback σ)
    (P : σ → Prop) (hcb : cb.Keeps (g.variableInformation.SlotsInRange n) P)
    (edgeFilter : EdgeFilter) (groups : List OutputAndEdges) :
    ∀ (result : List Choice) (ev : ExpressionEvaluator) (st : σ)
      (r : List Choice × ExpressionEvaluator × σ), P st →
      getActionChoices.groups g locations state cb edgeFilter groups result ev st = .ok r →
      P r.2.2 := by
  induction groups with
  | nil =>
    intro result ev st r hP h
    simp only [getActionChoices.groups, Except.ok.injEq] at h
    rw [← h]
    exact hP
  | cons outputAndEdges rest ih =>
    intro result ev st r hP h
    unfold getActionChoices.groups at h
    cases hgr : getActionChoices.group g locations state cb edgeFilter outputAndEdges result
        ev st with
    | error x => simp only [hgr] at h; cases h
    | ok r1 =>
      have hk := getActionChoices.group_keeps g n hg locations state hs cb P hcb edgeFilter
        outputAndEdges result ev st r1 hP hgr
      obtain ⟨result1, ev1, st1⟩ := r1
      simp only [hgr] at h
      exact ih _ _ _ r hk h

theorem expand.allChoices_keeps {σ : Type} (g : JaniNextStateGenerator) (n : Nat)
    (hg : g.ChecksSlots n) (locations : List Nat) (state : CompressedState)
    (hs : g.variableInformation.SlotsInRange n state) (cb : StateToIdCallback σ)
    (P : σ → Prop) (hcb : cb.Keeps (g.variableInformation.SlotsInRange n) P)
    (ev : ExpressionEvaluator) (st : σ) (r : List Choice × ExpressionEvaluator × σ)
    (hP : P st) (h : expand.allChoices g locations state cb ev st = .ok r) :
    P r.2.2 := by
  unfold expand.allChoices at h
  by_cases hmax : g.options.applyMaximalProgressAssumption = true
  · rw [if_pos hmax] at h
    cases hfirst : getActionChoices g locations state cb EdgeFilter.WithoutRate ev st with
    | error x => simp only [hfirst] at h; cases h
    | ok r1 =>
      have hk := getActionChoices.groups_keeps g n hg locations state hs cb P hcb
        EdgeFilter.WithoutRate g.edges [] ev st r1 hP hfirst
      obtain ⟨allChoices, ev1, st1⟩ := r1
      simp only [hfirst] at h
      by_cases hempty : allChoices.isEmpty = true
      · rw [if_pos hempty] at h
        exact getActionChoices.groups_keeps g n hg locations state hs cb P hcb
          EdgeFilter.WithRate g.edges [] ev1 st1 r hk h
      · rw [if_neg hempty] at h
        simp only [Except.ok.injEq] at h
        rw [← h]
        exact hk
  · rw [if_neg hmax] at h
    exact getActionChoices.groups_keeps g n hg locations state hs cb P hcb EdgeFilter.All
      g.edges [] ev st r hP h

/-- The calls of the callback that `expand` makes are on states that satisfy the slot-range
invariant, when the expanded state does. -/
theorem expand_keeps {σ : Type} (g : JaniNextStateGenerator) (n : Nat)
    (hg : g.ChecksSlots n) (state : CompressedState)
    (hs : g.variableInformation.SlotsInRange n state) (cb : StateToIdCallback σ)
    (P : σ → Prop) (hcb : cb.Keeps (g.variableInformation.SlotsInRange n) P)
    (ev : ExpressionEvaluator) (st : σ) (r : StateBehavior × ExpressionEvaluator × σ)
    (hP : P st) (h : expand g state cb ev st = .ok r) :
    P r.2.2 := by
  unfold expand at h
  simp only at h
  cases hrew : expand.stateRewards g state ev with
  | error x => simp only [hrew] at h; cases h
  | ok rew =>
    obtain ⟨stateRewards, ev1⟩ := rew
    simp only [hrew] at h
    by_cases hterm : expand.isTerminal g ev1 = true
    · rw [if_pos hterm] at h
      simp only [Except.ok.injEq] at h
      rw [← h]
      exact hP
    · rw [if_neg hterm] at h
      cases hall : expand.allChoices g (getLocations g.variableInformation state) state cb ev1
          st with
      | error x => simp only [hall] at h; cases h
      | ok r1 =>
        have hk := expand.allChoices_keeps g n hg _ state hs cb P hcb ev1 st r1 hP hall
        obtain ⟨allChoices, ev2, st1⟩ := r1
        simp only [hall] at h
        by_cases hzero : allChoices.length = 0
        · rw [if_pos hzero] at h
          simp only [Except.ok.injEq] at h
          rw [← h]
          exact hk
        · rw [if_neg hzero] at h
          by_cases hdet : (g.isDeterministicModel && decide (allChoices.length > 1)) = true
          · rw [if_pos hdet] at h
            cases hfuse : expand.fuse g allChoices with
            | error x => simp only [hfuse] at h; cases h
            | ok globalChoice =>
              simp only [hfuse, Except.ok.injEq] at h
              rw [← h]
              by_cases hlabel : g.options.addOverlappingGuardLabel = true
              · simp only [hlabel, if_true]
                exact hcb state st1 hs hk
              · simp only [hlabel, if_false]
                exact hk
          · rw [if_neg hdet] at h
            simp only [Except.ok.injEq] at h
            rw [← h]
            exact hk

/-- C21: the slot-range invariant.  For a generator with `explorationChecks` on and
`addOutOfBoundsState` off whose layout is well formed for states of `n` bits and whose
array replacement lookups return variables of the layout:

(1) a checked write into a bounded integer slot that does not raise had a value inside the
bounds of the slot, and the slot then holds the raw value `value - lowerBound`;

(2) whenever `applyUpdate` completes without raising, the state has kept its length, every
bounded integer slot that it wrote (as a plain variable or as an array element) holds a raw
value `v` with `0 ≤ v ≤ upperBound - lowerBound`, and every slot that was in range before
still is;

(3) hence, when `expand` is called on a state that satisfies the invariant for all integer
slots, every state that it hands to the callback satisfies the invariant: a property of the
state of the callback that every call on such a state keeps is kept by `expand`, and with
the recording callback every state that `expand` adds to the log satisfies the invariant. -/
theorem expand_slot_range_invariant (g : JaniNextStateGenerator) (n : Nat)
    (hwf : g.variableInformation.WellFormed n)
    (hlisted : g.variableInformation.ReplacementsListed)
    (hchecks : g.options.explorationChecks = true)
    (hoff : g.options.addOutOfBoundsState = false) :
    (∀ (state : CompressedState) (info : IntegerVariableInformation) (value : Int)
        (state1 : CompressedState),
        state.length = n → info ∈ g.variableInformation.integerVariables →
        applyUpdate.writeInteger g state info
            (info.forceOutOfBoundsCheck || g.options.explorationChecks) value = .ok state1 →
        info.lowerBound ≤ value ∧ value ≤ info.upperBound
          ∧ (BitVector.getAsInt state1 info.bitOffset info.bitWidth : Int)
              = value - info.lowerBound)
      ∧ (∀ (state : CompressedState) (destination : EdgeDestination)
          (locationVariable : LocationVariableInformation) (assignmentLevel : Int)
          (ev : ExpressionEvaluator) (state1 : CompressedState),
          state.length = n →
          locationVariable ∈ g.variableInformation.locationVariables →
          applyUpdate g state destination locationVariable assignmentLevel ev = .ok state1 →
          state1.length = n
            ∧ (∀ j ∈ g.variableInformation.integerVariables,
                applyUpdate.Writes g destination assignmentLevel ev j → j.InRange state1)
            ∧ (∀ j ∈ g.variableInformation.integerVariables,
                j.InRange state → j.InRange state1))
      ∧ (∀ (σ : Type) (cb : StateToIdCallback σ) (P : σ → Prop) (state : CompressedState)
          (ev : ExpressionEvaluator) (st : σ) (r : StateBehavior × ExpressionEvaluator × σ),
          g.variableInformation.SlotsInRange n state →
          cb.Keeps (g.variableInformation.SlotsInRange n) P → P st →
          expand g state cb ev st = .ok r → P r.2.2)
      ∧ (∀ (state : CompressedState) (ev : ExpressionEvaluator) (log : List CompressedState)
          (r : StateBehavior × ExpressionEvaluator × List CompressedState),
          g.variableInformation.SlotsInRange n state →
          expand g state recordingCallback ev log = .ok r →
          ∀ s ∈ r.2.2, s ∈ log ∨ g.variableInformation.SlotsInRange n s) := by
  have hg : g.ChecksSlots n := ⟨hwf, hlisted, hchecks, hoff⟩
  refine ⟨?_, ?_, ?_, ?_⟩
  · intro state info value state1 hlen hinfo h
    have hcheck : (info.forceOutOfBoundsCheck || g.options.explorationChecks) = true := by
      simp [hchecks]
    rw [hcheck] at h
    obtain ⟨hlo, hhi, _⟩ := applyUpdate.writeInteger_checked g state info value state1 hoff h
    exact ⟨hlo, hhi,
      (applyUpdate.writeInteger_slots g n hwf hoff state hlen info hinfo value state1 h).2.1⟩
  · intro state destination locationVariable assignmentLevel ev state1 hlen hlv h
    obtain ⟨h1, h2, h3⟩ := applyUpdate_slots g n hwf hlisted hchecks hoff state hlen
      destination locationVariable hlv assignmentLevel ev state1 h
    exact ⟨h1, h3, h2⟩
  · intro σ cb P state ev st r hs hcb hP h
    exact expand_keeps g n hg state hs cb P hcb ev st r hP h
  · intro state ev log r hs h
    refine expand_keeps g n hg state hs recordingCallback
      (fun log1 => ∀ s ∈ log1, s ∈ log ∨ g.variableInformation.SlotsInRange n s) ?_ ev log r
      (fun s hmem => Or.inl hmem) h
    intro s st hq hst s1 hs1
    simp only [recordingCallback] at hs1
    rcases List.mem_append.1 hs1 with hm | hm
    · exact hst s1 hm
    · rw [List.mem_singleton.1 hm]
      exact Or.inr hq

/-- Witness for C21: one automaton whose edge assigns `x := 2`, where `x` has range
`[0, 2]` in a slot of two bits; `expand` at the zero state hands the state with raw value 2
to the callback. -/
theorem expand_slot_range_invariant_witness :
    Examples.assignTwoGenerator.variableInformation.WellFormed 3
      ∧ Examples.assignTwoGenerator.variableInformation.ReplacementsListed
      ∧ Examples.assignTwoGenerator.options.explorationChecks = true
      ∧ Examples.assignTwoGenerator.options.addOutOfBoundsState = false
      ∧ Examples.assignTwoGenerator.variableInformation.SlotsInRange 3 [false, false, false]
      ∧ (∃ r, expand Examples.assignTwoGenerator [false, false, false] recordingCallback
                Examples.zeroEvaluator [] = .ok r
            ∧ r.2.2 = [[true, false, false]])
      ∧ ∀ s ∈ [[true, false, false]],
          s ∈ ([] : List CompressedState)
            ∨ Examples.assignTwoGenerator.variableInformation.SlotsInRange 3 s := by
  have hwf : Examples.assignTwoGenerator.variableInformation.WellFormed 3 := by
    unfold VariableInformation.WellFormed; decide
  have hlisted : Examples.assignTwoGenerator.variableInformation.ReplacementsListed :=
    ⟨fun _ _ _ h => (by cases h), fun _ _ _ h => (by cases h)⟩
  have hs : Examples.assignTwoGenerator.variableInformation.SlotsInRange 3
      [false, false, false] := by
    refine ⟨rfl, fun i hi => ?_⟩
    rw [List.mem_singleton.1 hi]
    unfold IntegerVariableInformation.InRange
    decide
  obtain ⟨r, h, hlog⟩ : ∃ r, expand Examples.assignTwoGenerator [false, false, false]
      recordingCallback Examples.zeroEvaluator [] = .ok r
        ∧ r.2.2 = [[true, false, false]] := ⟨_, by with_unfolding_all rfl, rfl⟩
  have hall := (expand_slot_range_invariant Examples.assignTwoGenerator 3 hwf hlisted rfl
    rfl).2.2.2 [false, false, false] Examples.zeroEvaluator [] r hs h
  rw [hlog] at hall
  exact ⟨hwf, hlisted, rfl, rfl, hs, ⟨r, h, hlog⟩, hall⟩

/-! ## Maximal progress: preemption by the edges without a rate -/

end Storm
